import Mathlib

/-! # A region quadtree over integer rectangles

Shallow embedding of `lib/util.hpp`, `lib/bound.cpp`, `lib/quadtree.cpp` and
`shape_container.cpp`, followed by the properties proved about them.

Conventions of the embedding.

* `int32_t` values are integers; every `+` and `-` of the source is followed by
  `wrap32`, the reduction to the signed 32-bit range, and `/` is `Int.tdiv`
  (truncation toward zero).
* A `std::list<T>` is a list of cells, each cell carrying the address it lives
  at; a `std::list<T>::iterator` (`l_Iter`) is such an address.  Dereferencing
  or erasing an address that is not in the list is undefined behaviour in the
  source and is `none` here.
* A `QuadTreeNode*` is either `nullptr` or a node that owns its four children.
  A pointer into the tree below a node is the path of child indices leading to
  it.
* The `while` loops take a fuel argument, and running out of fuel is `none`.
  `query` and `remove` give their loops the number of nodes of the tree, and
  `insert` gives its loop the height of the tree plus `MAXDEPTH`; the theorems
  show that on every tree of the public interface the loops end within it.
-/

namespace qt

/-! ## `lib/util.hpp`, `util.cpp` -/

/-- Reduction of an integer to the signed 32-bit range (two's complement). -/
def wrap32 (z : Int) : Int := (z + 2147483648) % 4294967296 - 2147483648

/-- `Vec2D<int32_t>`. -/
structure Vec2D_i32 where
  x : Int
  y : Int
  deriving DecidableEq, Repr

/-- `Vec2D<T>::operator+`. -/
def Vec2D_i32.add (a other : Vec2D_i32) : Vec2D_i32 :=
  ⟨wrap32 (a.x + other.x), wrap32 (a.y + other.y)⟩

/-- `Vec2D<T>::operator-`. -/
def Vec2D_i32.sub (a other : Vec2D_i32) : Vec2D_i32 :=
  ⟨wrap32 (a.x - other.x), wrap32 (a.y - other.y)⟩

/-! ## `lib/bound.cpp` -/

/-- `qt::Bound`: the two corners of an axis-aligned rectangle. -/
structure Bound where
  topLeft : Vec2D_i32
  bottomRight : Vec2D_i32
  deriving DecidableEq, Repr

/-- `std::array<X, 4>`. -/
structure Array4 (α : Type) where
  e0 : α
  e1 : α
  e2 : α
  e3 : α
  deriving DecidableEq, Repr

/-- `operator[]` of `std::array<X, 4>`. -/
def Array4.get {α : Type} (a : Array4 α) : Fin 4 → α
  | 0 => a.e0
  | 1 => a.e1
  | 2 => a.e2
  | 3 => a.e3

/-- The index range of `for(int i = 0; i < 4; i++)`. -/
def idx4 : List (Fin 4) := [0, 1, 2, 3]

/-- `Bound::Bound()`: both corners at the origin. -/
def Bound.default : Bound := ⟨⟨0, 0⟩, ⟨0, 0⟩⟩

/-- `Bound::overlaps`. -/
def Bound.overlaps (self other : Bound) : Bool :=
  decide (self.topLeft.x ≤ other.bottomRight.x)
    && decide (self.bottomRight.x ≥ other.topLeft.x)
    && decide (self.topLeft.y ≤ other.bottomRight.y)
    && decide (self.bottomRight.y ≥ other.topLeft.y)

/-- `Bound::contains`. -/
def Bound.contains (self other : Bound) : Bool :=
  decide (self.topLeft.x ≤ other.topLeft.x)
    && decide (self.topLeft.y ≤ other.topLeft.y)
    && decide (self.bottomRight.x ≥ other.bottomRight.x)
    && decide (self.bottomRight.y ≥ other.bottomRight.y)

/-- `Bound::getQuadDivision`: the quadrants in the order NW, NE, SW, SE. -/
def Bound.getQuadDivision (self : Bound) : Array4 Bound :=
  let halfSize : Vec2D_i32 :=
    ⟨Int.tdiv (wrap32 (self.bottomRight.x - self.topLeft.x)) 2,
     Int.tdiv (wrap32 (self.bottomRight.y - self.topLeft.y)) 2⟩
  { e0 := ⟨self.topLeft, self.topLeft.add halfSize⟩
    e1 := ⟨⟨wrap32 (self.topLeft.x + halfSize.x), self.topLeft.y⟩,
           ⟨self.bottomRight.x, wrap32 (self.topLeft.y + halfSize.y)⟩⟩
    e2 := ⟨⟨self.topLeft.x, wrap32 (self.topLeft.y + halfSize.y)⟩,
           ⟨wrap32 (self.topLeft.x + halfSize.x), self.bottomRight.y⟩⟩
    e3 := ⟨self.topLeft.add halfSize, self.bottomRight⟩ }

/-- `Bound::quadDivisible`. -/
def Bound.quadDivisible (self : Bound) : Bool :=
  decide (self.topLeft.x < self.bottomRight.x) && decide (self.topLeft.y < self.bottomRight.y)

/-- The data-model condition `topLeft ≤ bottomRight`, componentwise. -/
def Bound.wellFormed (b : Bound) : Bool :=
  decide (b.topLeft.x ≤ b.bottomRight.x) && decide (b.topLeft.y ≤ b.bottomRight.y)

/-- The integer point `(x, y)` lies in the closed rectangle. -/
def Bound.hasPoint (b : Bound) (x y : Int) : Prop :=
  b.topLeft.x ≤ x ∧ x ≤ b.bottomRight.x ∧ b.topLeft.y ≤ y ∧ y ≤ b.bottomRight.y

/-- The integer is a value of `int32_t`. -/
def inInt32 (z : Int) : Bool := decide (-2147483648 ≤ z) && decide (z ≤ 2147483647)

/-- The corner coordinates are values of `int32_t`, and so are the two extents
`bottomRight - topLeft`: the subtraction in `getQuadDivision` does not
overflow. -/
def Bound.small (b : Bound) : Bool :=
  inInt32 b.topLeft.x && inInt32 b.topLeft.y && inInt32 b.bottomRight.x
    && inInt32 b.bottomRight.y && inInt32 (b.bottomRight.x - b.topLeft.x)
    && inInt32 (b.bottomRight.y - b.topLeft.y)

/-! ## `shape.hpp` -/

/-- `Shape::Color`. -/
structure Color where
  r : Nat
  g : Nat
  b : Nat
  deriving DecidableEq, Repr

/-- `Shape`: a `qt::Bound` with a colour. -/
structure Shape extends Bound where
  color : Color
  deriving DecidableEq, Repr

/-! ## `std::list` -/

/-- A `std::list<T>::iterator`: the address of a list cell. -/
abbrev Handle := Nat

/-- A `std::list<T>`: the cells in sequence order, each with its address, and
the address the allocator hands out next. -/
structure StdList (T : Type) where
  cells : List (Handle × T)
  next : Handle
  deriving DecidableEq, Repr

namespace StdList

variable {T : Type}

/-- The empty list. -/
def empty : StdList T := ⟨[], 0⟩

/-- The addresses of the cells, in sequence order. -/
def keys (l : StdList T) : List Handle := l.cells.map Prod.fst

/-- `push_back`: a new cell at a fresh address, at the end. -/
def push_back (l : StdList T) (v : T) : StdList T :=
  ⟨l.cells ++ [(l.next, v)], l.next + 1⟩

/-- `std::prev(l.end())`: the iterator to the last cell. -/
def prevEnd (l : StdList T) : Option Handle := l.cells.getLast?.map Prod.fst

/-- `*it`. -/
def deref (l : StdList T) (it : Handle) : Option T := l.cells.lookup it

/-- `erase(it)`: unlinks the cell at `it`. -/
def erase (l : StdList T) (it : Handle) : Option (StdList T) :=
  if it ∈ l.keys then some ⟨l.cells.filter (fun c => c.1 != it), l.next⟩ else none

end StdList

/-- The items that a sequence of iterators points to. -/
def StdList.itemsAt {T : Type} (l : StdList T) (its : List Handle) : List T :=
  its.filterMap l.deref

/-! ## `lib/quadtree.cpp`: the node -/

/-- `QuadTreeNode::MAXDEPTH`. -/
def MAXDEPTH : Int := 6

/-- A `QuadTreeNode*`: `nullptr`, or a node with its members `leafNode`,
`depth`, `bound`, `items`, `children[0..3]` and `childrenBounds`. -/
inductive QuadTreeNode where
  | nullptr : QuadTreeNode
  | node (leafNode : Bool) (depth : Int) (bound : Bound) (items : List Handle)
      (c0 c1 c2 c3 : QuadTreeNode) (childrenBounds : Array4 Bound) : QuadTreeNode
  deriving DecidableEq, Repr

/-- A pointer to a node below a given node: the child indices to follow. -/
abbrev Path := List (Fin 4)

namespace QuadTreeNode

/-- `n != nullptr`. -/
def isNode : QuadTreeNode → Bool
  | nullptr => false
  | node .. => true

/-- `n->children[i]`. -/
def child : QuadTreeNode → Fin 4 → QuadTreeNode
  | nullptr, _ => nullptr
  | node _ _ _ _ c0 _ _ _ _, 0 => c0
  | node _ _ _ _ _ c1 _ _ _, 1 => c1
  | node _ _ _ _ _ _ c2 _ _, 2 => c2
  | node _ _ _ _ _ _ _ c3 _, 3 => c3

/-- `n->children[i] = c`. -/
def setChild : QuadTreeNode → Fin 4 → QuadTreeNode → QuadTreeNode
  | nullptr, _, _ => nullptr
  | node l d b its _ c1 c2 c3 cb, 0, c => node l d b its c c1 c2 c3 cb
  | node l d b its c0 _ c2 c3 cb, 1, c => node l d b its c0 c c2 c3 cb
  | node l d b its c0 c1 _ c3 cb, 2, c => node l d b its c0 c1 c c3 cb
  | node l d b its c0 c1 c2 _ cb, 3, c => node l d b its c0 c1 c2 c cb

/-- `n->items = its`. -/
def setItems : QuadTreeNode → List Handle → QuadTreeNode
  | nullptr, _ => nullptr
  | node l d b _ c0 c1 c2 c3 cb, its => node l d b its c0 c1 c2 c3 cb

/-- `n->items`. -/
def items : QuadTreeNode → List Handle
  | nullptr => []
  | node _ _ _ its _ _ _ _ _ => its

/-- `n->bound`. -/
def bound : QuadTreeNode → Bound
  | nullptr => Bound.default
  | node _ _ b _ _ _ _ _ _ => b

/-- `n->depth`. -/
def depth : QuadTreeNode → Int
  | nullptr => 0
  | node _ d _ _ _ _ _ _ _ => d

/-- `n->leafNode`. -/
def leafNode : QuadTreeNode → Bool
  | nullptr => true
  | node l _ _ _ _ _ _ _ _ => l

/-- `n->childrenBounds`. -/
def childrenBounds : QuadTreeNode → Array4 Bound
  | nullptr => ⟨Bound.default, Bound.default, Bound.default, Bound.default⟩
  | node _ _ _ _ _ _ _ _ cb => cb

/-- The number of nodes reachable from a pointer. -/
def size : QuadTreeNode → Nat
  | nullptr => 0
  | node _ _ _ _ c0 c1 c2 c3 _ => 1 + c0.size + c1.size + c2.size + c3.size

/-- The number of nodes on the longest downward chain from a pointer. -/
def height : QuadTreeNode → Nat
  | nullptr => 0
  | node _ _ _ _ c0 c1 c2 c3 _ => 1 + max (max c0.height c1.height) (max c2.height c3.height)

/-- The node a path leads to (`nullptr` when the path leaves the tree). -/
def nodeAt : QuadTreeNode → Path → QuadTreeNode
  | n, [] => n
  | n, i :: p => (n.child i).nodeAt p

/-- Assignment of `items` in the node a path leads to. -/
def setItemsAt : QuadTreeNode → Path → List Handle → QuadTreeNode
  | n, [], its => n.setItems its
  | n, i :: p, its => n.setChild i ((n.child i).setItemsAt p its)

/-- `QuadTreeNode::QuadTreeNode(bound, depth)`. -/
def new (bound : Bound) (depth : Int) : QuadTreeNode :=
  let leafNode := !bound.quadDivisible || decide (wrap32 (depth + 1) = MAXDEPTH)
  node leafNode depth bound [] nullptr nullptr nullptr nullptr
    (if !leafNode then bound.getQuadDivision
     else ⟨Bound.default, Bound.default, Bound.default, Bound.default⟩)

/-- The `for` loop of `insert`: the first index `i`, among those
still to be tried, whose child bound contains the item and whose child exists
or can be created at this depth. -/
def findNext (n : QuadTreeNode) (item : Bound) : List (Fin 4) → Option (Fin 4)
  | [] => none
  | i :: rest =>
    if (n.childrenBounds.get i).contains item then
      if (n.child i).isNode then some i
      else if n.depth < MAXDEPTH - 1 then some i
      else findNext n item rest
    else findNext n item rest

/-- The `while(!inserted)` loop of `QuadTreeNode::insert`, started at
`currentNode`; `item` is the handle and `b` the bound of `*item`.  The result
is the subtree below `currentNode` after the insertion. -/
def insertLoop (item : Handle) (b : Bound) : Nat → QuadTreeNode → Option QuadTreeNode
  | _, nullptr => none
  | 0, node .. => none
  | fuel + 1, node l d bd its c0 c1 c2 c3 cb =>
    let cur := node l d bd its c0 c1 c2 c3 cb
    match (if !l then findNext cur b idx4 else none) with
    | some i =>
      let next :=
        if (cur.child i).isNode then cur.child i
        else QuadTreeNode.new (cb.get i) (wrap32 (d + 1))
      (insertLoop item b fuel next).map (cur.setChild i)
    | none => some (node l d bd (its ++ [item]) c0 c1 c2 c3 cb)

/-- `QuadTreeNode::insert`.  The handle is dereferenced in `master`, the
sequence it points into; the source dereferences it at each containment test,
always with the same result.  The loop gets the height of the tree plus
`MAXDEPTH` as fuel. -/
def insert (this : QuadTreeNode) (master : StdList Shape) (item : Handle) :
    Option QuadTreeNode :=
  match master.deref item with
  | none => none
  | some s => insertLoop item s.toBound (this.height + MAXDEPTH.toNat) this

/-- The children a search visits next: those that exist and whose child bound
overlaps the region, in index order. -/
def overlapChildren (R : Bound) (n : QuadTreeNode) : List (Fin 4) :=
  idx4.filter (fun i => (n.child i).isNode && R.overlaps (n.childrenBounds.get i))

/-- The children that exist, in index order. -/
def existingChildren (n : QuadTreeNode) : List (Fin 4) :=
  idx4.filter (fun i => (n.child i).isNode)

/-- The loop over `currentNode->items` in `query`: the handles whose item
satisfies the predicate are appended to `foundItems`. -/
def queryItems (master : StdList Shape) (R : Bound) (predicateFn : Bound → Bound → Bool) :
    List Handle → List Handle → Option (List Handle)
  | [], foundItems => some foundItems
  | item :: rest, foundItems =>
    match master.deref item with
    | none => none
    | some s =>
      queryItems master R predicateFn rest
        (if predicateFn R s.toBound then foundItems ++ [item] else foundItems)

/-- The first `while` loop of `query`, over `nodeSearchFIFO`; returns
`foundItems` and `allItemNodeFIFO`. -/
def querySearch (master : StdList Shape) (R : Bound) (predicateFn : Bound → Bound → Bool) :
    Nat → List QuadTreeNode → List QuadTreeNode → List Handle →
      Option (List Handle × List QuadTreeNode)
  | _, [], allItemNodeFIFO, foundItems => some (foundItems, allItemNodeFIFO)
  | 0, _ :: _, _, _ => none
  | fuel + 1, currentNode :: nodeSearchFIFO, allItemNodeFIFO, foundItems =>
    if !currentNode.isNode then none
    else if R.contains currentNode.bound then
      querySearch master R predicateFn fuel nodeSearchFIFO
        (allItemNodeFIFO ++ [currentNode]) foundItems
    else
      match queryItems master R predicateFn currentNode.items foundItems with
      | none => none
      | some foundItems =>
        querySearch master R predicateFn fuel
          (nodeSearchFIFO ++ (overlapChildren R currentNode).map currentNode.child)
          allItemNodeFIFO foundItems

/-- The second `while` loop of `query`, over `allItemNodeFIFO`: the items of
each node are put in front of `foundItems`. -/
def queryDrain : Nat → List QuadTreeNode → List Handle → Option (List Handle)
  | _, [], foundItems => some foundItems
  | 0, _ :: _, _ => none
  | fuel + 1, currentNode :: allItemNodeFIFO, foundItems =>
    if !currentNode.isNode then none
    else
      queryDrain fuel (allItemNodeFIFO ++ (existingChildren currentNode).map currentNode.child)
        (currentNode.items ++ foundItems)

/-- `QuadTreeNode::query`. -/
def query (this : QuadTreeNode) (master : StdList Shape) (R : Bound)
    (foundItems : List Handle) (predicateFn : Bound → Bound → Bool) : Option (List Handle) :=
  match querySearch master R predicateFn this.size [this] [] foundItems with
  | none => none
  | some (foundItems, allItemNodeFIFO) => queryDrain this.size allItemNodeFIFO foundItems

/-- The loop over `currentNode->items` in `remove`: a handle whose item
satisfies the predicate is erased from the master sequence and from the node's
list.  Returns the node's remaining handles and the master sequence. -/
def removeItems (R : Bound) (predicateFn : Bound → Bound → Bool) :
    List Handle → StdList Shape → Option (List Handle × StdList Shape)
  | [], itemContainer => some ([], itemContainer)
  | it :: rest, itemContainer =>
    match itemContainer.deref it with
    | none => none
    | some s =>
      if predicateFn R s.toBound then
        match itemContainer.erase it with
        | none => none
        | some itemContainer => removeItems R predicateFn rest itemContainer
      else
        (removeItems R predicateFn rest itemContainer).map (fun r => (it :: r.1, r.2))

/-- The loop `for(const auto &item : currentNode->items) itemContainer->erase(item)`. -/
def eraseAll : List Handle → StdList Shape → Option (StdList Shape)
  | [], itemContainer => some itemContainer
  | item :: rest, itemContainer =>
    match itemContainer.erase item with
    | none => none
    | some itemContainer => eraseAll rest itemContainer

/-- The state of `remove` between iterations: the tree below `this`, the master
sequence, and the two FIFOs of node pointers. -/
structure RemoveState where
  tree : QuadTreeNode
  itemContainer : StdList Shape
  nodeRemoveFIFO : List Path
  allItemNodeFIFO : List Path
  deriving DecidableEq, Repr

/-- The first `while` loop of `remove`, over `nodeRemoveFIFO`. -/
def removeSearch (R : Bound) (predicateFn : Bound → Bound → Bool) :
    Nat → RemoveState → Option RemoveState
  | _, ⟨tree, itemContainer, [], allItemNodeFIFO⟩ =>
    some ⟨tree, itemContainer, [], allItemNodeFIFO⟩
  | 0, ⟨_, _, _ :: _, _⟩ => none
  | fuel + 1, ⟨tree, itemContainer, p :: nodeRemoveFIFO, allItemNodeFIFO⟩ =>
    let currentNode := tree.nodeAt p
    if !currentNode.isNode then none
    else if R.contains currentNode.bound then
      removeSearch R predicateFn fuel
        ⟨tree, itemContainer, nodeRemoveFIFO, allItemNodeFIFO ++ [p]⟩
    else
      match removeItems R predicateFn currentNode.items itemContainer with
      | none => none
      | some (its, itemContainer) =>
        removeSearch R predicateFn fuel
          ⟨tree.setItemsAt p its, itemContainer,
           nodeRemoveFIFO ++ (overlapChildren R currentNode).map (fun i => p ++ [i]),
           allItemNodeFIFO⟩

/-- The second `while` loop of `remove`, over `allItemNodeFIFO`. -/
def removeDrain : Nat → RemoveState → Option RemoveState
  | _, ⟨tree, itemContainer, q, []⟩ => some ⟨tree, itemContainer, q, []⟩
  | 0, ⟨_, _, _, _ :: _⟩ => none
  | fuel + 1, ⟨tree, itemContainer, q, p :: allItemNodeFIFO⟩ =>
    let currentNode := tree.nodeAt p
    if !currentNode.isNode then none
    else
      match eraseAll currentNode.items itemContainer with
      | none => none
      | some itemContainer =>
        removeDrain fuel
          ⟨tree.setItemsAt p [], itemContainer, q,
           allItemNodeFIFO ++ (existingChildren currentNode).map (fun i => p ++ [i])⟩

/-- `QuadTreeNode::remove`: the tree below `this` and the master sequence
after the removal. -/
def remove (this : QuadTreeNode) (R : Bound) (itemContainer : StdList Shape)
    (predicateFn : Bound → Bound → Bool) : Option (QuadTreeNode × StdList Shape) :=
  match removeSearch R predicateFn this.size ⟨this, itemContainer, [[]], []⟩ with
  | none => none
  | some s =>
    match removeDrain this.size s with
    | none => none
    | some s => some (s.tree, s.itemContainer)

/-- The `while` loop of `getBounds`, over `nodeFIFO`. -/
def getBoundsLoop : Nat → List QuadTreeNode → List Bound → Option (List Bound)
  | _, [], bounds => some bounds
  | 0, _ :: _, _ => none
  | fuel + 1, currentNode :: nodeFIFO, bounds =>
    if !currentNode.isNode then none
    else
      getBoundsLoop fuel (nodeFIFO ++ (existingChildren currentNode).map currentNode.child)
        (bounds ++ [currentNode.bound])

/-- `QuadTreeNode::getBounds`. -/
def getBounds (this : QuadTreeNode) (bounds : List Bound) : Option (List Bound) :=
  getBoundsLoop this.size [this] bounds

end QuadTreeNode

/-! ## `lib/quadtree.cpp`: the tree -/

/-- `QuadTree<Shape>`: the master sequence `items` and `rootNode`. -/
structure QuadTree where
  items : StdList Shape
  rootNode : QuadTreeNode
  deriving DecidableEq, Repr

namespace QuadTree

/-- `QuadTree::overlapFn`. -/
def overlapFn (a b : Bound) : Bool := a.overlaps b

/-- `QuadTree::containFn`. -/
def containFn (a b : Bound) : Bool := a.contains b

/-- `QuadTree::QuadTree(bound)`. -/
def new (bound : Bound) : QuadTree := ⟨StdList.empty, QuadTreeNode.new bound 0⟩

/-- `QuadTree::insert`. -/
def insert (t : QuadTree) (itemWithBound : Shape) : Option QuadTree :=
  let items := t.items.push_back itemWithBound
  match items.prevEnd with
  | none => none
  | some it =>
    match t.rootNode.insert items it with
    | none => none
    | some rootNode => some ⟨items, rootNode⟩

/-- `QuadTree::queryOverlap`. -/
def queryOverlap (t : QuadTree) (bound : Bound) : Option (List Handle) :=
  t.rootNode.query t.items bound [] overlapFn

/-- `QuadTree::queryContain`. -/
def queryContain (t : QuadTree) (bound : Bound) : Option (List Handle) :=
  t.rootNode.query t.items bound [] containFn

/-- `QuadTree::removeOverlap`. -/
def removeOverlap (t : QuadTree) (bound : Bound) : Option QuadTree :=
  (t.rootNode.remove bound t.items overlapFn).map (fun r => ⟨r.2, r.1⟩)

/-- `QuadTree::removeContain`. -/
def removeContain (t : QuadTree) (bound : Bound) : Option QuadTree :=
  (t.rootNode.remove bound t.items containFn).map (fun r => ⟨r.2, r.1⟩)

/-- `QuadTree::getBounds`. -/
def getBounds (t : QuadTree) : Option (List Bound) :=
  t.rootNode.getBounds []

end QuadTree

/-! ## `shape_container.cpp`: the linear container -/

/-- `LinearContainer`: the `bound` member of `ShapeContainer` and
`itemContainer_list`. -/
structure LinearContainer where
  bound : Bound
  itemContainer_list : StdList Shape
  deriving DecidableEq, Repr

namespace LinearContainer

/-- `LinearContainer::LinearContainer(bound)`. -/
def new (bound : Bound) : LinearContainer := ⟨bound, StdList.empty⟩

/-- `LinearContainer::insert`.  In the body `bound` names the member (the
parameter is `itemWithBound`), so the test is `this->bound.contains(this->bound)`. -/
def insert (c : LinearContainer) (itemWithBound : Shape) : LinearContainer :=
  if c.bound.contains c.bound then
    { c with itemContainer_list := c.itemContainer_list.push_back itemWithBound }
  else c

/-- The loop of `queryOverlap` / `queryContain` over the cells from `begin()`. -/
def queryLoop (test : Bound → Bool) : List (Handle × Shape) → List Handle → List Handle
  | [], returnItems => returnItems
  | c :: rest, returnItems =>
    queryLoop test rest (if test c.2.toBound then returnItems ++ [c.1] else returnItems)

/-- `LinearContainer::queryOverlap`. -/
def queryOverlap (c : LinearContainer) (bound : Bound) : List Handle :=
  queryLoop bound.overlaps c.itemContainer_list.cells []

/-- `LinearContainer::queryContain`. -/
def queryContain (c : LinearContainer) (bound : Bound) : List Handle :=
  queryLoop bound.contains c.itemContainer_list.cells []

/-- The loop of `removeOverlap` / `removeContain`: the cells that stay. -/
def removeLoop (test : Bound → Bool) : List (Handle × Shape) → List (Handle × Shape)
  | [] => []
  | c :: rest => if test c.2.toBound then removeLoop test rest else c :: removeLoop test rest

/-- `LinearContainer::removeOverlap`. -/
def removeOverlap (c : LinearContainer) (bound : Bound) : LinearContainer :=
  { c with itemContainer_list :=
      ⟨removeLoop bound.overlaps c.itemContainer_list.cells, c.itemContainer_list.next⟩ }

/-- `LinearContainer::removeContain`. -/
def removeContain (c : LinearContainer) (bound : Bound) : LinearContainer :=
  { c with itemContainer_list :=
      ⟨removeLoop bound.contains c.itemContainer_list.cells, c.itemContainer_list.next⟩ }

end LinearContainer

/-! ## Functions used to state and prove the properties -/

/-- The bound of the item a handle points to (the default bound for a handle
that points nowhere). -/
def StdList.boundOf (m : StdList Shape) (h : Handle) : Bound :=
  match m.deref h with
  | some s => s.toBound
  | none => Bound.default

namespace QuadTreeNode

/-- All handles held by the nodes reachable from a pointer, the node's own
first, then those of the subtrees in index order. -/
def handles : QuadTreeNode → List Handle
  | nullptr => []
  | node _ _ _ its c0 c1 c2 c3 _ =>
    its ++ (c0.handles ++ (c1.handles ++ (c2.handles ++ c3.handles)))

/-- The handles a traversal for region `R` selects below a pointer: everything
below a node whose bound `R` contains; otherwise the node's handles that pass
`test`, and the selection in each child whose child bound overlaps `R`. -/
def selected (R : Bound) (test : Handle → Bool) : QuadTreeNode → List Handle
  | nullptr => []
  | node _ _ b its c0 c1 c2 c3 cb =>
    if R.contains b then
      its ++ (c0.handles ++ (c1.handles ++ (c2.handles ++ c3.handles)))
    else
      its.filter test ++
        ((if R.overlaps cb.e0 then c0.selected R test else []) ++
         ((if R.overlaps cb.e1 then c1.selected R test else []) ++
          ((if R.overlaps cb.e2 then c2.selected R test else []) ++
           (if R.overlaps cb.e3 then c3.selected R test else []))))

/-- The tree with every handle list emptied. -/
def clearRec : QuadTreeNode → QuadTreeNode
  | nullptr => nullptr
  | node l d b _ c0 c1 c2 c3 cb =>
    node l d b [] c0.clearRec c1.clearRec c2.clearRec c3.clearRec cb

/-- The tree after a removal traversal for region `R`, described by recursion
on the tree. -/
def removeRec (R : Bound) (test : Handle → Bool) : QuadTreeNode → QuadTreeNode
  | nullptr => nullptr
  | node l d b its c0 c1 c2 c3 cb =>
    if R.contains b then
      node l d b [] c0.clearRec c1.clearRec c2.clearRec c3.clearRec cb
    else
      node l d b (its.filter (fun h => !test h))
        (if R.overlaps cb.e0 then c0.removeRec R test else c0)
        (if R.overlaps cb.e1 then c1.removeRec R test else c1)
        (if R.overlaps cb.e2 then c2.removeRec R test else c2)
        (if R.overlaps cb.e3 then c3.removeRec R test else c3) cb

/-- The paths of a list that start with `i`, with that first step removed. -/
def sub (i : Fin 4) : List Path → List Path
  | [] => []
  | [] :: ps => sub i ps
  | (j :: p) :: ps => if j = i then p :: sub i ps else sub i ps

/-- The tree that `remove` ends with when the search FIFO holds the paths `q`
and the drain FIFO the paths `dr`. -/
def finish (R : Bound) (test : Handle → Bool) :
    QuadTreeNode → List Path → List Path → QuadTreeNode
  | nullptr, _, _ => nullptr
  | node l d b its c0 c1 c2 c3 cb, q, dr =>
    if [] ∈ q then removeRec R test (node l d b its c0 c1 c2 c3 cb)
    else if [] ∈ dr then clearRec (node l d b its c0 c1 c2 c3 cb)
    else node l d b its
      (finish R test c0 (sub 0 q) (sub 0 dr)) (finish R test c1 (sub 1 q) (sub 1 dr))
      (finish R test c2 (sub 2 q) (sub 2 dr)) (finish R test c3 (sub 3 q) (sub 3 dr)) cb

/-- The handles that `remove` still erases when the search FIFO holds the paths
`q` and the drain FIFO the paths `dr`. -/
def pending (R : Bound) (test : Handle → Bool) :
    QuadTreeNode → List Path → List Path → List Handle
  | nullptr, _, _ => []
  | node l d b its c0 c1 c2 c3 cb, q, dr =>
    if [] ∈ q then selected R test (node l d b its c0 c1 c2 c3 cb)
    else if [] ∈ dr then handles (node l d b its c0 c1 c2 c3 cb)
    else
      pending R test c0 (sub 0 q) (sub 0 dr) ++ (pending R test c1 (sub 1 q) (sub 1 dr) ++
        (pending R test c2 (sub 2 q) (sub 2 dr) ++ pending R test c3 (sub 3 q) (sub 3 dr)))

/-- The depth discipline below a pointer that is expected at depth `d`: each
node records `d`, lies in `[0, MAXDEPTH)`, and its children are one deeper. -/
def DepthInv : Int → QuadTreeNode → Prop
  | _, nullptr => True
  | d, node _ dn _ _ c0 c1 c2 c3 _ =>
    dn = d ∧ 0 ≤ d ∧ d < MAXDEPTH ∧
      DepthInv (d + 1) c0 ∧ DepthInv (d + 1) c1 ∧ DepthInv (d + 1) c2 ∧ DepthInv (d + 1) c3

/-- Containment below a pointer: every handle of a node points to an item whose
bound the node's bound contains. -/
def ContainInv (bnd : Handle → Bound) : QuadTreeNode → Prop
  | nullptr => True
  | node _ _ b its c0 c1 c2 c3 _ =>
    (∀ h ∈ its, b.contains (bnd h) = true) ∧
      ContainInv bnd c0 ∧ ContainInv bnd c1 ∧ ContainInv bnd c2 ∧ ContainInv bnd c3

/-- Containment along the descent: every handle held anywhere below a node
points to an item whose bound the node's bound contains, and an existing child
has the bound recorded for it in `childrenBounds`. -/
def PathInv (bnd : Handle → Bound) : QuadTreeNode → Prop
  | nullptr => True
  | node _ _ b its c0 c1 c2 c3 cb =>
    (∀ h ∈ its ++ (c0.handles ++ (c1.handles ++ (c2.handles ++ c3.handles))),
        b.contains (bnd h) = true) ∧
      (c0.isNode = true → c0.bound = cb.e0) ∧ (c1.isNode = true → c1.bound = cb.e1) ∧
      (c2.isNode = true → c2.bound = cb.e2) ∧ (c3.isNode = true → c3.bound = cb.e3) ∧
      PathInv bnd c0 ∧ PathInv bnd c1 ∧ PathInv bnd c2 ∧ PathInv bnd c3

end QuadTreeNode

/-- A master sequence in which every handle of `hs` is live and has the bound
`bnd` says. -/
def LiveIn (bnd : Handle → Bound) (m : StdList Shape) (hs : List Handle) : Prop :=
  ∀ h ∈ hs, ∃ s, m.deref h = some s ∧ s.toBound = bnd h

/-- No path of the list is an initial segment of another one, and none occurs
twice. -/
def Antichain (ps : List Path) : Prop :=
  ps.Pairwise (fun a b => ¬ a <+: b ∧ ¬ b <+: a)

/-- The tree and the master sequence agree: the handles held by the nodes are
pairwise distinct, they are the addresses of the master sequence, and each
points to an item with the bound `bnd` gives. -/
structure Sync (bnd : Handle → Bound) (t : QuadTreeNode) (m : StdList Shape) : Prop where
  nodup : t.handles.Nodup
  perm : t.handles.Perm m.keys
  live : LiveIn bnd m t.handles

/-- The master sequence `m` is `m0` with some cells unlinked. -/
structure Shrunk (m0 m : StdList Shape) : Prop where
  cells : m.cells = m0.cells.filter (fun c => decide (c.1 ∈ m.keys))
  next : m.next = m0.next

/-- What holds between the iterations of the loops of `remove`, started on the
master sequence `m0`. -/
structure RemoveInv (bnd : Handle → Bound) (m0 : StdList Shape) (s : QuadTreeNode.RemoveState) :
    Prop where
  anti : Antichain (s.nodeRemoveFIFO ++ s.allItemNodeFIFO)
  valid : ∀ p ∈ s.nodeRemoveFIFO ++ s.allItemNodeFIFO, (s.tree.nodeAt p).isNode = true
  sync : Sync bnd s.tree s.itemContainer
  shrunk : Shrunk m0 s.itemContainer

/-- The number of nodes below the nodes that the paths of a FIFO point to. -/
def pathSizes (t : QuadTreeNode) (ps : List Path) : Nat :=
  (ps.map (fun p => (t.nodeAt p).size)).sum

/-! ## Sequences of calls to the public interface -/

/-- A mutating call of the container interface. -/
inductive Op where
  | insert (itemWithBound : Shape) : Op
  | removeOverlap (bound : Bound) : Op
  | removeContain (bound : Bound) : Op
  deriving DecidableEq, Repr

/-- One call on the quadtree. -/
def QuadTree.step (t : QuadTree) : Op → Option QuadTree
  | .insert s => t.insert s
  | .removeOverlap R => t.removeOverlap R
  | .removeContain R => t.removeContain R

/-- A sequence of calls on a quadtree, in order. -/
def QuadTree.steps : QuadTree → List Op → Option QuadTree
  | t, [] => some t
  | t, op :: ops =>
    match t.step op with
    | none => none
    | some t => QuadTree.steps t ops

/-- The tree reached from a freshly constructed one by a sequence of calls. -/
def QuadTree.run (outer : Bound) (ops : List Op) : Option QuadTree :=
  (QuadTree.new outer).steps ops

/-- One call on the linear container. -/
def LinearContainer.step (c : LinearContainer) : Op → LinearContainer
  | .insert s => c.insert s
  | .removeOverlap R => c.removeOverlap R
  | .removeContain R => c.removeContain R

/-- The linear container reached from a freshly constructed one by a sequence
of calls. -/
def LinearContainer.run (outer : Bound) (ops : List Op) : LinearContainer :=
  ops.foldl LinearContainer.step (LinearContainer.new outer)

/-- What holds of every tree reached through the public interface: the root
exists, depths are in range, the handles in the nodes are distinct and are the
addresses of the master sequence, and the allocator is ahead of every address. -/
structure QuadTree.Inv (t : QuadTree) : Prop where
  root : t.rootNode.isNode = true
  depth : QuadTreeNode.DepthInv 0 t.rootNode
  sync : Sync t.items.boundOf t.rootNode t.items
  fresh : ∀ k ∈ t.items.keys, k < t.items.next

/-- What holds in addition when every inserted item is well-formed and lies in
the outer bound: containment along every descent, and only well-formed items. -/
structure QuadTree.InvIn (outer : Bound) (t : QuadTree) : Prop where
  bound : t.rootNode.bound = outer
  path : QuadTreeNode.PathInv t.items.boundOf t.rootNode
  wf : ∀ c ∈ t.items.cells, c.2.toBound.wellFormed = true

/-- The precondition of a call: an inserted item has a well-formed bound that
the outer bound contains. -/
def Op.ok (outer : Bound) : Op → Bool
  | .insert s => s.toBound.wellFormed && outer.contains s.toBound
  | .removeOverlap _ => true
  | .removeContain _ => true

/-- Containment below the root: an existing child of the node has the bound
recorded for it, and containment along the descent holds in each child. -/
def QuadTreeNode.BelowInv (bnd : Handle → Bound) : QuadTreeNode → Prop
  | .nullptr => True
  | .node _ _ _ _ c0 c1 c2 c3 cb =>
    (c0.isNode = true → c0.bound = cb.e0) ∧ (c1.isNode = true → c1.bound = cb.e1) ∧
      (c2.isNode = true → c2.bound = cb.e2) ∧ (c3.isNode = true → c3.bound = cb.e3) ∧
      QuadTreeNode.PathInv bnd c0 ∧ QuadTreeNode.PathInv bnd c1 ∧
      QuadTreeNode.PathInv bnd c2 ∧ QuadTreeNode.PathInv bnd c3

/-- The members of every node are those the constructor computes: the leaf
flag, the child bounds of a node that is not a leaf, no children below a leaf,
and each existing child at the bound recorded for it. -/
def QuadTreeNode.ShapeInv : QuadTreeNode → Prop
  | .nullptr => True
  | .node l d b _ c0 c1 c2 c3 cb =>
    l = (!b.quadDivisible || decide (wrap32 (d + 1) = MAXDEPTH)) ∧
      (l = false → cb = b.getQuadDivision) ∧
      (l = true → c0 = .nullptr ∧ c1 = .nullptr ∧ c2 = .nullptr ∧ c3 = .nullptr) ∧
      (c0.isNode = true → c0.bound = cb.e0) ∧ (c1.isNode = true → c1.bound = cb.e1) ∧
      (c2.isNode = true → c2.bound = cb.e2) ∧ (c3.isNode = true → c3.bound = cb.e3) ∧
      QuadTreeNode.ShapeInv c0 ∧ QuadTreeNode.ShapeInv c1 ∧
      QuadTreeNode.ShapeInv c2 ∧ QuadTreeNode.ShapeInv c3

/-- What holds, besides `QuadTree.Inv`, of every tree reached through the
public interface from the outer bound `outer`. -/
structure QuadTree.Inv2 (outer : Bound) (t : QuadTree) : Prop where
  bound : t.rootNode.bound = outer
  shape : t.rootNode.ShapeInv
  below : t.rootNode.BelowInv t.items.boundOf

/-- Maximal descent: every handle in the item list of a node that is not a
leaf points to an item that none of the node's four child bounds contains. -/
def QuadTreeNode.DescentInv (bnd : Handle → Bound) : QuadTreeNode → Prop
  | .nullptr => True
  | .node l _ _ its c0 c1 c2 c3 cb =>
    (l = false → ∀ h ∈ its, ∀ i, (cb.get i).contains (bnd h) = false) ∧
      QuadTreeNode.DescentInv bnd c0 ∧ QuadTreeNode.DescentInv bnd c1 ∧
      QuadTreeNode.DescentInv bnd c2 ∧ QuadTreeNode.DescentInv bnd c3

/-- The existing children of the nodes of a list, those of the first node
first, each group in index order. -/
def QuadTreeNode.kids (ns : List QuadTreeNode) : List QuadTreeNode :=
  ns.flatMap (fun m => (QuadTreeNode.existingChildren m).map m.child)

/-- Breadth-first order on nodes: the nodes of `ns`, then their children, and
so on for `h` levels. -/
def QuadTreeNode.bfsNodes : Nat → List QuadTreeNode → List QuadTreeNode
  | 0, _ => []
  | h + 1, ns => ns ++ QuadTreeNode.bfsNodes h (QuadTreeNode.kids ns)

/-- The paths to the existing children of the nodes at the paths `ps`, those of
the first path first, each group in index order (NW, NE, SW, SE). -/
def QuadTreeNode.nextPaths (r : QuadTreeNode) (ps : List Path) : List Path :=
  ps.flatMap (fun p => (QuadTreeNode.existingChildren (r.nodeAt p)).map (fun i => p ++ [i]))

/-- Breadth-first order on paths: the paths `ps`, then the paths to the children
of their nodes, and so on for `h` levels. -/
def QuadTreeNode.bfsFrom (r : QuadTreeNode) : Nat → List Path → List Path
  | 0, _ => []
  | h + 1, ps => ps ++ QuadTreeNode.bfsFrom r h (QuadTreeNode.nextPaths r ps)

/-- The paths to all nodes of a tree in breadth-first order: the root, then
the nodes one step below it, and so on; the children of one node in index
order. -/
def QuadTreeNode.bfsPaths (r : QuadTreeNode) : List Path :=
  QuadTreeNode.bfsFrom r r.height (if r.isNode then [[]] else [])

/-- The list `ps` holds, each once, the paths of length `k` that lead to a
node of the tree. -/
def QuadTreeNode.IsLevel (r : QuadTreeNode) (k : Nat) (ps : List Path) : Prop :=
  ps.Nodup ∧ ∀ p, p ∈ ps ↔ (p.length = k ∧ (r.nodeAt p).isNode = true)

/-- The tree `t2` keeps what is left of `t`: its master sequence is that of
`t` without some cells (the others in their order, with their values), every
handle left dereferences as before, the item list at every path is the former
one without some handles (the others in their order), and every handle left is
in the item list at the path where it was. -/
structure QuadTree.KeepsSurvivors (t t2 : QuadTree) : Prop where
  cells : t2.items.cells = t.items.cells.filter (fun c => decide (c.1 ∈ t2.items.keys))
  order : t2.items.cells.Sublist t.items.cells
  deref : ∀ h ∈ t2.items.keys, t2.items.deref h = t.items.deref h
  lists : ∀ p, ((t2.rootNode.nodeAt p).items).Sublist ((t.rootNode.nodeAt p).items)
  place : ∀ h ∈ t2.items.keys, ∀ p, h ∈ (t.rootNode.nodeAt p).items →
    h ∈ (t2.rootNode.nodeAt p).items

/-- The nodes the search loop of a traversal for region `R` pushes while it
takes the nodes `ns` from its FIFO: nothing for a node whose bound `R`
contains, the existing children whose child bound overlaps `R` otherwise. -/
def QuadTreeNode.searchKids (R : Bound) (ns : List QuadTreeNode) : List QuadTreeNode :=
  ns.flatMap (fun m =>
    if R.contains m.bound then [] else (QuadTreeNode.overlapChildren R m).map m.child)

/-- The nodes the search loop of a traversal for region `R` takes from its
FIFO, in order: the nodes `ns`, then the nodes pushed for them, and so on for
`h` levels. -/
def QuadTreeNode.searchOrder (R : Bound) : Nat → List QuadTreeNode → List QuadTreeNode
  | 0, _ => []
  | h + 1, ns => ns ++ QuadTreeNode.searchOrder R h (QuadTreeNode.searchKids R ns)

/-- The nodes a traversal for region `R` drains, in breadth-first order: the
nodes met by the search whose bound `R` contains, in the order the search met
them, then their children, and so on. -/
def QuadTreeNode.drainOrder (R : Bound) (root : QuadTreeNode) : List QuadTreeNode :=
  QuadTreeNode.bfsNodes root.height
    ((QuadTreeNode.searchOrder R root.height [root]).filter (fun n => R.contains n.bound))

/-- The sequence `query` returns for region `R` when started with an empty
`foundItems`: the item lists of the drained nodes, the list of the node drained
last first, then the handles that pass `test` from the item lists of the nodes
the search looked into, in the order of the search. -/
def QuadTreeNode.queryOrder (R : Bound) (test : Handle → Bool) (root : QuadTreeNode) :
    List Handle :=
  (QuadTreeNode.drainOrder R root).reverse.flatMap QuadTreeNode.items ++
    ((QuadTreeNode.searchOrder R root.height [root]).filter
      (fun n => !R.contains n.bound)).flatMap (fun n => n.items.filter test)

/-- The four bounds `q` partition the bound `b` along its halving lines: each
is contained in `b`, every integer point of `b` lies in one of them, and a point
that lies in two of them lies on a halving line. -/
def Partitions (b : Bound) (q : Array4 Bound) : Prop :=
  (∀ i, b.contains (q.get i) = true) ∧
    (∀ x y, b.hasPoint x y → ∃ i, (q.get i).hasPoint x y) ∧
    (∀ x y i j, i ≠ j → (q.get i).hasPoint x y → (q.get j).hasPoint x y →
      x = b.topLeft.x + Int.tdiv (b.bottomRight.x - b.topLeft.x) 2 ∨
        y = b.topLeft.y + Int.tdiv (b.bottomRight.y - b.topLeft.y) 2)

/-! ## Data of the literal scenarios -/

/-- A bound from its four coordinates. -/
def mkBound (x1 y1 x2 y2 : Int) : Bound := ⟨⟨x1, y1⟩, ⟨x2, y2⟩⟩

/-- A black shape from the four coordinates of its bound. -/
def mkShape (x1 y1 x2 y2 : Int) : Shape := ⟨mkBound x1 y1 x2 y2, ⟨0, 0, 0⟩⟩

/-- Scenario 1: the outer bound `((0,0),(100,100))`. -/
def outer100 : Bound := mkBound 0 0 100 100

/-- Scenario 1: the inserts of `A`, `B` and `C`, in this order. -/
def insertABC : List Op :=
  [.insert (mkShape 0 0 10 10), .insert (mkShape 90 90 100 100), .insert (mkShape 40 40 60 60)]

end qt

/-! # Properties -/

namespace qt

/-! ## The list model -/

theorem lookup_filter_key {T : Type} (g : Handle → Bool) (h : Handle) (hg : g h = true) :
    ∀ cells : List (Handle × T),
      (cells.filter (fun c => g c.1)).lookup h = cells.lookup h
  | [] => rfl
  | (k, v) :: cells => by
    by_cases hk : g k = true
    · rw [List.filter_cons_of_pos (by simpa using hk)]
      by_cases e : h = k
      · subst e; simp [List.lookup]
      · have e2 : (h == k) = false := by simpa using e
        simp only [List.lookup, e2]
        exact lookup_filter_key g h hg cells
    · have e : h ≠ k := fun e => hk (e ▸ hg)
      have e2 : (h == k) = false := by simpa using e
      rw [List.filter_cons_of_neg (by simpa using hk)]
      simp only [List.lookup, e2]
      exact lookup_filter_key g h hg cells

theorem lookup_isSome_of_mem_keys {T : Type} (h : Handle) :
    ∀ cells : List (Handle × T), h ∈ cells.map Prod.fst → ∃ v, cells.lookup h = some v
  | [], hm => by simp at hm
  | (k, v) :: cells, hm => by
    by_cases e : h = k
    · subst e; exact ⟨v, by simp [List.lookup]⟩
    · have e2 : (h == k) = false := by simpa using e
      have hm2 : h ∈ cells.map Prod.fst := by
        simp only [List.map_cons, List.mem_cons] at hm
        rcases hm with hm | hm
        · exact absurd hm e
        · exact hm
      obtain ⟨w, hw⟩ := lookup_isSome_of_mem_keys h cells hm2
      exact ⟨w, by simp only [List.lookup, e2]; exact hw⟩

theorem mem_of_lookup_eq_some {T : Type} (h : Handle) (v : T) :
    ∀ cells : List (Handle × T), cells.lookup h = some v → (h, v) ∈ cells
  | [], hl => by simp [List.lookup] at hl
  | (k, w) :: cells, hl => by
    by_cases e : h = k
    · subst e
      simp [List.lookup] at hl
      subst hl
      exact List.mem_cons_self _ _
    · have e2 : (h == k) = false := by simpa using e
      simp only [List.lookup, e2] at hl
      exact List.mem_cons_of_mem _ (mem_of_lookup_eq_some h v cells hl)

theorem lookup_of_mem_nodup {T : Type} (h : Handle) (v : T) :
    ∀ cells : List (Handle × T), (cells.map Prod.fst).Nodup → (h, v) ∈ cells →
      cells.lookup h = some v
  | [], _, hm => by simp at hm
  | (k, w) :: cells, hn, hm => by
    simp only [List.map_cons, List.nodup_cons] at hn
    by_cases e : h = k
    · subst e
      rcases List.mem_cons.1 hm with hm | hm
      · cases hm; simp [List.lookup]
      · exact absurd (List.mem_map_of_mem Prod.fst hm) hn.1
    · have e2 : (h == k) = false := by simpa using e
      rcases List.mem_cons.1 hm with hm | hm
      · cases hm; exact absurd rfl e
      · simp only [List.lookup, e2]
        exact lookup_of_mem_nodup h v cells hn.2 hm

theorem erase_of_mem {T : Type} (l : StdList T) (it : Handle) (hm : it ∈ l.keys) :
    l.erase it = some ⟨l.cells.filter (fun c => c.1 != it), l.next⟩ := by
  simp [StdList.erase, hm]

theorem keys_filter {T : Type} (g : Handle → Bool) (cells : List (Handle × T)) :
    (cells.filter (fun c => g c.1)).map Prod.fst = (cells.map Prod.fst).filter g := by
  induction cells with
  | nil => rfl
  | cons c cells ih =>
    by_cases hc : g c.1 = true
    · simp [List.filter_cons, hc, ih]
    · simp [List.filter_cons, hc, ih]

end qt

namespace qt

/-! ## The loops over one node's handle list -/

theorem liveIn_mono {bnd : Handle → Bound} {m : StdList Shape} {hs hs2 : List Handle}
    (h : LiveIn bnd m hs) (hsub : ∀ x ∈ hs2, x ∈ hs) : LiveIn bnd m hs2 :=
  fun x hx => h x (hsub x hx)

theorem liveIn_mem_keys {bnd : Handle → Bound} {m : StdList Shape} {hs : List Handle}
    (h : LiveIn bnd m hs) {x : Handle} (hx : x ∈ hs) : x ∈ m.keys := by
  obtain ⟨s, hs1, _⟩ := h x hx
  have := mem_of_lookup_eq_some x s m.cells hs1
  exact List.mem_map_of_mem Prod.fst this

/-- Erasing handles that are not in `hs` keeps the handles of `hs` live. -/
theorem liveIn_filter {bnd : Handle → Bound} {m : StdList Shape} {hs : List Handle}
    (g : Handle → Bool) (h : LiveIn bnd m hs) (hg : ∀ x ∈ hs, g x = true) :
    LiveIn bnd ⟨m.cells.filter (fun c => g c.1), m.next⟩ hs := by
  intro x hx
  obtain ⟨s, hs1, hs2⟩ := h x hx
  refine ⟨s, ?_, hs2⟩
  show (m.cells.filter (fun c => g c.1)).lookup x = some s
  rw [lookup_filter_key g x (hg x hx)]
  exact hs1

theorem queryItems_eq (bnd : Handle → Bound) (m : StdList Shape) (R : Bound)
    (P : Bound → Bound → Bool) :
    ∀ (its found : List Handle), LiveIn bnd m its →
      QuadTreeNode.queryItems m R P its found
        = some (found ++ its.filter (fun h => P R (bnd h)))
  | [], found, _ => by simp [QuadTreeNode.queryItems]
  | it :: rest, found, hl => by
    obtain ⟨s, hs1, hs2⟩ := hl it (List.mem_cons_self _ _)
    have hrest : LiveIn bnd m rest := liveIn_mono hl (fun x hx => List.mem_cons_of_mem _ hx)
    simp only [QuadTreeNode.queryItems, hs1, hs2]
    rw [queryItems_eq bnd m R P rest _ hrest]
    by_cases hp : P R (bnd it) = true
    · simp [hp, List.filter_cons]
    · simp [hp, List.filter_cons]

theorem eraseAll_eq :
    ∀ (hs : List Handle) (m : StdList Shape), hs.Nodup → (∀ x ∈ hs, x ∈ m.keys) →
      QuadTreeNode.eraseAll hs m
        = some ⟨m.cells.filter (fun c => decide (c.1 ∉ hs)), m.next⟩
  | [], m, _, _ => by simp [QuadTreeNode.eraseAll]
  | h :: rest, m, hn, hk => by
    have hn2 := List.nodup_cons.1 hn
    simp only [QuadTreeNode.eraseAll, erase_of_mem m h (hk h (List.mem_cons_self _ _))]
    rw [eraseAll_eq rest _ hn2.2]
    · simp only [List.filter_filter, Option.some.injEq, StdList.mk.injEq, and_true]
      apply List.filter_congr
      intro c _
      simp only [List.mem_cons, not_or, bne_iff_ne, ne_eq, Bool.and_eq_true, decide_eq_true_eq,
        Bool.decide_and]
      by_cases e : c.1 = h <;> simp [e]
    · intro x hx
      have hxk := hk x (List.mem_cons_of_mem _ hx)
      have hne : x ≠ h := fun e => hn2.1 (e ▸ hx)
      unfold StdList.keys at hxk ⊢
      show x ∈ (m.cells.filter (fun c => (fun k => k != h) c.1)).map Prod.fst
      rw [keys_filter (fun k => k != h)]
      exact List.mem_filter.2 ⟨hxk, by simpa using hne⟩

theorem removeItems_eq (bnd : Handle → Bound) (R : Bound) (P : Bound → Bound → Bool) :
    ∀ (its : List Handle) (m : StdList Shape), its.Nodup → LiveIn bnd m its →
      QuadTreeNode.removeItems R P its m
        = some (its.filter (fun h => !P R (bnd h)),
            ⟨m.cells.filter (fun c => decide (c.1 ∉ its.filter (fun h => P R (bnd h)))),
             m.next⟩)
  | [], m, _, _ => by simp [QuadTreeNode.removeItems]
  | it :: rest, m, hn, hl => by
    have hn2 := List.nodup_cons.1 hn
    obtain ⟨s, hs1, hs2⟩ := hl it (List.mem_cons_self _ _)
    have hrest : LiveIn bnd m rest := liveIn_mono hl (fun x hx => List.mem_cons_of_mem _ hx)
    simp only [QuadTreeNode.removeItems, hs1, hs2]
    by_cases hp : P R (bnd it) = true
    · simp only [hp, if_true, erase_of_mem m it (liveIn_mem_keys hl (List.mem_cons_self _ _))]
      have hl2 : LiveIn bnd ⟨m.cells.filter (fun c => (fun k => k != it) c.1), m.next⟩ rest :=
        liveIn_filter (fun k => k != it) hrest
          (fun x hx => by
            have hne : x ≠ it := fun e => hn2.1 (e ▸ hx)
            simpa using hne)
      rw [removeItems_eq bnd R P rest _ hn2.2 hl2]
      simp only [List.filter_filter, Option.some.injEq, Prod.mk.injEq, StdList.mk.injEq, and_true]
      refine ⟨by simp [List.filter_cons, hp], ?_⟩
      apply List.filter_congr
      intro c _
      simp only [List.filter_cons, hp, if_true, List.mem_cons, not_or]
      by_cases e : c.1 = it <;> simp [e]
    · have hp2 : P R (bnd it) = false := by simpa using hp
      simp only [hp2, Bool.false_eq_true, if_false]
      rw [removeItems_eq bnd R P rest m hn2.2 hrest]
      simp [List.filter_cons, hp2]

end qt

namespace qt

/-! ## Children of a node -/

theorem idx4_filter (g : Fin 4 → Bool) :
    idx4.filter g = (if g 0 then [0] else []) ++ ((if g 1 then [1] else []) ++
      ((if g 2 then [2] else []) ++ (if g 3 then [3] else []))) := by
  simp only [idx4, List.filter]
  cases g 0 <;> cases g 1 <;> cases g 2 <;> cases g 3 <;> rfl

theorem eq_nullptr_of_not_isNode {n : QuadTreeNode} (h : n.isNode = false) :
    n = QuadTreeNode.nullptr := by
  cases n with
  | nullptr => rfl
  | node => simp [QuadTreeNode.isNode] at h

theorem size_pos_of_isNode {n : QuadTreeNode} (h : n.isNode = true) : 1 ≤ n.size := by
  cases n with
  | nullptr => simp [QuadTreeNode.isNode] at h
  | node => simp only [QuadTreeNode.size]; omega

/-- The values of `f` over the children a search visits, when `f` is empty on
`nullptr`. -/
theorem flatMap_overlapChildren {β : Type} (f : QuadTreeNode → List β)
    (hf : f QuadTreeNode.nullptr = []) (R : Bound) (l : Bool) (d : Int) (b : Bound)
    (its : List Handle) (c0 c1 c2 c3 : QuadTreeNode) (cb : Array4 Bound) :
    ((QuadTreeNode.overlapChildren R (.node l d b its c0 c1 c2 c3 cb)).map
        (QuadTreeNode.node l d b its c0 c1 c2 c3 cb).child).flatMap f
      = (if R.overlaps cb.e0 then f c0 else []) ++ ((if R.overlaps cb.e1 then f c1 else []) ++
        ((if R.overlaps cb.e2 then f c2 else []) ++ (if R.overlaps cb.e3 then f c3 else []))) := by
  have key : ∀ (c : QuadTreeNode) (o : Bool) (i : Fin 4),
      (QuadTreeNode.node l d b its c0 c1 c2 c3 cb).child i = c →
      ((if (c.isNode && o) = true then [i] else []).map
        (QuadTreeNode.node l d b its c0 c1 c2 c3 cb).child).flatMap f
        = if o = true then f c else [] := by
    intro c o i hc
    cases hn : c.isNode <;> cases o <;> simp [hc]
    rw [eq_nullptr_of_not_isNode hn, hf]
  simp only [QuadTreeNode.overlapChildren, idx4_filter, List.map_append, List.flatMap_append,
    QuadTreeNode.child, QuadTreeNode.childrenBounds, Array4.get]
  rw [key c0 _ 0 rfl, key c1 _ 1 rfl, key c2 _ 2 rfl, key c3 _ 3 rfl]

/-- The values of `f` over the existing children, when `f` is empty on `nullptr`. -/
theorem flatMap_existingChildren {β : Type} (f : QuadTreeNode → List β)
    (hf : f QuadTreeNode.nullptr = []) (l : Bool) (d : Int) (b : Bound)
    (its : List Handle) (c0 c1 c2 c3 : QuadTreeNode) (cb : Array4 Bound) :
    ((QuadTreeNode.existingChildren (.node l d b its c0 c1 c2 c3 cb)).map
        (QuadTreeNode.node l d b its c0 c1 c2 c3 cb).child).flatMap f
      = f c0 ++ (f c1 ++ (f c2 ++ f c3)) := by
  have key : ∀ (c : QuadTreeNode) (i : Fin 4),
      (QuadTreeNode.node l d b its c0 c1 c2 c3 cb).child i = c →
      ((if c.isNode = true then [i] else []).map
        (QuadTreeNode.node l d b its c0 c1 c2 c3 cb).child).flatMap f = f c := by
    intro c i hc
    cases hn : c.isNode <;> simp [hc]
    rw [eq_nullptr_of_not_isNode hn, hf]
  simp only [QuadTreeNode.existingChildren, idx4_filter, List.map_append, List.flatMap_append,
    QuadTreeNode.child]
  rw [key c0 0 rfl, key c1 1 rfl, key c2 2 rfl, key c3 3 rfl]

theorem sum_replicate_flatMap (ns : List QuadTreeNode) :
    (ns.flatMap (fun c => List.replicate c.size ())).length = (ns.map QuadTreeNode.size).sum := by
  induction ns with
  | nil => rfl
  | cons n ns ih => simp [List.flatMap_cons, ih]

theorem size_overlapChildren (R : Bound) (l : Bool) (d : Int) (b : Bound)
    (its : List Handle) (c0 c1 c2 c3 : QuadTreeNode) (cb : Array4 Bound) :
    (((QuadTreeNode.overlapChildren R (.node l d b its c0 c1 c2 c3 cb)).map
        (QuadTreeNode.node l d b its c0 c1 c2 c3 cb).child).map QuadTreeNode.size).sum + 1
      ≤ (QuadTreeNode.node l d b its c0 c1 c2 c3 cb).size := by
  rw [← sum_replicate_flatMap, flatMap_overlapChildren _ (by rfl)]
  simp only [QuadTreeNode.size, List.length_append]
  split_ifs <;> simp <;> omega

theorem size_existingChildren (l : Bool) (d : Int) (b : Bound)
    (its : List Handle) (c0 c1 c2 c3 : QuadTreeNode) (cb : Array4 Bound) :
    (((QuadTreeNode.existingChildren (.node l d b its c0 c1 c2 c3 cb)).map
        (QuadTreeNode.node l d b its c0 c1 c2 c3 cb).child).map QuadTreeNode.size).sum + 1
      = (QuadTreeNode.node l d b its c0 c1 c2 c3 cb).size := by
  rw [← sum_replicate_flatMap, flatMap_existingChildren _ (by rfl)]
  simp only [QuadTreeNode.size, List.length_append, List.length_replicate]
  omega

theorem isNode_of_mem_overlapChildren {R : Bound} {n : QuadTreeNode} {i : Fin 4}
    (h : i ∈ QuadTreeNode.overlapChildren R n) : (n.child i).isNode = true := by
  simp only [QuadTreeNode.overlapChildren, List.mem_filter, Bool.and_eq_true] at h
  exact h.2.1

theorem isNode_of_mem_existingChildren {n : QuadTreeNode} {i : Fin 4}
    (h : i ∈ QuadTreeNode.existingChildren n) : (n.child i).isNode = true := by
  simp only [QuadTreeNode.existingChildren, List.mem_filter] at h
  exact h.2

theorem mem_handles_of_child (n : QuadTreeNode) (i : Fin 4) {x : Handle}
    (hx : x ∈ (n.child i).handles) : x ∈ n.handles := by
  cases n with
  | nullptr => simp [QuadTreeNode.child, QuadTreeNode.handles] at hx
  | node l d b its c0 c1 c2 c3 cb =>
    fin_cases i <;> simp [QuadTreeNode.child] at hx <;> simp [QuadTreeNode.handles, hx]

end qt

namespace qt

/-! ## The two loops of `query` -/

theorem querySearch_spec (bnd : Handle → Bound) (m : StdList Shape) (R : Bound)
    (P : Bound → Bound → Bool) :
    ∀ (fuel : Nat) (queue drain : List QuadTreeNode) (found : List Handle),
      (∀ n ∈ queue, n.isNode = true) → (∀ n ∈ drain, n.isNode = true) →
      (queue.map QuadTreeNode.size).sum ≤ fuel →
      LiveIn bnd m (queue.flatMap QuadTreeNode.handles) →
      ∃ f d, QuadTreeNode.querySearch m R P fuel queue drain found = some (f, d) ∧
        (∀ n ∈ d, n.isNode = true) ∧
        (d.map QuadTreeNode.size).sum
          ≤ (drain.map QuadTreeNode.size).sum + (queue.map QuadTreeNode.size).sum ∧
        (f ++ d.flatMap QuadTreeNode.handles).Perm
          (found ++ (drain.flatMap QuadTreeNode.handles ++
            queue.flatMap (QuadTreeNode.selected R (fun h => P R (bnd h))))) := by
  intro fuel
  induction fuel with
  | zero =>
    intro queue drain found hq hd hfuel _
    cases queue with
    | nil => exact ⟨found, drain, by simp [QuadTreeNode.querySearch], hd, by simp, by simp⟩
    | cons n rest =>
      have := size_pos_of_isNode (hq n (List.mem_cons_self _ _))
      simp only [List.map_cons, List.sum_cons] at hfuel
      omega
  | succ fuel ih =>
    intro queue drain found hq hd hfuel hlive
    cases queue with
    | nil => exact ⟨found, drain, by simp [QuadTreeNode.querySearch], hd, by simp, by simp⟩
    | cons n rest =>
      have hn := hq n (List.mem_cons_self _ _)
      have hrest : ∀ x ∈ rest, x.isNode = true := fun x hx => hq x (List.mem_cons_of_mem _ hx)
      cases n with
      | nullptr => simp [QuadTreeNode.isNode] at hn
      | node l dp b its c0 c1 c2 c3 cb =>
        simp only [List.map_cons, List.sum_cons] at hfuel
        simp only [List.flatMap_cons] at hlive
        have hpos := size_pos_of_isNode hn
        by_cases hc : R.contains b = true
        · obtain ⟨f, d, h1, h2, h3, h4⟩ := ih rest (drain ++ [.node l dp b its c0 c1 c2 c3 cb])
            found hrest
            (by
              intro x hx
              rcases List.mem_append.1 hx with hx | hx
              · exact hd x hx
              · rw [List.mem_singleton.1 hx]; rfl)
            (by omega)
            (liveIn_mono hlive (fun x hx => List.mem_append_right _ hx))
          refine ⟨f, d, ?_, h2, ?_, ?_⟩
          · simp only [QuadTreeNode.querySearch, QuadTreeNode.isNode, QuadTreeNode.bound, hc]
            simpa using h1
          · simp only [List.map_append, List.sum_append, List.map_cons, List.sum_cons,
              List.map_nil, List.sum_nil] at h3 ⊢
            omega
          · refine h4.trans ?_
            rw [List.perm_iff_count]
            intro a
            simp only [List.flatMap_append, List.flatMap_cons, List.flatMap_nil,
              QuadTreeNode.selected, hc, if_true, QuadTreeNode.handles, List.count_append,
              List.count_nil]
            omega
        · have hlits : LiveIn bnd m its :=
            liveIn_mono hlive (fun x hx => by
              simp only [QuadTreeNode.handles]
              exact List.mem_append_left _ (List.mem_append_left _ hx))
          have hsz := size_overlapChildren R l dp b its c0 c1 c2 c3 cb
          obtain ⟨f, d, h1, h2, h3, h4⟩ := ih
            (rest ++ (QuadTreeNode.overlapChildren R (.node l dp b its c0 c1 c2 c3 cb)).map
              (QuadTreeNode.node l dp b its c0 c1 c2 c3 cb).child)
            drain (found ++ its.filter (fun h => P R (bnd h)))
            (by
              intro x hx
              rcases List.mem_append.1 hx with hx | hx
              · exact hrest x hx
              · obtain ⟨i, hi, rfl⟩ := List.mem_map.1 hx
                exact isNode_of_mem_overlapChildren hi)
            hd
            (by
              simp only [List.map_append, List.sum_append]
              omega)
            (by
              intro x hx
              simp only [List.flatMap_append] at hx
              rcases List.mem_append.1 hx with hx | hx
              · exact hlive x (List.mem_append_right _ hx)
              · obtain ⟨c, hcm, hxc⟩ := List.mem_flatMap.1 hx
                obtain ⟨i, _, rfl⟩ := List.mem_map.1 hcm
                exact hlive x (List.mem_append_left _ (mem_handles_of_child _ i hxc)))
          refine ⟨f, d, ?_, h2, ?_, ?_⟩
          · simp only [QuadTreeNode.querySearch, QuadTreeNode.isNode, QuadTreeNode.bound, hc,
              QuadTreeNode.items, queryItems_eq bnd m R P its found hlits]
            simpa using h1
          · simp only [List.map_append, List.sum_append, List.map_cons, List.sum_cons] at h3 ⊢
            omega
          · refine h4.trans ?_
            rw [List.perm_iff_count]
            intro a
            simp only [List.flatMap_append, List.flatMap_cons,
              flatMap_overlapChildren _ (by rfl : QuadTreeNode.selected R
                (fun h => P R (bnd h)) QuadTreeNode.nullptr = []),
              QuadTreeNode.selected, hc, List.count_append]
            simp only [Bool.false_eq_true, if_false, List.count_append]
            omega

theorem queryDrain_spec :
    ∀ (fuel : Nat) (queue : List QuadTreeNode) (found : List Handle),
      (∀ n ∈ queue, n.isNode = true) → (queue.map QuadTreeNode.size).sum ≤ fuel →
      ∃ f, QuadTreeNode.queryDrain fuel queue found = some f ∧
        f.Perm (found ++ queue.flatMap QuadTreeNode.handles) := by
  intro fuel
  induction fuel with
  | zero =>
    intro queue found hq hfuel
    cases queue with
    | nil => exact ⟨found, by simp [QuadTreeNode.queryDrain], by simp⟩
    | cons n rest =>
      have := size_pos_of_isNode (hq n (List.mem_cons_self _ _))
      simp only [List.map_cons, List.sum_cons] at hfuel
      omega
  | succ fuel ih =>
    intro queue found hq hfuel
    cases queue with
    | nil => exact ⟨found, by simp [QuadTreeNode.queryDrain], by simp⟩
    | cons n rest =>
      have hn := hq n (List.mem_cons_self _ _)
      have hrest : ∀ x ∈ rest, x.isNode = true := fun x hx => hq x (List.mem_cons_of_mem _ hx)
      cases n with
      | nullptr => simp [QuadTreeNode.isNode] at hn
      | node l dp b its c0 c1 c2 c3 cb =>
        simp only [List.map_cons, List.sum_cons] at hfuel
        have hsz := size_existingChildren l dp b its c0 c1 c2 c3 cb
        obtain ⟨f, h1, h2⟩ := ih
          (rest ++ (QuadTreeNode.existingChildren (.node l dp b its c0 c1 c2 c3 cb)).map
            (QuadTreeNode.node l dp b its c0 c1 c2 c3 cb).child)
          (its ++ found)
          (by
            intro x hx
            rcases List.mem_append.1 hx with hx | hx
            · exact hrest x hx
            · obtain ⟨i, hi, rfl⟩ := List.mem_map.1 hx
              exact isNode_of_mem_existingChildren hi)
          (by
            simp only [List.map_append, List.sum_append]
            omega)
        refine ⟨f, ?_, ?_⟩
        · simp only [QuadTreeNode.queryDrain, QuadTreeNode.isNode, QuadTreeNode.items]
          simpa using h1
        · refine h2.trans ?_
          rw [List.perm_iff_count]
          intro a
          simp only [List.flatMap_append, List.flatMap_cons,
            flatMap_existingChildren _ (by rfl : QuadTreeNode.handles QuadTreeNode.nullptr = []),
            QuadTreeNode.handles, List.count_append]
          omega

/-- The result of `query` on a tree whose handles are live: a rearrangement of
`foundItems` followed by the selection described by recursion on the tree. -/
theorem query_spec (bnd : Handle → Bound) (m : StdList Shape) (R : Bound)
    (P : Bound → Bound → Bool) (this : QuadTreeNode) (found : List Handle)
    (hn : this.isNode = true) (hlive : LiveIn bnd m this.handles) :
    ∃ f, this.query m R found P = some f ∧
      f.Perm (found ++ this.selected R (fun h => P R (bnd h))) := by
  obtain ⟨f1, d, h1, h2, h3, h4⟩ := querySearch_spec bnd m R P this.size [this] [] found
    (by intro n hx; rw [List.mem_singleton.1 hx]; exact hn) (by simp) (by simp)
    (by simpa using hlive)
  obtain ⟨f, h5, h6⟩ := queryDrain_spec this.size d f1 h2 (by simpa using h3)
  refine ⟨f, ?_, ?_⟩
  · simp only [QuadTreeNode.query, h1, h5]
  · refine h6.trans (h4.trans ?_)
    simp

end qt

namespace qt

/-! ## Nodes addressed by a path -/

theorem nodeAt_nullptr (p : Path) : QuadTreeNode.nullptr.nodeAt p = QuadTreeNode.nullptr := by
  induction p with
  | nil => rfl
  | cons i p ih => simpa [QuadTreeNode.nodeAt, QuadTreeNode.child] using ih

theorem nodeAt_append (t : QuadTreeNode) (p q : Path) :
    t.nodeAt (p ++ q) = (t.nodeAt p).nodeAt q := by
  induction p generalizing t with
  | nil => rfl
  | cons i p ih => simpa [QuadTreeNode.nodeAt] using ih (t.child i)

theorem isNode_of_nodeAt_isNode {t : QuadTreeNode} {p : Path}
    (h : (t.nodeAt p).isNode = true) : t.isNode = true := by
  cases t with
  | nullptr => rw [nodeAt_nullptr] at h; exact h
  | node => rfl

theorem clearRec_setItems (t : QuadTreeNode) (its : List Handle) :
    (t.setItems its).clearRec = t.clearRec := by
  cases t <;> rfl

theorem clearRec_setChild (t : QuadTreeNode) (i : Fin 4) (c : QuadTreeNode)
    (h : c.clearRec = (t.child i).clearRec) : (t.setChild i c).clearRec = t.clearRec := by
  cases t with
  | nullptr => rfl
  | node l d b its c0 c1 c2 c3 cb =>
    fin_cases i <;> simp [QuadTreeNode.child] at h <;>
      simp [QuadTreeNode.setChild, QuadTreeNode.clearRec, h]

theorem clearRec_setItemsAt (t : QuadTreeNode) (p : Path) (its : List Handle) :
    (t.setItemsAt p its).clearRec = t.clearRec := by
  induction p generalizing t with
  | nil => exact clearRec_setItems t its
  | cons i p ih =>
    simp only [QuadTreeNode.setItemsAt]
    exact clearRec_setChild t i _ (ih (t.child i))

theorem clearRec_child (t : QuadTreeNode) (i : Fin 4) :
    (t.clearRec).child i = (t.child i).clearRec := by
  cases t with
  | nullptr => rfl
  | node l d b its c0 c1 c2 c3 cb => fin_cases i <;> rfl

theorem nodeAt_clearRec (t : QuadTreeNode) (p : Path) :
    (t.clearRec).nodeAt p = (t.nodeAt p).clearRec := by
  induction p generalizing t with
  | nil => rfl
  | cons i p ih =>
    simp only [QuadTreeNode.nodeAt, clearRec_child]
    exact ih (t.child i)

theorem size_clearRec (t : QuadTreeNode) : t.clearRec.size = t.size := by
  induction t with
  | nullptr => rfl
  | node l d b its c0 c1 c2 c3 cb h0 h1 h2 h3 =>
    simp [QuadTreeNode.clearRec, QuadTreeNode.size, h0, h1, h2, h3]

theorem isNode_clearRec (t : QuadTreeNode) : t.clearRec.isNode = t.isNode := by
  cases t <;> rfl

theorem bound_clearRec (t : QuadTreeNode) : t.clearRec.bound = t.bound := by
  cases t <;> rfl

theorem childrenBounds_clearRec (t : QuadTreeNode) :
    t.clearRec.childrenBounds = t.childrenBounds := by
  cases t <;> rfl

/-- Two trees that differ in handle lists only have nodes of the same size at
every path. -/
theorem size_nodeAt_congr {t t2 : QuadTreeNode} (h : t.clearRec = t2.clearRec) (p : Path) :
    (t.nodeAt p).size = (t2.nodeAt p).size := by
  rw [← size_clearRec (t.nodeAt p), ← size_clearRec (t2.nodeAt p), ← nodeAt_clearRec,
    ← nodeAt_clearRec, h]

theorem isNode_nodeAt_congr {t t2 : QuadTreeNode} (h : t.clearRec = t2.clearRec) (p : Path) :
    (t.nodeAt p).isNode = (t2.nodeAt p).isNode := by
  rw [← isNode_clearRec (t.nodeAt p), ← isNode_clearRec (t2.nodeAt p), ← nodeAt_clearRec,
    ← nodeAt_clearRec, h]

/-- Replacing the handle list of the node at `p` changes the handles of the
tree by exactly that list. -/
theorem count_handles_setItemsAt (a : Handle) (its2 : List Handle) :
    ∀ (p : Path) (t : QuadTreeNode), (t.nodeAt p).isNode = true →
      (t.setItemsAt p its2).handles.count a + (t.nodeAt p).items.count a
        = t.handles.count a + its2.count a
  | [], t, h => by
    cases t with
    | nullptr => simp [QuadTreeNode.nodeAt, QuadTreeNode.isNode] at h
    | node l d b its c0 c1 c2 c3 cb =>
      simp only [QuadTreeNode.setItemsAt, QuadTreeNode.setItems, QuadTreeNode.handles,
        QuadTreeNode.nodeAt, QuadTreeNode.items, List.count_append]
      omega
  | i :: p, t, h => by
    cases t with
    | nullptr =>
      rw [nodeAt_nullptr] at h
      simp [QuadTreeNode.isNode] at h
    | node l d b its c0 c1 c2 c3 cb =>
      have ih := count_handles_setItemsAt a its2 p
        ((QuadTreeNode.node l d b its c0 c1 c2 c3 cb).child i) h
      simp only [QuadTreeNode.nodeAt, QuadTreeNode.setItemsAt]
      revert ih
      generalize ((QuadTreeNode.node l d b its c0 c1 c2 c3 cb).child i).setItemsAt p its2 = c
      generalize (((QuadTreeNode.node l d b its c0 c1 c2 c3 cb).child i).nodeAt p).items = its3
      intro ih
      fin_cases i <;>
        simp only [QuadTreeNode.child, QuadTreeNode.setChild, QuadTreeNode.handles,
          List.count_append] at ih ⊢ <;> omega

theorem count_items_nodeAt_le (a : Handle) (p : Path) (t : QuadTreeNode)
    (h : (t.nodeAt p).isNode = true) :
    (t.nodeAt p).items.count a ≤ t.handles.count a := by
  have := count_handles_setItemsAt a [] p t h
  simp only [List.count_nil] at this
  omega

theorem mem_handles_of_mem_items_nodeAt {a : Handle} {p : Path} {t : QuadTreeNode}
    (h : (t.nodeAt p).isNode = true) (ha : a ∈ (t.nodeAt p).items) : a ∈ t.handles := by
  have h1 := count_items_nodeAt_le a p t h
  have h2 := List.count_pos_iff.2 ha
  exact List.count_pos_iff.1 (by omega)

theorem nodup_items_nodeAt {p : Path} {t : QuadTreeNode}
    (h : (t.nodeAt p).isNode = true) (hn : t.handles.Nodup) : (t.nodeAt p).items.Nodup := by
  rw [List.nodup_iff_count_le_one] at hn ⊢
  intro a
  exact (count_items_nodeAt_le a p t h).trans (hn a)

end qt

namespace qt

/-! ## Lists of paths -/

theorem sub_append (i : Fin 4) (a b : List Path) :
    QuadTreeNode.sub i (a ++ b) = QuadTreeNode.sub i a ++ QuadTreeNode.sub i b := by
  induction a with
  | nil => rfl
  | cons p a ih =>
    cases p with
    | nil => simpa [QuadTreeNode.sub] using ih
    | cons j p =>
      by_cases e : j = i
      · simp [QuadTreeNode.sub, e, ih]
      · simp [QuadTreeNode.sub, e, ih]

theorem mem_sub {i : Fin 4} {p : Path} {ps : List Path} :
    p ∈ QuadTreeNode.sub i ps ↔ (i :: p) ∈ ps := by
  induction ps with
  | nil => simp [QuadTreeNode.sub]
  | cons q ps ih =>
    cases q with
    | nil => simp [QuadTreeNode.sub, ih]
    | cons j q =>
      by_cases e : j = i
      · subst e
        simp [QuadTreeNode.sub, ih]
      · have e2 : ¬ i = j := fun h => e h.symm
        simp [QuadTreeNode.sub, e, e2, ih]

theorem sub_map_cons {α : Type} (i j : Fin 4) (f : α → Path) (l : List α) :
    QuadTreeNode.sub j (l.map (fun k => i :: f k)) = if i = j then l.map f else [] := by
  induction l with
  | nil => simp [QuadTreeNode.sub]
  | cons a l ih =>
    by_cases e : i = j
    · simp [QuadTreeNode.sub, e] at ih ⊢
      exact ih
    · simp [QuadTreeNode.sub, e] at ih ⊢
      exact ih

theorem sub_map_single (j : Fin 4) (g : Fin 4 → Bool) :
    QuadTreeNode.sub j ((idx4.filter g).map (fun i => [i]))
      = if g j = true then [[]] else [] := by
  rw [idx4_filter]
  fin_cases j <;> cases h0 : g 0 <;> cases h1 : g 1 <;> cases h2 : g 2 <;> cases h3 : g 3 <;>
    simp [QuadTreeNode.sub, h0, h1, h2, h3]

theorem antichain_cons {p : Path} {ps : List Path} :
    Antichain (p :: ps) ↔ (∀ b ∈ ps, ¬ p <+: b ∧ ¬ b <+: p) ∧ Antichain ps := by
  simp [Antichain, List.pairwise_cons]

theorem antichain_nil_head {ps : List Path} (h : Antichain ([] :: ps)) : ps = [] := by
  rw [antichain_cons] at h
  apply List.eq_nil_iff_forall_not_mem.2
  intro b hb
  exact (h.1 b hb).1 (List.nil_prefix)

theorem antichain_not_mem_nil {i : Fin 4} {p : Path} {ps : List Path}
    (h : Antichain ((i :: p) :: ps)) : [] ∉ ps := by
  rw [antichain_cons] at h
  intro hm
  exact (h.1 [] hm).2 (List.nil_prefix)

theorem antichain_sub (i : Fin 4) {ps : List Path} (h : Antichain ps) :
    Antichain (QuadTreeNode.sub i ps) := by
  induction ps with
  | nil => simp [QuadTreeNode.sub, Antichain]
  | cons q ps ih =>
    rw [antichain_cons] at h
    cases q with
    | nil => simpa [QuadTreeNode.sub] using ih h.2
    | cons j q =>
      by_cases e : j = i
      · subst e
        simp only [QuadTreeNode.sub, if_true]
        rw [antichain_cons]
        refine ⟨?_, ih h.2⟩
        intro b hb
        have := h.1 (j :: b) (mem_sub.1 hb)
        simpa [List.cons_prefix_cons] using this
      · simpa [QuadTreeNode.sub, e] using ih h.2

theorem antichain_perm {a b : List Path} (hp : a.Perm b) (h : Antichain a) : Antichain b := by
  unfold Antichain at h ⊢
  exact (hp.pairwise_iff (fun {x y} hxy => ⟨hxy.2, hxy.1⟩)).1 h

/-- Replacing a path of an antichain by distinct one-step extensions of it
gives an antichain. -/
theorem antichain_kids {p : Path} {ps : List Path} (h : Antichain (p :: ps))
    (l : List (Fin 4)) (hl : l.Nodup) :
    Antichain (l.map (fun i => p ++ [i]) ++ ps) := by
  rw [antichain_cons] at h
  unfold Antichain
  rw [List.pairwise_append]
  refine ⟨?_, h.2, ?_⟩
  · rw [List.pairwise_map]
    refine List.Pairwise.imp_of_mem ?_ hl
    intro a b _ _ hab
    constructor
    · intro hpre
      have := List.prefix_append_right_inj p |>.1 hpre
      simp at this
      exact hab this
    · intro hpre
      have := List.prefix_append_right_inj p |>.1 hpre
      simp at this
      exact hab this.symm
  · intro a ha b hb
    obtain ⟨i, _, rfl⟩ := List.mem_map.1 ha
    have hb2 := h.1 b hb
    constructor
    · intro hpre
      exact hb2.1 ((List.prefix_append p [i]).trans hpre)
    · intro hpre
      rcases List.prefix_concat_iff.1 hpre with e | hpre2
      · exact hb2.1 (e ▸ List.prefix_append p [i])
      · exact hb2.2 hpre2

theorem nodup_overlapChildren (R : Bound) (n : QuadTreeNode) :
    (QuadTreeNode.overlapChildren R n).Nodup :=
  List.Nodup.filter _ (by decide)

theorem nodup_existingChildren (n : QuadTreeNode) :
    (QuadTreeNode.existingChildren n).Nodup :=
  List.Nodup.filter _ (by decide)

end qt

namespace qt

/-! ## The result of `remove` from an intermediate state -/

theorem finish_nil_nil (R : Bound) (test : Handle → Bool) (t : QuadTreeNode) :
    QuadTreeNode.finish R test t [] [] = t := by
  induction t with
  | nullptr => rfl
  | node l d b its c0 c1 c2 c3 cb h0 h1 h2 h3 =>
    simp [QuadTreeNode.finish, QuadTreeNode.sub, h0, h1, h2, h3]

theorem finish_node (R : Bound) (test : Handle → Bool) (l : Bool) (d : Int) (b : Bound)
    (its : List Handle) (c0 c1 c2 c3 : QuadTreeNode) (cb : Array4 Bound) (q dr : List Path)
    (h1 : [] ∉ q) (h2 : [] ∉ dr) :
    QuadTreeNode.finish R test (.node l d b its c0 c1 c2 c3 cb) q dr
      = .node l d b its
          (QuadTreeNode.finish R test c0 (QuadTreeNode.sub 0 q) (QuadTreeNode.sub 0 dr))
          (QuadTreeNode.finish R test c1 (QuadTreeNode.sub 1 q) (QuadTreeNode.sub 1 dr))
          (QuadTreeNode.finish R test c2 (QuadTreeNode.sub 2 q) (QuadTreeNode.sub 2 dr))
          (QuadTreeNode.finish R test c3 (QuadTreeNode.sub 3 q) (QuadTreeNode.sub 3 dr)) cb := by
  simp [QuadTreeNode.finish, h1, h2]

theorem finish_search_root (R : Bound) (test : Handle → Bool) (t : QuadTreeNode) :
    QuadTreeNode.finish R test t [[]] [] = QuadTreeNode.removeRec R test t := by
  cases t with
  | nullptr => rfl
  | node => simp [QuadTreeNode.finish]

theorem finish_drain_root (R : Bound) (test : Handle → Bool) (t : QuadTreeNode) :
    QuadTreeNode.finish R test t [] [[]] = QuadTreeNode.clearRec t := by
  cases t with
  | nullptr => rfl
  | node => simp [QuadTreeNode.finish]

theorem finish_search_kid (R : Bound) (test : Handle → Bool) (c : QuadTreeNode) (o : Bool) :
    QuadTreeNode.finish R test c (if (c.isNode && o) = true then [[]] else []) []
      = if o = true then QuadTreeNode.removeRec R test c else c := by
  cases c with
  | nullptr => cases o <;> rfl
  | node =>
    cases o
    · simp [QuadTreeNode.isNode, finish_nil_nil]
    · simp [QuadTreeNode.isNode, finish_search_root]

theorem finish_drain_kid (R : Bound) (test : Handle → Bool) (c : QuadTreeNode) :
    QuadTreeNode.finish R test c [] (if c.isNode = true then [[]] else [])
      = QuadTreeNode.clearRec c := by
  cases c with
  | nullptr => rfl
  | node => simp [QuadTreeNode.isNode, finish_drain_root]

theorem nil_not_mem_kids (p : Path) (l : List (Fin 4)) :
    [] ∉ l.map (fun i => p ++ [i]) := by
  simp

theorem finish_search_step (R : Bound) (test : Handle → Bool) :
    ∀ (p : Path) (t : QuadTreeNode) (rest d : List Path),
      Antichain (p :: (rest ++ d)) → (t.nodeAt p).isNode = true →
      R.contains (t.nodeAt p).bound = false →
      QuadTreeNode.finish R test
          (t.setItemsAt p ((t.nodeAt p).items.filter (fun h => !test h)))
          (rest ++ (QuadTreeNode.overlapChildren R (t.nodeAt p)).map (fun i => p ++ [i])) d
        = QuadTreeNode.finish R test t (p :: rest) d
  | [], t, rest, d, ha, hn, hc => by
    have hnil := antichain_nil_head ha
    obtain ⟨hr, hd⟩ := List.append_eq_nil.1 hnil
    subst hr; subst hd
    cases t with
    | nullptr => simp [QuadTreeNode.nodeAt, QuadTreeNode.isNode] at hn
    | node l dp b its c0 c1 c2 c3 cb =>
      simp only [QuadTreeNode.nodeAt, QuadTreeNode.bound] at hc
      simp only [QuadTreeNode.nodeAt, QuadTreeNode.setItemsAt, QuadTreeNode.setItems,
        QuadTreeNode.items, List.nil_append]
      rw [finish_node R test _ _ _ _ _ _ _ _ _ _ _ (by simp) (by simp),
        finish_search_root]
      simp only [QuadTreeNode.overlapChildren, sub_map_single, QuadTreeNode.sub,
        QuadTreeNode.child, QuadTreeNode.childrenBounds, Array4.get, finish_search_kid,
        QuadTreeNode.removeRec, hc]
      simp
  | i :: p, t, rest, d, ha, hn, hc => by
    cases t with
    | nullptr =>
      rw [nodeAt_nullptr] at hn
      simp [QuadTreeNode.isNode] at hn
    | node l dp b its c0 c1 c2 c3 cb =>
      have hnot := antichain_not_mem_nil ha
      have h1 : [] ∉ rest := fun h => hnot (List.mem_append_left _ h)
      have h2 : [] ∉ d := fun h => hnot (List.mem_append_right _ h)
      have ha2 : Antichain (p :: (QuadTreeNode.sub i rest ++ QuadTreeNode.sub i d)) := by
        have := antichain_sub i ha
        simpa [QuadTreeNode.sub, sub_append] using this
      have ih := finish_search_step R test p
        ((QuadTreeNode.node l dp b its c0 c1 c2 c3 cb).child i)
        (QuadTreeNode.sub i rest) (QuadTreeNode.sub i d) ha2 hn hc
      simp only [QuadTreeNode.nodeAt, QuadTreeNode.setItemsAt, List.cons_append]
      revert ih
      generalize (((QuadTreeNode.node l dp b its c0 c1 c2 c3 cb).child i).nodeAt p).items.filter
        (fun h => !test h) = its2
      generalize QuadTreeNode.overlapChildren R
        (((QuadTreeNode.node l dp b its c0 c1 c2 c3 cb).child i).nodeAt p) = L
      intro ih
      have h3 : [] ∉ rest ++ L.map (fun k => i :: (p ++ [k])) := by simp [h1]
      have h4 : [] ∉ (i :: p) :: rest := by simp [h1]
      fin_cases i <;>
        simp only [QuadTreeNode.child, QuadTreeNode.setChild, Fin.zero_eta, Fin.mk_one,
          Fin.reduceFinMk] at ih h3 h4 ⊢ <;>
        rw [finish_node R test _ _ _ _ _ _ _ _ _ _ _ h3 h2,
          finish_node R test _ _ _ _ _ _ _ _ _ _ _ h4 h2] <;>
        simp only [sub_append, sub_map_cons, QuadTreeNode.sub] <;>
        simp [ih]

theorem finish_contain_step (R : Bound) (test : Handle → Bool) :
    ∀ (p : Path) (t : QuadTreeNode) (rest d : List Path),
      Antichain (p :: (rest ++ d)) → (t.nodeAt p).isNode = true →
      R.contains (t.nodeAt p).bound = true →
      QuadTreeNode.finish R test t rest (d ++ [p]) = QuadTreeNode.finish R test t (p :: rest) d
  | [], t, rest, d, ha, hn, hc => by
    have hnil := antichain_nil_head ha
    obtain ⟨hr, hd⟩ := List.append_eq_nil.1 hnil
    subst hr; subst hd
    cases t with
    | nullptr => simp [QuadTreeNode.nodeAt, QuadTreeNode.isNode] at hn
    | node l dp b its c0 c1 c2 c3 cb =>
      simp only [QuadTreeNode.nodeAt, QuadTreeNode.bound] at hc
      simp [QuadTreeNode.finish, QuadTreeNode.removeRec, QuadTreeNode.clearRec, hc]
  | i :: p, t, rest, d, ha, hn, hc => by
    cases t with
    | nullptr =>
      rw [nodeAt_nullptr] at hn
      simp [QuadTreeNode.isNode] at hn
    | node l dp b its c0 c1 c2 c3 cb =>
      have hnot := antichain_not_mem_nil ha
      have h1 : [] ∉ rest := fun h => hnot (List.mem_append_left _ h)
      have h2 : [] ∉ d := fun h => hnot (List.mem_append_right _ h)
      have ha2 : Antichain (p :: (QuadTreeNode.sub i rest ++ QuadTreeNode.sub i d)) := by
        have := antichain_sub i ha
        simpa [QuadTreeNode.sub, sub_append] using this
      have ih := finish_contain_step R test p
        ((QuadTreeNode.node l dp b its c0 c1 c2 c3 cb).child i)
        (QuadTreeNode.sub i rest) (QuadTreeNode.sub i d) ha2 hn hc
      have h3 : [] ∉ d ++ [i :: p] := by simp [h2]
      have h4 : [] ∉ (i :: p) :: rest := by simp [h1]
      rw [finish_node R test _ _ _ _ _ _ _ _ _ _ _ h1 h3,
        finish_node R test _ _ _ _ _ _ _ _ _ _ _ h4 h2]
      fin_cases i <;>
        simp only [QuadTreeNode.child, Fin.zero_eta, Fin.mk_one, Fin.reduceFinMk] at ih ⊢ <;>
        simp only [sub_append, QuadTreeNode.sub] <;>
        simp [ih]

theorem finish_drain_step (R : Bound) (test : Handle → Bool) :
    ∀ (p : Path) (t : QuadTreeNode) (rest : List Path),
      Antichain (p :: rest) → (t.nodeAt p).isNode = true →
      QuadTreeNode.finish R test (t.setItemsAt p []) []
          (rest ++ (QuadTreeNode.existingChildren (t.nodeAt p)).map (fun i => p ++ [i]))
        = QuadTreeNode.finish R test t [] (p :: rest)
  | [], t, rest, ha, hn => by
    have hr := antichain_nil_head ha
    subst hr
    cases t with
    | nullptr => simp [QuadTreeNode.nodeAt, QuadTreeNode.isNode] at hn
    | node l dp b its c0 c1 c2 c3 cb =>
      simp only [QuadTreeNode.nodeAt, QuadTreeNode.setItemsAt, QuadTreeNode.setItems,
        List.nil_append]
      rw [finish_node R test _ _ _ _ _ _ _ _ _ _ _ (by simp) (by simp),
        finish_drain_root]
      simp only [QuadTreeNode.existingChildren, sub_map_single, QuadTreeNode.sub,
        QuadTreeNode.child, finish_drain_kid, QuadTreeNode.clearRec]
  | i :: p, t, rest, ha, hn => by
    cases t with
    | nullptr =>
      rw [nodeAt_nullptr] at hn
      simp [QuadTreeNode.isNode] at hn
    | node l dp b its c0 c1 c2 c3 cb =>
      have h1 := antichain_not_mem_nil ha
      have ha2 : Antichain (p :: QuadTreeNode.sub i rest) := by
        have := antichain_sub i ha
        simpa [QuadTreeNode.sub] using this
      have ih := finish_drain_step R test p
        ((QuadTreeNode.node l dp b its c0 c1 c2 c3 cb).child i)
        (QuadTreeNode.sub i rest) ha2 hn
      simp only [QuadTreeNode.nodeAt, QuadTreeNode.setItemsAt, List.cons_append]
      revert ih
      generalize QuadTreeNode.existingChildren
        (((QuadTreeNode.node l dp b its c0 c1 c2 c3 cb).child i).nodeAt p) = L
      intro ih
      have h3 : [] ∉ rest ++ L.map (fun k => i :: (p ++ [k])) := by simp [h1]
      have h4 : [] ∉ (i :: p) :: rest := by simp [h1]
      fin_cases i <;>
        simp only [QuadTreeNode.child, QuadTreeNode.setChild, Fin.zero_eta, Fin.mk_one,
          Fin.reduceFinMk] at ih h3 h4 ⊢ <;>
        rw [finish_node R test _ _ _ _ _ _ _ _ _ _ _ (by simp) h3,
          finish_node R test _ _ _ _ _ _ _ _ _ _ _ (by simp) h4] <;>
        simp only [sub_append, sub_map_cons, QuadTreeNode.sub] <;>
        simp [ih]

end qt

namespace qt

/-! ## Erasing handles from a node and from the master sequence -/

theorem count_filter_not_add (test : Handle → Bool) (a : Handle) (its : List Handle) :
    (its.filter (fun h => !test h)).count a + (its.filter test).count a = its.count a := by
  induction its with
  | nil => rfl
  | cons x its ih =>
    cases hx : test x <;> simp [List.filter_cons, hx, List.count_cons] <;> omega

/-- Erasing from the node at `p` and from the master sequence the handles of
the node that pass `test` keeps tree and master sequence in agreement. -/
theorem sync_erase_step (bnd : Handle → Bound) (m0 : StdList Shape) (test : Handle → Bool)
    (t : QuadTreeNode) (m : StdList Shape) (p : Path)
    (hs : Sync bnd t m) (hsh : Shrunk m0 m) (hn : (t.nodeAt p).isNode = true) :
    Sync bnd (t.setItemsAt p ((t.nodeAt p).items.filter (fun h => !test h)))
        ⟨m.cells.filter (fun c => decide (c.1 ∉ (t.nodeAt p).items.filter test)), m.next⟩ ∧
      Shrunk m0
        ⟨m.cells.filter (fun c => decide (c.1 ∉ (t.nodeAt p).items.filter test)), m.next⟩ := by
  obtain ⟨hnd, hperm, hlive⟩ := hs
  have hcnt := fun a => count_handles_setItemsAt a
    ((t.nodeAt p).items.filter (fun h => !test h)) p t hn
  have hsplit := fun a => count_filter_not_add test a (t.nodeAt p).items
  have hle := fun a => count_items_nodeAt_le a p t hn
  have hnd1 := List.nodup_iff_count_le_one.1 hnd
  -- the handles of the new tree are those of the old one without the erased ones
  have hcount : ∀ a, (t.setItemsAt p ((t.nodeAt p).items.filter (fun h => !test h))).handles.count a
      + ((t.nodeAt p).items.filter test).count a = t.handles.count a := by
    intro a
    have := hcnt a; have := hsplit a
    omega
  have hnotE : ∀ x ∈ (t.setItemsAt p ((t.nodeAt p).items.filter (fun h => !test h))).handles,
      x ∉ (t.nodeAt p).items.filter test := by
    intro x hx hE
    have h1 := List.count_pos_iff.2 hx
    have h2 := List.count_pos_iff.2 hE
    have := hcount x; have := hnd1 x
    omega
  have hkeys : (StdList.keys (T := Shape)
      ⟨m.cells.filter (fun c => decide (c.1 ∉ (t.nodeAt p).items.filter test)), m.next⟩)
      = m.keys.filter (fun k => decide (k ∉ (t.nodeAt p).items.filter test)) := by
    unfold StdList.keys
    exact keys_filter (fun k => decide (k ∉ (t.nodeAt p).items.filter test)) m.cells
  refine ⟨⟨?_, ?_, ?_⟩, ⟨?_, hsh.next⟩⟩
  · rw [List.nodup_iff_count_le_one]
    intro a
    have := hcount a; have := hnd1 a
    omega
  · rw [hkeys, List.perm_iff_count]
    intro a
    have h1 := hcount a
    have h2 := hperm.count_eq a
    by_cases hE : a ∈ (t.nodeAt p).items.filter test
    · have h3 := List.count_pos_iff.2 hE
      have h4 := hnd1 a
      rw [List.count_eq_zero_of_not_mem (a := a)
        (l := m.keys.filter (fun k => decide (k ∉ (t.nodeAt p).items.filter test)))
        (fun h => (of_decide_eq_true (List.mem_filter.1 h).2) hE)]
      omega
    · rw [List.count_filter (p := fun k => decide (k ∉ (t.nodeAt p).items.filter test))
        (decide_eq_true hE)]
      have := List.count_eq_zero_of_not_mem hE
      omega
  · refine liveIn_filter (fun k => decide (k ∉ (t.nodeAt p).items.filter test))
      (liveIn_mono hlive ?_) ?_
    · intro x hx
      have h1 := List.count_pos_iff.2 hx
      have := hcount x
      exact List.count_pos_iff.1 (by omega)
    · intro x hx
      exact decide_eq_true (hnotE x hx)
  · show m.cells.filter _ = m0.cells.filter _
    rw [hkeys]
    conv_lhs => rw [hsh.cells]
    rw [List.filter_filter]
    apply List.filter_congr
    intro c _
    simp only [List.mem_filter, decide_eq_true_eq, Bool.decide_and, Bool.and_comm]

end qt

namespace qt

/-! ## The two loops of `remove` -/

theorem pathSizes_congr {t t2 : QuadTreeNode} (h : t.clearRec = t2.clearRec) (ps : List Path) :
    pathSizes t ps = pathSizes t2 ps := by
  unfold pathSizes
  congr 1
  apply List.map_congr_left
  intro p _
  exact size_nodeAt_congr h p

theorem pathSizes_append (t : QuadTreeNode) (a b : List Path) :
    pathSizes t (a ++ b) = pathSizes t a + pathSizes t b := by
  simp [pathSizes]

theorem pathSizes_cons (t : QuadTreeNode) (p : Path) (ps : List Path) :
    pathSizes t (p :: ps) = (t.nodeAt p).size + pathSizes t ps := by
  simp [pathSizes]

theorem pathSizes_overlapChildren (R : Bound) (t : QuadTreeNode) (p : Path)
    (hn : (t.nodeAt p).isNode = true) :
    pathSizes t ((QuadTreeNode.overlapChildren R (t.nodeAt p)).map (fun i => p ++ [i])) + 1
      ≤ (t.nodeAt p).size := by
  have e : ∀ i : Fin 4, (t.nodeAt (p ++ [i])).size = ((t.nodeAt p).child i).size := by
    intro i
    rw [nodeAt_append]
    rfl
  unfold pathSizes
  rw [List.map_map]
  have e2 : ((fun p' => (t.nodeAt p').size) ∘ fun i => p ++ [i])
      = (QuadTreeNode.size ∘ (t.nodeAt p).child) := by
    funext i
    exact e i
  rw [e2, ← List.map_map]
  revert hn
  generalize t.nodeAt p = n
  intro hn
  cases n with
  | nullptr => simp [QuadTreeNode.isNode] at hn
  | node l d b its c0 c1 c2 c3 cb => exact size_overlapChildren R l d b its c0 c1 c2 c3 cb

theorem pathSizes_existingChildren (t : QuadTreeNode) (p : Path)
    (hn : (t.nodeAt p).isNode = true) :
    pathSizes t ((QuadTreeNode.existingChildren (t.nodeAt p)).map (fun i => p ++ [i])) + 1
      = (t.nodeAt p).size := by
  have e : ∀ i : Fin 4, (t.nodeAt (p ++ [i])).size = ((t.nodeAt p).child i).size := by
    intro i
    rw [nodeAt_append]
    rfl
  unfold pathSizes
  rw [List.map_map]
  have e2 : ((fun p' => (t.nodeAt p').size) ∘ fun i => p ++ [i])
      = (QuadTreeNode.size ∘ (t.nodeAt p).child) := by
    funext i
    exact e i
  rw [e2, ← List.map_map]
  revert hn
  generalize t.nodeAt p = n
  intro hn
  cases n with
  | nullptr => simp [QuadTreeNode.isNode] at hn
  | node l d b its c0 c1 c2 c3 cb => exact size_existingChildren l d b its c0 c1 c2 c3 cb

theorem shrunk_refl (m : StdList Shape) : Shrunk m m := by
  refine ⟨?_, rfl⟩
  symm
  rw [List.filter_eq_self]
  intro c hc
  exact decide_eq_true (List.mem_map_of_mem Prod.fst hc)

theorem removeSearch_spec (bnd : Handle → Bound) (m0 : StdList Shape) (R : Bound)
    (P : Bound → Bound → Bool) :
    ∀ (fuel : Nat) (s : QuadTreeNode.RemoveState), RemoveInv bnd m0 s →
      pathSizes s.tree s.nodeRemoveFIFO ≤ fuel →
      ∃ s2, QuadTreeNode.removeSearch R P fuel s = some s2 ∧ s2.nodeRemoveFIFO = [] ∧
        RemoveInv bnd m0 s2 ∧
        QuadTreeNode.finish R (fun h => P R (bnd h)) s2.tree [] s2.allItemNodeFIFO
          = QuadTreeNode.finish R (fun h => P R (bnd h)) s.tree s.nodeRemoveFIFO
              s.allItemNodeFIFO ∧
        pathSizes s2.tree s2.allItemNodeFIFO
          ≤ pathSizes s.tree s.nodeRemoveFIFO + pathSizes s.tree s.allItemNodeFIFO := by
  intro fuel
  induction fuel with
  | zero =>
    rintro ⟨t, m, q, d⟩ hinv hfuel
    cases q with
    | nil => exact ⟨_, by simp [QuadTreeNode.removeSearch], rfl, hinv, rfl, by simp [pathSizes]⟩
    | cons p rest =>
      have := size_pos_of_isNode (hinv.valid p (List.mem_append_left _ (List.mem_cons_self _ _)))
      simp only [pathSizes_cons] at hfuel this
      omega
  | succ fuel ih =>
    rintro ⟨t, m, q, d⟩ hinv hfuel
    cases q with
    | nil => exact ⟨_, by simp [QuadTreeNode.removeSearch], rfl, hinv, rfl, by simp [pathSizes]⟩
    | cons p rest =>
      obtain ⟨hanti, hvalid, hsync, hshrunk⟩ := hinv
      simp only at hanti hvalid hsync hshrunk hfuel
      have hn : (t.nodeAt p).isNode = true :=
        hvalid p (List.mem_append_left _ (List.mem_cons_self _ _))
      have hpos := size_pos_of_isNode hn
      simp only [pathSizes_cons] at hfuel
      by_cases hc : R.contains (t.nodeAt p).bound = true
      · -- the node goes to the drain FIFO
        have hperm : (p :: rest ++ d).Perm (rest ++ (d ++ [p])) := by
          rw [List.perm_iff_count]
          intro a
          simp only [List.cons_append, List.count_cons, List.count_append, List.count_nil]
          omega
        obtain ⟨s2, h1, h2, h3, h4, h5⟩ := ih ⟨t, m, rest, d ++ [p]⟩
          ⟨antichain_perm hperm hanti,
            fun x hx => hvalid x (hperm.mem_iff.2 hx), hsync, hshrunk⟩
          (by show pathSizes t rest ≤ fuel; omega)
        refine ⟨s2, ?_, h2, h3, ?_, ?_⟩
        · simp only [QuadTreeNode.removeSearch, hn, hc]
          simpa using h1
        · rw [h4]
          exact finish_contain_step R _ p t rest d hanti hn hc
        · simp only [pathSizes_append, pathSizes_cons] at h5 ⊢
          have e : pathSizes t [] = 0 := rfl
          omega
      · -- the node is filtered and its overlapping children are queued
        have hc2 : R.contains (t.nodeAt p).bound = false := by simpa using hc
        have hits := removeItems_eq bnd R P (t.nodeAt p).items m
          (nodup_items_nodeAt hn hsync.nodup)
          (liveIn_mono hsync.live (fun x hx => mem_handles_of_mem_items_nodeAt hn hx))
        obtain ⟨hsync2, hshrunk2⟩ :=
          sync_erase_step bnd m0 (fun h => P R (bnd h)) t m p hsync hshrunk hn
        have hclear := clearRec_setItemsAt t p
          ((t.nodeAt p).items.filter (fun h => !P R (bnd h)))
        have hperm : ((QuadTreeNode.overlapChildren R (t.nodeAt p)).map (fun i => p ++ [i])
            ++ (rest ++ d)).Perm
            ((rest ++ (QuadTreeNode.overlapChildren R (t.nodeAt p)).map (fun i => p ++ [i]))
              ++ d) := by
          rw [List.perm_iff_count]
          intro a
          simp only [List.count_append]
          omega
        have hkids := pathSizes_overlapChildren R t p hn
        obtain ⟨s2, h1, h2, h3, h4, h5⟩ := ih
          ⟨t.setItemsAt p ((t.nodeAt p).items.filter (fun h => !P R (bnd h))),
           ⟨m.cells.filter (fun c => decide (c.1 ∉ (t.nodeAt p).items.filter
              (fun h => P R (bnd h)))), m.next⟩,
           rest ++ (QuadTreeNode.overlapChildren R (t.nodeAt p)).map (fun i => p ++ [i]), d⟩
          ⟨antichain_perm hperm
              (antichain_kids hanti _ (nodup_overlapChildren R (t.nodeAt p))),
            (by
              intro x hx
              simp only at hx
              rw [isNode_nodeAt_congr hclear]
              rcases List.mem_append.1 hx with hx | hx
              · rcases List.mem_append.1 hx with hx | hx
                · exact hvalid x (List.mem_append_left _ (List.mem_cons_of_mem _ hx))
                · obtain ⟨i, hi, rfl⟩ := List.mem_map.1 hx
                  rw [nodeAt_append]
                  exact isNode_of_mem_overlapChildren hi
              · exact hvalid x (List.mem_append_right _ hx)),
            hsync2, hshrunk2⟩
          (by
            simp only
            rw [pathSizes_congr hclear, pathSizes_append]
            omega)
        refine ⟨s2, ?_, h2, h3, ?_, ?_⟩
        · simp only [QuadTreeNode.removeSearch, hn, hc, hits]
          simpa using h1
        · rw [h4]
          exact finish_search_step R _ p t rest d hanti hn hc2
        · simp only at h5
          rw [pathSizes_congr hclear, pathSizes_congr hclear d, pathSizes_append] at h5
          simp only [pathSizes_cons]
          omega

theorem removeDrain_spec (bnd : Handle → Bound) (m0 : StdList Shape) (R : Bound)
    (test : Handle → Bool) :
    ∀ (fuel : Nat) (s : QuadTreeNode.RemoveState), s.nodeRemoveFIFO = [] →
      RemoveInv bnd m0 s → pathSizes s.tree s.allItemNodeFIFO ≤ fuel →
      ∃ s2, QuadTreeNode.removeDrain fuel s = some s2 ∧
        s2.tree = QuadTreeNode.finish R test s.tree [] s.allItemNodeFIFO ∧
        Sync bnd s2.tree s2.itemContainer ∧ Shrunk m0 s2.itemContainer := by
  intro fuel
  induction fuel with
  | zero =>
    rintro ⟨t, m, q, d⟩ hq hinv hfuel
    cases d with
    | nil =>
      exact ⟨_, by simp [QuadTreeNode.removeDrain], (finish_nil_nil R test t).symm,
        hinv.sync, hinv.shrunk⟩
    | cons p rest =>
      have := size_pos_of_isNode (hinv.valid p (List.mem_append_right _ (List.mem_cons_self _ _)))
      simp only [pathSizes_cons] at hfuel this
      omega
  | succ fuel ih =>
    rintro ⟨t, m, q, d⟩ hq hinv hfuel
    simp only at hq
    subst hq
    cases d with
    | nil =>
      exact ⟨_, by simp [QuadTreeNode.removeDrain], (finish_nil_nil R test t).symm,
        hinv.sync, hinv.shrunk⟩
    | cons p rest =>
      obtain ⟨hanti, hvalid, hsync, hshrunk⟩ := hinv
      simp only [List.nil_append] at hanti hvalid hsync hshrunk hfuel
      have hn : (t.nodeAt p).isNode = true := hvalid p (List.mem_cons_self _ _)
      simp only [pathSizes_cons] at hfuel
      have hlits : LiveIn bnd m (t.nodeAt p).items :=
        liveIn_mono hsync.live (fun x hx => mem_handles_of_mem_items_nodeAt hn hx)
      have hits := eraseAll_eq (t.nodeAt p).items m (nodup_items_nodeAt hn hsync.nodup)
        (fun x hx => liveIn_mem_keys hlits hx)
      have hstep := sync_erase_step bnd m0 (fun _ => true) t m p hsync hshrunk hn
      have e1 : (t.nodeAt p).items.filter (fun h => !(fun _ => true) h) = [] := by simp
      have e2 : (t.nodeAt p).items.filter (fun _ => true) = (t.nodeAt p).items := by simp
      simp only [e1, e2] at hstep
      obtain ⟨hsync2, hshrunk2⟩ := hstep
      have hclear := clearRec_setItemsAt t p []
      have hperm : ((QuadTreeNode.existingChildren (t.nodeAt p)).map (fun i => p ++ [i])
          ++ rest).Perm
          (rest ++ (QuadTreeNode.existingChildren (t.nodeAt p)).map (fun i => p ++ [i])) :=
        List.perm_append_comm
      have hkids := pathSizes_existingChildren t p hn
      obtain ⟨s2, h1, h2, h3, h4⟩ := ih
        ⟨t.setItemsAt p [],
         ⟨m.cells.filter (fun c => decide (c.1 ∉ (t.nodeAt p).items)), m.next⟩, [],
         rest ++ (QuadTreeNode.existingChildren (t.nodeAt p)).map (fun i => p ++ [i])⟩
        rfl
        ⟨antichain_perm hperm (antichain_kids hanti _ (nodup_existingChildren (t.nodeAt p))),
          (by
            intro x hx
            simp only [List.nil_append] at hx
            rw [isNode_nodeAt_congr hclear]
            rcases List.mem_append.1 hx with hx | hx
            · exact hvalid x (List.mem_cons_of_mem _ hx)
            · obtain ⟨i, hi, rfl⟩ := List.mem_map.1 hx
              rw [nodeAt_append]
              exact isNode_of_mem_existingChildren hi),
          hsync2, hshrunk2⟩
        (by
          simp only
          rw [pathSizes_congr hclear, pathSizes_append]
          omega)
      refine ⟨s2, ?_, ?_, h3, h4⟩
      · simp only [QuadTreeNode.removeDrain, hn, hits]
        simpa using h1
      · rw [h2]
        exact finish_drain_step R test p t rest hanti hn

/-- The result of `remove` on a tree that agrees with the master sequence: the
tree described by recursion, and the master sequence with the cells of the
erased handles unlinked. -/
theorem remove_spec (bnd : Handle → Bound) (m : StdList Shape) (R : Bound)
    (P : Bound → Bound → Bool) (this : QuadTreeNode) (hn : this.isNode = true)
    (hs : Sync bnd this m) :
    ∃ m2, this.remove R m P = some (this.removeRec R (fun h => P R (bnd h)), m2) ∧
      Sync bnd (this.removeRec R (fun h => P R (bnd h))) m2 ∧ Shrunk m m2 := by
  obtain ⟨s1, h1, h2, h3, h4, h5⟩ := removeSearch_spec bnd m R P this.size
    ⟨this, m, [[]], []⟩
    ⟨by simp [Antichain], by simpa [QuadTreeNode.nodeAt] using hn, hs, shrunk_refl m⟩
    (by simp [pathSizes, QuadTreeNode.nodeAt])
  obtain ⟨s2, h6, h7, h8, h9⟩ := removeDrain_spec bnd m R (fun h => P R (bnd h)) this.size s1 h2
    h3 (by simpa [pathSizes, QuadTreeNode.nodeAt] using h5)
  refine ⟨s2.itemContainer, ?_, ?_, h9⟩
  · simp only [QuadTreeNode.remove, h1, h6]
    rw [h7, h4, finish_search_root]
  · rw [← finish_search_root, ← h4, ← h7]
    exact h8

end qt

namespace qt

/-! ## Insertion into the node tree -/

theorem findNext_some {n : QuadTreeNode} {b : Bound} {i : Fin 4} :
    ∀ {l : List (Fin 4)}, QuadTreeNode.findNext n b l = some i →
      (n.childrenBounds.get i).contains b = true ∧
        ((n.child i).isNode = true ∨ n.depth < MAXDEPTH - 1)
  | [], h => by simp [QuadTreeNode.findNext] at h
  | j :: rest, h => by
    simp only [QuadTreeNode.findNext] at h
    split_ifs at h with h1 h2 h3
    · cases h; exact ⟨h1, Or.inl h2⟩
    · cases h; exact ⟨h1, Or.inr h3⟩
    · exact findNext_some h
    · exact findNext_some h

theorem isNode_setChild (n : QuadTreeNode) (i : Fin 4) (c : QuadTreeNode) :
    (n.setChild i c).isNode = n.isNode := by
  cases n with
  | nullptr => rfl
  | node => fin_cases i <;> rfl

theorem bound_setChild (n : QuadTreeNode) (i : Fin 4) (c : QuadTreeNode) :
    (n.setChild i c).bound = n.bound := by
  cases n with
  | nullptr => rfl
  | node => fin_cases i <;> rfl

theorem count_handles_setChild (a : Handle) (n : QuadTreeNode) (i : Fin 4) (c : QuadTreeNode)
    (hn : n.isNode = true) :
    (n.setChild i c).handles.count a + (n.child i).handles.count a
      = n.handles.count a + c.handles.count a := by
  cases n with
  | nullptr => simp [QuadTreeNode.isNode] at hn
  | node l d b its c0 c1 c2 c3 cb =>
    fin_cases i <;>
      simp only [QuadTreeNode.child, QuadTreeNode.setChild, QuadTreeNode.handles,
        List.count_append] <;> omega

theorem depthInv_child {dd : Int} {n : QuadTreeNode} (i : Fin 4)
    (h : QuadTreeNode.DepthInv dd n) : QuadTreeNode.DepthInv (dd + 1) (n.child i) := by
  cases n with
  | nullptr => simp [QuadTreeNode.child, QuadTreeNode.DepthInv]
  | node l d b its c0 c1 c2 c3 cb =>
    simp only [QuadTreeNode.DepthInv] at h
    fin_cases i <;> simp [QuadTreeNode.child, h]

theorem depthInv_setChild {dd : Int} {n : QuadTreeNode} (i : Fin 4) {c : QuadTreeNode}
    (h : QuadTreeNode.DepthInv dd n) (hc : QuadTreeNode.DepthInv (dd + 1) c) :
    QuadTreeNode.DepthInv dd (n.setChild i c) := by
  cases n with
  | nullptr => simp [QuadTreeNode.setChild, QuadTreeNode.DepthInv]
  | node l d b its c0 c1 c2 c3 cb =>
    simp only [QuadTreeNode.DepthInv] at h
    fin_cases i <;> simp [QuadTreeNode.setChild, QuadTreeNode.DepthInv, h, hc]

theorem pathInv_child {bnd : Handle → Bound} {n : QuadTreeNode} (i : Fin 4)
    (h : QuadTreeNode.PathInv bnd n) :
    QuadTreeNode.PathInv bnd (n.child i) ∧
      ((n.child i).isNode = true → (n.child i).bound = n.childrenBounds.get i) := by
  cases n with
  | nullptr => simp [QuadTreeNode.child, QuadTreeNode.PathInv, QuadTreeNode.isNode]
  | node l d b its c0 c1 c2 c3 cb =>
    simp only [QuadTreeNode.PathInv] at h
    fin_cases i
    · exact ⟨h.2.2.2.2.2.1, h.2.1⟩
    · exact ⟨h.2.2.2.2.2.2.1, h.2.2.1⟩
    · exact ⟨h.2.2.2.2.2.2.2.1, h.2.2.2.1⟩
    · exact ⟨h.2.2.2.2.2.2.2.2, h.2.2.2.2.1⟩

theorem pathInv_mem {bnd : Handle → Bound} {n : QuadTreeNode}
    (h : QuadTreeNode.PathInv bnd n) : ∀ x ∈ n.handles, n.bound.contains (bnd x) = true := by
  cases n with
  | nullptr => simp [QuadTreeNode.handles]
  | node l d b its c0 c1 c2 c3 cb =>
    simp only [QuadTreeNode.PathInv] at h
    exact h.1

theorem pathInv_setChild {bnd : Handle → Bound} {n : QuadTreeNode} (i : Fin 4)
    {c : QuadTreeNode} (h : QuadTreeNode.PathInv bnd n) (hc : QuadTreeNode.PathInv bnd c)
    (hb : c.isNode = true → c.bound = n.childrenBounds.get i)
    (hm : ∀ x ∈ (n.setChild i c).handles, n.bound.contains (bnd x) = true) :
    QuadTreeNode.PathInv bnd (n.setChild i c) := by
  cases n with
  | nullptr => simp [QuadTreeNode.setChild, QuadTreeNode.PathInv]
  | node l d b its c0 c1 c2 c3 cb =>
    simp only [QuadTreeNode.PathInv] at h
    obtain ⟨-, h1, h2, h3, h4, h5, h6, h7, h8⟩ := h
    fin_cases i <;> simp only [QuadTreeNode.setChild, QuadTreeNode.PathInv]
    · exact ⟨hm, hb, h2, h3, h4, hc, h6, h7, h8⟩
    · exact ⟨hm, h1, hb, h3, h4, h5, hc, h7, h8⟩
    · exact ⟨hm, h1, h2, hb, h4, h5, h6, hc, h8⟩
    · exact ⟨hm, h1, h2, h3, hb, h5, h6, h7, hc⟩

theorem pathInv_congr {bnd bnd2 : Handle → Bound} :
    ∀ (n : QuadTreeNode), (∀ x ∈ n.handles, bnd x = bnd2 x) →
      QuadTreeNode.PathInv bnd n → QuadTreeNode.PathInv bnd2 n
  | .nullptr, _, _ => by simp [QuadTreeNode.PathInv]
  | .node l d b its c0 c1 c2 c3 cb, he, h => by
    simp only [QuadTreeNode.PathInv] at h ⊢
    simp only [QuadTreeNode.handles] at he
    obtain ⟨h0, h1, h2, h3, h4, h5, h6, h7, h8⟩ := h
    refine ⟨fun x hx => by rw [← he x hx]; exact h0 x hx, h1, h2, h3, h4,
      pathInv_congr c0 (fun x hx => he x ?_) h5, pathInv_congr c1 (fun x hx => he x ?_) h6,
      pathInv_congr c2 (fun x hx => he x ?_) h7, pathInv_congr c3 (fun x hx => he x ?_) h8⟩
    all_goals simp [hx]

theorem wrap32_small {z : Int} (h1 : -2147483648 ≤ z) (h2 : z < 2147483648) : wrap32 z = z := by
  unfold wrap32
  omega

theorem pathInv_new (bnd : Handle → Bound) (b : Bound) (d : Int) :
    QuadTreeNode.PathInv bnd (QuadTreeNode.new b d) := by
  simp [QuadTreeNode.new, QuadTreeNode.PathInv, QuadTreeNode.handles, QuadTreeNode.isNode]

/-- The loop of `insert` returns when the depth discipline holds and the fuel
covers the levels that remain; the handle is added to one node, and
containment along the descent is kept. -/
theorem insertLoop_spec (item : Handle) (b : Bound) :
    ∀ (fuel : Nat) (n : QuadTreeNode) (dd : Int), n.isNode = true →
      QuadTreeNode.DepthInv dd n → MAXDEPTH ≤ dd + fuel →
      ∃ n2, QuadTreeNode.insertLoop item b fuel n = some n2 ∧ n2.isNode = true ∧
        QuadTreeNode.DepthInv dd n2 ∧ n2.bound = n.bound ∧
        (∀ a, n2.handles.count a = n.handles.count a + [item].count a) ∧
        (∀ bnd : Handle → Bound, bnd item = b → QuadTreeNode.PathInv bnd n →
          n.bound.contains b = true → QuadTreeNode.PathInv bnd n2) := by
  intro fuel
  induction fuel with
  | zero =>
    intro n dd hn hd hf
    cases n with
    | nullptr => simp [QuadTreeNode.isNode] at hn
    | node l d bd its c0 c1 c2 c3 cb =>
      simp only [QuadTreeNode.DepthInv, MAXDEPTH] at hd
      simp only [MAXDEPTH] at hf
      omega
  | succ fuel ih =>
    intro n dd hn hd hf
    cases n with
    | nullptr => simp [QuadTreeNode.isNode] at hn
    | node l d bd its c0 c1 c2 c3 cb =>
      have hd2 := hd
      simp only [QuadTreeNode.DepthInv, MAXDEPTH] at hd2
      obtain ⟨hdd, hd0, hd6, -⟩ := hd2
      subst hdd
      simp only [QuadTreeNode.insertLoop]
      cases hfn : (if (!l) = true
          then QuadTreeNode.findNext (.node l d bd its c0 c1 c2 c3 cb) b idx4 else none) with
      | none =>
        refine ⟨_, rfl, rfl, ?_, rfl, ?_, ?_⟩
        · simpa [QuadTreeNode.DepthInv] using hd
        · intro a
          simp only [QuadTreeNode.handles, List.count_append]
          omega
        · intro bnd hb hp hc
          simp only [QuadTreeNode.PathInv, QuadTreeNode.bound] at hp hc ⊢
          refine ⟨?_, hp.2⟩
          intro x hx
          simp only [List.append_assoc, List.mem_append, List.mem_singleton] at hx
          rcases hx with hx | rfl | hx
          · exact hp.1 x (List.mem_append_left _ hx)
          · rw [hb]; exact hc
          · exact hp.1 x (List.mem_append_right _ (by simpa using hx))
      | some i =>
        have hfn2 : QuadTreeNode.findNext (.node l d bd its c0 c1 c2 c3 cb) b idx4 = some i := by
          split_ifs at hfn
          · exact hfn
        obtain ⟨hcont, hcreate⟩ := findNext_some hfn2
        simp only [QuadTreeNode.depth, MAXDEPTH] at hcreate
        -- the node the loop continues with
        have hnext : ∃ next, (if ((QuadTreeNode.node l d bd its c0 c1 c2 c3 cb).child i).isNode
              = true then (QuadTreeNode.node l d bd its c0 c1 c2 c3 cb).child i
              else QuadTreeNode.new (cb.get i) (wrap32 (d + 1))) = next ∧
            next.isNode = true ∧ QuadTreeNode.DepthInv (d + 1) next ∧
            next.handles = ((QuadTreeNode.node l d bd its c0 c1 c2 c3 cb).child i).handles ∧
            (∀ bnd, QuadTreeNode.PathInv bnd (.node l d bd its c0 c1 c2 c3 cb) →
              QuadTreeNode.PathInv bnd next ∧ next.bound = cb.get i) := by
          by_cases hex : ((QuadTreeNode.node l d bd its c0 c1 c2 c3 cb).child i).isNode = true
          · refine ⟨_, rfl, ?_⟩
            simp only [hex, if_true]
            refine ⟨trivial, depthInv_child i hd, trivial, ?_⟩
            intro bnd hp
            exact ⟨(pathInv_child i hp).1, (pathInv_child i hp).2 hex⟩
          · refine ⟨_, rfl, ?_⟩
            rw [if_neg hex]
            have hlt : d < 5 := by
              rcases hcreate with h | h
              · exact absurd h hex
              · omega
            have hw : wrap32 (d + 1) = d + 1 := wrap32_small (by omega) (by omega)
            have hnull := eq_nullptr_of_not_isNode (by simpa using hex)
            refine ⟨rfl, ?_, ?_, ?_⟩
            · rw [hw]
              simp only [QuadTreeNode.new, QuadTreeNode.DepthInv, MAXDEPTH]
              exact ⟨trivial, by omega, by omega, trivial, trivial, trivial, trivial⟩
            · rw [hnull]; rfl
            · intro bnd _
              exact ⟨pathInv_new bnd _ _, rfl⟩
        obtain ⟨next, hnx, hnode, hdnext, hhandles, hpnext⟩ := hnext
        obtain ⟨n2, h1, h2, h3, h4, h5, h6⟩ := ih next (d + 1) hnode hdnext
          (by simp only [MAXDEPTH] at hf ⊢; omega)
        refine ⟨(QuadTreeNode.node l d bd its c0 c1 c2 c3 cb).setChild i n2,
          by simp only [hnx, h1, Option.map], ?_, depthInv_setChild i hd h3, ?_, ?_, ?_⟩
        · rw [isNode_setChild]; rfl
        · rw [bound_setChild]
        · intro a
          have := count_handles_setChild a (.node l d bd its c0 c1 c2 c3 cb) i n2 rfl
          have := h5 a
          rw [hhandles] at this
          omega
        · intro bnd hb hp hc
          obtain ⟨hp2, hb2⟩ := hpnext bnd hp
          have hcnt : ∀ a, ((QuadTreeNode.node l d bd its c0 c1 c2 c3 cb).setChild i n2).handles.count a
              = (QuadTreeNode.node l d bd its c0 c1 c2 c3 cb).handles.count a + [item].count a := by
            intro a
            have := count_handles_setChild a (.node l d bd its c0 c1 c2 c3 cb) i n2 rfl
            have := h5 a
            rw [hhandles] at this
            omega
          refine pathInv_setChild i hp (h6 bnd hb hp2 (by rw [hb2]; exact hcont))
            (fun _ => by rw [h4, hb2]; rfl) ?_
          intro x hx
          have hx2 := hcnt x
          have hx3 := List.count_pos_iff.2 hx
          by_cases e : x = item
          · rw [e, hb]; exact hc
          · have : [item].count x = 0 := List.count_eq_zero_of_not_mem (by simpa using e)
            exact pathInv_mem hp x (List.count_pos_iff.1 (by omega))

end qt

namespace qt

/-! ## The tree described by recursion -/

theorem handles_clearRec (n : QuadTreeNode) : n.clearRec.handles = [] := by
  induction n with
  | nullptr => rfl
  | node l d b its c0 c1 c2 c3 cb h0 h1 h2 h3 =>
    simp [QuadTreeNode.clearRec, QuadTreeNode.handles, h0, h1, h2, h3]

theorem clearRec_clearRec (n : QuadTreeNode) : n.clearRec.clearRec = n.clearRec := by
  induction n with
  | nullptr => rfl
  | node l d b its c0 c1 c2 c3 cb h0 h1 h2 h3 =>
    simp [QuadTreeNode.clearRec, h0, h1, h2, h3]

theorem clearRec_removeRec (R : Bound) (test : Handle → Bool) (n : QuadTreeNode) :
    (n.removeRec R test).clearRec = n.clearRec := by
  induction n with
  | nullptr => rfl
  | node l d b its c0 c1 c2 c3 cb h0 h1 h2 h3 =>
    simp only [QuadTreeNode.removeRec]
    split_ifs <;> simp [QuadTreeNode.clearRec, clearRec_clearRec, h0, h1, h2, h3]

theorem depthInv_clearRec {dd : Int} {n : QuadTreeNode} :
    QuadTreeNode.DepthInv dd n.clearRec ↔ QuadTreeNode.DepthInv dd n := by
  induction n generalizing dd with
  | nullptr => rfl
  | node l d b its c0 c1 c2 c3 cb h0 h1 h2 h3 =>
    simp [QuadTreeNode.clearRec, QuadTreeNode.DepthInv, h0, h1, h2, h3]

theorem depthInv_removeRec {dd : Int} {n : QuadTreeNode} (R : Bound) (test : Handle → Bool)
    (h : QuadTreeNode.DepthInv dd n) : QuadTreeNode.DepthInv dd (n.removeRec R test) := by
  rw [← depthInv_clearRec, clearRec_removeRec, depthInv_clearRec]
  exact h

theorem isNode_removeRec (R : Bound) (test : Handle → Bool) (n : QuadTreeNode) :
    (n.removeRec R test).isNode = n.isNode := by
  rw [← isNode_clearRec, clearRec_removeRec, isNode_clearRec]

theorem bound_removeRec (R : Bound) (test : Handle → Bool) (n : QuadTreeNode) :
    (n.removeRec R test).bound = n.bound := by
  rw [← bound_clearRec, clearRec_removeRec, bound_clearRec]

/-- The handles of a tree are those that the removal leaves and those it
selects. -/
theorem count_handles_removeRec (R : Bound) (test : Handle → Bool) (a : Handle)
    (n : QuadTreeNode) :
    (n.removeRec R test).handles.count a + (n.selected R test).count a = n.handles.count a := by
  induction n with
  | nullptr => rfl
  | node l d b its c0 c1 c2 c3 cb h0 h1 h2 h3 =>
    have hs := count_filter_not_add test a its
    simp only [QuadTreeNode.removeRec, QuadTreeNode.selected]
    split_ifs <;>
      simp only [QuadTreeNode.handles, handles_clearRec, List.count_append, List.count_nil] <;>
      omega

theorem mem_handles_of_mem_removeRec {R : Bound} {test : Handle → Bool} {a : Handle}
    {n : QuadTreeNode} (h : a ∈ (n.removeRec R test).handles) : a ∈ n.handles := by
  have h1 := List.count_pos_iff.2 h
  have := count_handles_removeRec R test a n
  exact List.count_pos_iff.1 (by omega)

theorem pathInv_clearRec (bnd : Handle → Bound) (n : QuadTreeNode)
    (h : QuadTreeNode.PathInv bnd n) : QuadTreeNode.PathInv bnd n.clearRec := by
  induction n with
  | nullptr => trivial
  | node l d b its c0 c1 c2 c3 cb h0 h1 h2 h3 =>
    simp only [QuadTreeNode.PathInv] at h
    obtain ⟨-, g1, g2, g3, g4, g5, g6, g7, g8⟩ := h
    simp only [QuadTreeNode.clearRec, QuadTreeNode.PathInv, handles_clearRec, List.append_nil,
      List.not_mem_nil, false_implies, implies_true, true_and, isNode_clearRec, bound_clearRec]
    exact ⟨g1, g2, g3, g4, h0 g5, h1 g6, h2 g7, h3 g8⟩

theorem pathInv_removeRec (bnd : Handle → Bound) (R : Bound) (test : Handle → Bool)
    (n : QuadTreeNode) (h : QuadTreeNode.PathInv bnd n) :
    QuadTreeNode.PathInv bnd (n.removeRec R test) := by
  induction n with
  | nullptr => trivial
  | node l d b its c0 c1 c2 c3 cb h0 h1 h2 h3 =>
    have hmem := pathInv_mem h
    have hsub : ∀ x ∈ ((QuadTreeNode.node l d b its c0 c1 c2 c3 cb).removeRec R test).handles,
        b.contains (bnd x) = true := fun x hx => hmem x (mem_handles_of_mem_removeRec hx)
    simp only [QuadTreeNode.PathInv] at h
    obtain ⟨-, g1, g2, g3, g4, g5, g6, g7, g8⟩ := h
    by_cases hc : R.contains b = true
    · have := pathInv_clearRec bnd (.node l d b its c0 c1 c2 c3 cb)
        (by simp only [QuadTreeNode.PathInv]; exact ⟨hmem, g1, g2, g3, g4, g5, g6, g7, g8⟩)
      simpa [QuadTreeNode.removeRec, hc, QuadTreeNode.clearRec] using this
    · simp only [QuadTreeNode.removeRec, hc] at hsub ⊢
      simp only [QuadTreeNode.PathInv]
      refine ⟨hsub, ?_, ?_, ?_, ?_, ?_, ?_, ?_, ?_⟩
      all_goals split_ifs
      all_goals first
        | assumption
        | (rw [isNode_removeRec, bound_removeRec]; assumption)
        | exact h0 g5
        | exact h1 g6
        | exact h2 g7
        | exact h3 g8

end qt

namespace qt

/-! ## One call on the tree -/

theorem lookup_append_of_some {T : Type} (h : Handle) (v : T) (l2 : List (Handle × T)) :
    ∀ cells : List (Handle × T), cells.lookup h = some v → (cells ++ l2).lookup h = some v
  | [], hl => by simp [List.lookup] at hl
  | (k, w) :: cells, hl => by
    by_cases e : h = k
    · subst e
      simp [List.lookup] at hl ⊢
      exact hl
    · have e2 : (h == k) = false := by simpa using e
      simp only [List.cons_append, List.lookup, e2] at hl ⊢
      exact lookup_append_of_some h v l2 cells hl

theorem lookup_append_of_not_mem {T : Type} (h : Handle) (l2 : List (Handle × T)) :
    ∀ cells : List (Handle × T), h ∉ cells.map Prod.fst →
      (cells ++ l2).lookup h = l2.lookup h
  | [], _ => rfl
  | (k, w) :: cells, hm => by
    simp only [List.map_cons, List.mem_cons, not_or] at hm
    have e2 : (h == k) = false := by simpa using hm.1
    simp only [List.cons_append, List.lookup, e2]
    exact lookup_append_of_not_mem h l2 cells hm.2

theorem liveIn_boundOf (m : StdList Shape) (hs : List Handle) (h : ∀ x ∈ hs, x ∈ m.keys) :
    LiveIn m.boundOf m hs := by
  intro x hx
  obtain ⟨s, hs1⟩ := lookup_isSome_of_mem_keys x m.cells (h x hx)
  exact ⟨s, hs1, by simp [StdList.boundOf, StdList.deref, hs1]⟩

theorem boundOf_of_liveIn {bnd : Handle → Bound} {m : StdList Shape} {hs : List Handle}
    (h : LiveIn bnd m hs) {x : Handle} (hx : x ∈ hs) : m.boundOf x = bnd x := by
  obtain ⟨s, hs1, hs2⟩ := h x hx
  simp [StdList.boundOf, hs1, hs2]

theorem boundOf_of_mem_cells {m : StdList Shape} (hn : m.keys.Nodup) {c : Handle × Shape}
    (hc : c ∈ m.cells) : m.boundOf c.1 = c.2.toBound := by
  have := lookup_of_mem_nodup c.1 c.2 m.cells hn hc
  simp [StdList.boundOf, StdList.deref, this]

theorem sync_boundOf {bnd : Handle → Bound} {t : QuadTreeNode} {m : StdList Shape}
    (h : Sync bnd t m) : Sync m.boundOf t m :=
  ⟨h.nodup, h.perm, liveIn_boundOf m _ (fun _ hx => h.perm.mem_iff.1 hx)⟩

theorem sync_keys_nodup {bnd : Handle → Bound} {t : QuadTreeNode} {m : StdList Shape}
    (h : Sync bnd t m) : m.keys.Nodup :=
  (h.perm.nodup_iff).1 h.nodup

theorem shrunk_keys_sub {m0 m : StdList Shape} (h : Shrunk m0 m) :
    ∀ k ∈ m.keys, k ∈ m0.keys := by
  intro k hk
  unfold StdList.keys at hk ⊢
  rw [h.cells] at hk
  obtain ⟨c, hc, rfl⟩ := List.mem_map.1 hk
  exact List.mem_map_of_mem Prod.fst (List.mem_filter.1 hc).1

theorem shrunk_cells_sub {m0 m : StdList Shape} (h : Shrunk m0 m) :
    ∀ c ∈ m.cells, c ∈ m0.cells := by
  intro c hc
  rw [h.cells] at hc
  exact (List.mem_filter.1 hc).1

theorem inv_new (outer : Bound) : (QuadTree.new outer).Inv ∧ (QuadTree.new outer).InvIn outer := by
  refine ⟨⟨rfl, ?_, ⟨?_, ?_, ?_⟩, ?_⟩, ⟨rfl, pathInv_new _ _ _, ?_⟩⟩
  · simp [QuadTree.new, QuadTreeNode.new, QuadTreeNode.DepthInv, MAXDEPTH]
  · simp [QuadTree.new, QuadTreeNode.new, QuadTreeNode.handles]
  · simp [QuadTree.new, QuadTreeNode.new, QuadTreeNode.handles, StdList.empty, StdList.keys]
  · intro x hx
    simp [QuadTree.new, QuadTreeNode.new, QuadTreeNode.handles] at hx
  · intro k hk
    simp [QuadTree.new, StdList.empty, StdList.keys] at hk
  · intro c hc
    simp [QuadTree.new, StdList.empty] at hc

/-- `QuadTree::insert` returns on every tree of the interface; the item is
appended to the master sequence and the invariants are kept. -/
theorem insert_inv (t : QuadTree) (s : Shape) (h : t.Inv) :
    ∃ r, t.insert s = some ⟨t.items.push_back s, r⟩ ∧
      (QuadTree.mk (t.items.push_back s) r).Inv ∧
      (∀ a, r.handles.count a = t.rootNode.handles.count a + [t.items.next].count a) ∧
      (∀ outer, t.InvIn outer → s.toBound.wellFormed = true →
        outer.contains s.toBound = true → (QuadTree.mk (t.items.push_back s) r).InvIn outer) := by
  obtain ⟨hroot, hdepth, hsync, hfresh⟩ := h
  have hnotin : t.items.next ∉ t.items.keys := fun hm => Nat.lt_irrefl _ (hfresh _ hm)
  have hprev : (t.items.push_back s).prevEnd = some t.items.next := by
    simp [StdList.push_back, StdList.prevEnd]
  have hderef : (t.items.push_back s).deref t.items.next = some s := by
    simp only [StdList.push_back, StdList.deref]
    rw [lookup_append_of_not_mem _ _ _ hnotin]
    simp [List.lookup]
  have hold : ∀ x ∈ t.items.keys, (t.items.push_back s).boundOf x = t.items.boundOf x := by
    intro x hx
    obtain ⟨v, hv⟩ := lookup_isSome_of_mem_keys x t.items.cells hx
    simp only [StdList.boundOf, StdList.deref, StdList.push_back,
      lookup_append_of_some x v _ _ hv, hv]
  have hkeys : (t.items.push_back s).keys = t.items.keys ++ [t.items.next] := by
    simp [StdList.push_back, StdList.keys]
  obtain ⟨r, h1, h2, h3, h4, h5, h6⟩ := insertLoop_spec t.items.next s.toBound
    (t.rootNode.height + MAXDEPTH.toNat) t.rootNode 0 hroot hdepth
    (by simp [MAXDEPTH])
  have hperm : r.handles.Perm (t.items.push_back s).keys := by
    rw [hkeys, List.perm_iff_count]
    intro a
    rw [h5 a, List.count_append, hsync.perm.count_eq a]
  refine ⟨r, ?_, ⟨h2, h3, ⟨?_, hperm, ?_⟩, ?_⟩, h5, ?_⟩
  · simp only [QuadTree.insert, hprev, QuadTreeNode.insert, hderef, h1]
  · rw [hperm.nodup_iff, hkeys]
    refine List.nodup_append.2 ⟨sync_keys_nodup hsync, List.nodup_singleton _, ?_⟩
    intro x hx hx2
    rw [List.mem_singleton.1 hx2] at hx
    exact hnotin hx
  · exact liveIn_boundOf _ _ (fun x hx => hperm.mem_iff.1 hx)
  · intro k hk
    rw [hkeys] at hk
    simp only [StdList.push_back]
    rcases List.mem_append.1 hk with hk | hk
    · exact Nat.lt_succ_of_lt (hfresh k hk)
    · rw [List.mem_singleton.1 hk]
      exact Nat.lt_succ_self _
  · intro outer hin hwf hcont
    obtain ⟨hb, hp, hw⟩ := hin
    refine ⟨by rw [h4]; exact hb, ?_, ?_⟩
    · refine h6 _ (by simp [StdList.boundOf, hderef]) ?_ (by rw [hb]; exact hcont)
      exact pathInv_congr _ (fun x hx => (hold x (hsync.perm.mem_iff.1 hx)).symm) hp
    · intro c hc
      simp only [StdList.push_back, List.mem_append, List.mem_singleton] at hc
      rcases hc with hc | rfl
      · exact hw c hc
      · exact hwf

/-- `QuadTreeNode::remove` returns on every tree of the interface, with the
tree described by recursion; the invariants are kept. -/
theorem remove_inv (t : QuadTree) (R : Bound) (P : Bound → Bound → Bool) (h : t.Inv) :
    ∃ m2, t.rootNode.remove R t.items P
        = some (t.rootNode.removeRec R (fun x => P R (t.items.boundOf x)), m2) ∧
      (QuadTree.mk m2 (t.rootNode.removeRec R (fun x => P R (t.items.boundOf x)))).Inv ∧
      Shrunk t.items m2 ∧
      (∀ x ∈ m2.keys, m2.boundOf x = t.items.boundOf x) ∧
      (∀ outer, t.InvIn outer →
        (QuadTree.mk m2 (t.rootNode.removeRec R (fun x => P R (t.items.boundOf x)))).InvIn
          outer) := by
  obtain ⟨hroot, hdepth, hsync, hfresh⟩ := h
  obtain ⟨m2, h1, h2, h3⟩ := remove_spec t.items.boundOf t.items R P t.rootNode hroot hsync
  have hb : ∀ x ∈ m2.keys, m2.boundOf x = t.items.boundOf x :=
    fun x hx => boundOf_of_liveIn h2.live (h2.perm.mem_iff.2 hx)
  refine ⟨m2, h1, ⟨?_, depthInv_removeRec R _ hdepth, sync_boundOf h2, ?_⟩, h3, hb, ?_⟩
  · show (t.rootNode.removeRec R _).isNode = true
    rw [isNode_removeRec]; exact hroot
  · intro k hk
    show k < m2.next
    rw [h3.next]
    exact hfresh k (shrunk_keys_sub h3 k hk)
  · intro outer hin
    obtain ⟨hbd, hp, hw⟩ := hin
    refine ⟨?_, ?_, fun c hc => hw c (shrunk_cells_sub h3 c hc)⟩
    · show (t.rootNode.removeRec R _).bound = outer
      rw [bound_removeRec]; exact hbd
    · exact pathInv_congr _ (fun x hx => (hb x (h2.perm.mem_iff.1 hx)).symm)
        (pathInv_removeRec _ R _ _ hp)

end qt

namespace qt

/-! ## Bounds -/

theorem contains_self (a : Bound) : a.contains a = true := by
  simp [Bound.contains]

theorem overlaps_of_contains_drain {R nb x : Bound} (hw : x.wellFormed = true)
    (h1 : R.contains nb = true) (h2 : nb.contains x = true) : R.overlaps x = true := by
  simp only [Bound.contains, Bound.overlaps, Bound.wellFormed, Bool.and_eq_true,
    decide_eq_true_eq, ge_iff_le] at *
  omega

theorem not_overlaps_of_prune {R nb x : Bound}
    (h1 : R.overlaps nb = false) (h2 : nb.contains x = true) : R.overlaps x = false := by
  by_contra h
  have h3 : R.overlaps x = true := by simpa using h
  have : R.overlaps nb = true := by
    simp only [Bound.contains, Bound.overlaps, Bool.and_eq_true, decide_eq_true_eq,
      ge_iff_le] at *
    omega
  rw [h1] at this
  exact Bool.false_ne_true this

theorem contains_trans {R nb x : Bound}
    (h1 : R.contains nb = true) (h2 : nb.contains x = true) : R.contains x = true := by
  simp only [Bound.contains, Bool.and_eq_true, decide_eq_true_eq, ge_iff_le] at *
  omega

theorem not_contains_of_prune {R nb x : Bound} (hw : x.wellFormed = true)
    (h1 : R.overlaps nb = false) (h2 : nb.contains x = true) : R.contains x = false := by
  by_contra h
  have h3 : R.contains x = true := by simpa using h
  have : R.overlaps nb = true := by
    simp only [Bound.contains, Bound.overlaps, Bound.wellFormed, Bool.and_eq_true,
      decide_eq_true_eq, ge_iff_le] at *
    omega
  rw [h1] at this
  exact Bool.false_ne_true this

/-! ## The selection of a traversal is the set of matching handles -/

theorem handles_eq_nil_of_not_isNode {n : QuadTreeNode} (h : n.isNode = false) :
    n.handles = [] := by
  rw [eq_nullptr_of_not_isNode h]; rfl

/-- Under containment along the descent, the handles a traversal selects are
the handles of the tree that pass the test, provided the test holds below a
node that the region contains and fails inside a bound the region does not
overlap. -/
theorem count_selected (bnd : Handle → Bound) (R : Bound) (test : Handle → Bool)
    (good : Handle → Prop)
    (hA : ∀ nb x, good x → R.contains nb = true → nb.contains (bnd x) = true → test x = true)
    (hB : ∀ nb x, good x → R.overlaps nb = false → nb.contains (bnd x) = true →
      test x = false) :
    ∀ (n : QuadTreeNode), QuadTreeNode.PathInv bnd n → (∀ x ∈ n.handles, good x) →
      ∀ a, (n.selected R test).count a = (n.handles.filter test).count a := by
  intro n
  induction n with
  | nullptr => intro _ _ _; rfl
  | node l d b its c0 c1 c2 c3 cb ih0 ih1 ih2 ih3 =>
    intro hp hg a
    have hmem := pathInv_mem hp
    simp only [QuadTreeNode.bound] at hmem
    by_cases hc : R.contains b = true
    · have hall : (QuadTreeNode.node l d b its c0 c1 c2 c3 cb).handles.filter test
          = (QuadTreeNode.node l d b its c0 c1 c2 c3 cb).handles :=
        List.filter_eq_self.2 (fun x hx => hA b x (hg x hx) hc (hmem x hx))
      rw [hall]
      simp [QuadTreeNode.selected, hc, QuadTreeNode.handles]
    · simp only [QuadTreeNode.PathInv] at hp
      obtain ⟨-, g1, g2, g3, g4, g5, g6, g7, g8⟩ := hp
      simp only [QuadTreeNode.handles] at hg
      have key : ∀ (c : QuadTreeNode) (cbi : Bound),
          (QuadTreeNode.PathInv bnd c → (∀ x ∈ c.handles, good x) →
            ∀ a, (c.selected R test).count a = (c.handles.filter test).count a) →
          (c.isNode = true → c.bound = cbi) →
          QuadTreeNode.PathInv bnd c → (∀ x ∈ c.handles, good x) →
          (if R.overlaps cbi = true then c.selected R test else []).count a
            = (c.handles.filter test).count a := by
        intro c cbi ih hb hpc hgc
        by_cases ho : R.overlaps cbi = true
        · simp only [ho, if_true]
          exact ih hpc hgc a
        · have ho2 : R.overlaps cbi = false := by simpa using ho
          simp only [ho, if_false, List.count_nil]
          symm
          apply List.count_eq_zero_of_not_mem
          intro ha
          obtain ⟨ha1, ha2⟩ := List.mem_filter.1 ha
          have hcn : c.isNode = true := by
            cases hcn : c.isNode
            · rw [handles_eq_nil_of_not_isNode hcn] at ha1
              simp at ha1
            · rfl
          have := hB cbi a (hgc a ha1) ho2 (by rw [← hb hcn]; exact pathInv_mem hpc a ha1)
          rw [this] at ha2
          exact Bool.false_ne_true ha2
      have k0 := key c0 cb.e0 ih0 g1 g5 (fun x hx => hg x (by simp [hx]))
      have k1 := key c1 cb.e1 ih1 g2 g6 (fun x hx => hg x (by simp [hx]))
      have k2 := key c2 cb.e2 ih2 g3 g7 (fun x hx => hg x (by simp [hx]))
      have k3 := key c3 cb.e3 ih3 g4 g8 (fun x hx => hg x (by simp [hx]))
      simp only [QuadTreeNode.selected, hc, QuadTreeNode.handles, List.filter_append,
        List.count_append]
      simp only [Bool.false_eq_true, if_false, List.count_append]
      omega

end qt

namespace qt

/-! ## Traversals on trees whose items lie in the outer bound -/

theorem good_of_invIn {outer : Bound} {t : QuadTree} (hi : t.Inv) (hin : t.InvIn outer) :
    ∀ x ∈ t.rootNode.handles, (t.items.boundOf x).wellFormed = true := by
  intro x hx
  have hk : x ∈ t.items.keys := hi.sync.perm.mem_iff.1 hx
  obtain ⟨c, hc, rfl⟩ := List.mem_map.1 hk
  rw [boundOf_of_mem_cells (sync_keys_nodup hi.sync) hc]
  exact hin.wf c hc

/-- For the two predicates of the interface, on a tree whose items are
well-formed and lie in the outer bound, a traversal selects exactly the handles
whose items satisfy the predicate. -/
theorem count_selected_tree {outer : Bound} {t : QuadTree} (hi : t.Inv) (hin : t.InvIn outer)
    (R : Bound) (P : Bound → Bound → Bool)
    (hP : P = QuadTree.overlapFn ∨ P = QuadTree.containFn) (a : Handle) :
    (t.rootNode.selected R (fun x => P R (t.items.boundOf x))).count a
      = (t.rootNode.handles.filter (fun x => P R (t.items.boundOf x))).count a := by
  refine count_selected t.items.boundOf R _ (fun x => (t.items.boundOf x).wellFormed = true)
    ?_ ?_ t.rootNode hin.path (good_of_invIn hi hin) a
  · intro nb x hw h1 h2
    rcases hP with rfl | rfl
    · exact overlaps_of_contains_drain hw h1 h2
    · exact contains_trans h1 h2
  · intro nb x hw h1 h2
    rcases hP with rfl | rfl
    · exact not_overlaps_of_prune h1 h2
    · exact not_contains_of_prune hw h1 h2

/-- The result of a query on a tree of the interface whose items are
well-formed and lie in the outer bound: the handles of the cells whose item
satisfies the predicate, in some order. -/
theorem query_tree {outer : Bound} {t : QuadTree} (hi : t.Inv) (hin : t.InvIn outer)
    (R : Bound) (P : Bound → Bound → Bool)
    (hP : P = QuadTree.overlapFn ∨ P = QuadTree.containFn) :
    ∃ hs, t.rootNode.query t.items R [] P = some hs ∧
      hs.Perm ((t.items.cells.filter (fun c => P R c.2.toBound)).map Prod.fst) := by
  obtain ⟨hs, h1, h2⟩ := query_spec t.items.boundOf t.items R P t.rootNode [] hi.root
    hi.sync.live
  refine ⟨hs, h1, h2.trans ?_⟩
  have e : (t.items.cells.filter (fun c => P R c.2.toBound)).map Prod.fst
      = t.items.keys.filter (fun x => P R (t.items.boundOf x)) := by
    unfold StdList.keys
    rw [← keys_filter (fun x => P R (t.items.boundOf x))]
    congr 1
    apply List.filter_congr
    intro c hc
    rw [boundOf_of_mem_cells (sync_keys_nodup hi.sync) hc]
  rw [e, List.nil_append]
  refine List.Perm.trans ?_ (hi.sync.perm.filter _)
  rw [List.perm_iff_count]
  exact count_selected_tree hi hin R P hP

/-- The result of a removal on a tree of the interface whose items are
well-formed and lie in the outer bound: the master sequence keeps, in order,
the cells whose item does not satisfy the predicate. -/
theorem remove_tree {outer : Bound} {t : QuadTree} (hi : t.Inv) (hin : t.InvIn outer)
    (R : Bound) (P : Bound → Bound → Bool)
    (hP : P = QuadTree.overlapFn ∨ P = QuadTree.containFn) :
    ∃ r, t.rootNode.remove R t.items P
        = some (r, ⟨t.items.cells.filter (fun c => !P R c.2.toBound), t.items.next⟩) ∧
      (QuadTree.mk ⟨t.items.cells.filter (fun c => !P R c.2.toBound), t.items.next⟩ r).Inv ∧
      (QuadTree.mk ⟨t.items.cells.filter (fun c => !P R c.2.toBound), t.items.next⟩ r).InvIn
        outer := by
  obtain ⟨m2, h1, h2, h3, -, h5⟩ := remove_inv t R P hi
  have hm : m2 = ⟨t.items.cells.filter (fun c => !P R c.2.toBound), t.items.next⟩ := by
    have hcells : m2.cells = t.items.cells.filter (fun c => !P R c.2.toBound) := by
      rw [h3.cells]
      apply List.filter_congr
      intro c hc
      have hk : c.1 ∈ t.items.keys := List.mem_map_of_mem Prod.fst hc
      have hh : c.1 ∈ t.rootNode.handles := hi.sync.perm.mem_iff.2 hk
      have hone : t.rootNode.handles.count c.1 = 1 :=
        List.count_eq_one_of_mem hi.sync.nodup hh
      have hsel := count_selected_tree hi hin R P hP c.1
      have hrem := count_handles_removeRec R (fun x => P R (t.items.boundOf x)) c.1 t.rootNode
      have hb := boundOf_of_mem_cells (sync_keys_nodup hi.sync) hc
      have hmem2 : c.1 ∈ m2.keys ↔
          c.1 ∈ (t.rootNode.removeRec R (fun x => P R (t.items.boundOf x))).handles :=
        (h2.sync.perm.mem_iff).symm
      cases hp : P R c.2.toBound
      · have hz : (t.rootNode.handles.filter (fun x => P R (t.items.boundOf x))).count c.1 = 0 :=
          List.count_eq_zero_of_not_mem (fun hm => by
            have := (List.mem_filter.1 hm).2
            simp only [hb, hp] at this
            exact Bool.false_ne_true this)
        have : c.1 ∈ m2.keys := hmem2.2 (List.count_pos_iff.1 (by omega))
        simp [this]
      · have hz : (t.rootNode.handles.filter (fun x => P R (t.items.boundOf x))).count c.1
            = t.rootNode.handles.count c.1 :=
          List.count_filter (p := fun x => P R (t.items.boundOf x)) (by simp only [hb, hp])
        have : c.1 ∉ m2.keys := fun hm => by
          have := List.count_pos_iff.2 (hmem2.1 hm)
          omega
        simp [this]
    cases m2 with
    | mk cells next =>
      simp only at hcells
      have hnext : next = t.items.next := h3.next
      rw [hcells, hnext]
  rw [hm] at h1 h2 h5
  exact ⟨_, h1, h2, h5 outer hin⟩

end qt

namespace qt

/-! ## The linear container -/

theorem linear_insert (c : LinearContainer) (s : Shape) :
    (c.insert s).itemContainer_list = c.itemContainer_list.push_back s := by
  simp [LinearContainer.insert, contains_self]

theorem removeLoop_eq_filter (test : Bound → Bool) (cells : List (Handle × Shape)) :
    LinearContainer.removeLoop test cells = cells.filter (fun c => !test c.2.toBound) := by
  induction cells with
  | nil => rfl
  | cons c cells ih =>
    cases h : test c.2.toBound <;> simp [LinearContainer.removeLoop, List.filter_cons, h, ih]

theorem queryLoop_eq (test : Bound → Bool) :
    ∀ (cells : List (Handle × Shape)) (acc : List Handle),
      LinearContainer.queryLoop test cells acc
        = acc ++ (cells.filter (fun c => test c.2.toBound)).map Prod.fst
  | [], acc => by simp [LinearContainer.queryLoop]
  | c :: cells, acc => by
    simp only [LinearContainer.queryLoop]
    rw [queryLoop_eq test cells]
    cases h : test c.2.toBound <;> simp [List.filter_cons, h]

/-! ## Sequences of calls -/

theorem step_inv (t : QuadTree) (op : Op) (h : t.Inv) :
    ∃ t2, t.step op = some t2 ∧ t2.Inv := by
  cases op with
  | insert s =>
    obtain ⟨r, h1, h2, -⟩ := insert_inv t s h
    exact ⟨_, h1, h2⟩
  | removeOverlap R =>
    obtain ⟨m2, h1, h2, -⟩ := remove_inv t R QuadTree.overlapFn h
    exact ⟨_, by simp only [QuadTree.step, QuadTree.removeOverlap, h1, Option.map], h2⟩
  | removeContain R =>
    obtain ⟨m2, h1, h2, -⟩ := remove_inv t R QuadTree.containFn h
    exact ⟨_, by simp only [QuadTree.step, QuadTree.removeContain, h1, Option.map], h2⟩

theorem steps_inv : ∀ (ops : List Op) (t : QuadTree), t.Inv →
    ∃ t2, t.steps ops = some t2 ∧ t2.Inv
  | [], t, h => ⟨t, rfl, h⟩
  | op :: ops, t, h => by
    obtain ⟨t1, h1, h2⟩ := step_inv t op h
    obtain ⟨t2, h3, h4⟩ := steps_inv ops t1 h2
    exact ⟨t2, by simp only [QuadTree.steps, h1, h3], h4⟩

/-- Every sequence of calls returns, in a tree that satisfies the invariants. -/
theorem run_inv (outer : Bound) (ops : List Op) :
    ∃ t, QuadTree.run outer ops = some t ∧ t.Inv :=
  steps_inv ops _ (inv_new outer).1

theorem step_invIn (outer : Bound) (t : QuadTree) (lc : LinearContainer) (op : Op)
    (h : t.Inv) (hin : t.InvIn outer) (hl : lc.itemContainer_list = t.items)
    (hok : op.ok outer = true) :
    ∃ t2, t.step op = some t2 ∧ t2.Inv ∧ t2.InvIn outer ∧
      (lc.step op).itemContainer_list = t2.items := by
  cases op with
  | insert s =>
    simp only [Op.ok, Bool.and_eq_true] at hok
    obtain ⟨r, h1, h2, -, h3⟩ := insert_inv t s h
    exact ⟨_, h1, h2, h3 outer hin hok.1 hok.2, by
      simp only [LinearContainer.step, linear_insert, hl]⟩
  | removeOverlap R =>
    obtain ⟨r, h1, h2, h3⟩ := remove_tree h hin R QuadTree.overlapFn (Or.inl rfl)
    exact ⟨_, by simp only [QuadTree.step, QuadTree.removeOverlap, h1, Option.map], h2, h3, by
      simp only [LinearContainer.step, LinearContainer.removeOverlap, removeLoop_eq_filter, hl,
        QuadTree.overlapFn]⟩
  | removeContain R =>
    obtain ⟨r, h1, h2, h3⟩ := remove_tree h hin R QuadTree.containFn (Or.inr rfl)
    exact ⟨_, by simp only [QuadTree.step, QuadTree.removeContain, h1, Option.map], h2, h3, by
      simp only [LinearContainer.step, LinearContainer.removeContain, removeLoop_eq_filter, hl,
        QuadTree.containFn]⟩

theorem steps_invIn (outer : Bound) : ∀ (ops : List Op) (t : QuadTree) (lc : LinearContainer),
    t.Inv → t.InvIn outer → lc.itemContainer_list = t.items →
    ops.all (Op.ok outer) = true →
    ∃ t2, t.steps ops = some t2 ∧ t2.Inv ∧ t2.InvIn outer ∧
      (ops.foldl LinearContainer.step lc).itemContainer_list = t2.items
  | [], t, lc, h, hin, hl, _ => ⟨t, rfl, h, hin, hl⟩
  | op :: ops, t, lc, h, hin, hl, hok => by
    simp only [List.all_cons, Bool.and_eq_true] at hok
    obtain ⟨t1, h1, h2, h3, h4⟩ := step_invIn outer t lc op h hin hl hok.1
    obtain ⟨t2, h5, h6, h7, h8⟩ := steps_invIn outer ops t1 (lc.step op) h2 h3 h4 hok.2
    exact ⟨t2, by simp only [QuadTree.steps, h1, h5], h6, h7, by simpa using h8⟩

/-- When every inserted item is well-formed and lies in the outer bound, every
sequence of calls returns, the invariants hold, and the linear container holds
the same sequence of cells as the master sequence. -/
theorem run_invIn (outer : Bound) (ops : List Op) (hok : ops.all (Op.ok outer) = true) :
    ∃ t, QuadTree.run outer ops = some t ∧ t.Inv ∧ t.InvIn outer ∧
      (LinearContainer.run outer ops).itemContainer_list = t.items :=
  steps_invIn outer ops _ (LinearContainer.new outer) (inv_new outer).1 (inv_new outer).2 rfl hok

theorem run_append (outer : Bound) (ops : List Op) (op : Op) (t : QuadTree)
    (h : QuadTree.run outer ops = some t) :
    QuadTree.run outer (ops ++ [op]) = t.step op := by
  unfold QuadTree.run at h ⊢
  revert h
  generalize QuadTree.new outer = t0
  induction ops generalizing t0 with
  | nil =>
    intro h
    simp only [QuadTree.steps, Option.some.injEq] at h
    subst h
    simp only [List.nil_append, QuadTree.steps]
    cases t0.step op <;> rfl
  | cons o ops ih =>
    intro h
    simp only [List.cons_append, QuadTree.steps] at h ⊢
    cases h1 : t0.step o with
    | none => simp [h1] at h
    | some t1 =>
      simp only [h1] at h ⊢
      exact ih t1 h

end qt

namespace qt

/-! ## Equivalence with the linear container -/

theorem query_refines (outer : Bound) (ops : List Op) (R : Bound)
    (P : Bound → Bound → Bool) (hP : P = QuadTree.overlapFn ∨ P = QuadTree.containFn)
    (hok : ops.all (Op.ok outer) = true) :
    ∃ t hs, QuadTree.run outer ops = some t ∧ t.rootNode.query t.items R [] P = some hs ∧
      hs.Perm ((t.items.cells.filter (fun c => P R c.2.toBound)).map Prod.fst) ∧
      (t.items.itemsAt hs).Perm
        ((LinearContainer.run outer ops).itemContainer_list.itemsAt
          (LinearContainer.queryLoop (P R)
            (LinearContainer.run outer ops).itemContainer_list.cells [])) := by
  obtain ⟨t, h1, h2, h3, h4⟩ := run_invIn outer ops hok
  obtain ⟨hs, h5, h6⟩ := query_tree h2 h3 R P hP
  refine ⟨t, hs, h1, h5, h6, ?_⟩
  rw [h4, queryLoop_eq, List.nil_append]
  exact h6.filterMap _

/-- C1: after any sequence of inserts of well-formed items that lie in the
outer bound and of region removals, `QuadTree::queryOverlap(R)` returns, in
some order and each once, the handles of exactly the stored items whose bound
overlaps `R`; the items they point to are the items that
`LinearContainer::queryOverlap(R)` reports after the same calls. -/
theorem queryOverlap_refines_linear (outer : Bound) (ops : List Op) (R : Bound)
    (hok : ops.all (Op.ok outer) = true) :
    ∃ t hs, QuadTree.run outer ops = some t ∧ t.queryOverlap R = some hs ∧
      hs.Perm ((t.items.cells.filter (fun c => R.overlaps c.2.toBound)).map Prod.fst) ∧
      (t.items.itemsAt hs).Perm
        ((LinearContainer.run outer ops).itemContainer_list.itemsAt
          ((LinearContainer.run outer ops).queryOverlap R)) :=
  query_refines outer ops R QuadTree.overlapFn (Or.inl rfl) hok

/-- Scenario 1 for C1: after the inserts of `A`, `B`, `C` the query for
`((45,45),(55,55))` returns the handle of `C` only. -/
theorem queryOverlap_refines_linear_witness :
    insertABC.all (Op.ok outer100) = true ∧
      (QuadTree.run outer100 insertABC).bind
        (fun t => t.queryOverlap (mkBound 45 45 55 55)) = some [2] ∧
      ∃ t hs, QuadTree.run outer100 insertABC = some t ∧
        t.queryOverlap (mkBound 45 45 55 55) = some hs ∧
        hs.Perm ((t.items.cells.filter
          (fun c => (mkBound 45 45 55 55).overlaps c.2.toBound)).map Prod.fst) ∧
        (t.items.itemsAt hs).Perm
          ((LinearContainer.run outer100 insertABC).itemContainer_list.itemsAt
            ((LinearContainer.run outer100 insertABC).queryOverlap (mkBound 45 45 55 55))) :=
  ⟨by decide, by decide,
    queryOverlap_refines_linear outer100 insertABC (mkBound 45 45 55 55) (by decide)⟩

/-- C2: after any sequence of inserts of well-formed items that lie in the
outer bound and of region removals, `QuadTree::queryContain(R)` returns, in
some order and each once, the handles of exactly the stored items whose bound
`R` contains; the items they point to are the items that
`LinearContainer::queryContain(R)` reports after the same calls. -/
theorem queryContain_refines_linear (outer : Bound) (ops : List Op) (R : Bound)
    (hok : ops.all (Op.ok outer) = true) :
    ∃ t hs, QuadTree.run outer ops = some t ∧ t.queryContain R = some hs ∧
      hs.Perm ((t.items.cells.filter (fun c => R.contains c.2.toBound)).map Prod.fst) ∧
      (t.items.itemsAt hs).Perm
        ((LinearContainer.run outer ops).itemContainer_list.itemsAt
          ((LinearContainer.run outer ops).queryContain R)) :=
  query_refines outer ops R QuadTree.containFn (Or.inr rfl) hok

/-- Scenario 1 for C2: after the inserts of `A`, `B`, `C` the query for
`((0,0),(50,50))` returns the handle of `A` only. -/
theorem queryContain_refines_linear_witness :
    insertABC.all (Op.ok outer100) = true ∧
      (QuadTree.run outer100 insertABC).bind
        (fun t => t.queryContain (mkBound 0 0 50 50)) = some [0] ∧
      ∃ t hs, QuadTree.run outer100 insertABC = some t ∧
        t.queryContain (mkBound 0 0 50 50) = some hs ∧
        hs.Perm ((t.items.cells.filter
          (fun c => (mkBound 0 0 50 50).contains c.2.toBound)).map Prod.fst) ∧
        (t.items.itemsAt hs).Perm
          ((LinearContainer.run outer100 insertABC).itemContainer_list.itemsAt
            ((LinearContainer.run outer100 insertABC).queryContain (mkBound 0 0 50 50))) :=
  ⟨by decide, by decide,
    queryContain_refines_linear outer100 insertABC (mkBound 0 0 50 50) (by decide)⟩

theorem remove_refines (outer : Bound) (ops : List Op) (R : Bound)
    (P : Bound → Bound → Bool) (hP : P = QuadTree.overlapFn ∨ P = QuadTree.containFn)
    (hok : ops.all (Op.ok outer) = true) :
    ∃ t r, QuadTree.run outer ops = some t ∧
      t.rootNode.remove R t.items P
        = some (r, ⟨t.items.cells.filter (fun c => !P R c.2.toBound), t.items.next⟩) ∧
      r.handles.Perm ((t.items.cells.filter (fun c => !P R c.2.toBound)).map Prod.fst) ∧
      t.items = (LinearContainer.run outer ops).itemContainer_list := by
  obtain ⟨t, h1, h2, h3, h4⟩ := run_invIn outer ops hok
  obtain ⟨r, h5, h6, -⟩ := remove_tree h2 h3 R P hP
  exact ⟨t, r, h1, h5, h6.sync.perm, h4.symm⟩

/-- C3: after any sequence of inserts of well-formed items that lie in the
outer bound and of region removals, `QuadTree::removeOverlap(R)` returns and
leaves in the master sequence, in their order, exactly the cells whose item
does not overlap `R`; the handles held by the nodes are the handles of these
cells; and the items left are those left in the linear container after the
same calls. -/
theorem removeOverlap_refines_linear (outer : Bound) (ops : List Op) (R : Bound)
    (hok : ops.all (Op.ok outer) = true) :
    ∃ t t2, QuadTree.run outer ops = some t ∧ t.removeOverlap R = some t2 ∧
      t2.items.cells = t.items.cells.filter (fun c => !R.overlaps c.2.toBound) ∧
      t2.rootNode.handles.Perm t2.items.keys ∧
      t2.items.cells.map Prod.snd
        = (LinearContainer.run outer (ops ++ [Op.removeOverlap R])).itemContainer_list.cells.map
            Prod.snd := by
  obtain ⟨t, r, h1, h2, h3, h4⟩ := remove_refines outer ops R QuadTree.overlapFn (Or.inl rfl) hok
  refine ⟨t, ⟨⟨t.items.cells.filter (fun c => !R.overlaps c.2.toBound), t.items.next⟩, r⟩, h1,
    ?_, rfl, h3, ?_⟩
  · simp only [QuadTree.removeOverlap, h2, Option.map]
    rfl
  · simp only [LinearContainer.run, List.foldl_append, List.foldl_cons, List.foldl_nil,
      LinearContainer.step, LinearContainer.removeOverlap, removeLoop_eq_filter] at h4 ⊢
    rw [h4]

/-- Scenario 2 for C3: with `A`, `B`, `C` stored, `removeOverlap(((0,0),(50,50)))`
leaves `B` only. -/
theorem removeOverlap_refines_linear_witness :
    insertABC.all (Op.ok outer100) = true ∧
      ((QuadTree.run outer100 insertABC).bind
        (fun t => t.removeOverlap (mkBound 0 0 50 50))).map
          (fun t => (t.items.cells, t.rootNode.handles))
        = some ([(1, mkShape 90 90 100 100)], [1]) ∧
      ∃ t t2, QuadTree.run outer100 insertABC = some t ∧
        t.removeOverlap (mkBound 0 0 50 50) = some t2 ∧
        t2.items.cells
          = t.items.cells.filter (fun c => !(mkBound 0 0 50 50).overlaps c.2.toBound) ∧
        t2.rootNode.handles.Perm t2.items.keys ∧
        t2.items.cells.map Prod.snd
          = (LinearContainer.run outer100
              (insertABC ++ [Op.removeOverlap (mkBound 0 0 50 50)])).itemContainer_list.cells.map
              Prod.snd :=
  ⟨by decide, by decide,
    removeOverlap_refines_linear outer100 insertABC (mkBound 0 0 50 50) (by decide)⟩

/-- C4: after any sequence of inserts of well-formed items that lie in the
outer bound and of region removals, `QuadTree::removeContain(R)` returns and
leaves in the master sequence, in their order, exactly the cells whose item
`R` does not contain (an item that only overlaps `R` stays); the handles held
by the nodes are the handles of these cells; and the items left are those left
in the linear container after the same calls. -/
theorem removeContain_refines_linear (outer : Bound) (ops : List Op) (R : Bound)
    (hok : ops.all (Op.ok outer) = true) :
    ∃ t t2, QuadTree.run outer ops = some t ∧ t.removeContain R = some t2 ∧
      t2.items.cells = t.items.cells.filter (fun c => !R.contains c.2.toBound) ∧
      t2.rootNode.handles.Perm t2.items.keys ∧
      t2.items.cells.map Prod.snd
        = (LinearContainer.run outer (ops ++ [Op.removeContain R])).itemContainer_list.cells.map
            Prod.snd := by
  obtain ⟨t, r, h1, h2, h3, h4⟩ := remove_refines outer ops R QuadTree.containFn (Or.inr rfl) hok
  refine ⟨t, ⟨⟨t.items.cells.filter (fun c => !R.contains c.2.toBound), t.items.next⟩, r⟩, h1,
    ?_, rfl, h3, ?_⟩
  · simp only [QuadTree.removeContain, h2, Option.map]
    rfl
  · simp only [LinearContainer.run, List.foldl_append, List.foldl_cons, List.foldl_nil,
      LinearContainer.step, LinearContainer.removeContain, removeLoop_eq_filter] at h4 ⊢
    rw [h4]

/-- Scenario for C4: with `A`, `B`, `C` stored, `removeContain(((0,0),(50,50)))`
removes `A` and keeps `C`, which only overlaps the region, and `B`. -/
theorem removeContain_refines_linear_witness :
    insertABC.all (Op.ok outer100) = true ∧
      ((QuadTree.run outer100 insertABC).bind
        (fun t => t.removeContain (mkBound 0 0 50 50))).map
          (fun t => (t.items.keys, t.rootNode.handles))
        = some ([1, 2], [2, 1]) ∧
      ∃ t t2, QuadTree.run outer100 insertABC = some t ∧
        t.removeContain (mkBound 0 0 50 50) = some t2 ∧
        t2.items.cells
          = t.items.cells.filter (fun c => !(mkBound 0 0 50 50).contains c.2.toBound) ∧
        t2.rootNode.handles.Perm t2.items.keys ∧
        t2.items.cells.map Prod.snd
          = (LinearContainer.run outer100
              (insertABC ++ [Op.removeContain (mkBound 0 0 50 50)])).itemContainer_list.cells.map
              Prod.snd :=
  ⟨by decide, by decide,
    removeContain_refines_linear outer100 insertABC (mkBound 0 0 50 50) (by decide)⟩

end qt

namespace qt

/-! ## Handles and depths, node by node -/

theorem child_setItems (t : QuadTreeNode) (its : List Handle) (j : Fin 4) :
    (t.setItems its).child j = t.child j := by
  cases t with
  | nullptr => rfl
  | node l d b its0 c0 c1 c2 c3 cb => fin_cases j <;> rfl

theorem items_setChild (t : QuadTreeNode) (i : Fin 4) (c : QuadTreeNode) :
    (t.setChild i c).items = t.items := by
  cases t with
  | nullptr => rfl
  | node l d b its0 c0 c1 c2 c3 cb => fin_cases i <;> rfl

theorem child_setChild_ne (t : QuadTreeNode) {i j : Fin 4} (c : QuadTreeNode) (h : j ≠ i) :
    (t.setChild i c).child j = t.child j := by
  cases t with
  | nullptr => rfl
  | node l d b its0 c0 c1 c2 c3 cb =>
    fin_cases i <;> fin_cases j <;> first | rfl | exact absurd rfl h

theorem nodeAt_setChild_same (t : QuadTreeNode) (i : Fin 4) (c : QuadTreeNode) (q : Path) :
    ((t.setChild i c).child i).nodeAt q = c.nodeAt q ∨
      (((t.setChild i c).child i).nodeAt q = .nullptr ∧ (t.child i).nodeAt q = .nullptr) := by
  cases t with
  | nullptr =>
    right
    exact ⟨by simp [QuadTreeNode.setChild, QuadTreeNode.child, nodeAt_nullptr],
      by simp [QuadTreeNode.child, nodeAt_nullptr]⟩
  | node l d b its0 c0 c1 c2 c3 cb =>
    left
    fin_cases i <;> rfl

/-- Assigning the handle list of the node at `p` leaves the handle lists at all
other paths as they are. -/
theorem items_nodeAt_setItemsAt_ne (its : List Handle) :
    ∀ (p q : Path) (t : QuadTreeNode), q ≠ p →
      ((t.setItemsAt p its).nodeAt q).items = (t.nodeAt q).items
  | [], [], _, h => absurd rfl h
  | [], j :: q, t, _ => by
    simp only [QuadTreeNode.setItemsAt, QuadTreeNode.nodeAt, child_setItems]
  | i :: p, [], t, _ => by
    simp only [QuadTreeNode.setItemsAt, QuadTreeNode.nodeAt, items_setChild]
  | i :: p, j :: q, t, h => by
    simp only [QuadTreeNode.setItemsAt, QuadTreeNode.nodeAt]
    by_cases e : j = i
    · subst e
      have hq : q ≠ p := fun e2 => h (by rw [e2])
      rcases nodeAt_setChild_same t j ((t.child j).setItemsAt p its) q with h1 | h1
      · rw [h1]
        exact items_nodeAt_setItemsAt_ne its p q (t.child j) hq
      · rw [h1.1, h1.2]
    · rw [child_setChild_ne t _ e]

theorem exists_path_of_mem_handles {a : Handle} :
    ∀ (t : QuadTreeNode), a ∈ t.handles →
      ∃ p, (t.nodeAt p).isNode = true ∧ a ∈ (t.nodeAt p).items := by
  intro t
  induction t with
  | nullptr => intro h; simp [QuadTreeNode.handles] at h
  | node l d b its c0 c1 c2 c3 cb h0 h1 h2 h3 =>
    intro h
    simp only [QuadTreeNode.handles, List.mem_append] at h
    rcases h with h | h | h | h | h
    · exact ⟨[], rfl, h⟩
    · obtain ⟨p, hp⟩ := h0 h
      exact ⟨0 :: p, hp⟩
    · obtain ⟨p, hp⟩ := h1 h
      exact ⟨1 :: p, hp⟩
    · obtain ⟨p, hp⟩ := h2 h
      exact ⟨2 :: p, hp⟩
    · obtain ⟨p, hp⟩ := h3 h
      exact ⟨3 :: p, hp⟩

theorem items_nodeAt_of_not_isNode {t : QuadTreeNode} {p : Path}
    (h : (t.nodeAt p).isNode = false) : (t.nodeAt p).items = [] := by
  rw [eq_nullptr_of_not_isNode h]; rfl

/-- The occurrences of a handle in the lists of two different nodes are
occurrences among the handles of the tree. -/
theorem count_items_two_nodes (a : Handle) (t : QuadTreeNode) {p q : Path} (hne : q ≠ p)
    (hp : (t.nodeAt p).isNode = true) :
    (t.nodeAt p).items.count a + (t.nodeAt q).items.count a ≤ t.handles.count a := by
  have h1 := count_handles_setItemsAt a [] p t hp
  simp only [List.count_nil] at h1
  have h2 : (t.nodeAt q).items.count a ≤ (t.setItemsAt p []).handles.count a := by
    rw [← items_nodeAt_setItemsAt_ne [] p q t hne]
    cases hq : ((t.setItemsAt p []).nodeAt q).isNode
    · rw [items_nodeAt_of_not_isNode hq]; simp
    · exact count_items_nodeAt_le a q _ hq
  omega

theorem depth_nodeAt :
    ∀ (p : Path) (n : QuadTreeNode) (dd : Int), QuadTreeNode.DepthInv dd n →
      (n.nodeAt p).isNode = true →
      (n.nodeAt p).depth = dd + p.length ∧ 0 ≤ dd ∧ dd + p.length < MAXDEPTH
  | [], n, dd, hd, hn => by
    cases n with
    | nullptr => simp [QuadTreeNode.nodeAt, QuadTreeNode.isNode] at hn
    | node l d b its c0 c1 c2 c3 cb =>
      simp only [QuadTreeNode.DepthInv] at hd
      simp only [QuadTreeNode.nodeAt, QuadTreeNode.depth, List.length_nil, Nat.cast_zero,
        add_zero]
      exact ⟨hd.1, hd.2.1, hd.2.2.1⟩
  | i :: p, n, dd, hd, hn => by
    have h0 : 0 ≤ dd := by
      cases n with
      | nullptr =>
        rw [nodeAt_nullptr] at hn
        simp [QuadTreeNode.isNode] at hn
      | node l d b its c0 c1 c2 c3 cb =>
        simp only [QuadTreeNode.DepthInv] at hd
        exact hd.2.1
    have ih := depth_nodeAt p (n.child i) (dd + 1) (depthInv_child i hd) hn
    simp only [QuadTreeNode.nodeAt, List.length_cons, Nat.cast_add, Nat.cast_one]
    refine ⟨by rw [ih.1]; ring, h0, by have := ih.2.2; omega⟩

end qt

namespace qt

/-! ## Insertion outside the outer bound -/

/-- C5, the code at the failing input: on the tree with outer bound
`((0,0),(10,10))`, `QuadTree::insert` of the item `((20,20),(30,30))`, which
the outer bound does not contain, appends the item to the master sequence and
stores its handle in the root node. -/
theorem insert_outside_is_stored :
    (mkBound 0 0 10 10).contains (mkShape 20 20 30 30).toBound = false ∧
      ((QuadTree.new (mkBound 0 0 10 10)).insert (mkShape 20 20 30 30)).map
        (fun t => (t.items.cells, t.rootNode.items))
        = some ([(0, mkShape 20 20 30 30)], [0]) := by
  decide

/-- C6, the code at the failing input: after `insert` of the item
`((20,20),(30,30))` into the tree with outer bound `((0,0),(10,10))` the root
node holds a handle to an item that the root's bound does not contain. -/
theorem containment_fails_outside :
    (QuadTree.run (mkBound 0 0 10 10) [Op.insert (mkShape 20 20 30 30)]).map
      (fun t => (t.rootNode.items, t.rootNode.bound,
        (t.rootNode.items.map t.items.boundOf).map t.rootNode.bound.contains))
      = some ([0], mkBound 0 0 10 10, [false]) := by
  decide

/-- Containment (I1) when every inserted item is well-formed and lies in the
outer bound: the bound of every node contains the bound of every item that the
node or a node below it holds a handle to. -/
theorem containment_inside (outer : Bound) (ops : List Op)
    (hok : ops.all (Op.ok outer) = true) :
    ∃ t, QuadTree.run outer ops = some t ∧
      ∀ p q, ∀ h ∈ (t.rootNode.nodeAt (p ++ q)).items,
        (t.rootNode.nodeAt p).bound.contains (t.items.boundOf h) = true := by
  obtain ⟨t, h1, h2, h3, -⟩ := run_invIn outer ops hok
  refine ⟨t, h1, ?_⟩
  have key : ∀ (p : Path) (n : QuadTreeNode), QuadTreeNode.PathInv t.items.boundOf n →
      QuadTreeNode.PathInv t.items.boundOf (n.nodeAt p) := by
    intro p
    induction p with
    | nil => intro n hn; exact hn
    | cons i p ih => intro n hn; exact ih _ (pathInv_child i hn).1
  intro p q h hh
  rw [nodeAt_append] at hh
  have hnode : ((t.rootNode.nodeAt p).nodeAt q).isNode = true := by
    cases hq : ((t.rootNode.nodeAt p).nodeAt q).isNode
    · rw [items_nodeAt_of_not_isNode hq] at hh
      simp at hh
    · rfl
  exact pathInv_mem (key p _ h3.path) h (mem_handles_of_mem_items_nodeAt hnode hh)

/-! ## Invariants of every reachable tree -/

/-- C7 (I2): in every tree reached through the public interface, the handle
of every stored item is in the handle list of exactly one node, exactly once. -/
theorem handle_in_exactly_one_node (outer : Bound) (ops : List Op) :
    ∃ t, QuadTree.run outer ops = some t ∧
      ∀ h ∈ t.items.keys, ∃ p, (t.rootNode.nodeAt p).isNode = true ∧
        (t.rootNode.nodeAt p).items.count h = 1 ∧
        ∀ q, q ≠ p → h ∉ (t.rootNode.nodeAt q).items := by
  obtain ⟨t, h1, h2⟩ := run_inv outer ops
  refine ⟨t, h1, ?_⟩
  intro h hk
  have hh : h ∈ t.rootNode.handles := h2.sync.perm.mem_iff.2 hk
  have hone : t.rootNode.handles.count h = 1 := List.count_eq_one_of_mem h2.sync.nodup hh
  obtain ⟨p, hp1, hp2⟩ := exists_path_of_mem_handles t.rootNode hh
  have hpos := List.count_pos_iff.2 hp2
  refine ⟨p, hp1, ?_, ?_⟩
  · have := count_items_nodeAt_le h p t.rootNode hp1
    omega
  · intro q hq hm
    have := count_items_two_nodes h t.rootNode hq hp1
    have := List.count_pos_iff.2 hm
    omega

/-- C8 (I3): in every tree reached through the public interface, the handles
held across all nodes are, as a multiset, the addresses of the cells of the
master sequence, which are pairwise distinct; so every stored item is
referenced from a node, and every handle in a node points to a stored item. -/
theorem handles_are_master_cells (outer : Bound) (ops : List Op) :
    ∃ t, QuadTree.run outer ops = some t ∧
      t.rootNode.handles.Perm t.items.keys ∧ t.items.keys.Nodup ∧
      (∀ c ∈ t.items.cells, ∃ p, (t.rootNode.nodeAt p).isNode = true ∧
        c.1 ∈ (t.rootNode.nodeAt p).items) ∧
      (∀ p, ∀ h ∈ (t.rootNode.nodeAt p).items, ∃ s, t.items.deref h = some s ∧
        (h, s) ∈ t.items.cells) := by
  obtain ⟨t, h1, h2⟩ := run_inv outer ops
  refine ⟨t, h1, h2.sync.perm, sync_keys_nodup h2.sync, ?_, ?_⟩
  · intro c hc
    exact exists_path_of_mem_handles t.rootNode
      (h2.sync.perm.mem_iff.2 (List.mem_map_of_mem Prod.fst hc))
  · intro p h hh
    have hnode : (t.rootNode.nodeAt p).isNode = true := by
      cases hq : (t.rootNode.nodeAt p).isNode
      · rw [items_nodeAt_of_not_isNode hq] at hh
        simp at hh
      · rfl
    obtain ⟨s, hs, -⟩ := h2.sync.live h (mem_handles_of_mem_items_nodeAt hnode hh)
    exact ⟨s, hs, mem_of_lookup_eq_some h s _ hs⟩

/-- C9 (I4): in every tree reached through the public interface the root
exists, and the node at the end of every path of child indices records as its
depth the length of the path, which is below `MAXDEPTH = 6`: the root has depth
0, a child is one deeper than its parent, and no node is at depth `MAXDEPTH`. -/
theorem depth_below_maxdepth (outer : Bound) (ops : List Op) :
    ∃ t, QuadTree.run outer ops = some t ∧ t.rootNode.isNode = true ∧ MAXDEPTH = 6 ∧
      ∀ p, (t.rootNode.nodeAt p).isNode = true →
        (t.rootNode.nodeAt p).depth = p.length ∧ 0 ≤ (t.rootNode.nodeAt p).depth ∧
          (t.rootNode.nodeAt p).depth < MAXDEPTH := by
  obtain ⟨t, h1, h2⟩ := run_inv outer ops
  refine ⟨t, h1, h2.root, rfl, ?_⟩
  intro p hp
  obtain ⟨h3, -, h5⟩ := depth_nodeAt p t.rootNode 0 h2.depth hp
  simp only [zero_add] at h3 h5
  rw [h3]
  exact ⟨rfl, by omega, h5⟩

/-! ## Removing twice -/

theorem removeRec_idem (R : Bound) (test test2 : Handle → Bool) :
    ∀ (n : QuadTreeNode), (∀ x ∈ (n.removeRec R test).handles, test2 x = test x) →
      (n.removeRec R test).removeRec R test2 = n.removeRec R test := by
  intro n
  induction n with
  | nullptr => intro _; rfl
  | node l d b its c0 c1 c2 c3 cb h0 h1 h2 h3 =>
    intro hx
    by_cases hc : R.contains b = true
    · simp [QuadTreeNode.removeRec, hc, clearRec_clearRec]
    · simp only [QuadTreeNode.removeRec, hc, Bool.false_eq_true, if_false] at hx ⊢
      simp only [QuadTreeNode.handles, List.mem_append] at hx
      have hits : (its.filter (fun h => !test h)).filter (fun h => !test2 h)
          = its.filter (fun h => !test h) := by
        rw [List.filter_eq_self]
        intro x hxm
        rw [hx x (Or.inl hxm)]
        exact (List.mem_filter.1 hxm).2
      have key : ∀ (c : QuadTreeNode) (o : Bool),
          ((∀ x ∈ (c.removeRec R test).handles, test2 x = test x) →
            (c.removeRec R test).removeRec R test2 = c.removeRec R test) →
          (∀ x ∈ (if o = true then c.removeRec R test else c).handles, test2 x = test x) →
          (if o = true then (if o = true then c.removeRec R test else c).removeRec R test2
            else (if o = true then c.removeRec R test else c))
            = (if o = true then c.removeRec R test else c) := by
        intro c o ih hxc
        cases o
        · rfl
        · simp only [if_true] at hxc ⊢
          exact ih hxc
      rw [hits, key c0 _ h0 (fun x hm => hx x (Or.inr (Or.inl hm))),
        key c1 _ h1 (fun x hm => hx x (Or.inr (Or.inr (Or.inl hm)))),
        key c2 _ h2 (fun x hm => hx x (Or.inr (Or.inr (Or.inr (Or.inl hm))))),
        key c3 _ h3 (fun x hm => hx x (Or.inr (Or.inr (Or.inr (Or.inr hm)))))]

/-- A second removal with the same region and predicate changes nothing. -/
theorem remove_twice (t : QuadTree) (R : Bound) (P : Bound → Bound → Bool) (h : t.Inv) :
    ∃ r m2, t.rootNode.remove R t.items P = some (r, m2) ∧ r.remove R m2 P = some (r, m2) := by
  obtain ⟨m2, h1, h2, -, h4, -⟩ := remove_inv t R P h
  obtain ⟨m3, g1, g2, g3, -, -⟩ := remove_inv _ R P h2
  simp only at g1 g2 g3
  have hidem : (t.rootNode.removeRec R (fun x => P R (t.items.boundOf x))).removeRec R
      (fun x => P R (m2.boundOf x))
      = t.rootNode.removeRec R (fun x => P R (t.items.boundOf x)) := by
    apply removeRec_idem
    intro x hx
    show P R (m2.boundOf x) = P R (t.items.boundOf x)
    rw [h4 x (h2.sync.perm.mem_iff.1 hx)]
  rw [hidem] at g1 g2
  have hm : m3 = m2 := by
    have hcells : m3.cells = m2.cells := by
      rw [g3.cells, List.filter_eq_self]
      intro c hc
      have hk : c.1 ∈ m2.keys := List.mem_map_of_mem Prod.fst hc
      exact decide_eq_true (g2.sync.perm.mem_iff.1 (h2.sync.perm.mem_iff.2 hk))
    cases m3 with
    | mk cells3 next3 =>
      cases m2 with
      | mk cells2 next2 =>
        simp only at hcells
        have hnext : next3 = next2 := g3.next
        rw [hcells, hnext]
  rw [hm] at g1
  exact ⟨_, m2, h1, g1⟩

/-- C10: in every tree reached through the public interface and for every
region `R`, `removeOverlap(R)` returns a tree on which `removeOverlap(R)`
returns the same tree (master sequence and every node unchanged), and likewise
for `removeContain(R)`. -/
theorem remove_idempotent (outer : Bound) (ops : List Op) (R : Bound) :
    ∃ t t1 t2, QuadTree.run outer ops = some t ∧
      t.removeOverlap R = some t1 ∧ t1.removeOverlap R = some t1 ∧
      t.removeContain R = some t2 ∧ t2.removeContain R = some t2 := by
  obtain ⟨t, h1, h2⟩ := run_inv outer ops
  obtain ⟨r1, m1, a1, a2⟩ := remove_twice t R QuadTree.overlapFn h2
  obtain ⟨r2, m2, b1, b2⟩ := remove_twice t R QuadTree.containFn h2
  refine ⟨t, ⟨m1, r1⟩, ⟨m2, r2⟩, h1, ?_, ?_, ?_, ?_⟩
  · simp only [QuadTree.removeOverlap, a1, Option.map]
  · simp only [QuadTree.removeOverlap, a2, Option.map]
  · simp only [QuadTree.removeContain, b1, Option.map]
  · simp only [QuadTree.removeContain, b2, Option.map]

end qt

namespace qt

/-! ## The predicates and the subdivision of `Bound` -/

/-- C15: for well-formed bounds, `overlaps` holds exactly when the two closed
rectangles have an integer point in common; bounds that touch along an edge,
or only at a corner, overlap. -/
theorem overlaps_iff_common_point (a b : Bound) (ha : a.wellFormed = true)
    (hb : b.wellFormed = true) :
    (a.overlaps b = true ↔ ∃ x y, a.hasPoint x y ∧ b.hasPoint x y) ∧
      (a.bottomRight.x = b.topLeft.x → a.topLeft.y ≤ b.bottomRight.y →
        b.topLeft.y ≤ a.bottomRight.y → a.overlaps b = true) ∧
      (a.bottomRight.y = b.topLeft.y → a.topLeft.x ≤ b.bottomRight.x →
        b.topLeft.x ≤ a.bottomRight.x → a.overlaps b = true) ∧
      (a.bottomRight = b.topLeft → a.overlaps b = true) := by
  simp only [Bound.wellFormed, Bool.and_eq_true, decide_eq_true_eq] at ha hb
  refine ⟨⟨?_, ?_⟩, ?_, ?_, ?_⟩
  · intro h
    simp only [Bound.overlaps, Bool.and_eq_true, decide_eq_true_eq, ge_iff_le] at h
    refine ⟨max a.topLeft.x b.topLeft.x, max a.topLeft.y b.topLeft.y, ?_, ?_⟩ <;>
      simp only [Bound.hasPoint] <;> omega
  · rintro ⟨x, y, h1, h2⟩
    simp only [Bound.hasPoint] at h1 h2
    simp only [Bound.overlaps, Bool.and_eq_true, decide_eq_true_eq, ge_iff_le]
    omega
  · intro h1 h2 h3
    simp only [Bound.overlaps, Bool.and_eq_true, decide_eq_true_eq, ge_iff_le]
    omega
  · intro h1 h2 h3
    simp only [Bound.overlaps, Bool.and_eq_true, decide_eq_true_eq, ge_iff_le]
    omega
  · intro h
    have hx : a.bottomRight.x = b.topLeft.x := by rw [h]
    have hy : a.bottomRight.y = b.topLeft.y := by rw [h]
    simp only [Bound.overlaps, Bool.and_eq_true, decide_eq_true_eq, ge_iff_le]
    omega

/-- An instance of C15: `((0,0),(5,5))` and `((5,5),(9,9))` touch at the corner
`(5,5)` only, and overlap. -/
theorem overlaps_iff_common_point_witness :
    (mkBound 0 0 5 5).wellFormed = true ∧ (mkBound 5 5 9 9).wellFormed = true ∧
      (mkBound 0 0 5 5).overlaps (mkBound 5 5 9 9) = true ∧
      (((mkBound 0 0 5 5).overlaps (mkBound 5 5 9 9) = true ↔
          ∃ x y, (mkBound 0 0 5 5).hasPoint x y ∧ (mkBound 5 5 9 9).hasPoint x y) ∧
        ((mkBound 0 0 5 5).bottomRight.x = (mkBound 5 5 9 9).topLeft.x →
          (mkBound 0 0 5 5).topLeft.y ≤ (mkBound 5 5 9 9).bottomRight.y →
          (mkBound 5 5 9 9).topLeft.y ≤ (mkBound 0 0 5 5).bottomRight.y →
          (mkBound 0 0 5 5).overlaps (mkBound 5 5 9 9) = true) ∧
        ((mkBound 0 0 5 5).bottomRight.y = (mkBound 5 5 9 9).topLeft.y →
          (mkBound 0 0 5 5).topLeft.x ≤ (mkBound 5 5 9 9).bottomRight.x →
          (mkBound 5 5 9 9).topLeft.x ≤ (mkBound 0 0 5 5).bottomRight.x →
          (mkBound 0 0 5 5).overlaps (mkBound 5 5 9 9) = true) ∧
        ((mkBound 0 0 5 5).bottomRight = (mkBound 5 5 9 9).topLeft →
          (mkBound 0 0 5 5).overlaps (mkBound 5 5 9 9) = true)) :=
  ⟨by decide, by decide, by decide,
    overlaps_iff_common_point (mkBound 0 0 5 5) (mkBound 5 5 9 9) (by decide) (by decide)⟩

/-- C16: for a well-formed bound `b`, `a.contains(b)` holds exactly when every
integer point of the closed rectangle `b` lies in the closed rectangle `a`; and
every bound contains itself. -/
theorem contains_iff_all_points (a b : Bound) (hb : b.wellFormed = true) :
    (a.contains b = true ↔ ∀ x y, b.hasPoint x y → a.hasPoint x y) ∧
      a.contains a = true ∧ b.contains b = true := by
  simp only [Bound.wellFormed, Bool.and_eq_true, decide_eq_true_eq] at hb
  refine ⟨⟨?_, ?_⟩, contains_self a, contains_self b⟩
  · intro h x y hp
    simp only [Bound.contains, Bool.and_eq_true, decide_eq_true_eq, ge_iff_le] at h
    simp only [Bound.hasPoint] at hp ⊢
    omega
  · intro h
    have h1 := h b.topLeft.x b.topLeft.y (by simp only [Bound.hasPoint]; omega)
    have h2 := h b.bottomRight.x b.bottomRight.y (by simp only [Bound.hasPoint]; omega)
    simp only [Bound.hasPoint] at h1 h2
    simp only [Bound.contains, Bool.and_eq_true, decide_eq_true_eq, ge_iff_le]
    omega

/-- An instance of C16: `((0,0),(10,10))` contains `((2,3),(10,10))`, and an
ill-formed bound contains itself as well. -/
theorem contains_iff_all_points_witness :
    (mkBound 2 3 10 10).wellFormed = true ∧
      (mkBound 0 0 10 10).contains (mkBound 2 3 10 10) = true ∧
      (mkBound 5 5 3 3).contains (mkBound 5 5 3 3) = true ∧
      (((mkBound 0 0 10 10).contains (mkBound 2 3 10 10) = true ↔
          ∀ x y, (mkBound 2 3 10 10).hasPoint x y → (mkBound 0 0 10 10).hasPoint x y) ∧
        (mkBound 0 0 10 10).contains (mkBound 0 0 10 10) = true ∧
        (mkBound 2 3 10 10).contains (mkBound 2 3 10 10) = true) :=
  ⟨by decide, by decide, by decide,
    contains_iff_all_points (mkBound 0 0 10 10) (mkBound 2 3 10 10) (by decide)⟩

theorem tdiv_two_bounds (z : Int) :
    (0 ≤ z → 0 ≤ 2 * Int.tdiv z 2 ∧ 2 * Int.tdiv z 2 ≤ z ∧ z ≤ 2 * Int.tdiv z 2 + 1) ∧
      (z ≤ 0 → z ≤ 2 * Int.tdiv z 2 ∧ 2 * Int.tdiv z 2 ≤ 0 ∧ 2 * Int.tdiv z 2 - 1 ≤ z) := by
  constructor
  · intro h
    rw [Int.tdiv_eq_ediv h (by omega)]
    omega
  · intro h
    have e : Int.tdiv z 2 = -((-z) / 2) := by
      have := Int.neg_tdiv (-z) 2
      rw [neg_neg] at this
      rw [this, Int.tdiv_eq_ediv (by omega) (by omega)]
    rw [e]
    omega

theorem inInt32_iff (z : Int) : inInt32 z = true ↔ -2147483648 ≤ z ∧ z ≤ 2147483647 := by
  simp [inInt32]

theorem small_iff (b : Bound) :
    b.small = true ↔
      (-2147483648 ≤ b.topLeft.x ∧ b.topLeft.x ≤ 2147483647) ∧
      (-2147483648 ≤ b.topLeft.y ∧ b.topLeft.y ≤ 2147483647) ∧
      (-2147483648 ≤ b.bottomRight.x ∧ b.bottomRight.x ≤ 2147483647) ∧
      (-2147483648 ≤ b.bottomRight.y ∧ b.bottomRight.y ≤ 2147483647) ∧
      (-2147483648 ≤ b.bottomRight.x - b.topLeft.x ∧
        b.bottomRight.x - b.topLeft.x ≤ 2147483647) ∧
      (-2147483648 ≤ b.bottomRight.y - b.topLeft.y ∧
        b.bottomRight.y - b.topLeft.y ≤ 2147483647) := by
  simp only [Bound.small, Bool.and_eq_true, inInt32_iff]
  tauto

/-- Without overflow the quadrants are given by the formula over the integers. -/
theorem getQuadDivision_small (b : Bound) (hs : b.small = true) :
    b.getQuadDivision
      = ⟨⟨b.topLeft,
          ⟨b.topLeft.x + Int.tdiv (b.bottomRight.x - b.topLeft.x) 2,
           b.topLeft.y + Int.tdiv (b.bottomRight.y - b.topLeft.y) 2⟩⟩,
         ⟨⟨b.topLeft.x + Int.tdiv (b.bottomRight.x - b.topLeft.x) 2, b.topLeft.y⟩,
          ⟨b.bottomRight.x, b.topLeft.y + Int.tdiv (b.bottomRight.y - b.topLeft.y) 2⟩⟩,
         ⟨⟨b.topLeft.x, b.topLeft.y + Int.tdiv (b.bottomRight.y - b.topLeft.y) 2⟩,
          ⟨b.topLeft.x + Int.tdiv (b.bottomRight.x - b.topLeft.x) 2, b.bottomRight.y⟩⟩,
         ⟨⟨b.topLeft.x + Int.tdiv (b.bottomRight.x - b.topLeft.x) 2,
           b.topLeft.y + Int.tdiv (b.bottomRight.y - b.topLeft.y) 2⟩, b.bottomRight⟩⟩ := by
  rw [small_iff] at hs
  have hx := tdiv_two_bounds (b.bottomRight.x - b.topLeft.x)
  have hy := tdiv_two_bounds (b.bottomRight.y - b.topLeft.y)
  have wx : wrap32 (b.bottomRight.x - b.topLeft.x) = b.bottomRight.x - b.topLeft.x :=
    wrap32_small (by omega) (by omega)
  have wy : wrap32 (b.bottomRight.y - b.topLeft.y) = b.bottomRight.y - b.topLeft.y :=
    wrap32_small (by omega) (by omega)
  have ax : wrap32 (b.topLeft.x + Int.tdiv (b.bottomRight.x - b.topLeft.x) 2)
      = b.topLeft.x + Int.tdiv (b.bottomRight.x - b.topLeft.x) 2 := by
    apply wrap32_small
    · rcases le_total 0 (b.bottomRight.x - b.topLeft.x) with h | h
      · have := hx.1 h; omega
      · have := hx.2 h; omega
    · rcases le_total 0 (b.bottomRight.x - b.topLeft.x) with h | h
      · have := hx.1 h; omega
      · have := hx.2 h; omega
  have ay : wrap32 (b.topLeft.y + Int.tdiv (b.bottomRight.y - b.topLeft.y) 2)
      = b.topLeft.y + Int.tdiv (b.bottomRight.y - b.topLeft.y) 2 := by
    apply wrap32_small
    · rcases le_total 0 (b.bottomRight.y - b.topLeft.y) with h | h
      · have := hy.1 h; omega
      · have := hy.2 h; omega
    · rcases le_total 0 (b.bottomRight.y - b.topLeft.y) with h | h
      · have := hy.1 h; omega
      · have := hy.2 h; omega
  simp only [Bound.getQuadDivision, Vec2D_i32.add, wx, wy, ax, ay]

/-- C17: for every bound, `getQuadDivision` returns, in the order NW, NE, SW,
SE, the bounds `(tl, tl + half)`, `((tl.x + half.x, tl.y), (br.x, tl.y + half.y))`,
`((tl.x, tl.y + half.y), (tl.x + half.x, br.y))`, `(tl + half, br)` with
`half = (br - tl) / 2` in 32-bit arithmetic, the division truncating toward
zero (`2 * half` lies between `0` and the extent, at distance at most one from
the extent, also for a negative extent); when the subtraction does not overflow
these are the same expressions over the integers. -/
theorem getQuadDivision_formula (b : Bound) :
    ∃ hx hy : Int,
      hx = Int.tdiv (wrap32 (b.bottomRight.x - b.topLeft.x)) 2 ∧
      hy = Int.tdiv (wrap32 (b.bottomRight.y - b.topLeft.y)) 2 ∧
      b.getQuadDivision
        = ⟨⟨b.topLeft, b.topLeft.add ⟨hx, hy⟩⟩,
           ⟨⟨wrap32 (b.topLeft.x + hx), b.topLeft.y⟩, ⟨b.bottomRight.x, wrap32 (b.topLeft.y + hy)⟩⟩,
           ⟨⟨b.topLeft.x, wrap32 (b.topLeft.y + hy)⟩, ⟨wrap32 (b.topLeft.x + hx), b.bottomRight.y⟩⟩,
           ⟨b.topLeft.add ⟨hx, hy⟩, b.bottomRight⟩⟩ ∧
      (∀ z : Int, (0 ≤ z → 0 ≤ 2 * Int.tdiv z 2 ∧ 2 * Int.tdiv z 2 ≤ z ∧
          z ≤ 2 * Int.tdiv z 2 + 1) ∧
        (z ≤ 0 → z ≤ 2 * Int.tdiv z 2 ∧ 2 * Int.tdiv z 2 ≤ 0 ∧ 2 * Int.tdiv z 2 - 1 ≤ z)) ∧
      (b.small = true →
        hx = Int.tdiv (b.bottomRight.x - b.topLeft.x) 2 ∧
        hy = Int.tdiv (b.bottomRight.y - b.topLeft.y) 2 ∧
        b.getQuadDivision
          = ⟨⟨b.topLeft, ⟨b.topLeft.x + hx, b.topLeft.y + hy⟩⟩,
             ⟨⟨b.topLeft.x + hx, b.topLeft.y⟩, ⟨b.bottomRight.x, b.topLeft.y + hy⟩⟩,
             ⟨⟨b.topLeft.x, b.topLeft.y + hy⟩, ⟨b.topLeft.x + hx, b.bottomRight.y⟩⟩,
             ⟨⟨b.topLeft.x + hx, b.topLeft.y + hy⟩, b.bottomRight⟩⟩) := by
  refine ⟨_, _, rfl, rfl, rfl, tdiv_two_bounds, ?_⟩
  intro hs
  have h := getQuadDivision_small b hs
  rw [small_iff] at hs
  have wx : wrap32 (b.bottomRight.x - b.topLeft.x) = b.bottomRight.x - b.topLeft.x :=
    wrap32_small (by omega) (by omega)
  have wy : wrap32 (b.bottomRight.y - b.topLeft.y) = b.bottomRight.y - b.topLeft.y :=
    wrap32_small (by omega) (by omega)
  rw [wx, wy]
  exact ⟨rfl, rfl, h⟩

/-- The examples of C17: the bound `((0,0),(-3,-3))` gives `half = (-1,-1)` and
the bound `((0,0),(3,3))` gives `half = (1,1)`. -/
theorem getQuadDivision_formula_witness :
    (mkBound 0 0 (-3) (-3)).small = true ∧
      (mkBound 0 0 (-3) (-3)).getQuadDivision
        = ⟨mkBound 0 0 (-1) (-1), mkBound (-1) 0 (-3) (-1), mkBound 0 (-1) (-1) (-3),
           mkBound (-1) (-1) (-3) (-3)⟩ ∧
      (mkBound 0 0 3 3).getQuadDivision
        = ⟨mkBound 0 0 1 1, mkBound 1 0 3 1, mkBound 0 1 1 3, mkBound 1 1 3 3⟩ ∧
      ∃ hx hy : Int,
        hx = Int.tdiv (wrap32 ((mkBound 0 0 (-3) (-3)).bottomRight.x
          - (mkBound 0 0 (-3) (-3)).topLeft.x)) 2 ∧
        hy = Int.tdiv (wrap32 ((mkBound 0 0 (-3) (-3)).bottomRight.y
          - (mkBound 0 0 (-3) (-3)).topLeft.y)) 2 ∧ hx = -1 ∧ hy = -1 := by
  obtain ⟨hx, hy, h1, h2, -, -, -⟩ := getQuadDivision_formula (mkBound 0 0 (-3) (-3))
  exact ⟨by decide, by decide, by decide, hx, hy, h1, h2, by rw [h1]; decide, by rw [h2]; decide⟩

/-- C19, the code at the failing input: the bound `((0,0),(3,3))` is
quad-divisible, and its NW quadrant `((0,0),(1,1))` has width and height 1
while its SE quadrant `((1,1),(3,3))` has width and height 2. -/
theorem quadrants_not_equal :
    (mkBound 0 0 3 3).quadDivisible = true ∧
      (mkBound 0 0 3 3).getQuadDivision
        = ⟨mkBound 0 0 1 1, mkBound 1 0 3 1, mkBound 0 1 1 3, mkBound 1 1 3 3⟩ ∧
      (mkBound 0 0 3 3).getQuadDivision.e0.bottomRight.x
        - (mkBound 0 0 3 3).getQuadDivision.e0.topLeft.x = 1 ∧
      (mkBound 0 0 3 3).getQuadDivision.e3.bottomRight.x
        - (mkBound 0 0 3 3).getQuadDivision.e3.topLeft.x = 2 ∧
      (mkBound 0 0 3 3).getQuadDivision.e0.bottomRight.y
        - (mkBound 0 0 3 3).getQuadDivision.e0.topLeft.y = 1 ∧
      (mkBound 0 0 3 3).getQuadDivision.e3.bottomRight.y
        - (mkBound 0 0 3 3).getQuadDivision.e3.topLeft.y = 2 := by
  decide

end qt

namespace qt

/-! ## One iteration of the loop of `insert` -/

/-- One iteration of the loop of `insert` at a node: either the handle is
appended to the node's list (the node is a leaf, or no child can take the
item), or the loop continues at the child `findNext` selects, which is the
existing child or a node constructed at the child bound, one level deeper. -/
theorem insertLoop_step (item : Handle) (b : Bound) (fuel : Nat) (l : Bool) (d : Int)
    (bd : Bound) (its : List Handle) (c0 c1 c2 c3 : QuadTreeNode) (cb : Array4 Bound) :
    (QuadTreeNode.insertLoop item b (fuel + 1) (.node l d bd its c0 c1 c2 c3 cb)
        = some (.node l d bd (its ++ [item]) c0 c1 c2 c3 cb) ∧
      (l = true ∨ QuadTreeNode.findNext (.node l d bd its c0 c1 c2 c3 cb) b idx4 = none)) ∨
    (∃ i, l = false ∧
      QuadTreeNode.findNext (.node l d bd its c0 c1 c2 c3 cb) b idx4 = some i ∧
      QuadTreeNode.insertLoop item b (fuel + 1) (.node l d bd its c0 c1 c2 c3 cb)
        = (QuadTreeNode.insertLoop item b fuel
            (if ((QuadTreeNode.node l d bd its c0 c1 c2 c3 cb).child i).isNode = true
              then (QuadTreeNode.node l d bd its c0 c1 c2 c3 cb).child i
              else QuadTreeNode.new (cb.get i) (wrap32 (d + 1)))).map
            ((QuadTreeNode.node l d bd its c0 c1 c2 c3 cb).setChild i)) := by
  cases l with
  | true =>
    left
    exact ⟨by simp [QuadTreeNode.insertLoop], Or.inl rfl⟩
  | false =>
    cases hfn : QuadTreeNode.findNext (.node false d bd its c0 c1 c2 c3 cb) b idx4 with
    | none =>
      left
      exact ⟨by simp [QuadTreeNode.insertLoop, hfn], Or.inr rfl⟩
    | some i =>
      right
      exact ⟨i, rfl, rfl, by simp [QuadTreeNode.insertLoop, hfn]⟩

theorem child_setChild_same (l : Bool) (d : Int) (bd : Bound) (its : List Handle)
    (c0 c1 c2 c3 : QuadTreeNode) (cb : Array4 Bound) (i : Fin 4) (c : QuadTreeNode) :
    ((QuadTreeNode.node l d bd its c0 c1 c2 c3 cb).setChild i c).child i = c := by
  fin_cases i <;> rfl

theorem shapeInv_new (b : Bound) (d : Int) : (QuadTreeNode.new b d).ShapeInv := by
  simp only [QuadTreeNode.new, QuadTreeNode.ShapeInv, QuadTreeNode.isNode]
  refine ⟨trivial, ?_, ?_, ?_⟩
  · intro h
    simp [h]
  · intro _
    simp
  · simp

theorem shapeInv_child {n : QuadTreeNode} (i : Fin 4) (h : n.ShapeInv) :
    (n.child i).ShapeInv ∧
      ((n.child i).isNode = true → (n.child i).bound = n.childrenBounds.get i) := by
  cases n with
  | nullptr => simp [QuadTreeNode.child, QuadTreeNode.ShapeInv, QuadTreeNode.isNode]
  | node l d b its c0 c1 c2 c3 cb =>
    simp only [QuadTreeNode.ShapeInv] at h
    obtain ⟨-, -, -, g1, g2, g3, g4, g5, g6, g7, g8⟩ := h
    fin_cases i
    · exact ⟨g5, g1⟩
    · exact ⟨g6, g2⟩
    · exact ⟨g7, g3⟩
    · exact ⟨g8, g4⟩

theorem shapeInv_setChild {l : Bool} {d : Int} {bd : Bound} {its : List Handle}
    {c0 c1 c2 c3 : QuadTreeNode} {cb : Array4 Bound} (i : Fin 4) {c : QuadTreeNode}
    (h : (QuadTreeNode.node l d bd its c0 c1 c2 c3 cb).ShapeInv) (hl : l = false)
    (hc : c.ShapeInv) (hb : c.isNode = true → c.bound = cb.get i) :
    ((QuadTreeNode.node l d bd its c0 c1 c2 c3 cb).setChild i c).ShapeInv := by
  simp only [QuadTreeNode.ShapeInv] at h
  obtain ⟨e1, e2, -, g1, g2, g3, g4, g5, g6, g7, g8⟩ := h
  have e3 : l = true → False := fun h => by rw [hl] at h; exact Bool.false_ne_true h
  fin_cases i <;> simp only [QuadTreeNode.setChild, QuadTreeNode.ShapeInv]
  · exact ⟨e1, e2, fun h => (e3 h).elim, hb, g2, g3, g4, hc, g6, g7, g8⟩
  · exact ⟨e1, e2, fun h => (e3 h).elim, g1, hb, g3, g4, g5, hc, g7, g8⟩
  · exact ⟨e1, e2, fun h => (e3 h).elim, g1, g2, hb, g4, g5, g6, hc, g8⟩
  · exact ⟨e1, e2, fun h => (e3 h).elim, g1, g2, g3, hb, g5, g6, g7, hc⟩

theorem shapeInv_setItems {l : Bool} {d : Int} {bd : Bound} {its its2 : List Handle}
    {c0 c1 c2 c3 : QuadTreeNode} {cb : Array4 Bound}
    (h : (QuadTreeNode.node l d bd its c0 c1 c2 c3 cb).ShapeInv) :
    (QuadTreeNode.node l d bd its2 c0 c1 c2 c3 cb).ShapeInv := by
  simpa only [QuadTreeNode.ShapeInv] using h

/-- The loop of `insert` keeps the members of every node as the constructor
computes them, and keeps the bound of the node it starts at. -/
theorem insertLoop_shape (item : Handle) (b : Bound) :
    ∀ (fuel : Nat) (n n2 : QuadTreeNode), QuadTreeNode.insertLoop item b fuel n = some n2 →
      n.ShapeInv → n2.ShapeInv ∧ n2.bound = n.bound ∧ n2.isNode = true := by
  intro fuel
  induction fuel with
  | zero =>
    intro n n2 h _
    cases n <;> simp [QuadTreeNode.insertLoop] at h
  | succ fuel ih =>
    intro n n2 h hs
    cases n with
    | nullptr => simp [QuadTreeNode.insertLoop] at h
    | node l d bd its c0 c1 c2 c3 cb =>
      rcases insertLoop_step item b fuel l d bd its c0 c1 c2 c3 cb with ⟨h1, -⟩ | ⟨i, hl, hfn, h1⟩
      · rw [h1] at h
        cases h
        exact ⟨shapeInv_setItems hs, rfl, rfl⟩
      · rw [h1] at h
        obtain ⟨hcont, -⟩ := findNext_some hfn
        cases hrec : QuadTreeNode.insertLoop item b fuel
            (if ((QuadTreeNode.node l d bd its c0 c1 c2 c3 cb).child i).isNode = true
              then (QuadTreeNode.node l d bd its c0 c1 c2 c3 cb).child i
              else QuadTreeNode.new (cb.get i) (wrap32 (d + 1))) with
        | none => rw [hrec] at h; simp at h
        | some n3 =>
          rw [hrec] at h
          simp only [Option.map, Option.some.injEq] at h
          subst h
          have hnext : (if ((QuadTreeNode.node l d bd its c0 c1 c2 c3 cb).child i).isNode = true
              then (QuadTreeNode.node l d bd its c0 c1 c2 c3 cb).child i
              else QuadTreeNode.new (cb.get i) (wrap32 (d + 1))).ShapeInv ∧
              (if ((QuadTreeNode.node l d bd its c0 c1 c2 c3 cb).child i).isNode = true
              then (QuadTreeNode.node l d bd its c0 c1 c2 c3 cb).child i
              else QuadTreeNode.new (cb.get i) (wrap32 (d + 1))).bound = cb.get i := by
            by_cases hex : ((QuadTreeNode.node l d bd its c0 c1 c2 c3 cb).child i).isNode = true
            · rw [if_pos hex]
              exact ⟨(shapeInv_child i hs).1, (shapeInv_child i hs).2 hex⟩
            · rw [if_neg hex]
              exact ⟨shapeInv_new _ _, rfl⟩
          obtain ⟨g1, g2, g3⟩ := ih _ n3 hrec hnext.1
          refine ⟨shapeInv_setChild i hs hl g1 (fun _ => by rw [g2]; exact hnext.2), ?_, ?_⟩
          · rw [bound_setChild]
          · rw [isNode_setChild]; rfl

theorem shapeInv_clearRec {n : QuadTreeNode} : n.clearRec.ShapeInv ↔ n.ShapeInv := by
  induction n with
  | nullptr => rfl
  | node l d b its c0 c1 c2 c3 cb h0 h1 h2 h3 =>
    have e : ∀ c : QuadTreeNode, c.clearRec = .nullptr ↔ c = .nullptr := by
      intro c; cases c <;> simp [QuadTreeNode.clearRec]
    simp only [QuadTreeNode.clearRec, QuadTreeNode.ShapeInv, h0, h1, h2, h3, isNode_clearRec,
      bound_clearRec, e]

theorem shapeInv_removeRec {n : QuadTreeNode} (R : Bound) (test : Handle → Bool)
    (h : n.ShapeInv) : (n.removeRec R test).ShapeInv := by
  rw [← shapeInv_clearRec, clearRec_removeRec, shapeInv_clearRec]
  exact h

end qt

namespace qt

/-! ## Containment below the root, without a precondition -/

theorem belowInv_of_pathInv {bnd : Handle → Bound} {n : QuadTreeNode}
    (h : QuadTreeNode.PathInv bnd n) : QuadTreeNode.BelowInv bnd n := by
  cases n with
  | nullptr => trivial
  | node l d b its c0 c1 c2 c3 cb =>
    simp only [QuadTreeNode.PathInv] at h
    simp only [QuadTreeNode.BelowInv]
    exact h.2

theorem belowInv_congr {bnd bnd2 : Handle → Bound} (n : QuadTreeNode)
    (he : ∀ x ∈ n.handles, bnd x = bnd2 x) (h : QuadTreeNode.BelowInv bnd n) :
    QuadTreeNode.BelowInv bnd2 n := by
  cases n with
  | nullptr => trivial
  | node l d b its c0 c1 c2 c3 cb =>
    simp only [QuadTreeNode.BelowInv] at h ⊢
    simp only [QuadTreeNode.handles] at he
    obtain ⟨h1, h2, h3, h4, h5, h6, h7, h8⟩ := h
    refine ⟨h1, h2, h3, h4,
      pathInv_congr c0 (fun x hx => he x ?_) h5, pathInv_congr c1 (fun x hx => he x ?_) h6,
      pathInv_congr c2 (fun x hx => he x ?_) h7, pathInv_congr c3 (fun x hx => he x ?_) h8⟩
    all_goals simp [hx]

theorem belowInv_removeRec (bnd : Handle → Bound) (R : Bound) (test : Handle → Bool)
    (n : QuadTreeNode) (h : QuadTreeNode.BelowInv bnd n) :
    QuadTreeNode.BelowInv bnd (n.removeRec R test) := by
  cases n with
  | nullptr => trivial
  | node l d b its c0 c1 c2 c3 cb =>
    simp only [QuadTreeNode.BelowInv] at h
    obtain ⟨g1, g2, g3, g4, g5, g6, g7, g8⟩ := h
    by_cases hc : R.contains b = true
    · simp only [QuadTreeNode.removeRec, hc, if_true, QuadTreeNode.BelowInv, isNode_clearRec,
        bound_clearRec]
      exact ⟨g1, g2, g3, g4, pathInv_clearRec _ _ g5, pathInv_clearRec _ _ g6,
        pathInv_clearRec _ _ g7, pathInv_clearRec _ _ g8⟩
    · simp only [QuadTreeNode.removeRec, hc, QuadTreeNode.BelowInv]
      refine ⟨?_, ?_, ?_, ?_, ?_, ?_, ?_, ?_⟩
      all_goals split_ifs
      all_goals first
        | assumption
        | (rw [isNode_removeRec, bound_removeRec]; assumption)
        | exact pathInv_removeRec _ _ _ _ g5
        | exact pathInv_removeRec _ _ _ _ g6
        | exact pathInv_removeRec _ _ _ _ g7
        | exact pathInv_removeRec _ _ _ _ g8

theorem belowInv_setChild {bnd : Handle → Bound} {l : Bool} {d : Int} {bd : Bound}
    {its : List Handle} {c0 c1 c2 c3 : QuadTreeNode} {cb : Array4 Bound} (i : Fin 4)
    {c : QuadTreeNode}
    (h : QuadTreeNode.BelowInv bnd (.node l d bd its c0 c1 c2 c3 cb))
    (hc : QuadTreeNode.PathInv bnd c) (hb : c.isNode = true → c.bound = cb.get i) :
    QuadTreeNode.BelowInv bnd ((QuadTreeNode.node l d bd its c0 c1 c2 c3 cb).setChild i c) := by
  simp only [QuadTreeNode.BelowInv] at h
  obtain ⟨g1, g2, g3, g4, g5, g6, g7, g8⟩ := h
  fin_cases i <;> simp only [QuadTreeNode.setChild, QuadTreeNode.BelowInv]
  · exact ⟨hb, g2, g3, g4, hc, g6, g7, g8⟩
  · exact ⟨g1, hb, g3, g4, g5, hc, g7, g8⟩
  · exact ⟨g1, g2, hb, g4, g5, g6, hc, g8⟩
  · exact ⟨g1, g2, g3, hb, g5, g6, g7, hc⟩

theorem belowInv_child {bnd : Handle → Bound} {n : QuadTreeNode} (i : Fin 4)
    (h : QuadTreeNode.BelowInv bnd n) :
    QuadTreeNode.PathInv bnd (n.child i) ∧
      ((n.child i).isNode = true → (n.child i).bound = n.childrenBounds.get i) := by
  cases n with
  | nullptr => simp [QuadTreeNode.child, QuadTreeNode.PathInv, QuadTreeNode.isNode]
  | node l d b its c0 c1 c2 c3 cb =>
    simp only [QuadTreeNode.BelowInv] at h
    obtain ⟨g1, g2, g3, g4, g5, g6, g7, g8⟩ := h
    fin_cases i
    · exact ⟨g5, g1⟩
    · exact ⟨g6, g2⟩
    · exact ⟨g7, g3⟩
    · exact ⟨g8, g4⟩

/-- The loop of `insert` keeps containment below the node it starts at, whether
or not that node's bound contains the item. -/
theorem insertLoop_below (item : Handle) (b : Bound) (bnd : Handle → Bound)
    (fuel : Nat) (n n2 : QuadTreeNode) (d : Int) (hd : QuadTreeNode.DepthInv d n)
    (hf : MAXDEPTH ≤ d + fuel) (hb : bnd item = b) (hbelow : QuadTreeNode.BelowInv bnd n)
    (h : QuadTreeNode.insertLoop item b fuel n = some n2) :
    QuadTreeNode.BelowInv bnd n2 := by
  cases fuel with
  | zero => cases n <;> simp [QuadTreeNode.insertLoop] at h
  | succ fuel =>
    cases n with
    | nullptr => simp [QuadTreeNode.insertLoop] at h
    | node l dn bd its c0 c1 c2 c3 cb =>
      have hd2 := hd
      simp only [QuadTreeNode.DepthInv, MAXDEPTH] at hd2
      obtain ⟨hdd, hd0, hd6, -⟩ := hd2
      subst hdd
      rcases insertLoop_step item b fuel l dn bd its c0 c1 c2 c3 cb with ⟨h1, -⟩ | ⟨i, hl, hfn, h1⟩
      · rw [h1] at h
        cases h
        simpa only [QuadTreeNode.BelowInv] using hbelow
      · rw [h1] at h
        obtain ⟨hcont, hcreate⟩ := findNext_some hfn
        simp only [QuadTreeNode.depth, MAXDEPTH, QuadTreeNode.childrenBounds] at hcreate hcont
        have hnext : (if ((QuadTreeNode.node l dn bd its c0 c1 c2 c3 cb).child i).isNode = true
            then (QuadTreeNode.node l dn bd its c0 c1 c2 c3 cb).child i
            else QuadTreeNode.new (cb.get i) (wrap32 (dn + 1))).isNode = true ∧
            QuadTreeNode.DepthInv (dn + 1)
              (if ((QuadTreeNode.node l dn bd its c0 c1 c2 c3 cb).child i).isNode = true
              then (QuadTreeNode.node l dn bd its c0 c1 c2 c3 cb).child i
              else QuadTreeNode.new (cb.get i) (wrap32 (dn + 1))) ∧
            QuadTreeNode.PathInv bnd
              (if ((QuadTreeNode.node l dn bd its c0 c1 c2 c3 cb).child i).isNode = true
              then (QuadTreeNode.node l dn bd its c0 c1 c2 c3 cb).child i
              else QuadTreeNode.new (cb.get i) (wrap32 (dn + 1))) ∧
            (if ((QuadTreeNode.node l dn bd its c0 c1 c2 c3 cb).child i).isNode = true
              then (QuadTreeNode.node l dn bd its c0 c1 c2 c3 cb).child i
              else QuadTreeNode.new (cb.get i) (wrap32 (dn + 1))).bound = cb.get i := by
          by_cases hex : ((QuadTreeNode.node l dn bd its c0 c1 c2 c3 cb).child i).isNode = true
          · rw [if_pos hex]
            exact ⟨hex, depthInv_child i hd, (belowInv_child i hbelow).1,
              (belowInv_child i hbelow).2 hex⟩
          · rw [if_neg hex]
            have hlt : dn < 5 := by
              rcases hcreate with h | h
              · exact absurd h hex
              · omega
            have hw : wrap32 (dn + 1) = dn + 1 := wrap32_small (by omega) (by omega)
            refine ⟨rfl, ?_, pathInv_new _ _ _, rfl⟩
            rw [hw]
            simp only [QuadTreeNode.new, QuadTreeNode.DepthInv, MAXDEPTH]
            exact ⟨trivial, by omega, by omega, trivial, trivial, trivial, trivial⟩
        obtain ⟨g1, g2, g3, g4⟩ := hnext
        obtain ⟨n3, k1, -, -, k4, -, k6⟩ := insertLoop_spec item b fuel _ (dn + 1) g1 g2
          (by simp only [MAXDEPTH] at hf ⊢; omega)
        rw [k1] at h
        simp only [Option.map, Option.some.injEq] at h
        subst h
        exact belowInv_setChild i hbelow (k6 bnd hb g3 (by rw [g4]; exact hcont))
          (fun _ => by rw [k4, g4])

/-! ## The invariants of every call, continued -/

theorem insert_eq (t : QuadTree) (s : Shape) (h : t.Inv) :
    t.insert s = (QuadTreeNode.insertLoop t.items.next s.toBound
        (t.rootNode.height + MAXDEPTH.toNat) t.rootNode).map
      (fun r => ⟨t.items.push_back s, r⟩) ∧
    (t.items.push_back s).boundOf t.items.next = s.toBound ∧
    (∀ x ∈ t.items.keys, (t.items.push_back s).boundOf x = t.items.boundOf x) := by
  have hnotin : t.items.next ∉ t.items.keys := fun hm => Nat.lt_irrefl _ (h.fresh _ hm)
  have hprev : (t.items.push_back s).prevEnd = some t.items.next := by
    simp [StdList.push_back, StdList.prevEnd]
  have hderef : (t.items.push_back s).deref t.items.next = some s := by
    simp only [StdList.push_back, StdList.deref]
    rw [lookup_append_of_not_mem _ _ _ hnotin]
    simp [List.lookup]
  refine ⟨?_, by simp [StdList.boundOf, hderef], ?_⟩
  · simp only [QuadTree.insert, hprev, QuadTreeNode.insert, hderef]
    cases QuadTreeNode.insertLoop t.items.next s.toBound
      (t.rootNode.height + MAXDEPTH.toNat) t.rootNode <;> rfl
  · intro x hx
    obtain ⟨v, hv⟩ := lookup_isSome_of_mem_keys x t.items.cells hx
    simp only [StdList.boundOf, StdList.deref, StdList.push_back,
      lookup_append_of_some x v _ _ hv, hv]

theorem insert_inv2 (outer : Bound) (t t2 : QuadTree) (s : Shape) (h : t.Inv)
    (h2 : t.Inv2 outer) (hins : t.insert s = some t2) : t2.Inv2 outer := by
  obtain ⟨e1, e2, e3⟩ := insert_eq t s h
  rw [e1] at hins
  cases hrec : QuadTreeNode.insertLoop t.items.next s.toBound
      (t.rootNode.height + MAXDEPTH.toNat) t.rootNode with
  | none => rw [hrec] at hins; simp at hins
  | some r =>
    rw [hrec] at hins
    simp only [Option.map, Option.some.injEq] at hins
    subst hins
    obtain ⟨g1, g2, -⟩ := insertLoop_shape _ _ _ _ _ hrec h2.shape
    refine ⟨by rw [g2]; exact h2.bound, g1, ?_⟩
    refine insertLoop_below _ _ _ _ _ _ 0 h.depth (by simp [MAXDEPTH]) e2 ?_ hrec
    exact belowInv_congr _ (fun x hx => (e3 x (h.sync.perm.mem_iff.1 hx)).symm) h2.below

theorem step_inv2 (outer : Bound) (t : QuadTree) (op : Op) (h : t.Inv) (h2 : t.Inv2 outer) :
    ∃ t2, t.step op = some t2 ∧ t2.Inv ∧ t2.Inv2 outer := by
  cases op with
  | insert s =>
    obtain ⟨r, h1, h3, -⟩ := insert_inv t s h
    exact ⟨_, h1, h3, insert_inv2 outer t _ s h h2 h1⟩
  | removeOverlap R =>
    obtain ⟨m2, h1, h3, -, h5, -⟩ := remove_inv t R QuadTree.overlapFn h
    refine ⟨_, by simp only [QuadTree.step, QuadTree.removeOverlap, h1, Option.map], h3, ?_⟩
    refine ⟨?_, shapeInv_removeRec R _ h2.shape, ?_⟩
    · show (t.rootNode.removeRec R _).bound = outer
      rw [bound_removeRec]; exact h2.bound
    · exact belowInv_congr _ (fun x hx => (h5 x (h3.sync.perm.mem_iff.1 hx)).symm)
        (belowInv_removeRec _ R _ _ h2.below)
  | removeContain R =>
    obtain ⟨m2, h1, h3, -, h5, -⟩ := remove_inv t R QuadTree.containFn h
    refine ⟨_, by simp only [QuadTree.step, QuadTree.removeContain, h1, Option.map], h3, ?_⟩
    refine ⟨?_, shapeInv_removeRec R _ h2.shape, ?_⟩
    · show (t.rootNode.removeRec R _).bound = outer
      rw [bound_removeRec]; exact h2.bound
    · exact belowInv_congr _ (fun x hx => (h5 x (h3.sync.perm.mem_iff.1 hx)).symm)
        (belowInv_removeRec _ R _ _ h2.below)

theorem steps_inv2 (outer : Bound) : ∀ (ops : List Op) (t : QuadTree), t.Inv → t.Inv2 outer →
    ∃ t2, t.steps ops = some t2 ∧ t2.Inv ∧ t2.Inv2 outer
  | [], t, h, h2 => ⟨t, rfl, h, h2⟩
  | op :: ops, t, h, h2 => by
    obtain ⟨t1, g1, g2, g3⟩ := step_inv2 outer t op h h2
    obtain ⟨t2, g4, g5, g6⟩ := steps_inv2 outer ops t1 g2 g3
    exact ⟨t2, by simp only [QuadTree.steps, g1, g4], g5, g6⟩

theorem inv2_new (outer : Bound) : (QuadTree.new outer).Inv2 outer :=
  ⟨rfl, shapeInv_new outer 0, belowInv_of_pathInv (pathInv_new _ _ _)⟩

/-- Every sequence of calls returns, in a tree that satisfies all invariants
that need no precondition. -/
theorem run_inv2 (outer : Bound) (ops : List Op) :
    ∃ t, QuadTree.run outer ops = some t ∧ t.Inv ∧ t.Inv2 outer :=
  steps_inv2 outer ops _ (inv_new outer).1 (inv2_new outer)

end qt

namespace qt

/-! ## Every stored item that matches a query is reported -/

theorem isNode_of_mem_handles {n : QuadTreeNode} {h : Handle} (hm : h ∈ n.handles) :
    n.isNode = true := by
  cases n with
  | nullptr => simp [QuadTreeNode.handles] at hm
  | node => rfl

theorem mem_selected_of_pathInv (bnd : Handle → Bound) (R : Bound) (test : Handle → Bool)
    (h : Handle) (ht : test h = true)
    (hov : ∀ nb, nb.contains (bnd h) = true → R.overlaps nb = true) :
    ∀ (n : QuadTreeNode), QuadTreeNode.PathInv bnd n → h ∈ n.handles →
      h ∈ n.selected R test := by
  intro n
  induction n with
  | nullptr => intro _ hm; simp [QuadTreeNode.handles] at hm
  | node l d b its c0 c1 c2 c3 cb ih0 ih1 ih2 ih3 =>
    intro hp hm
    by_cases hc : R.contains b = true
    · simpa [QuadTreeNode.selected, hc, QuadTreeNode.handles] using hm
    · simp only [QuadTreeNode.PathInv] at hp
      obtain ⟨-, g1, g2, g3, g4, g5, g6, g7, g8⟩ := hp
      have key : ∀ (c : QuadTreeNode) (cbi : Bound),
          (QuadTreeNode.PathInv bnd c → h ∈ c.handles → h ∈ c.selected R test) →
          (c.isNode = true → c.bound = cbi) → QuadTreeNode.PathInv bnd c → h ∈ c.handles →
          h ∈ (if R.overlaps cbi = true then c.selected R test else []) := by
        intro c cbi ih hb hpc hmc
        have hcb := hb (isNode_of_mem_handles hmc)
        have := hov cbi (by rw [← hcb]; exact pathInv_mem hpc h hmc)
        rw [if_pos this]
        exact ih hpc hmc
      simp only [QuadTreeNode.handles, List.mem_append] at hm
      simp only [QuadTreeNode.selected, hc, Bool.false_eq_true, if_false, List.mem_append]
      rcases hm with hm | hm | hm | hm | hm
      · exact Or.inl (List.mem_filter.2 ⟨hm, ht⟩)
      · exact Or.inr (Or.inl (key c0 _ ih0 g1 g5 hm))
      · exact Or.inr (Or.inr (Or.inl (key c1 _ ih1 g2 g6 hm)))
      · exact Or.inr (Or.inr (Or.inr (Or.inl (key c2 _ ih2 g3 g7 hm))))
      · exact Or.inr (Or.inr (Or.inr (Or.inr (key c3 _ ih3 g4 g8 hm))))

theorem mem_selected_of_belowInv (bnd : Handle → Bound) (R : Bound) (test : Handle → Bool)
    (h : Handle) (ht : test h = true)
    (hov : ∀ nb, nb.contains (bnd h) = true → R.overlaps nb = true)
    (n : QuadTreeNode) (hb : QuadTreeNode.BelowInv bnd n) (hm : h ∈ n.handles) :
    h ∈ n.selected R test := by
  cases n with
  | nullptr => simp [QuadTreeNode.handles] at hm
  | node l d b its c0 c1 c2 c3 cb =>
    by_cases hc : R.contains b = true
    · simpa [QuadTreeNode.selected, hc, QuadTreeNode.handles] using hm
    · simp only [QuadTreeNode.BelowInv] at hb
      obtain ⟨g1, g2, g3, g4, g5, g6, g7, g8⟩ := hb
      have key : ∀ (c : QuadTreeNode) (cbi : Bound),
          (c.isNode = true → c.bound = cbi) → QuadTreeNode.PathInv bnd c → h ∈ c.handles →
          h ∈ (if R.overlaps cbi = true then c.selected R test else []) := by
        intro c cbi hb hpc hmc
        have hcb := hb (isNode_of_mem_handles hmc)
        have := hov cbi (by rw [← hcb]; exact pathInv_mem hpc h hmc)
        rw [if_pos this]
        exact mem_selected_of_pathInv bnd R test h ht hov c hpc hmc
      simp only [QuadTreeNode.handles, List.mem_append] at hm
      simp only [QuadTreeNode.selected, hc, Bool.false_eq_true, if_false, List.mem_append]
      rcases hm with hm | hm | hm | hm | hm
      · exact Or.inl (List.mem_filter.2 ⟨hm, ht⟩)
      · exact Or.inr (Or.inl (key c0 _ g1 g5 hm))
      · exact Or.inr (Or.inr (Or.inl (key c1 _ g2 g6 hm)))
      · exact Or.inr (Or.inr (Or.inr (Or.inl (key c2 _ g3 g7 hm))))
      · exact Or.inr (Or.inr (Or.inr (Or.inr (key c3 _ g4 g8 hm))))

theorem overlaps_self {a : Bound} (h : a.wellFormed = true) : a.overlaps a = true := by
  simp only [Bound.overlaps, Bound.wellFormed, Bool.and_eq_true, decide_eq_true_eq,
    ge_iff_le] at *
  omega

theorem overlaps_of_match {R nb x : Bound} (P : Bound → Bound → Bool)
    (hP : P = QuadTree.overlapFn ∨ P = QuadTree.containFn) (hw : x.wellFormed = true)
    (hm : P R x = true) (hc : nb.contains x = true) : R.overlaps nb = true := by
  rcases hP with rfl | rfl
  · by_contra h
    have := not_overlaps_of_prune (by simpa using h) hc
    rw [QuadTree.overlapFn] at hm
    rw [hm] at this
    exact Bool.false_ne_true this.symm
  · by_contra h
    have := not_contains_of_prune hw (by simpa using h) hc
    rw [QuadTree.containFn] at hm
    rw [hm] at this
    exact Bool.false_ne_true this.symm

/-- On every tree of the interface a query returns, no handle twice, and it
reports every stored item that has a well-formed bound and satisfies the
predicate. -/
theorem query_reports {outer : Bound} {t : QuadTree} (hi : t.Inv) (h2 : t.Inv2 outer)
    (R : Bound) (P : Bound → Bound → Bool)
    (hP : P = QuadTree.overlapFn ∨ P = QuadTree.containFn) :
    ∃ hs, t.rootNode.query t.items R [] P = some hs ∧ hs.Nodup ∧
      (∀ x ∈ hs, x ∈ t.items.keys) ∧
      (∀ c ∈ t.items.cells, c.2.toBound.wellFormed = true → P R c.2.toBound = true →
        c.1 ∈ hs) := by
  obtain ⟨hs, h1, h3⟩ := query_spec t.items.boundOf t.items R P t.rootNode [] hi.root
    hi.sync.live
  rw [List.nil_append] at h3
  have hle : ∀ a, (t.rootNode.selected R (fun x => P R (t.items.boundOf x))).count a
      ≤ t.rootNode.handles.count a := by
    intro a
    have := count_handles_removeRec R (fun x => P R (t.items.boundOf x)) a t.rootNode
    omega
  refine ⟨hs, h1, ?_, ?_, ?_⟩
  · rw [h3.nodup_iff, List.nodup_iff_count_le_one]
    intro a
    exact (hle a).trans (List.nodup_iff_count_le_one.1 hi.sync.nodup a)
  · intro x hx
    have h4 := List.count_pos_iff.2 (h3.mem_iff.1 hx)
    have := hle x
    exact hi.sync.perm.mem_iff.1 (List.count_pos_iff.1 (by omega))
  · intro c hc hw hm
    have hb := boundOf_of_mem_cells (sync_keys_nodup hi.sync) hc
    have hh : c.1 ∈ t.rootNode.handles :=
      hi.sync.perm.mem_iff.2 (List.mem_map_of_mem Prod.fst hc)
    refine h3.mem_iff.2 (mem_selected_of_belowInv _ R _ c.1 (by simp only [hb, hm]) ?_ _
      h2.below hh)
    intro nb hnb
    rw [hb] at hnb
    exact overlaps_of_match P hP hw hm hnb

theorem push_back_facts (t : QuadTree) (s : Shape) (h : t.Inv) :
    (t.items.push_back s).prevEnd = some t.items.next ∧
      (t.items.push_back s).deref t.items.next = some s := by
  have hnotin : t.items.next ∉ t.items.keys := fun hm => Nat.lt_irrefl _ (h.fresh _ hm)
  refine ⟨by simp [StdList.push_back, StdList.prevEnd], ?_⟩
  simp only [StdList.push_back, StdList.deref]
  rw [lookup_append_of_not_mem _ _ _ hnotin]
  simp [List.lookup]

/-- C11: in every tree reached through the public interface, after `insert(i)`
of an item with a well-formed bound, `queryOverlap(i.bound)` and
`queryContain(i.bound)` both return, and the sequence each returns includes the
handle of `i` (the iterator to the last cell of the master sequence, which
holds `i`). -/
theorem self_query_after_insert (outer : Bound) (ops : List Op) (s : Shape)
    (hw : s.toBound.wellFormed = true) :
    ∃ t t2 h hs1 hs2, QuadTree.run outer ops = some t ∧ t.insert s = some t2 ∧
      t2.items.prevEnd = some h ∧ t2.items.deref h = some s ∧
      t2.queryOverlap s.toBound = some hs1 ∧ h ∈ hs1 ∧
      t2.queryContain s.toBound = some hs2 ∧ h ∈ hs2 := by
  obtain ⟨t, h1, h2, h3⟩ := run_inv2 outer ops
  obtain ⟨r, g1, g2, -⟩ := insert_inv t s h2
  have g3 := insert_inv2 outer t _ s h2 h3 g1
  obtain ⟨p1, p2⟩ := push_back_facts t s h2
  have hcell : (t.items.next, s) ∈ (t.items.push_back s).cells := by
    simp [StdList.push_back]
  obtain ⟨hs1, a1, -, -, a3⟩ := query_reports g2 g3 s.toBound QuadTree.overlapFn (Or.inl rfl)
  obtain ⟨hs2, b1, -, -, b3⟩ := query_reports g2 g3 s.toBound QuadTree.containFn (Or.inr rfl)
  exact ⟨t, _, t.items.next, hs1, hs2, h1, g1, p1, p2, a1,
    a3 _ hcell hw (overlaps_self hw), b1, b3 _ hcell hw (contains_self _)⟩

/-- An instance of C11: after the inserts of `A`, `B`, `C`, the insert of
`((20,20),(30,30))` gets handle 3, and both queries on its bound return `[3]`. -/
theorem self_query_after_insert_witness :
    (mkShape 20 20 30 30).toBound.wellFormed = true ∧
      ((QuadTree.run outer100 (insertABC ++ [Op.insert (mkShape 20 20 30 30)])).bind
        (fun t => t.queryOverlap (mkBound 20 20 30 30))) = some [3] ∧
      ((QuadTree.run outer100 (insertABC ++ [Op.insert (mkShape 20 20 30 30)])).bind
        (fun t => t.queryContain (mkBound 20 20 30 30))) = some [3] ∧
      ∃ t t2 h hs1 hs2, QuadTree.run outer100 insertABC = some t ∧
        t.insert (mkShape 20 20 30 30) = some t2 ∧
        t2.items.prevEnd = some h ∧ t2.items.deref h = some (mkShape 20 20 30 30) ∧
        t2.queryOverlap (mkShape 20 20 30 30).toBound = some hs1 ∧ h ∈ hs1 ∧
        t2.queryContain (mkShape 20 20 30 30).toBound = some hs2 ∧ h ∈ hs2 :=
  ⟨by decide, by decide, by decide,
    self_query_after_insert outer100 insertABC (mkShape 20 20 30 30) (by decide)⟩

end qt

namespace qt

/-! ## Queries of a region off the outer bound, identical items, insert then remove -/

theorem overlaps_comm (a b : Bound) : a.overlaps b = b.overlaps a := by
  simp only [Bound.overlaps, ge_iff_le]
  cases h1 : decide (a.topLeft.x ≤ b.bottomRight.x) <;>
    cases h2 : decide (b.topLeft.x ≤ a.bottomRight.x) <;>
    cases h3 : decide (a.topLeft.y ≤ b.bottomRight.y) <;>
    cases h4 : decide (b.topLeft.y ≤ a.bottomRight.y) <;> rfl

theorem query_eq_nil {outer : Bound} {t : QuadTree} (hi : t.Inv) (hin : t.InvIn outer)
    (R : Bound) (P : Bound → Bound → Bool)
    (hP : P = QuadTree.overlapFn ∨ P = QuadTree.containFn)
    (hno : ∀ c ∈ t.items.cells, P R c.2.toBound = false) :
    t.rootNode.query t.items R [] P = some [] := by
  obtain ⟨hs, h1, h2⟩ := query_tree hi hin R P hP
  have e : t.items.cells.filter (fun c => P R c.2.toBound) = [] := by
    rw [List.filter_eq_nil_iff]
    intro c hc
    rw [hno c hc]
    exact Bool.false_ne_true
  rw [e] at h2
  rw [h1, List.Perm.eq_nil h2]

theorem cell_in_outer {outer : Bound} {t : QuadTree} (hi : t.Inv) (hin : t.InvIn outer)
    (c : Handle × Shape) (hc : c ∈ t.items.cells) : outer.contains c.2.toBound = true := by
  have hh : c.1 ∈ t.rootNode.handles :=
    hi.sync.perm.mem_iff.2 (List.mem_map_of_mem Prod.fst hc)
  have := pathInv_mem hin.path c.1 hh
  rwa [hin.bound, boundOf_of_mem_cells (sync_keys_nodup hi.sync) hc] at this

/-- C12, the failing input: the outer bound `((0,0),(10,10))` contains the bound
`((3,100),(8,2))` (whose corners are not in order), the region
`((0,50),(10,60))` does not overlap the outer bound, and after the insert of
the item `queryContain` of the region returns the handle of the item. -/
theorem disjoint_query_reports_item :
    (mkBound 0 0 10 10).contains (mkShape 3 100 8 2).toBound = true ∧
      (mkBound 0 0 10 10).overlaps (mkBound 0 50 10 60) = false ∧
      ((QuadTree.run (mkBound 0 0 10 10) [Op.insert (mkShape 3 100 8 2)]).bind
        (fun t => t.queryContain (mkBound 0 50 10 60))) = some [0] := by
  decide

/-- C12, amended: in every tree reached by calls whose inserted items have
well-formed bounds that the outer bound contains, `queryOverlap(R)` and
`queryContain(R)` return the empty sequence for every region `R` that the outer
bound does not overlap. -/
theorem disjoint_query_empty (outer : Bound) (ops : List Op) (R : Bound)
    (hok : ops.all (Op.ok outer) = true) (hd : outer.overlaps R = false) :
    ∃ t, QuadTree.run outer ops = some t ∧ t.queryOverlap R = some [] ∧
      t.queryContain R = some [] := by
  obtain ⟨t, h1, h2, h3, -⟩ := run_invIn outer ops hok
  have hd2 : R.overlaps outer = false := by rw [overlaps_comm]; exact hd
  refine ⟨t, h1, ?_, ?_⟩
  · exact query_eq_nil h2 h3 R _ (Or.inl rfl) (fun c hc =>
      not_overlaps_of_prune hd2 (cell_in_outer h2 h3 c hc))
  · exact query_eq_nil h2 h3 R _ (Or.inr rfl) (fun c hc =>
      not_contains_of_prune (h3.wf c hc) hd2 (cell_in_outer h2 h3 c hc))

/-- An instance of C12, amended: after the inserts of `A`, `B`, `C` into the
outer bound `((0,0),(100,100))`, both queries of `((101,0),(200,100))` are empty. -/
theorem disjoint_query_empty_witness :
    insertABC.all (Op.ok outer100) = true ∧
      outer100.overlaps (mkBound 101 0 200 100) = false ∧
      ∃ t, QuadTree.run outer100 insertABC = some t ∧
        t.queryOverlap (mkBound 101 0 200 100) = some [] ∧
        t.queryContain (mkBound 101 0 200 100) = some [] :=
  ⟨by decide, by decide,
    disjoint_query_empty outer100 insertABC (mkBound 101 0 200 100) (by decide) (by decide)⟩

theorem steps_append (a b : List Op) : ∀ (t : QuadTree),
    t.steps (a ++ b) = (t.steps a).bind (fun t1 => t1.steps b) := by
  induction a with
  | nil => intro t; rfl
  | cons o a ih =>
    intro t
    simp only [List.cons_append, QuadTree.steps]
    cases t.step o with
    | none => rfl
    | some t1 => exact ih t1

theorem insert_replicate (outer : Bound) (s : Shape) : ∀ (k : Nat) (t : QuadTree),
    t.Inv → t.Inv2 outer →
    ∃ t2, t.steps (List.replicate k (Op.insert s)) = some t2 ∧ t2.Inv ∧ t2.Inv2 outer ∧
      t2.items.cells = t.items.cells ++ (List.range k).map (fun j => (t.items.next + j, s)) ∧
      t2.items.next = t.items.next + k := by
  intro k
  induction k with
  | zero => intro t h h2; exact ⟨t, rfl, h, h2, by simp, rfl⟩
  | succ k ih =>
    intro t h h2
    obtain ⟨r, g1, g2, -⟩ := insert_inv t s h
    have g3 := insert_inv2 outer t _ s h h2 g1
    obtain ⟨t2, a1, a2, a3, a4, a5⟩ := ih _ g2 g3
    refine ⟨t2, ?_, a2, a3, ?_, ?_⟩
    · simp only [List.replicate_succ, QuadTree.steps, QuadTree.step, g1, a1]
    · rw [a4, List.range_succ_eq_map]
      simp only [StdList.push_back, List.map_cons, List.map_map, List.append_assoc,
        List.singleton_append, Nat.add_zero]
      congr 2
      apply List.map_congr_left
      intro j _
      simp only [Function.comp, Nat.succ_eq_add_one]
      congr 1
      rw [Nat.add_assoc, Nat.add_comm 1 j]
    · rw [a5]
      simp only [StdList.push_back]
      rw [Nat.add_assoc, Nat.add_comm 1 k]

/-- C13, the failing input: the bound `((60,60),(3,3))` lies in the outer
bound `((0,0),(100,100))` and contains itself; after two inserts of the item
the master sequence holds it at the handles 0 and 1, and `queryContain` of its
bound returns neither of them. -/
theorem identical_items_not_reported :
    outer100.contains (mkShape 60 60 3 3).toBound = true ∧
      (mkBound 60 60 3 3).contains (mkShape 60 60 3 3).toBound = true ∧
      (QuadTree.run outer100 [Op.insert (mkShape 60 60 3 3),
        Op.insert (mkShape 60 60 3 3)]).map (fun t => t.items.keys) = some [0, 1] ∧
      ((QuadTree.run outer100 [Op.insert (mkShape 60 60 3 3),
        Op.insert (mkShape 60 60 3 3)]).bind
          (fun t => t.queryContain (mkBound 60 60 3 3))) = some [] := by
  decide

/-- C13, amended: in every tree reached through the public interface,
`queryOverlap(R)` and `queryContain(R)` return a sequence in which no handle
occurs twice; `k` further inserts of one item append `k` cells with pairwise
distinct handles to the master sequence, and when the bound of the item is
well-formed, a query whose predicate the item satisfies reports all `k`
handles. -/
theorem query_nodup_identical_items (outer : Bound) (ops : List Op) (R : Bound) (s : Shape)
    (k : Nat) :
    ∃ t t2 hs1 hs2, QuadTree.run outer ops = some t ∧
      QuadTree.run outer (ops ++ List.replicate k (Op.insert s)) = some t2 ∧
      t2.items.cells = t.items.cells ++ (List.range k).map (fun j => (t.items.next + j, s)) ∧
      t2.items.keys.Nodup ∧
      t2.queryOverlap R = some hs1 ∧ hs1.Nodup ∧
      t2.queryContain R = some hs2 ∧ hs2.Nodup ∧
      (s.toBound.wellFormed = true → R.overlaps s.toBound = true →
        ∀ j < k, t.items.next + j ∈ hs1) ∧
      (s.toBound.wellFormed = true → R.contains s.toBound = true →
        ∀ j < k, t.items.next + j ∈ hs2) := by
  obtain ⟨t, h1, h2, h3⟩ := run_inv2 outer ops
  obtain ⟨t2, a1, a2, a3, a4, -⟩ := insert_replicate outer s k t h2 h3
  obtain ⟨hs1, b1, b2, -, b3⟩ := query_reports a2 a3 R QuadTree.overlapFn (Or.inl rfl)
  obtain ⟨hs2, c1, c2, -, c3⟩ := query_reports a2 a3 R QuadTree.containFn (Or.inr rfl)
  have hcell : ∀ j < k, (t.items.next + j, s) ∈ t2.items.cells := by
    intro j hj
    rw [a4]
    exact List.mem_append_right _ (List.mem_map.2 ⟨j, List.mem_range.2 hj, rfl⟩)
  refine ⟨t, t2, hs1, hs2, h1, ?_, a4, sync_keys_nodup a2.sync, b1, b2, c1, c2, ?_, ?_⟩
  · unfold QuadTree.run at h1 ⊢
    rw [steps_append, h1]
    exact a1
  · intro hw hm j hj
    exact b3 _ (hcell j hj) hw hm
  · intro hw hm j hj
    exact c3 _ (hcell j hj) hw hm

/-- An instance of C13, amended: three inserts of `((40,40),(60,60))` after
`A`, `B`, `C` get the handles 3, 4, 5, and `queryContain(((40,40),(60,60)))`
reports them together with the handle 2 of `C`. -/
theorem query_nodup_identical_items_witness :
    ((QuadTree.run outer100 (insertABC ++ List.replicate 3 (Op.insert (mkShape 40 40 60 60)))).bind
        (fun t => t.queryContain (mkBound 40 40 60 60))) = some [2, 3, 4, 5] ∧
      ∃ t t2 hs1 hs2, QuadTree.run outer100 insertABC = some t ∧
        QuadTree.run outer100 (insertABC ++ List.replicate 3 (Op.insert (mkShape 40 40 60 60)))
          = some t2 ∧
        t2.items.cells = t.items.cells
          ++ (List.range 3).map (fun j => (t.items.next + j, mkShape 40 40 60 60)) ∧
        t2.items.keys.Nodup ∧
        t2.queryOverlap (mkBound 40 40 60 60) = some hs1 ∧ hs1.Nodup ∧
        t2.queryContain (mkBound 40 40 60 60) = some hs2 ∧ hs2.Nodup ∧
        (∀ j < 3, t.items.next + j ∈ hs1) ∧ (∀ j < 3, t.items.next + j ∈ hs2) := by
  refine ⟨by decide, ?_⟩
  obtain ⟨t, t2, hs1, hs2, h1, h2, h3, h4, h5, h6, h7, h8, h9, h10⟩ :=
    query_nodup_identical_items outer100 insertABC (mkBound 40 40 60 60) (mkShape 40 40 60 60) 3
  exact ⟨t, t2, hs1, hs2, h1, h2, h3, h4, h5, h6, h7, h8, h9 (by decide) (by decide),
    h10 (by decide) (by decide)⟩

/-- C14: on a freshly constructed tree, for every item with a well-formed
bound that the outer bound contains, `insert(i); removeContain(i.bound)`
returns, the master sequence is then empty, and `queryOverlap(outer)` returns
the empty sequence. -/
theorem insert_then_removeContain_empty (outer : Bound) (s : Shape)
    (hw : s.toBound.wellFormed = true) (hc : outer.contains s.toBound = true) :
    ∃ t, QuadTree.run outer [Op.insert s, Op.removeContain s.toBound] = some t ∧
      t.items.cells = [] ∧ t.queryOverlap outer = some [] := by
  have hok : [Op.insert s, Op.removeContain s.toBound].all (Op.ok outer) = true := by
    simp [Op.ok, hw, hc]
  obtain ⟨t, h1, h2, h3, h4⟩ := run_invIn outer _ hok
  have hcells : t.items.cells = [] := by
    rw [← h4]
    simp [LinearContainer.run, LinearContainer.step, linear_insert,
      LinearContainer.removeContain, removeLoop_eq_filter, LinearContainer.new,
      StdList.push_back, StdList.empty, contains_self]
  refine ⟨t, h1, hcells, ?_⟩
  exact query_eq_nil h2 h3 outer _ (Or.inl rfl) (fun c hc => by rw [hcells] at hc; cases hc)

/-- An instance of C14: the outer bound `((0,0),(100,100))` and the item
`((40,40),(60,60))`. -/
theorem insert_then_removeContain_empty_witness :
    (mkShape 40 40 60 60).toBound.wellFormed = true ∧
      outer100.contains (mkShape 40 40 60 60).toBound = true ∧
      ∃ t, QuadTree.run outer100
          [Op.insert (mkShape 40 40 60 60), Op.removeContain (mkShape 40 40 60 60).toBound]
            = some t ∧
        t.items.cells = [] ∧ t.queryOverlap outer100 = some [] :=
  ⟨by decide, by decide,
    insert_then_removeContain_empty outer100 (mkShape 40 40 60 60) (by decide) (by decide)⟩

end qt

namespace qt

/-! ## The quadrants partition the bound -/

theorem quadDivisible_iff (b : Bound) :
    b.quadDivisible = true ↔
      b.topLeft.x < b.bottomRight.x ∧ b.topLeft.y < b.bottomRight.y := by
  simp [Bound.quadDivisible]

/-- Without overflow, the quadrants of a quad-divisible bound partition it. -/
theorem partitions_getQuadDivision (b : Bound) (hq : b.quadDivisible = true)
    (hs : b.small = true) : Partitions b b.getQuadDivision := by
  rw [getQuadDivision_small b hs]
  unfold Partitions
  rw [quadDivisible_iff] at hq
  have hx := (tdiv_two_bounds (b.bottomRight.x - b.topLeft.x)).1 (by omega)
  have hy := (tdiv_two_bounds (b.bottomRight.y - b.topLeft.y)).1 (by omega)
  generalize Int.tdiv (b.bottomRight.x - b.topLeft.x) 2 = hx2 at hx ⊢
  generalize Int.tdiv (b.bottomRight.y - b.topLeft.y) 2 = hy2 at hy ⊢
  refine ⟨?_, ?_, ?_⟩
  · intro i
    fin_cases i <;>
      simp only [Array4.get, Bound.contains, Bool.and_eq_true, decide_eq_true_eq, ge_iff_le] <;>
      omega
  · intro x y hp
    simp only [Bound.hasPoint] at hp
    by_cases h1 : x ≤ b.topLeft.x + hx2
    · by_cases h2 : y ≤ b.topLeft.y + hy2
      · exact ⟨0, by simp only [Array4.get, Bound.hasPoint]; omega⟩
      · exact ⟨2, by simp only [Array4.get, Bound.hasPoint]; omega⟩
    · by_cases h2 : y ≤ b.topLeft.y + hy2
      · exact ⟨1, by simp only [Array4.get, Bound.hasPoint]; omega⟩
      · exact ⟨3, by simp only [Array4.get, Bound.hasPoint]; omega⟩
  · intro x y i j hij hi hj
    fin_cases i <;> fin_cases j <;>
      first
        | exact absurd rfl hij
        | (simp only [Array4.get, Bound.hasPoint] at hi hj
           omega)

/-- Without overflow, the quadrants of a quad-divisible bound do not overflow
either. -/
theorem small_getQuadDivision (b : Bound) (hq : b.quadDivisible = true)
    (hs : b.small = true) (i : Fin 4) : (b.getQuadDivision.get i).small = true := by
  rw [getQuadDivision_small b hs]
  rw [quadDivisible_iff] at hq
  have hx := (tdiv_two_bounds (b.bottomRight.x - b.topLeft.x)).1 (by omega)
  have hy := (tdiv_two_bounds (b.bottomRight.y - b.topLeft.y)).1 (by omega)
  generalize Int.tdiv (b.bottomRight.x - b.topLeft.x) 2 = hx2 at hx ⊢
  generalize Int.tdiv (b.bottomRight.y - b.topLeft.y) 2 = hy2 at hy ⊢
  rw [small_iff] at hs
  fin_cases i <;> simp only [Array4.get, small_iff] <;> omega

/-- In a tree whose nodes have the members the constructor computes, below a
bound without overflow: a node that is not a leaf has a quad-divisible bound
without overflow and the quadrants of this bound as child bounds. -/
theorem shape_nodeAt : ∀ (p : Path) (n : QuadTreeNode), n.ShapeInv → n.bound.small = true →
    (n.nodeAt p).isNode = true →
    (n.nodeAt p).ShapeInv ∧ (n.nodeAt p).bound.small = true ∧
      ((n.nodeAt p).leafNode = false →
        (n.nodeAt p).bound.quadDivisible = true ∧
          (n.nodeAt p).childrenBounds = (n.nodeAt p).bound.getQuadDivision)
  | [], n, hs, hb, hn => by
    refine ⟨hs, hb, ?_⟩
    cases n with
    | nullptr => simp [QuadTreeNode.nodeAt, QuadTreeNode.isNode] at hn
    | node l d b its c0 c1 c2 c3 cb =>
      simp only [QuadTreeNode.ShapeInv] at hs
      simp only [QuadTreeNode.nodeAt, QuadTreeNode.leafNode, QuadTreeNode.bound,
        QuadTreeNode.childrenBounds]
      intro hl
      refine ⟨?_, hs.2.1 hl⟩
      have := hs.1
      rw [hl] at this
      cases hq : b.quadDivisible
      · simp [hq] at this
      · rfl
  | i :: p, n, hs, hb, hn => by
    simp only [QuadTreeNode.nodeAt] at hn ⊢
    have hc : (n.child i).isNode = true := isNode_of_nodeAt_isNode hn
    have h1 := shapeInv_child i hs
    have h0 := shape_nodeAt [] n hs hb (isNode_of_nodeAt_isNode (p := [i]) (by
      simpa [QuadTreeNode.nodeAt] using hc))
    simp only [QuadTreeNode.nodeAt] at h0
    have hl : n.leafNode = false := by
      cases n with
      | nullptr => simp [QuadTreeNode.child, QuadTreeNode.isNode] at hc
      | node l d b its c0 c1 c2 c3 cb =>
        simp only [QuadTreeNode.ShapeInv] at hs
        cases l with
        | false => rfl
        | true =>
          obtain ⟨e0, e1, e2, e3⟩ := hs.2.2.1 rfl
          subst e0 e1 e2 e3
          fin_cases i <;> simp [QuadTreeNode.child, QuadTreeNode.isNode] at hc
    obtain ⟨hq, hcb⟩ := h0.2.2 hl
    have hsmall : (n.child i).bound.small = true := by
      rw [h1.2 hc, hcb]
      exact small_getQuadDivision _ hq hb i
    exact shape_nodeAt p (n.child i) h1.1 hsmall hn

/-- C18, the failing input: the coordinates of `((-2147483648,0),(0,1))` are
values of `int32_t` and the bound is quad-divisible, but the width
`0 - (-2147483648)` is not a value of `int32_t`; the NW quadrant computed is
`((-2147483648,0),(1073741824,0))`, which the bound does not contain. -/
theorem quadrants_not_partition_on_overflow :
    (mkBound (-2147483648) 0 0 1).quadDivisible = true ∧
      inInt32 (-2147483648) = true ∧ inInt32 0 = true ∧ inInt32 1 = true ∧
      inInt32 (0 - (-2147483648)) = false ∧
      (mkBound (-2147483648) 0 0 1).getQuadDivision.get 0
        = mkBound (-2147483648) 0 1073741824 0 ∧
      (mkBound (-2147483648) 0 0 1).contains
        ((mkBound (-2147483648) 0 0 1).getQuadDivision.get 0) = false ∧
      ¬ Partitions (mkBound (-2147483648) 0 0 1) (mkBound (-2147483648) 0 0 1).getQuadDivision := by
  refine ⟨by decide, by decide, by decide, by decide, by decide, by decide, by decide, ?_⟩
  intro h
  have h0 := h.1 0
  revert h0
  decide

/-- C18, amended: for every quad-divisible bound `b` whose coordinates, width
and height are values of `int32_t`, each of the four quadrants of
`getQuadDivision` is contained in `b`, every integer point of `b` lies in a
quadrant, and a point of two different quadrants lies on a halving line; and
in every tree reached through the public interface from an outer bound whose
coordinates, width and height are values of `int32_t`, every node that is not a
leaf has a quad-divisible bound and, as child bounds, the quadrants of its
bound, which partition it in this sense. -/
theorem quadrants_partition (b outer : Bound) (ops : List Op) (hq : b.quadDivisible = true)
    (hs : b.small = true) (ho : outer.small = true) :
    Partitions b b.getQuadDivision ∧
      ∃ t, QuadTree.run outer ops = some t ∧
        ∀ p, (t.rootNode.nodeAt p).isNode = true → (t.rootNode.nodeAt p).leafNode = false →
          (t.rootNode.nodeAt p).bound.quadDivisible = true ∧
          (t.rootNode.nodeAt p).childrenBounds = (t.rootNode.nodeAt p).bound.getQuadDivision ∧
          Partitions (t.rootNode.nodeAt p).bound (t.rootNode.nodeAt p).childrenBounds := by
  refine ⟨partitions_getQuadDivision b hq hs, ?_⟩
  obtain ⟨t, h1, -, h3⟩ := run_inv2 outer ops
  refine ⟨t, h1, ?_⟩
  intro p hn hl
  obtain ⟨-, g2, g3⟩ := shape_nodeAt p t.rootNode h3.shape (by rw [h3.bound]; exact ho) hn
  obtain ⟨g4, g5⟩ := g3 hl
  refine ⟨g4, g5, ?_⟩
  rw [g5]
  exact partitions_getQuadDivision _ g4 g2

/-- An instance of C18, amended: the bound `((0,0),(3,3))`, and the tree of
scenario 1, whose root is not a leaf and has the child bounds `((0,0),(50,50))`,
`((50,0),(100,50))`, `((0,50),(50,100))`, `((50,50),(100,100))`. -/
theorem quadrants_partition_witness :
    (mkBound 0 0 3 3).quadDivisible = true ∧ (mkBound 0 0 3 3).small = true ∧
      outer100.small = true ∧
      (QuadTree.run outer100 insertABC).map (fun t => (t.rootNode.leafNode, t.rootNode.childrenBounds))
        = some (false, ⟨mkBound 0 0 50 50, mkBound 50 0 100 50, mkBound 0 50 50 100,
            mkBound 50 50 100 100⟩) ∧
      Partitions (mkBound 0 0 3 3) (mkBound 0 0 3 3).getQuadDivision ∧
      ∃ t, QuadTree.run outer100 insertABC = some t ∧
        ∀ p, (t.rootNode.nodeAt p).isNode = true → (t.rootNode.nodeAt p).leafNode = false →
          (t.rootNode.nodeAt p).bound.quadDivisible = true ∧
          (t.rootNode.nodeAt p).childrenBounds = (t.rootNode.nodeAt p).bound.getQuadDivision ∧
          Partitions (t.rootNode.nodeAt p).bound (t.rootNode.nodeAt p).childrenBounds :=
  ⟨by decide, by decide, by decide, by decide,
    quadrants_partition (mkBound 0 0 3 3) outer100 insertABC (by decide) (by decide) (by decide)⟩

end qt

namespace qt

/-! ## Outer bounds that cannot be divided -/

/-- C20, the failing input: the bound `((0,0),(1,1))` is quad-divisible, so the
root of the tree constructed on it is not a leaf; the insert of the item
`((0,0),(1,1))`, which the SE quadrant `((0,0),(1,1))` contains at every depth,
builds a chain of six nodes, `getBounds` returns six bounds, and the handle of
the item is not in the item list of the root. -/
theorem unit_outer_root_not_leaf :
    (mkBound 0 0 1 1).quadDivisible = true ∧
      (QuadTree.new (mkBound 0 0 1 1)).rootNode.leafNode = false ∧
      (mkBound 0 0 1 1).getQuadDivision
        = ⟨mkBound 0 0 0 0, mkBound 0 0 1 0, mkBound 0 0 0 1, mkBound 0 0 1 1⟩ ∧
      (QuadTree.run (mkBound 0 0 1 1) [Op.insert (mkShape 0 0 1 1)]).map
          (fun t => (t.rootNode.size, t.rootNode.items, t.items.keys))
        = some (6, [], [0]) ∧
      ((QuadTree.run (mkBound 0 0 1 1) [Op.insert (mkShape 0 0 1 1)]).bind
          (fun t => t.getBounds))
        = some [mkBound 0 0 1 1, mkBound 0 0 1 1, mkBound 0 0 1 1, mkBound 0 0 1 1,
            mkBound 0 0 1 1, mkBound 0 0 1 1] := by
  decide

/-- C20, amended: for a tree constructed with an outer bound that is not
quad-divisible (zero or negative width or height), the root is a leaf, and
after every sequence of calls only the root node exists (`getBounds` returns
exactly the outer bound) and the root's item list holds the handles of all
stored items; on the outer bound `((0,0),(1,1))`, which is quad-divisible,
after `insert(((0,0),(1,1)))` the call `queryContain(((0,0),(1,1)))` returns the
handle of that item. -/
theorem nondivisible_outer_only_root (outer : Bound) (ops : List Op)
    (hq : outer.quadDivisible = false) :
    (QuadTree.new outer).rootNode.leafNode = true ∧
      (∃ t, QuadTree.run outer ops = some t ∧ t.rootNode.leafNode = true ∧
        t.rootNode.size = 1 ∧ t.getBounds = some [outer] ∧
        (∀ i, (t.rootNode.child i).isNode = false) ∧
        t.rootNode.items.Perm t.items.keys) ∧
      ((QuadTree.run (mkBound 0 0 1 1) [Op.insert (mkShape 0 0 1 1)]).bind
          (fun t => (t.queryContain (mkBound 0 0 1 1)).map t.items.itemsAt))
        = some [mkShape 0 0 1 1] := by
  refine ⟨by simp [QuadTree.new, QuadTreeNode.new, QuadTreeNode.leafNode, hq], ?_, by decide⟩
  obtain ⟨t, h1, h2, h3⟩ := run_inv2 outer ops
  refine ⟨t, h1, ?_⟩
  obtain ⟨items, root⟩ := t
  cases root with
  | nullptr => exact absurd h2.root (by simp [QuadTreeNode.isNode])
  | node l d b its c0 c1 c2 c3 cb =>
    have hb : b = outer := h3.bound
    have hsh := h3.shape
    simp only [QuadTreeNode.ShapeInv] at hsh
    have hl : l = true := by rw [hsh.1, hb, hq]; rfl
    obtain ⟨e0, e1, e2, e3⟩ := hsh.2.2.1 hl
    subst e0 e1 e2 e3 hl hb
    have hp := h2.sync.perm
    simp only [QuadTreeNode.handles, List.append_nil] at hp
    refine ⟨rfl, rfl, ?_, ?_, hp⟩
    · simp [QuadTree.getBounds, QuadTreeNode.getBounds, QuadTreeNode.getBoundsLoop,
        QuadTreeNode.size, QuadTreeNode.isNode, QuadTreeNode.existingChildren, idx4,
        QuadTreeNode.child, QuadTreeNode.bound]
    · intro i
      fin_cases i <;> rfl

/-- An instance of C20, amended: the outer bound `((0,0),(0,1))` has zero
width; after the inserts of `((0,0),(0,1))` and `((0,0),(0,0))` the root is
the only node and holds both handles. -/
theorem nondivisible_outer_only_root_witness :
    (mkBound 0 0 0 1).quadDivisible = false ∧
      (QuadTree.run (mkBound 0 0 0 1) [Op.insert (mkShape 0 0 0 1),
          Op.insert (mkShape 0 0 0 0)]).map (fun t => (t.rootNode.items, t.items.keys))
        = some ([0, 1], [0, 1]) ∧
      ((QuadTree.new (mkBound 0 0 0 1)).rootNode.leafNode = true ∧
        (∃ t, QuadTree.run (mkBound 0 0 0 1) [Op.insert (mkShape 0 0 0 1),
            Op.insert (mkShape 0 0 0 0)] = some t ∧ t.rootNode.leafNode = true ∧
          t.rootNode.size = 1 ∧ t.getBounds = some [mkBound 0 0 0 1] ∧
          (∀ i, (t.rootNode.child i).isNode = false) ∧
          t.rootNode.items.Perm t.items.keys) ∧
        ((QuadTree.run (mkBound 0 0 1 1) [Op.insert (mkShape 0 0 1 1)]).bind
            (fun t => (t.queryContain (mkBound 0 0 1 1)).map t.items.itemsAt))
          = some [mkShape 0 0 1 1]) :=
  ⟨by decide, by decide,
    nondivisible_outer_only_root (mkBound 0 0 0 1)
      [Op.insert (mkShape 0 0 0 1), Op.insert (mkShape 0 0 0 0)] (by decide)⟩

end qt

namespace qt

/-! ## Where the loop of `insert` stores an item -/

theorem findNext_none {n : QuadTreeNode} {b : Bound}
    (h : ∀ i, (n.childrenBounds.get i).contains b = false) :
    ∀ (l : List (Fin 4)), QuadTreeNode.findNext n b l = none
  | [] => rfl
  | i :: rest => by
    simp only [QuadTreeNode.findNext, h i, Bool.false_eq_true, if_false]
    exact findNext_none h rest

theorem not_contains_of_findNext_none {n : QuadTreeNode} {b : Bound}
    (hd : n.depth < MAXDEPTH - 1) :
    ∀ (l : List (Fin 4)), QuadTreeNode.findNext n b l = none →
      ∀ i ∈ l, (n.childrenBounds.get i).contains b = false
  | [], _, i, hi => by cases hi
  | j :: rest, h, i, hi => by
    simp only [QuadTreeNode.findNext] at h
    split_ifs at h with h1 h2
    · rcases List.mem_cons.1 hi with rfl | hi
      · simpa using h1
      · exact not_contains_of_findNext_none hd rest h i hi

/-- The first child bound, in index order, that contains the item is the one
the `for` loop of `insert` finds, when every missing child can be created. -/
theorem findNext_first {n : QuadTreeNode} {b : Bound} (hd : n.depth < MAXDEPTH - 1) (i : Fin 4)
    (hi : (n.childrenBounds.get i).contains b = true)
    (hlt : ∀ j, j < i → (n.childrenBounds.get j).contains b = false) :
    QuadTreeNode.findNext n b idx4 = some i := by
  have key : ∀ (k : Fin 4), (n.childrenBounds.get k).contains b = true →
      ∀ rest, QuadTreeNode.findNext n b (k :: rest) = some k := by
    intro k hk rest
    simp only [QuadTreeNode.findNext, hk, if_true, hd]
    split_ifs <;> rfl
  have skip : ∀ (k : Fin 4), (n.childrenBounds.get k).contains b = false →
      ∀ rest, QuadTreeNode.findNext n b (k :: rest) = QuadTreeNode.findNext n b rest := by
    intro k hk rest
    simp only [QuadTreeNode.findNext, hk, Bool.false_eq_true, if_false]
  unfold idx4
  fin_cases i
  · exact key _ hi _
  · rw [skip 0 (hlt 0 (by decide))]
    exact key _ hi _
  · rw [skip 0 (hlt 0 (by decide)), skip 1 (hlt 1 (by decide))]
    exact key _ hi _
  · rw [skip 0 (hlt 0 (by decide)), skip 1 (hlt 1 (by decide)), skip 2 (hlt 2 (by decide))]
    exact key _ hi _

/-- The loop of `insert`, started at a leaf or at a node none of whose child
bounds contains the item, appends the handle to the item list of that node. -/
theorem insertLoop_here (item : Handle) (b : Bound) (fuel : Nat) (n : QuadTreeNode)
    (hn : n.isNode = true)
    (h : n.leafNode = true ∨ ∀ i, (n.childrenBounds.get i).contains b = false) :
    QuadTreeNode.insertLoop item b (fuel + 1) n = some (n.setItems (n.items ++ [item])) := by
  cases n with
  | nullptr => simp [QuadTreeNode.isNode] at hn
  | node l d bd its c0 c1 c2 c3 cb =>
    rcases insertLoop_step item b fuel l d bd its c0 c1 c2 c3 cb with ⟨h1, -⟩ | ⟨i, hl, hfn, -⟩
    · exact h1
    · rcases h with h | h
      · simp only [QuadTreeNode.leafNode] at h
        rw [hl] at h
        exact absurd h Bool.false_ne_true
      · rw [findNext_none h] at hfn
        cases hfn

theorem height_pos_of_isNode {n : QuadTreeNode} (h : n.isNode = true) : 0 < n.height := by
  cases n with
  | nullptr => simp [QuadTreeNode.isNode] at h
  | node => simp only [QuadTreeNode.height]; omega

theorem insert_here (t : QuadTree) (s : Shape) (h : t.Inv)
    (hno : t.rootNode.leafNode = true ∨
      ∀ i, (t.rootNode.childrenBounds.get i).contains s.toBound = false) :
    t.insert s = some ⟨t.items.push_back s,
      t.rootNode.setItems (t.rootNode.items ++ [t.items.next])⟩ := by
  rw [(insert_eq t s h).1]
  obtain ⟨k, hk⟩ : ∃ k, t.rootNode.height + MAXDEPTH.toNat = k + 1 :=
    ⟨t.rootNode.height + MAXDEPTH.toNat - 1, by
      have := height_pos_of_isNode h.root
      omega⟩
  rw [hk, insertLoop_here _ _ k _ h.root hno]
  rfl

theorem items_setItems {n : QuadTreeNode} (hn : n.isNode = true) (its : List Handle) :
    (n.setItems its).items = its := by
  cases n with
  | nullptr => simp [QuadTreeNode.isNode] at hn
  | node => rfl

/-- C21: in every tree reached through the public interface, the insert of an
item whose bound none of the four child bounds of the root contains returns,
appends the item to the master sequence, appends its handle to the item list
of the root, and leaves the four child pointers of the root as they were. -/
theorem seam_item_stored_at_root (outer : Bound) (ops : List Op) (s : Shape) :
    ∃ t, QuadTree.run outer ops = some t ∧
      ((∀ i, (t.rootNode.childrenBounds.get i).contains s.toBound = false) →
        ∃ t2, t.insert s = some t2 ∧ t2.items = t.items.push_back s ∧
          t2.rootNode = t.rootNode.setItems (t.rootNode.items ++ [t.items.next]) ∧
          t2.rootNode.items = t.rootNode.items ++ [t.items.next] ∧
          ∀ i, t2.rootNode.child i = t.rootNode.child i) := by
  obtain ⟨t, h1, h2⟩ := run_inv outer ops
  refine ⟨t, h1, fun hno => ⟨_, insert_here t s h2 (Or.inr hno), rfl, rfl, ?_, ?_⟩⟩
  · exact items_setItems h2.root _
  · intro i
    exact child_setItems _ _ i

/-- The scenario of C21: in the outer bound `((0,0),(100,100))` no quadrant
contains `((49,49),(51,51))`; the insert stores handle 0 in the root, which
stays the only node, and `queryOverlap(((50,50),(50,50)))` returns it. -/
theorem seam_item_stored_at_root_witness :
    (∀ i, ((QuadTree.new outer100).rootNode.childrenBounds.get i).contains
        (mkShape 49 49 51 51).toBound = false) ∧
      (QuadTree.run outer100 [Op.insert (mkShape 49 49 51 51)]).map
          (fun t => (t.rootNode.items, t.rootNode.size)) = some ([0], 1) ∧
      ((QuadTree.run outer100 [Op.insert (mkShape 49 49 51 51)]).bind
          (fun t => t.queryOverlap (mkBound 50 50 50 50))) = some [0] ∧
      ∃ t2, (QuadTree.new outer100).insert (mkShape 49 49 51 51) = some t2 ∧
        t2.items = (QuadTree.new outer100).items.push_back (mkShape 49 49 51 51) ∧
        t2.rootNode = (QuadTree.new outer100).rootNode.setItems
          ((QuadTree.new outer100).rootNode.items ++ [(QuadTree.new outer100).items.next]) ∧
        t2.rootNode.items
          = (QuadTree.new outer100).rootNode.items ++ [(QuadTree.new outer100).items.next] ∧
        ∀ i, t2.rootNode.child i = (QuadTree.new outer100).rootNode.child i := by
  refine ⟨by decide, by decide, by decide, ?_⟩
  obtain ⟨t, h1, h2⟩ := seam_item_stored_at_root outer100 [] (mkShape 49 49 51 51)
  have e : t = QuadTree.new outer100 := by
    simp only [QuadTree.run, QuadTree.steps, Option.some.injEq] at h1
    exact h1.symm
  subst e
  exact h2 (by decide)

/-! ## Members of the nodes of a reachable tree -/

theorem shapeInv_nodeAt : ∀ (p : Path) (n : QuadTreeNode), n.ShapeInv → (n.nodeAt p).ShapeInv
  | [], _, h => h
  | i :: p, n, h => shapeInv_nodeAt p (n.child i) (shapeInv_child i h).1

theorem depthInv_nodeAt : ∀ (p : Path) (n : QuadTreeNode) (dd : Int),
    QuadTreeNode.DepthInv dd n → QuadTreeNode.DepthInv (dd + p.length) (n.nodeAt p)
  | [], n, dd, h => by simpa using h
  | i :: p, n, dd, h => by
    have := depthInv_nodeAt p (n.child i) (dd + 1) (depthInv_child i h)
    simp only [QuadTreeNode.nodeAt, List.length_cons, Nat.cast_add, Nat.cast_one]
    have e : dd + ((p.length : Int) + 1) = dd + 1 + p.length := by omega
    rw [e]
    exact this

/-- What the members of a node say, when they are those the constructor
computes and the depth is in range. -/
theorem shape_members {n : QuadTreeNode} {dd : Int} (hn : n.isNode = true) (hs : n.ShapeInv)
    (hd : QuadTreeNode.DepthInv dd n) :
    (n.leafNode = true ↔ (n.bound.quadDivisible = false ∨ n.depth + 1 = MAXDEPTH)) ∧
      (n.leafNode = false → n.childrenBounds = n.bound.getQuadDivision) ∧
      (n.leafNode = true → ∀ i, n.child i = QuadTreeNode.nullptr) ∧
      (n.leafNode = false → n.depth < MAXDEPTH - 1) := by
  cases n with
  | nullptr => simp [QuadTreeNode.isNode] at hn
  | node l d b its c0 c1 c2 c3 cb =>
    simp only [QuadTreeNode.ShapeInv] at hs
    simp only [QuadTreeNode.DepthInv, MAXDEPTH] at hd
    obtain ⟨hl, hcb, hnull, -⟩ := hs
    obtain ⟨hdd, hd0, hd6, -⟩ := hd
    subst hdd
    have hw : wrap32 (d + 1) = d + 1 := wrap32_small (by omega) (by omega)
    rw [hw] at hl
    simp only [QuadTreeNode.leafNode, QuadTreeNode.bound, QuadTreeNode.depth,
      QuadTreeNode.childrenBounds, MAXDEPTH]
    refine ⟨?_, hcb, ?_, ?_⟩
    · rw [hl]
      simp [MAXDEPTH]
    · intro h i
      obtain ⟨e0, e1, e2, e3⟩ := hnull h
      subst e0 e1 e2 e3
      fin_cases i <;> rfl
    · intro h
      rw [h] at hl
      have : ¬ (d + 1 = 6) := by
        intro h6
        simp [MAXDEPTH, h6] at hl
      omega

theorem reachable_node {outer : Bound} {t : QuadTree} (hi : t.Inv) (h2 : t.Inv2 outer)
    (p : Path) (hn : (t.rootNode.nodeAt p).isNode = true) :
    ((t.rootNode.nodeAt p).leafNode = true ↔
        ((t.rootNode.nodeAt p).bound.quadDivisible = false ∨
          (t.rootNode.nodeAt p).depth + 1 = MAXDEPTH)) ∧
      ((t.rootNode.nodeAt p).leafNode = false →
        (t.rootNode.nodeAt p).childrenBounds = (t.rootNode.nodeAt p).bound.getQuadDivision) ∧
      ((t.rootNode.nodeAt p).leafNode = true →
        ∀ i, (t.rootNode.nodeAt p).child i = QuadTreeNode.nullptr) ∧
      ((t.rootNode.nodeAt p).leafNode = false → (t.rootNode.nodeAt p).depth < MAXDEPTH - 1) :=
  shape_members hn (shapeInv_nodeAt p _ h2.shape) (depthInv_nodeAt p _ 0 hi.depth)

end qt

namespace qt

/-! ## Descent into the first quadrant that contains the item -/

/-- One descent of the loop of `insert`: at a node of a well-shaped tree where
the `for` loop finds the child `i`, the loop returns the node with the result
of the loop on child `i` in slot `i`; the handle is then below child `i`. -/
theorem insertLoop_descend (item : Handle) (b : Bound) (fuel : Nat) (n : QuadTreeNode)
    (dd : Int) (i : Fin 4) (hn : n.isNode = true) (hd : QuadTreeNode.DepthInv dd n)
    (hs : n.ShapeInv) (hf : MAXDEPTH ≤ dd + fuel) (hl : n.leafNode = false)
    (hfn : QuadTreeNode.findNext n b idx4 = some i) :
    ∃ n3, QuadTreeNode.insertLoop item b fuel n = some (n.setChild i n3) ∧
      n3.isNode = true ∧ n3.bound = n.childrenBounds.get i ∧
      (∀ a, n3.handles.count a = (n.child i).handles.count a + [item].count a) ∧
      (n.setChild i n3).child i = n3 := by
  cases fuel with
  | zero =>
    cases n with
    | nullptr => simp [QuadTreeNode.isNode] at hn
    | node l d bd its c0 c1 c2 c3 cb =>
      simp only [QuadTreeNode.DepthInv, MAXDEPTH] at hd
      simp only [MAXDEPTH] at hf
      omega
  | succ fuel =>
    cases n with
    | nullptr => simp [QuadTreeNode.isNode] at hn
    | node l dn bd its c0 c1 c2 c3 cb =>
      have hd2 := hd
      simp only [QuadTreeNode.DepthInv, MAXDEPTH] at hd2
      obtain ⟨hdd, hd0, hd6, -⟩ := hd2
      subst hdd
      rcases insertLoop_step item b fuel l dn bd its c0 c1 c2 c3 cb with
        ⟨-, h1⟩ | ⟨j, -, hfj, h1⟩
      · rcases h1 with h1 | h1
        · simp only [QuadTreeNode.leafNode] at hl
          rw [hl] at h1
          exact absurd h1 Bool.false_ne_true
        · rw [h1] at hfn
          cases hfn
      · rw [hfn] at hfj
        cases hfj
        obtain ⟨-, hcreate⟩ := findNext_some hfn
        simp only [QuadTreeNode.depth, MAXDEPTH] at hcreate
        have hnext : (if ((QuadTreeNode.node l dn bd its c0 c1 c2 c3 cb).child i).isNode = true
            then (QuadTreeNode.node l dn bd its c0 c1 c2 c3 cb).child i
            else QuadTreeNode.new (cb.get i) (wrap32 (dn + 1))).isNode = true ∧
            QuadTreeNode.DepthInv (dn + 1)
              (if ((QuadTreeNode.node l dn bd its c0 c1 c2 c3 cb).child i).isNode = true
              then (QuadTreeNode.node l dn bd its c0 c1 c2 c3 cb).child i
              else QuadTreeNode.new (cb.get i) (wrap32 (dn + 1))) ∧
            (if ((QuadTreeNode.node l dn bd its c0 c1 c2 c3 cb).child i).isNode = true
              then (QuadTreeNode.node l dn bd its c0 c1 c2 c3 cb).child i
              else QuadTreeNode.new (cb.get i) (wrap32 (dn + 1))).bound = cb.get i ∧
            (if ((QuadTreeNode.node l dn bd its c0 c1 c2 c3 cb).child i).isNode = true
              then (QuadTreeNode.node l dn bd its c0 c1 c2 c3 cb).child i
              else QuadTreeNode.new (cb.get i) (wrap32 (dn + 1))).handles
              = ((QuadTreeNode.node l dn bd its c0 c1 c2 c3 cb).child i).handles := by
          by_cases hex : ((QuadTreeNode.node l dn bd its c0 c1 c2 c3 cb).child i).isNode = true
          · rw [if_pos hex]
            exact ⟨hex, depthInv_child i hd, (shapeInv_child i hs).2 hex, rfl⟩
          · rw [if_neg hex]
            have hlt : dn < 5 := by
              rcases hcreate with h | h
              · exact absurd h hex
              · omega
            have hw : wrap32 (dn + 1) = dn + 1 := wrap32_small (by omega) (by omega)
            refine ⟨rfl, ?_, rfl, ?_⟩
            · rw [hw]
              simp only [QuadTreeNode.new, QuadTreeNode.DepthInv, MAXDEPTH]
              exact ⟨trivial, by omega, by omega, trivial, trivial, trivial, trivial⟩
            · have e := handles_eq_nil_of_not_isNode
                (n := (QuadTreeNode.node l dn bd its c0 c1 c2 c3 cb).child i) (by simpa using hex)
              rw [e]
              simp [QuadTreeNode.new, QuadTreeNode.handles]
        obtain ⟨g1, g2, g3, g4⟩ := hnext
        obtain ⟨n3, k1, k2, -, k4, k5, -⟩ := insertLoop_spec item b fuel _ (dn + 1) g1 g2
          (by simp only [MAXDEPTH] at hf ⊢; push_cast at hf; omega)
        refine ⟨n3, ?_, k2, by rw [k4, g3]; rfl, ?_, child_setChild_same _ _ _ _ _ _ _ _ _ _ _⟩
        · rw [h1, k1]
          rfl
        · intro a
          rw [k5 a, g4]

/-- Without overflow, a quadrant of a quad-divisible bound is contained in no
quadrant of lower index. -/
theorem quadrant_not_in_earlier (b : Bound) (hq : b.quadDivisible = true)
    (hs : b.small = true) (i j : Fin 4) (hji : j < i) :
    (b.getQuadDivision.get j).contains (b.getQuadDivision.get i) = false := by
  rw [getQuadDivision_small b hs]
  rw [quadDivisible_iff] at hq
  have hx := (tdiv_two_bounds (b.bottomRight.x - b.topLeft.x)).1 (by omega)
  have hy := (tdiv_two_bounds (b.bottomRight.y - b.topLeft.y)).1 (by omega)
  generalize Int.tdiv (b.bottomRight.x - b.topLeft.x) 2 = hx2 at hx ⊢
  generalize Int.tdiv (b.bottomRight.y - b.topLeft.y) 2 = hy2 at hy ⊢
  rw [Bool.eq_false_iff]
  intro hc
  revert hji
  fin_cases i <;> fin_cases j <;> intro hji <;>
    first
      | exact absurd hji (by decide)
      | (simp only [Array4.get, Bound.contains, Bool.and_eq_true, decide_eq_true_eq,
           ge_iff_le] at hc
         omega)

/-- Among four indices, the first one at which a test holds. -/
theorem exists_first (P : Fin 4 → Bool) (i : Fin 4) (hi : P i = true) :
    ∃ j, j ≤ i ∧ P j = true ∧ ∀ k, k < j → P k = false := by
  revert P
  revert i
  decide

/-- C22: in every tree reached through the public interface, at every node
that is not a leaf, when child bound `i` contains the bound of the item and no
child bound of lower index (order NW, NE, SW, SE) does, the `for` loop of
`insert` chooses child `i` and the loop started at the node returns with the
handle below child `i`, the node's own item list and its other children
unchanged; an item whose bound equals child bound `i` is such an item for the
first child bound that contains it, which is child `i` itself when the width and
height of the outer bound are values of `int32_t`. -/
theorem seam_tie_break (outer : Bound) (ops : List Op) :
    ∃ t, QuadTree.run outer ops = some t ∧
      ∀ p, (t.rootNode.nodeAt p).isNode = true → (t.rootNode.nodeAt p).leafNode = false →
        (∀ (item : Handle) (b : Bound) (i : Fin 4),
          ((t.rootNode.nodeAt p).childrenBounds.get i).contains b = true →
          (∀ j, j < i → ((t.rootNode.nodeAt p).childrenBounds.get j).contains b = false) →
          QuadTreeNode.findNext (t.rootNode.nodeAt p) b idx4 = some i ∧
          ∀ fuel, MAXDEPTH.toNat ≤ fuel →
            ∃ n2, QuadTreeNode.insertLoop item b fuel (t.rootNode.nodeAt p) = some n2 ∧
              n2.items = (t.rootNode.nodeAt p).items ∧
              (∀ j, j ≠ i → n2.child j = (t.rootNode.nodeAt p).child j) ∧
              (n2.child i).bound = (t.rootNode.nodeAt p).childrenBounds.get i ∧
              item ∈ (n2.child i).handles) ∧
        (∀ i, ∃ j, j ≤ i ∧
          QuadTreeNode.findNext (t.rootNode.nodeAt p)
            ((t.rootNode.nodeAt p).childrenBounds.get i) idx4 = some j) ∧
        (outer.small = true → ∀ i,
          QuadTreeNode.findNext (t.rootNode.nodeAt p)
            ((t.rootNode.nodeAt p).childrenBounds.get i) idx4 = some i) := by
  obtain ⟨t, h1, h2, h3⟩ := run_inv2 outer ops
  refine ⟨t, h1, ?_⟩
  intro p hn hl
  obtain ⟨-, g2, -, g4⟩ := reachable_node h2 h3 p hn
  have hdep := g4 hl
  have main : ∀ (b : Bound) (i : Fin 4),
      ((t.rootNode.nodeAt p).childrenBounds.get i).contains b = true →
      (∀ j, j < i → ((t.rootNode.nodeAt p).childrenBounds.get j).contains b = false) →
      QuadTreeNode.findNext (t.rootNode.nodeAt p) b idx4 = some i :=
    fun b i hi hlt => findNext_first hdep i hi hlt
  refine ⟨?_, ?_, ?_⟩
  · intro item b i hi hlt
    refine ⟨main b i hi hlt, ?_⟩
    intro fuel hfuel
    have hdi := depthInv_nodeAt p _ 0 h2.depth
    obtain ⟨n3, k1, -, k3, k4, k5⟩ := insertLoop_descend item b fuel _ _ i hn hdi
      (shapeInv_nodeAt p _ h3.shape)
      (by simp only [MAXDEPTH] at hfuel ⊢; omega) hl (main b i hi hlt)
    refine ⟨_, k1, items_setChild _ _ _, fun j hj => child_setChild_ne _ _ hj, ?_, ?_⟩
    · rw [k5, k3]
    · rw [k5]
      exact List.count_pos_iff.1 (by rw [k4 item]; simp)
  · intro i
    obtain ⟨j, hj, hc, hlt⟩ := exists_first
      (fun k => ((t.rootNode.nodeAt p).childrenBounds.get k).contains
        ((t.rootNode.nodeAt p).childrenBounds.get i)) i (contains_self _)
    exact ⟨j, hj, main _ j hc hlt⟩
  · intro hsm i
    obtain ⟨-, k2, k3⟩ := shape_nodeAt p t.rootNode h3.shape (by rw [h3.bound]; exact hsm) hn
    obtain ⟨k4, k5⟩ := k3 hl
    refine main _ i (contains_self _) ?_
    intro j hj
    rw [k5]
    exact quadrant_not_in_earlier _ k4 k2 i j hj

/-- The examples of C22: in the outer bound `((0,0),(100,100))` all four
quadrants contain the point item `((50,50),(50,50))`, and the insert puts its
handle below the NW child `((0,0),(50,50))`; the item `((50,0),(100,50))`, equal
to the NE child bound, goes below the NE child. -/
theorem seam_tie_break_witness :
    (∀ i, ((QuadTree.new outer100).rootNode.childrenBounds.get i).contains
        (mkBound 50 50 50 50) = true) ∧
      (QuadTree.run outer100 [Op.insert (mkShape 50 50 50 50)]).map
          (fun t => (t.rootNode.items, (t.rootNode.child 0).bound,
            (t.rootNode.child 0).handles, t.rootNode.existingChildren))
        = some ([], mkBound 0 0 50 50, [0], [0]) ∧
      (QuadTree.run outer100 [Op.insert (mkShape 50 0 100 50)]).map
          (fun t => (t.rootNode.items, (t.rootNode.child 1).bound,
            (t.rootNode.child 1).handles, t.rootNode.existingChildren))
        = some ([], mkBound 50 0 100 50, [0], [1]) ∧
      (QuadTreeNode.findNext (QuadTree.new outer100).rootNode (mkBound 50 50 50 50) idx4
          = some 0 ∧
        ∃ n2, QuadTreeNode.insertLoop 0 (mkBound 50 50 50 50) 6 (QuadTree.new outer100).rootNode
            = some n2 ∧
          n2.items = (QuadTree.new outer100).rootNode.items ∧
          (∀ j, j ≠ 0 → n2.child j = (QuadTree.new outer100).rootNode.child j) ∧
          (n2.child 0).bound = (QuadTree.new outer100).rootNode.childrenBounds.get 0 ∧
          0 ∈ (n2.child 0).handles) ∧
      (∀ i, QuadTreeNode.findNext (QuadTree.new outer100).rootNode
        ((QuadTree.new outer100).rootNode.childrenBounds.get i) idx4 = some i) := by
  refine ⟨by decide, by decide, by decide, ?_⟩
  obtain ⟨t, h1, h2⟩ := seam_tie_break outer100 []
  have e : t = QuadTree.new outer100 := by
    simp only [QuadTree.run, QuadTree.steps, Option.some.injEq] at h1
    exact h1.symm
  subst e
  obtain ⟨g1, -, g3⟩ := h2 [] (by decide) (by decide)
  obtain ⟨k1, k2⟩ := g1 0 (mkBound 50 50 50 50) 0 (by decide) (fun j hj => absurd hj (by omega))
  exact ⟨⟨k1, k2 6 (by decide)⟩, g3 (by decide)⟩

end qt

namespace qt

/-! ## Construction of a node -/

theorem wrap32_succ_eq_maxdepth (d : Int) (h : inInt32 d = true) :
    wrap32 (d + 1) = MAXDEPTH ↔ d + 1 = MAXDEPTH := by
  rw [inInt32_iff] at h
  unfold wrap32 MAXDEPTH
  omega

/-- C23: a node constructed for any bound and depth has four null child
pointers; its leaf flag is true exactly when the bound is not quad-divisible
(`topLeft.x >= bottomRight.x` or `topLeft.y >= bottomRight.y`) or
`depth + 1 == MAXDEPTH` (the addition is that of `int`; for a depth that is an
`int` value the comparison holds exactly when `depth + 1 = MAXDEPTH` over the
integers); when it is not a leaf its child bounds are `bound.getQuadDivision()`.
In every tree reached through the public interface every node's leaf flag
satisfies the same equivalence, a node that is not a leaf has the quadrants of
its bound as child bounds, and a leaf has no children. -/
theorem node_construction (b : Bound) (d : Int) (outer : Bound) (ops : List Op) :
    (∀ i, (QuadTreeNode.new b d).child i = QuadTreeNode.nullptr) ∧
      (QuadTreeNode.new b d).bound = b ∧ (QuadTreeNode.new b d).depth = d ∧
      (QuadTreeNode.new b d).items = [] ∧
      ((QuadTreeNode.new b d).leafNode = true ↔
        (b.quadDivisible = false ∨ wrap32 (d + 1) = MAXDEPTH)) ∧
      (b.quadDivisible = false ↔
        (b.topLeft.x ≥ b.bottomRight.x ∨ b.topLeft.y ≥ b.bottomRight.y)) ∧
      (inInt32 d = true → (wrap32 (d + 1) = MAXDEPTH ↔ d + 1 = MAXDEPTH)) ∧
      ((QuadTreeNode.new b d).leafNode = false →
        (QuadTreeNode.new b d).childrenBounds = b.getQuadDivision) ∧
      ∃ t, QuadTree.run outer ops = some t ∧
        ∀ p, (t.rootNode.nodeAt p).isNode = true →
          ((t.rootNode.nodeAt p).leafNode = true ↔
            ((t.rootNode.nodeAt p).bound.quadDivisible = false ∨
              (t.rootNode.nodeAt p).depth + 1 = MAXDEPTH)) ∧
          ((t.rootNode.nodeAt p).leafNode = false →
            (t.rootNode.nodeAt p).childrenBounds
              = (t.rootNode.nodeAt p).bound.getQuadDivision) ∧
          ((t.rootNode.nodeAt p).leafNode = true →
            ∀ i, (t.rootNode.nodeAt p).child i = QuadTreeNode.nullptr) := by
  refine ⟨?_, rfl, rfl, rfl, ?_, ?_, wrap32_succ_eq_maxdepth d, ?_, ?_⟩
  · intro i
    fin_cases i <;> rfl
  · simp [QuadTreeNode.new, QuadTreeNode.leafNode]
  · simp only [Bound.quadDivisible, Bool.and_eq_false_imp, decide_eq_true_eq,
      decide_eq_false_iff_not, ge_iff_le]
    constructor
    · intro h
      by_cases hx : b.topLeft.x < b.bottomRight.x
      · exact Or.inr (by have := h hx; omega)
      · exact Or.inl (by omega)
    · intro h hx
      omega
  · intro h
    simp only [QuadTreeNode.new, QuadTreeNode.leafNode] at h
    simp [QuadTreeNode.new, QuadTreeNode.childrenBounds, h]
  · obtain ⟨t, h1, h2, h3⟩ := run_inv2 outer ops
    refine ⟨t, h1, fun p hn => ?_⟩
    obtain ⟨g1, g2, g3, -⟩ := reachable_node h2 h3 p hn
    exact ⟨g1, g2, g3⟩

/-- Instances of C23: the node constructed for `((0,0),(100,100))` at depth 0
is not a leaf and has the four quadrants as child bounds; at depth 5 it is a
leaf, and so is the node for the zero-width bound `((0,0),(0,5))` at depth 0. -/
theorem node_construction_witness :
    (QuadTreeNode.new outer100 0).leafNode = false ∧
      (QuadTreeNode.new outer100 0).childrenBounds
        = ⟨mkBound 0 0 50 50, mkBound 50 0 100 50, mkBound 0 50 50 100,
            mkBound 50 50 100 100⟩ ∧
      (QuadTreeNode.new (mkBound 0 0 0 5) 0).leafNode = true ∧
      inInt32 5 = true ∧
      ((QuadTreeNode.new outer100 5).leafNode = true ↔
        (outer100.quadDivisible = false ∨ wrap32 (5 + 1) = MAXDEPTH)) ∧
      (wrap32 (5 + 1) = MAXDEPTH ↔ (5 : Int) + 1 = MAXDEPTH) ∧
      (QuadTreeNode.new outer100 5).leafNode = true := by
  obtain ⟨-, -, -, -, h5, -, h7, -⟩ := node_construction outer100 5 outer100 []
  exact ⟨by decide, by decide, by decide, by decide, h5, h7 (by decide), by decide⟩

/-! ## Items outside the outer bound -/

/-- C29, the failing input: the coordinates of the outer bound
`((-2147483648,0),(0,1))` and of the item `((5,0),(10,0))` are values of
`int32_t` and the outer bound does not contain the item; its width is not a
value of `int32_t`, the NW child bound computed is
`((-2147483648,0),(1073741824,0))` and contains the item; the insert creates the
NW child and stores the handle there, not in the root. -/
theorem outside_item_descends_on_overflow :
    (mkBound (-2147483648) 0 0 1).contains (mkShape 5 0 10 0).toBound = false ∧
      inInt32 (-2147483648) = true ∧ inInt32 (0 - (-2147483648)) = false ∧
      ((QuadTree.new (mkBound (-2147483648) 0 0 1)).rootNode.childrenBounds.get 0)
        = mkBound (-2147483648) 0 1073741824 0 ∧
      (mkBound (-2147483648) 0 1073741824 0).contains (mkShape 5 0 10 0).toBound = true ∧
      (QuadTree.run (mkBound (-2147483648) 0 0 1) [Op.insert (mkShape 5 0 10 0)]).map
          (fun t => (t.rootNode.items, t.rootNode.existingChildren,
            (t.rootNode.child 0).items))
        = some ([], [0], [0]) := by
  decide

/-- C29, amended: in every tree reached through the public interface from an
outer bound whose coordinates, width and height are values of `int32_t`, no
child bound of a root that is not a leaf contains an item that the outer bound
does not contain, and the insert of such an item returns, appends the handle to
the item list of the root and leaves the child pointers of the root as they
were. -/
theorem outside_item_stored_at_root (outer : Bound) (ops : List Op) (s : Shape)
    (hs : outer.small = true) (hc : outer.contains s.toBound = false) :
    ∃ t t2, QuadTree.run outer ops = some t ∧
      (t.rootNode.leafNode = false →
        ∀ i, (t.rootNode.childrenBounds.get i).contains s.toBound = false) ∧
      t.insert s = some t2 ∧ t2.items = t.items.push_back s ∧
      t2.rootNode = t.rootNode.setItems (t.rootNode.items ++ [t.items.next]) ∧
      t2.rootNode.items = t.rootNode.items ++ [t.items.next] ∧
      ∀ i, t2.rootNode.child i = t.rootNode.child i := by
  obtain ⟨t, h1, h2, h3⟩ := run_inv2 outer ops
  have hno : t.rootNode.leafNode = false →
      ∀ i, (t.rootNode.childrenBounds.get i).contains s.toBound = false := by
    intro hl i
    obtain ⟨-, k2, k3⟩ := shape_nodeAt [] t.rootNode h3.shape (by rw [h3.bound]; exact hs)
      h2.root
    simp only [QuadTreeNode.nodeAt] at k2 k3
    obtain ⟨k4, k5⟩ := k3 hl
    rw [Bool.eq_false_iff]
    intro hcon
    have hp := (partitions_getQuadDivision _ k4 k2).1 i
    rw [← k5, h3.bound] at hp
    rw [contains_trans hp hcon] at hc
    exact Bool.noConfusion hc
  have hor : t.rootNode.leafNode = true ∨
      ∀ i, (t.rootNode.childrenBounds.get i).contains s.toBound = false := by
    cases hl : t.rootNode.leafNode
    · exact Or.inr (hno hl)
    · exact Or.inl rfl
  refine ⟨t, _, h1, hno, insert_here t s h2 hor, rfl, rfl, items_setItems h2.root _, ?_⟩
  intro i
  exact child_setItems _ _ i

/-- An instance of C29, amended: after `A`, `B`, `C` in the outer bound
`((0,0),(100,100))`, the item `((90,90),(110,110))` gets handle 3, which is
stored in the root after the handle 2 of `C`. -/
theorem outside_item_stored_at_root_witness :
    outer100.small = true ∧ outer100.contains (mkShape 90 90 110 110).toBound = false ∧
      (QuadTree.run outer100 (insertABC ++ [Op.insert (mkShape 90 90 110 110)])).map
          (fun t => t.rootNode.items) = some [2, 3] ∧
      ∃ t t2, QuadTree.run outer100 insertABC = some t ∧
        (t.rootNode.leafNode = false →
          ∀ i, (t.rootNode.childrenBounds.get i).contains (mkShape 90 90 110 110).toBound
            = false) ∧
        t.insert (mkShape 90 90 110 110) = some t2 ∧
        t2.items = t.items.push_back (mkShape 90 90 110 110) ∧
        t2.rootNode = t.rootNode.setItems (t.rootNode.items ++ [t.items.next]) ∧
        t2.rootNode.items = t.rootNode.items ++ [t.items.next] ∧
        ∀ i, t2.rootNode.child i = t.rootNode.child i :=
  ⟨by decide, by decide, by decide,
    outside_item_stored_at_root outer100 insertABC (mkShape 90 90 110 110) (by decide)
      (by decide)⟩

end qt

namespace qt

/-! ## Maximal descent -/

theorem descentInv_congr {bnd bnd2 : Handle → Bound} :
    ∀ (n : QuadTreeNode), (∀ x ∈ n.handles, bnd x = bnd2 x) →
      QuadTreeNode.DescentInv bnd n → QuadTreeNode.DescentInv bnd2 n := by
  intro n
  induction n with
  | nullptr => intro _ _; trivial
  | node l d b its c0 c1 c2 c3 cb h0 h1 h2 h3 =>
    intro he h
    simp only [QuadTreeNode.DescentInv] at h ⊢
    simp only [QuadTreeNode.handles] at he
    obtain ⟨g0, g1, g2, g3, g4⟩ := h
    refine ⟨?_, h0 (fun x hx => he x ?_) g1, h1 (fun x hx => he x ?_) g2,
      h2 (fun x hx => he x ?_) g3, h3 (fun x hx => he x ?_) g4⟩
    · intro hl x hx i
      rw [← he x (by simp [hx])]
      exact g0 hl x hx i
    all_goals simp [hx]

theorem descentInv_new (bnd : Handle → Bound) (b : Bound) (d : Int) :
    QuadTreeNode.DescentInv bnd (QuadTreeNode.new b d) := by
  simp [QuadTreeNode.new, QuadTreeNode.DescentInv]

theorem descentInv_child {bnd : Handle → Bound} {n : QuadTreeNode} (i : Fin 4)
    (h : QuadTreeNode.DescentInv bnd n) : QuadTreeNode.DescentInv bnd (n.child i) := by
  cases n with
  | nullptr => simp [QuadTreeNode.child, QuadTreeNode.DescentInv]
  | node l d b its c0 c1 c2 c3 cb =>
    simp only [QuadTreeNode.DescentInv] at h
    obtain ⟨-, g1, g2, g3, g4⟩ := h
    fin_cases i
    · exact g1
    · exact g2
    · exact g3
    · exact g4

theorem descentInv_setChild {bnd : Handle → Bound} {n : QuadTreeNode} (i : Fin 4)
    {c : QuadTreeNode} (h : QuadTreeNode.DescentInv bnd n)
    (hc : QuadTreeNode.DescentInv bnd c) : QuadTreeNode.DescentInv bnd (n.setChild i c) := by
  cases n with
  | nullptr => trivial
  | node l d b its c0 c1 c2 c3 cb =>
    simp only [QuadTreeNode.DescentInv] at h
    obtain ⟨g0, g1, g2, g3, g4⟩ := h
    fin_cases i <;> simp only [QuadTreeNode.setChild, QuadTreeNode.DescentInv]
    · exact ⟨g0, hc, g2, g3, g4⟩
    · exact ⟨g0, g1, hc, g3, g4⟩
    · exact ⟨g0, g1, g2, hc, g4⟩
    · exact ⟨g0, g1, g2, g3, hc⟩

theorem descentInv_clearRec (bnd : Handle → Bound) :
    ∀ (n : QuadTreeNode), QuadTreeNode.DescentInv bnd n.clearRec := by
  intro n
  induction n with
  | nullptr => trivial
  | node l d b its c0 c1 c2 c3 cb h0 h1 h2 h3 =>
    simp [QuadTreeNode.clearRec, QuadTreeNode.DescentInv, h0, h1, h2, h3]

theorem descentInv_removeRec (bnd : Handle → Bound) (R : Bound) (test : Handle → Bool) :
    ∀ (n : QuadTreeNode), QuadTreeNode.DescentInv bnd n →
      QuadTreeNode.DescentInv bnd (n.removeRec R test) := by
  intro n
  induction n with
  | nullptr => intro _; trivial
  | node l d b its c0 c1 c2 c3 cb h0 h1 h2 h3 =>
    intro h
    simp only [QuadTreeNode.DescentInv] at h
    obtain ⟨g0, g1, g2, g3, g4⟩ := h
    by_cases hc : R.contains b = true
    · simp [QuadTreeNode.removeRec, hc, QuadTreeNode.DescentInv, descentInv_clearRec]
    · simp only [QuadTreeNode.removeRec, hc, QuadTreeNode.DescentInv]
      refine ⟨fun hl x hx => g0 hl x (List.mem_filter.1 hx).1, ?_, ?_, ?_, ?_⟩
      all_goals split_ifs
      all_goals first
        | assumption
        | exact h0 g1
        | exact h1 g2
        | exact h2 g3
        | exact h3 g4

/-- The loop of `insert` keeps maximal descent: it stops at a node only when
the node is a leaf or no child bound contains the item. -/
theorem insertLoop_descent (item : Handle) (b : Bound) (bnd : Handle → Bound)
    (hb : bnd item = b) :
    ∀ (fuel : Nat) (n n2 : QuadTreeNode) (dd : Int), QuadTreeNode.DepthInv dd n →
      n.ShapeInv → QuadTreeNode.DescentInv bnd n →
      QuadTreeNode.insertLoop item b fuel n = some n2 → QuadTreeNode.DescentInv bnd n2 := by
  intro fuel
  induction fuel with
  | zero =>
    intro n n2 dd _ _ _ h
    cases n <;> simp [QuadTreeNode.insertLoop] at h
  | succ fuel ih =>
    intro n n2 dd hd hs hdes h
    cases n with
    | nullptr => simp [QuadTreeNode.insertLoop] at h
    | node l dn bd its c0 c1 c2 c3 cb =>
      have hmem := shape_members (n := .node l dn bd its c0 c1 c2 c3 cb) rfl hs hd
      rcases insertLoop_step item b fuel l dn bd its c0 c1 c2 c3 cb with
        ⟨h1, h2⟩ | ⟨i, hl, hfn, h1⟩
      · rw [h1] at h
        cases h
        simp only [QuadTreeNode.DescentInv] at hdes ⊢
        obtain ⟨g0, g1, g2, g3, g4⟩ := hdes
        refine ⟨?_, g1, g2, g3, g4⟩
        intro hl x hx i
        rcases List.mem_append.1 hx with hx | hx
        · exact g0 hl x hx i
        · rw [List.mem_singleton.1 hx, hb]
          rcases h2 with h2 | h2
          · rw [hl] at h2
            exact absurd h2 Bool.false_ne_true
          · exact not_contains_of_findNext_none (hmem.2.2.2 hl) idx4 h2 i (by
              unfold idx4
              fin_cases i <;> simp)
      · rw [h1] at h
        cases hrec : QuadTreeNode.insertLoop item b fuel
            (if ((QuadTreeNode.node l dn bd its c0 c1 c2 c3 cb).child i).isNode = true
              then (QuadTreeNode.node l dn bd its c0 c1 c2 c3 cb).child i
              else QuadTreeNode.new (cb.get i) (wrap32 (dn + 1))) with
        | none => rw [hrec] at h; simp at h
        | some n3 =>
          rw [hrec] at h
          simp only [Option.map, Option.some.injEq] at h
          subst h
          refine descentInv_setChild i hdes ?_
          obtain ⟨-, hcreate⟩ := findNext_some hfn
          simp only [QuadTreeNode.depth, MAXDEPTH] at hcreate
          have hd2 := hd
          simp only [QuadTreeNode.DepthInv, MAXDEPTH] at hd2
          obtain ⟨hdd, hd0, hd6, -⟩ := hd2
          subst hdd
          by_cases hex : ((QuadTreeNode.node l dn bd its c0 c1 c2 c3 cb).child i).isNode = true
          · rw [if_pos hex] at hrec
            exact ih _ _ _ (depthInv_child i hd) (shapeInv_child i hs).1
              (descentInv_child i hdes) hrec
          · rw [if_neg hex] at hrec
            have hlt : dn < 5 := by
              rcases hcreate with h | h
              · exact absurd h hex
              · omega
            have hw : wrap32 (dn + 1) = dn + 1 := wrap32_small (by omega) (by omega)
            refine ih _ _ (dn + 1) ?_ (shapeInv_new _ _) (descentInv_new _ _ _) hrec
            rw [hw]
            simp only [QuadTreeNode.new, QuadTreeNode.DepthInv, MAXDEPTH]
            exact ⟨trivial, by omega, by omega, trivial, trivial, trivial, trivial⟩

theorem step_descent (outer : Bound) (t : QuadTree) (op : Op) (h : t.Inv) (h2 : t.Inv2 outer)
    (h3 : QuadTreeNode.DescentInv t.items.boundOf t.rootNode) :
    ∃ t2, t.step op = some t2 ∧ t2.Inv ∧ t2.Inv2 outer ∧
      QuadTreeNode.DescentInv t2.items.boundOf t2.rootNode := by
  obtain ⟨t2, g1, g2, g3⟩ := step_inv2 outer t op h h2
  refine ⟨t2, g1, g2, g3, ?_⟩
  cases op with
  | insert s =>
    obtain ⟨e1, e2, e3⟩ := insert_eq t s h
    simp only [QuadTree.step] at g1
    rw [e1] at g1
    cases hrec : QuadTreeNode.insertLoop t.items.next s.toBound
        (t.rootNode.height + MAXDEPTH.toNat) t.rootNode with
    | none => rw [hrec] at g1; simp at g1
    | some r =>
      rw [hrec] at g1
      simp only [Option.map, Option.some.injEq] at g1
      subst g1
      exact insertLoop_descent _ _ _ e2 _ _ _ 0 h.depth h2.shape
        (descentInv_congr _ (fun x hx => (e3 x (h.sync.perm.mem_iff.1 hx)).symm) h3) hrec
  | removeOverlap R =>
    obtain ⟨m2, k1, k3, -, k5, -⟩ := remove_inv t R QuadTree.overlapFn h
    simp only [QuadTree.step, QuadTree.removeOverlap, k1, Option.map, Option.some.injEq] at g1
    subst g1
    exact descentInv_congr _ (fun x hx => (k5 x (k3.sync.perm.mem_iff.1 hx)).symm)
      (descentInv_removeRec _ R _ _ h3)
  | removeContain R =>
    obtain ⟨m2, k1, k3, -, k5, -⟩ := remove_inv t R QuadTree.containFn h
    simp only [QuadTree.step, QuadTree.removeContain, k1, Option.map, Option.some.injEq] at g1
    subst g1
    exact descentInv_congr _ (fun x hx => (k5 x (k3.sync.perm.mem_iff.1 hx)).symm)
      (descentInv_removeRec _ R _ _ h3)

theorem steps_descent (outer : Bound) : ∀ (ops : List Op) (t : QuadTree), t.Inv →
    t.Inv2 outer → QuadTreeNode.DescentInv t.items.boundOf t.rootNode →
    ∃ t2, t.steps ops = some t2 ∧ t2.Inv ∧ t2.Inv2 outer ∧
      QuadTreeNode.DescentInv t2.items.boundOf t2.rootNode
  | [], t, h, h2, h3 => ⟨t, rfl, h, h2, h3⟩
  | op :: ops, t, h, h2, h3 => by
    obtain ⟨t1, g1, g2, g3, g4⟩ := step_descent outer t op h h2 h3
    obtain ⟨t2, k1, k2, k3, k4⟩ := steps_descent outer ops t1 g2 g3 g4
    exact ⟨t2, by simp only [QuadTree.steps, g1, k1], k2, k3, k4⟩

theorem run_descent (outer : Bound) (ops : List Op) :
    ∃ t, QuadTree.run outer ops = some t ∧ t.Inv ∧ t.Inv2 outer ∧
      QuadTreeNode.DescentInv t.items.boundOf t.rootNode :=
  steps_descent outer ops _ (inv_new outer).1 (inv2_new outer) (descentInv_new _ _ _)

theorem descentInv_nodeAt {bnd : Handle → Bound} :
    ∀ (p : Path) (n : QuadTreeNode), QuadTreeNode.DescentInv bnd n →
      QuadTreeNode.DescentInv bnd (n.nodeAt p)
  | [], _, h => h
  | i :: p, n, h => descentInv_nodeAt p (n.child i) (descentInv_child i h)

/-- C30: in every tree reached through the public interface, every handle in
the item list of a node points to a stored item, and the node is a leaf or
none of its four child bounds contains the bound of that item. -/
theorem maximal_descent (outer : Bound) (ops : List Op) :
    ∃ t, QuadTree.run outer ops = some t ∧
      ∀ p, ∀ h ∈ (t.rootNode.nodeAt p).items,
        ∃ s, t.items.deref h = some s ∧
          ((t.rootNode.nodeAt p).leafNode = true ∨
            ∀ i, ((t.rootNode.nodeAt p).childrenBounds.get i).contains s.toBound = false) := by
  obtain ⟨t, h1, h2, -, h4⟩ := run_descent outer ops
  refine ⟨t, h1, ?_⟩
  intro p h hh
  have hnode : (t.rootNode.nodeAt p).isNode = true := by
    cases hq : (t.rootNode.nodeAt p).isNode
    · rw [items_nodeAt_of_not_isNode hq] at hh
      cases hh
    · rfl
  obtain ⟨s, hs1, hs2⟩ := h2.sync.live h (mem_handles_of_mem_items_nodeAt hnode hh)
  refine ⟨s, hs1, ?_⟩
  have hd := descentInv_nodeAt p _ h4
  cases hq : t.rootNode.nodeAt p with
  | nullptr => rw [hq] at hnode; simp [QuadTreeNode.isNode] at hnode
  | node l d b its c0 c1 c2 c3 cb =>
    rw [hq] at hd hh
    simp only [QuadTreeNode.DescentInv] at hd
    simp only [QuadTreeNode.leafNode, QuadTreeNode.childrenBounds]
    simp only [QuadTreeNode.items] at hh
    cases l with
    | true => exact Or.inl rfl
    | false =>
      right
      intro i
      rw [hs2]
      exact hd.1 rfl h hh i

end qt

namespace qt

/-! ## `getBounds`: breadth-first order -/

theorem kids_cons (n : QuadTreeNode) (ns : List QuadTreeNode) :
    QuadTreeNode.kids (n :: ns)
      = (QuadTreeNode.existingChildren n).map n.child ++ QuadTreeNode.kids ns := by
  simp [QuadTreeNode.kids]

theorem isNode_of_mem_kids {ns : List QuadTreeNode} {c : QuadTreeNode}
    (h : c ∈ QuadTreeNode.kids ns) : c.isNode = true := by
  simp only [QuadTreeNode.kids, List.mem_flatMap, List.mem_map] at h
  obtain ⟨m, -, i, hi, rfl⟩ := h
  exact isNode_of_mem_existingChildren hi

theorem height_child_lt {n : QuadTreeNode} (hn : n.isNode = true) (i : Fin 4) :
    (n.child i).height < n.height := by
  cases n with
  | nullptr => simp [QuadTreeNode.isNode] at hn
  | node l d b its c0 c1 c2 c3 cb =>
    fin_cases i <;> simp only [QuadTreeNode.child, QuadTreeNode.height] <;> omega

theorem height_of_mem_kids {ns : List QuadTreeNode} {h : Nat}
    (hns : ∀ n ∈ ns, n.isNode = true ∧ n.height ≤ h + 1) {c : QuadTreeNode}
    (hc : c ∈ QuadTreeNode.kids ns) : c.isNode = true ∧ c.height ≤ h := by
  refine ⟨isNode_of_mem_kids hc, ?_⟩
  simp only [QuadTreeNode.kids, List.mem_flatMap, List.mem_map] at hc
  obtain ⟨m, hm, i, -, rfl⟩ := hc
  have h1 := height_child_lt (hns m hm).1 i
  have h2 := (hns m hm).2
  omega

theorem sizes_kids (ns : List QuadTreeNode) (hns : ∀ n ∈ ns, n.isNode = true) :
    (ns.map QuadTreeNode.size).sum
      = ns.length + ((QuadTreeNode.kids ns).map QuadTreeNode.size).sum := by
  induction ns with
  | nil => rfl
  | cons n ns ih =>
    have h1 := ih (fun m hm => hns m (List.mem_cons_of_mem _ hm))
    have hn := hns n (List.mem_cons_self _ _)
    rw [kids_cons]
    simp only [List.map_cons, List.sum_cons, List.length_cons, List.map_append, List.sum_append]
    cases n with
    | nullptr => simp [QuadTreeNode.isNode] at hn
    | node l d b its c0 c1 c2 c3 cb =>
      have := size_existingChildren l d b its c0 c1 c2 c3 cb
      omega

/-- The loop of `getBounds` takes the nodes at the front of the FIFO one by
one, appends their bounds and pushes their existing children. -/
theorem getBoundsLoop_level : ∀ (q1 q2 : List QuadTreeNode) (acc : List Bound) (f : Nat),
    (∀ n ∈ q1, n.isNode = true) →
    QuadTreeNode.getBoundsLoop (q1.length + f) (q1 ++ q2) acc
      = QuadTreeNode.getBoundsLoop f (q2 ++ QuadTreeNode.kids q1)
          (acc ++ q1.map QuadTreeNode.bound)
  | [], q2, acc, f, _ => by simp [QuadTreeNode.kids]
  | n :: q1, q2, acc, f, h => by
    have hn := h n (List.mem_cons_self _ _)
    have e : (n :: q1).length + f = (q1.length + f) + 1 := by
      simp only [List.length_cons]; omega
    rw [e, List.cons_append, QuadTreeNode.getBoundsLoop]
    simp only [hn, Bool.not_true, Bool.false_eq_true, if_false]
    rw [List.append_assoc,
      getBoundsLoop_level q1 _ _ f (fun m hm => h m (List.mem_cons_of_mem _ hm)), kids_cons]
    simp only [List.append_assoc, List.map_cons, List.singleton_append]

/-- With the number of nodes as fuel the loop of `getBounds` returns, and it
appends the bounds in breadth-first order. -/
theorem getBoundsLoop_bfs : ∀ (h : Nat) (ns : List QuadTreeNode) (acc : List Bound),
    (∀ n ∈ ns, n.isNode = true ∧ n.height ≤ h) →
    QuadTreeNode.getBoundsLoop (ns.map QuadTreeNode.size).sum ns acc
      = some (acc ++ (QuadTreeNode.bfsNodes h ns).map QuadTreeNode.bound)
  | 0, ns, acc, hns => by
    cases ns with
    | nil => simp [QuadTreeNode.getBoundsLoop, QuadTreeNode.bfsNodes]
    | cons n ns =>
      have := hns n (List.mem_cons_self _ _)
      have hp := height_pos_of_isNode this.1
      omega
  | h + 1, ns, acc, hns => by
    rw [sizes_kids ns (fun n hn => (hns n hn).1)]
    have := getBoundsLoop_level ns [] acc ((QuadTreeNode.kids ns).map QuadTreeNode.size).sum
      (fun n hn => (hns n hn).1)
    rw [List.append_nil, List.nil_append] at this
    rw [this, getBoundsLoop_bfs h (QuadTreeNode.kids ns) _ (fun c hc => height_of_mem_kids hns hc)]
    simp [QuadTreeNode.bfsNodes]

theorem length_bfsNodes : ∀ (h : Nat) (ns : List QuadTreeNode),
    (∀ n ∈ ns, n.isNode = true ∧ n.height ≤ h) →
    (QuadTreeNode.bfsNodes h ns).length = (ns.map QuadTreeNode.size).sum
  | 0, ns, hns => by
    cases ns with
    | nil => rfl
    | cons n ns =>
      have := hns n (List.mem_cons_self _ _)
      have hp := height_pos_of_isNode this.1
      omega
  | h + 1, ns, hns => by
    rw [sizes_kids ns (fun n hn => (hns n hn).1)]
    simp only [QuadTreeNode.bfsNodes, List.length_append]
    rw [length_bfsNodes h _ (fun c hc => height_of_mem_kids hns hc)]

theorem kids_map_nodeAt (r : QuadTreeNode) (ps : List Path) :
    QuadTreeNode.kids (ps.map r.nodeAt) = (r.nextPaths ps).map r.nodeAt := by
  simp only [QuadTreeNode.kids, QuadTreeNode.nextPaths, List.flatMap_map, List.map_flatMap,
    List.map_map]
  congr 1
  funext p
  apply List.map_congr_left
  intro i _
  simp [Function.comp, nodeAt_append, QuadTreeNode.nodeAt]

theorem bfsNodes_map_nodeAt (r : QuadTreeNode) : ∀ (h : Nat) (ps : List Path),
    QuadTreeNode.bfsNodes h (ps.map r.nodeAt) = (r.bfsFrom h ps).map r.nodeAt
  | 0, _ => rfl
  | h + 1, ps => by
    simp only [QuadTreeNode.bfsNodes, QuadTreeNode.bfsFrom, List.map_append]
    rw [kids_map_nodeAt, bfsNodes_map_nodeAt r h]

/-- `getBounds` returns on every node, with the bounds of the nodes in
breadth-first order, one for each node. -/
theorem getBounds_eq (r : QuadTreeNode) (hr : r.isNode = true) :
    r.getBounds [] = some (r.bfsPaths.map (fun p => (r.nodeAt p).bound)) ∧
      r.bfsPaths.length = r.size := by
  have hns : ∀ n ∈ [r], n.isNode = true ∧ n.height ≤ r.height := by
    intro n hn
    rw [List.mem_singleton.1 hn]
    exact ⟨hr, le_refl _⟩
  have h1 := getBoundsLoop_bfs r.height [r] [] hns
  have h2 := length_bfsNodes r.height [r] hns
  have e : [r] = ([[]] : List Path).map r.nodeAt := rfl
  simp only [List.map_cons, List.map_nil, List.sum_cons, List.sum_nil, Nat.add_zero,
    List.nil_append] at h1 h2
  rw [e, bfsNodes_map_nodeAt] at h1 h2
  simp only [List.map_map, List.length_map] at h1 h2
  simp only [QuadTreeNode.getBounds, QuadTreeNode.bfsPaths, hr, if_true]
  exact ⟨h1, h2⟩

end qt

namespace qt

/-! ## The breadth-first order visits every node once -/

theorem isLevel_root {r : QuadTreeNode} (hr : r.isNode = true) : r.IsLevel 0 [[]] := by
  refine ⟨List.nodup_singleton _, fun p => ?_⟩
  constructor
  · intro h
    rw [List.mem_singleton.1 h]
    exact ⟨rfl, hr⟩
  · intro h
    rw [List.length_eq_zero.1 h.1]
    exact List.mem_singleton_self _

theorem isNode_of_child_isNode {n : QuadTreeNode} {i : Fin 4}
    (h : (n.child i).isNode = true) : n.isNode = true := by
  cases n with
  | nullptr => simp [QuadTreeNode.child, QuadTreeNode.isNode] at h
  | node => rfl

theorem mem_existingChildren {n : QuadTreeNode} {i : Fin 4} :
    i ∈ QuadTreeNode.existingChildren n ↔ (n.child i).isNode = true := by
  simp only [QuadTreeNode.existingChildren, List.mem_filter, idx4, and_iff_right_iff_imp]
  intro _
  fin_cases i <;> simp

theorem mem_nextPaths {r : QuadTreeNode} {ps : List Path} {q : Path} :
    q ∈ r.nextPaths ps ↔ ∃ p i, p ∈ ps ∧ ((r.nodeAt p).child i).isNode = true ∧ q = p ++ [i] := by
  simp only [QuadTreeNode.nextPaths, List.mem_flatMap, List.mem_map, mem_existingChildren]
  constructor
  · rintro ⟨p, hp, i, hi, rfl⟩
    exact ⟨p, i, hp, hi, rfl⟩
  · rintro ⟨p, i, hp, hi, rfl⟩
    exact ⟨p, hp, i, hi, rfl⟩

theorem nodeAt_concat (r : QuadTreeNode) (p : Path) (i : Fin 4) :
    r.nodeAt (p ++ [i]) = (r.nodeAt p).child i := by
  rw [nodeAt_append]
  rfl

theorem isLevel_next {r : QuadTreeNode} {k : Nat} {ps : List Path} (h : r.IsLevel k ps) :
    r.IsLevel (k + 1) (r.nextPaths ps) := by
  obtain ⟨hnd, hmem⟩ := h
  refine ⟨?_, fun q => ?_⟩
  · unfold QuadTreeNode.nextPaths
    rw [List.nodup_flatMap]
    refine ⟨?_, ?_⟩
    · intro p _
      refine List.Nodup.map ?_ (nodup_existingChildren _)
      intro i j hij
      simpa using hij
    · refine List.Pairwise.imp ?_ hnd
      intro p q hpq
      simp only [Function.onFun, List.disjoint_left, List.mem_map]
      rintro x ⟨i, -, rfl⟩ ⟨j, -, hj⟩
      have := List.append_inj_left' hj rfl
      exact hpq this.symm
  · rw [mem_nextPaths]
    constructor
    · rintro ⟨p, i, hp, hi, rfl⟩
      rw [nodeAt_concat]
      exact ⟨by simp [((hmem p).1 hp).1], hi⟩
    · rintro ⟨hlen, hnode⟩
      have hne : q ≠ [] := by
        intro h0
        rw [h0] at hlen
        simp at hlen
      obtain ⟨p, i, rfl⟩ : ∃ p i, q = p ++ [i] :=
        ⟨q.dropLast, q.getLast hne, (List.dropLast_append_getLast hne).symm⟩
      rw [nodeAt_concat] at hnode
      refine ⟨p, i, (hmem p).2 ⟨?_, isNode_of_child_isNode hnode⟩, hnode, rfl⟩
      simp only [List.length_append, List.length_singleton] at hlen
      omega

theorem mem_bfsFrom {r : QuadTreeNode} : ∀ (h k : Nat) (ps : List Path), r.IsLevel k ps →
    ∀ p, p ∈ r.bfsFrom h ps ↔
      (k ≤ p.length ∧ p.length < k + h ∧ (r.nodeAt p).isNode = true)
  | 0, k, ps, _, p => by
    simp only [QuadTreeNode.bfsFrom, List.not_mem_nil, false_iff]
    omega
  | h + 1, k, ps, hl, p => by
    simp only [QuadTreeNode.bfsFrom, List.mem_append]
    rw [mem_bfsFrom h (k + 1) _ (isLevel_next hl) p, hl.2 p]
    constructor
    · rintro (⟨h1, h2⟩ | ⟨h1, h2, h3⟩)
      · exact ⟨by omega, by omega, h2⟩
      · exact ⟨by omega, by omega, h3⟩
    · rintro ⟨h1, h2, h3⟩
      by_cases hk : p.length = k
      · exact Or.inl ⟨hk, h3⟩
      · exact Or.inr ⟨by omega, by omega, h3⟩

theorem nodup_bfsFrom {r : QuadTreeNode} : ∀ (h k : Nat) (ps : List Path), r.IsLevel k ps →
    (r.bfsFrom h ps).Nodup
  | 0, _, _, _ => List.nodup_nil
  | h + 1, k, ps, hl => by
    simp only [QuadTreeNode.bfsFrom]
    refine List.nodup_append.2 ⟨hl.1, nodup_bfsFrom h (k + 1) _ (isLevel_next hl), ?_⟩
    intro p hp hq
    have h1 := ((hl.2 p).1 hp).1
    have h2 := ((mem_bfsFrom h (k + 1) _ (isLevel_next hl) p).1 hq).1
    omega

theorem pairwise_bfsFrom {r : QuadTreeNode} : ∀ (h k : Nat) (ps : List Path), r.IsLevel k ps →
    (r.bfsFrom h ps).Pairwise (fun p q => p.length ≤ q.length)
  | 0, _, _, _ => List.Pairwise.nil
  | h + 1, k, ps, hl => by
    simp only [QuadTreeNode.bfsFrom]
    rw [List.pairwise_append]
    refine ⟨?_, pairwise_bfsFrom h (k + 1) _ (isLevel_next hl), ?_⟩
    · refine List.Pairwise.imp_of_mem ?_ (List.pairwise_of_forall (R := fun _ _ => True)
        (fun _ _ => trivial))
      intro p q hp hq _
      rw [((hl.2 p).1 hp).1, ((hl.2 q).1 hq).1]
    · intro p hp q hq
      have h1 := ((hl.2 p).1 hp).1
      have h2 := ((mem_bfsFrom h (k + 1) _ (isLevel_next hl) q).1 hq).1
      omega

theorem length_lt_height : ∀ (p : Path) (r : QuadTreeNode), (r.nodeAt p).isNode = true →
    p.length < r.height
  | [], r, h => height_pos_of_isNode h
  | i :: p, r, h => by
    have h1 := length_lt_height p (r.child i) h
    have h2 := height_child_lt (isNode_of_child_isNode (isNode_of_nodeAt_isNode h)) i
    simp only [List.length_cons]
    omega

/-- The paths to the existing children of a node stand next to each other, in
index order, in the breadth-first order. -/
theorem children_infix_bfsFrom {r : QuadTreeNode} : ∀ (h k : Nat) (ps : List Path),
    r.IsLevel k ps → ∀ p, p ∈ r.bfsFrom h ps → p.length + 1 < k + h →
      ((QuadTreeNode.existingChildren (r.nodeAt p)).map (fun i => p ++ [i]))
        <:+: r.bfsFrom h ps
  | 0, _, _, _, p, hp, _ => by simp [QuadTreeNode.bfsFrom] at hp
  | h + 1, k, ps, hl, p, hp, hlen => by
    simp only [QuadTreeNode.bfsFrom, List.mem_append] at hp ⊢
    rcases hp with hp | hp
    · have hk := ((hl.2 p).1 hp).1
      obtain ⟨h2, rfl⟩ : ∃ h2, h = h2 + 1 := ⟨h - 1, by omega⟩
      have h1 : ((QuadTreeNode.existingChildren (r.nodeAt p)).map (fun i => p ++ [i]))
          <:+: r.nextPaths ps := by
        unfold QuadTreeNode.nextPaths List.flatMap
        exact List.infix_of_mem_flatten (List.mem_map.2 ⟨p, hp, rfl⟩)
      simp only [QuadTreeNode.bfsFrom]
      obtain ⟨a, b, hab⟩ := h1
      exact ⟨ps ++ a, b ++ r.bfsFrom h2 (r.nextPaths (r.nextPaths ps)), by
        rw [← hab]; simp only [List.append_assoc]⟩
    · obtain ⟨a, b, hab⟩ := children_infix_bfsFrom h (k + 1) _ (isLevel_next hl) p hp
        (by omega)
      exact ⟨ps ++ a, b, by rw [← hab]; simp only [List.append_assoc]⟩

/-- The breadth-first order of a tree: every node once, the root first, by
depth, the children of a node next to each other in index order. -/
theorem bfsPaths_spec (r : QuadTreeNode) (hr : r.isNode = true) :
    (∀ p, p ∈ r.bfsPaths ↔ (r.nodeAt p).isNode = true) ∧ r.bfsPaths.Nodup ∧
      r.bfsPaths.head? = some [] ∧
      r.bfsPaths.Pairwise (fun p q => p.length ≤ q.length) ∧
      (∀ p, (r.nodeAt p).isNode = true →
        ((QuadTreeNode.existingChildren (r.nodeAt p)).map (fun i => p ++ [i]))
          <:+: r.bfsPaths) := by
  have hl := isLevel_root hr
  have hmem : ∀ p, p ∈ r.bfsPaths ↔ (r.nodeAt p).isNode = true := by
    intro p
    simp only [QuadTreeNode.bfsPaths, hr, if_true]
    rw [mem_bfsFrom _ 0 _ hl p]
    constructor
    · exact fun h => h.2.2
    · exact fun h => ⟨Nat.zero_le _, by have := length_lt_height p r h; omega, h⟩
  refine ⟨hmem, ?_, ?_, ?_, ?_⟩
  · simp only [QuadTreeNode.bfsPaths, hr, if_true]
    exact nodup_bfsFrom _ 0 _ hl
  · obtain ⟨h2, e⟩ : ∃ h2, r.height = h2 + 1 :=
      ⟨r.height - 1, by have := height_pos_of_isNode hr; omega⟩
    simp [QuadTreeNode.bfsPaths, hr, e, QuadTreeNode.bfsFrom]
  · simp only [QuadTreeNode.bfsPaths, hr, if_true]
    exact pairwise_bfsFrom _ 0 _ hl
  · intro p hp
    by_cases hnil : QuadTreeNode.existingChildren (r.nodeAt p) = []
    · rw [hnil]
      exact List.nil_infix
    · obtain ⟨i, hi⟩ := List.exists_mem_of_ne_nil _ hnil
      have hc : (r.nodeAt (p ++ [i])).isNode = true := by
        rw [nodeAt_concat]
        exact mem_existingChildren.1 hi
      have hlen := length_lt_height _ r hc
      simp only [List.length_append, List.length_singleton] at hlen
      have := children_infix_bfsFrom r.height 0 _ hl p
        (by
          have := (hmem p).2 hp
          simpa only [QuadTreeNode.bfsPaths, hr, if_true] using this)
        (by omega)
      simpa only [QuadTreeNode.bfsPaths, hr, if_true] using this

end qt

namespace qt

/-- C24: in every tree reached through the public interface `getBounds`
returns; the result lists the bounds of the nodes along the breadth-first
order of the paths, which holds the path of every node exactly once: its
length is the number of nodes, its first element is the outer bound, a node
never comes after a node of larger depth, and the existing children of a node
stand next to each other in the order of their indices (NW, NE, SW, SE). -/
theorem getBounds_breadth_first (outer : Bound) (ops : List Op) :
    ∃ t bs, QuadTree.run outer ops = some t ∧ t.getBounds = some bs ∧
      bs = t.rootNode.bfsPaths.map (fun p => (t.rootNode.nodeAt p).bound) ∧
      bs.length = t.rootNode.size ∧ bs.head? = some outer ∧
      (∀ p, p ∈ t.rootNode.bfsPaths ↔ (t.rootNode.nodeAt p).isNode = true) ∧
      t.rootNode.bfsPaths.Nodup ∧
      t.rootNode.bfsPaths.Pairwise
        (fun p q => (t.rootNode.nodeAt p).depth ≤ (t.rootNode.nodeAt q).depth) ∧
      (∀ p, (t.rootNode.nodeAt p).isNode = true →
        ((QuadTreeNode.existingChildren (t.rootNode.nodeAt p)).map (fun i => p ++ [i]))
          <:+: t.rootNode.bfsPaths ∧
        (QuadTreeNode.existingChildren (t.rootNode.nodeAt p)).Pairwise (fun i j => i < j) ∧
        ∀ i, i ∈ QuadTreeNode.existingChildren (t.rootNode.nodeAt p) ↔
          ((t.rootNode.nodeAt p).child i).isNode = true) := by
  obtain ⟨t, h1, h2, h3⟩ := run_inv2 outer ops
  obtain ⟨g1, g2⟩ := getBounds_eq t.rootNode h2.root
  obtain ⟨k1, k2, k3, k4, k5⟩ := bfsPaths_spec t.rootNode h2.root
  refine ⟨t, _, h1, g1, rfl, by rw [List.length_map, g2], ?_, k1, k2, ?_, ?_⟩
  · cases hb : t.rootNode.bfsPaths with
    | nil => rw [hb] at k3; cases k3
    | cons p ps =>
      rw [hb] at k3
      simp only [List.head?_cons, Option.some.injEq] at k3
      subst k3
      simp only [List.map_cons, List.head?_cons, QuadTreeNode.nodeAt]
      rw [h3.bound]
  · refine List.Pairwise.imp_of_mem ?_ k4
    intro p q hp hq hpq
    rw [(depth_nodeAt p _ 0 h2.depth ((k1 p).1 hp)).1,
      (depth_nodeAt q _ 0 h2.depth ((k1 q).1 hq)).1]
    omega
  · intro p hp
    refine ⟨k5 p hp, ?_, fun i => mem_existingChildren⟩
    exact List.Pairwise.sublist (List.filter_sublist _) (by unfold idx4; decide)

/-- An instance of C24: after the inserts of `A`, `B`, `C` and of
`((60,0),(70,10))` into `((0,0),(100,100))` the nodes at depth one are the NW,
NE and SE children, and `getBounds` lists the root, these three, and then the
chains below them level by level. -/
theorem getBounds_breadth_first_witness :
    ((QuadTree.run outer100 (insertABC ++ [Op.insert (mkShape 60 0 70 10)])).bind
        (fun t => t.getBounds)).map (fun bs => bs.take 7)
      = some [mkBound 0 0 100 100, mkBound 0 0 50 50, mkBound 50 0 100 50,
          mkBound 50 50 100 100, mkBound 0 0 25 25, mkBound 50 0 75 25,
          mkBound 75 75 100 100] ∧
      ∃ t bs, QuadTree.run outer100 (insertABC ++ [Op.insert (mkShape 60 0 70 10)]) = some t ∧
        t.getBounds = some bs ∧
        bs = t.rootNode.bfsPaths.map (fun p => (t.rootNode.nodeAt p).bound) ∧
        bs.length = t.rootNode.size ∧ bs.head? = some outer100 := by
  refine ⟨by decide, ?_⟩
  obtain ⟨t, bs, h1, h2, h3, h4, h5, -⟩ :=
    getBounds_breadth_first outer100 (insertABC ++ [Op.insert (mkShape 60 0 70 10)])
  exact ⟨t, bs, h1, h2, h3, h4, h5⟩

/-! ## Removal keeps the nodes -/

theorem existingChildren_clearRec (n : QuadTreeNode) :
    QuadTreeNode.existingChildren n.clearRec = QuadTreeNode.existingChildren n := by
  unfold QuadTreeNode.existingChildren
  apply List.filter_congr
  intro i _
  rw [clearRec_child, isNode_clearRec]

theorem getBoundsLoop_clearRec : ∀ (fuel : Nat) (ns : List QuadTreeNode) (acc : List Bound),
    QuadTreeNode.getBoundsLoop fuel (ns.map QuadTreeNode.clearRec) acc
      = QuadTreeNode.getBoundsLoop fuel ns acc
  | _, [], _ => by simp [QuadTreeNode.getBoundsLoop]
  | 0, _ :: _, _ => by simp [QuadTreeNode.getBoundsLoop]
  | fuel + 1, n :: ns, acc => by
    simp only [List.map_cons, QuadTreeNode.getBoundsLoop, isNode_clearRec, bound_clearRec,
      existingChildren_clearRec]
    have e : ns.map QuadTreeNode.clearRec
        ++ (QuadTreeNode.existingChildren n).map n.clearRec.child
        = (ns ++ (QuadTreeNode.existingChildren n).map n.child).map QuadTreeNode.clearRec := by
      simp only [List.map_append, List.map_map]
      congr 1
      apply List.map_congr_left
      intro i _
      simp only [Function.comp, clearRec_child]
    rw [e, getBoundsLoop_clearRec fuel]

theorem getBounds_clearRec (n : QuadTreeNode) (acc : List Bound) :
    n.clearRec.getBounds acc = n.getBounds acc := by
  simp only [QuadTreeNode.getBounds, size_clearRec]
  exact getBoundsLoop_clearRec n.size [n] acc

theorem members_of_clearRec_eq {a b : QuadTreeNode} (h : a.clearRec = b.clearRec) :
    a.isNode = b.isNode ∧ a.bound = b.bound ∧ a.depth = b.depth ∧
      a.leafNode = b.leafNode ∧ a.childrenBounds = b.childrenBounds := by
  cases a <;> cases b <;> simp only [QuadTreeNode.clearRec] at h
  · exact ⟨rfl, rfl, rfl, rfl, rfl⟩
  · cases h
  · cases h
  · injection h with e1 e2 e3 e4 e5 e6 e7 e8 e9
    subst e1 e2 e3 e9
    exact ⟨rfl, rfl, rfl, rfl, rfl⟩

theorem members_nodeAt_of_clearRec_eq {a b : QuadTreeNode} (h : a.clearRec = b.clearRec)
    (p : Path) :
    (a.nodeAt p).isNode = (b.nodeAt p).isNode ∧ (a.nodeAt p).bound = (b.nodeAt p).bound ∧
      (a.nodeAt p).depth = (b.nodeAt p).depth ∧
      (a.nodeAt p).leafNode = (b.nodeAt p).leafNode ∧
      (a.nodeAt p).childrenBounds = (b.nodeAt p).childrenBounds :=
  members_of_clearRec_eq (by rw [← nodeAt_clearRec, ← nodeAt_clearRec, h])

/-- C25: in every tree reached through the public interface,
`removeOverlap(R)` and `removeContain(R)` return a tree that differs from the
given one in handle lists only: at every path there is a node after the call
exactly when there was one before, with the same bound, depth, leaf flag and
child bounds; `getBounds` returns the same sequence before and after. -/
theorem remove_keeps_nodes (outer : Bound) (ops : List Op) (R : Bound) :
    ∃ t t1 t2 bs, QuadTree.run outer ops = some t ∧
      t.removeOverlap R = some t1 ∧ t.removeContain R = some t2 ∧
      t1.rootNode.clearRec = t.rootNode.clearRec ∧
      t2.rootNode.clearRec = t.rootNode.clearRec ∧
      (∀ p, (t1.rootNode.nodeAt p).isNode = (t.rootNode.nodeAt p).isNode ∧
        (t1.rootNode.nodeAt p).bound = (t.rootNode.nodeAt p).bound ∧
        (t1.rootNode.nodeAt p).depth = (t.rootNode.nodeAt p).depth ∧
        (t1.rootNode.nodeAt p).leafNode = (t.rootNode.nodeAt p).leafNode ∧
        (t1.rootNode.nodeAt p).childrenBounds = (t.rootNode.nodeAt p).childrenBounds) ∧
      (∀ p, (t2.rootNode.nodeAt p).isNode = (t.rootNode.nodeAt p).isNode ∧
        (t2.rootNode.nodeAt p).bound = (t.rootNode.nodeAt p).bound ∧
        (t2.rootNode.nodeAt p).depth = (t.rootNode.nodeAt p).depth ∧
        (t2.rootNode.nodeAt p).leafNode = (t.rootNode.nodeAt p).leafNode ∧
        (t2.rootNode.nodeAt p).childrenBounds = (t.rootNode.nodeAt p).childrenBounds) ∧
      t.getBounds = some bs ∧ t1.getBounds = some bs ∧ t2.getBounds = some bs := by
  obtain ⟨t, h1, h2⟩ := run_inv outer ops
  obtain ⟨m1, a1, -⟩ := remove_inv t R QuadTree.overlapFn h2
  obtain ⟨m2, b1, -⟩ := remove_inv t R QuadTree.containFn h2
  obtain ⟨g1, -⟩ := getBounds_eq t.rootNode h2.root
  have c1 := clearRec_removeRec R (fun x => QuadTree.overlapFn R (t.items.boundOf x)) t.rootNode
  have c2 := clearRec_removeRec R (fun x => QuadTree.containFn R (t.items.boundOf x)) t.rootNode
  refine ⟨t, ⟨m1, _⟩, ⟨m2, _⟩, _, h1,
    by simp only [QuadTree.removeOverlap, a1, Option.map],
    by simp only [QuadTree.removeContain, b1, Option.map], c1, c2,
    members_nodeAt_of_clearRec_eq c1, members_nodeAt_of_clearRec_eq c2, g1, ?_, ?_⟩
  · show (t.rootNode.removeRec R _).getBounds [] = _
    rw [← getBounds_clearRec, c1, getBounds_clearRec]
    exact g1
  · show (t.rootNode.removeRec R _).getBounds [] = _
    rw [← getBounds_clearRec, c2, getBounds_clearRec]
    exact g1

end qt

namespace qt

/-! ## What an insert leaves as it was -/

theorem nodeAt_new_cons (b : Bound) (d : Int) (i : Fin 4) (p : Path) :
    (QuadTreeNode.new b d).nodeAt (i :: p) = QuadTreeNode.nullptr := by
  have : (QuadTreeNode.new b d).child i = QuadTreeNode.nullptr := by
    fin_cases i <;> rfl
  simp only [QuadTreeNode.nodeAt, this, nodeAt_nullptr]

theorem items_nodeAt_new (b : Bound) (d : Int) (p : Path) :
    ((QuadTreeNode.new b d).nodeAt p).items = [] := by
  cases p with
  | nil => rfl
  | cons i p => rw [nodeAt_new_cons]; rfl

theorem members_setChild (n : QuadTreeNode) (i : Fin 4) (c : QuadTreeNode) :
    (n.setChild i c).depth = n.depth ∧ (n.setChild i c).leafNode = n.leafNode ∧
      (n.setChild i c).childrenBounds = n.childrenBounds := by
  cases n with
  | nullptr => exact ⟨rfl, rfl, rfl⟩
  | node => fin_cases i <;> exact ⟨rfl, rfl, rfl⟩

theorem child_setChild_self {n : QuadTreeNode} (hn : n.isNode = true) (i : Fin 4)
    (c : QuadTreeNode) : (n.setChild i c).child i = c := by
  cases n with
  | nullptr => simp [QuadTreeNode.isNode] at hn
  | node l d b its c0 c1 c2 c3 cb => exact child_setChild_same _ _ _ _ _ _ _ _ _ _ _

/-- The loop of `insert` appends the handle to the item list of one node, the
one it stops at, and changes no other item list; every node that was there is
still there with the same bound, depth, leaf flag and child bounds. -/
theorem insertLoop_frame (item : Handle) (b : Bound) :
    ∀ (fuel : Nat) (n n2 : QuadTreeNode), QuadTreeNode.insertLoop item b fuel n = some n2 →
      ∃ q, (n2.nodeAt q).isNode = true ∧
        (n2.nodeAt q).items = (n.nodeAt q).items ++ [item] ∧
        (∀ p, p ≠ q → (n2.nodeAt p).items = (n.nodeAt p).items) ∧
        (∀ p, (n.nodeAt p).isNode = true →
          (n2.nodeAt p).isNode = true ∧ (n2.nodeAt p).bound = (n.nodeAt p).bound ∧
          (n2.nodeAt p).depth = (n.nodeAt p).depth ∧
          (n2.nodeAt p).leafNode = (n.nodeAt p).leafNode ∧
          (n2.nodeAt p).childrenBounds = (n.nodeAt p).childrenBounds) := by
  intro fuel
  induction fuel with
  | zero =>
    intro n n2 h
    cases n <;> simp [QuadTreeNode.insertLoop] at h
  | succ fuel ih =>
    intro n n2 h
    cases n with
    | nullptr => simp [QuadTreeNode.insertLoop] at h
    | node l d bd its c0 c1 c2 c3 cb =>
      rcases insertLoop_step item b fuel l d bd its c0 c1 c2 c3 cb with
        ⟨h1, -⟩ | ⟨i, -, -, h1⟩
      · rw [h1] at h
        cases h
        refine ⟨[], rfl, rfl, ?_, ?_⟩
        · intro p hp
          cases p with
          | nil => exact absurd rfl hp
          | cons j p => fin_cases j <;> rfl
        · intro p hp
          cases p with
          | nil => exact ⟨rfl, rfl, rfl, rfl, rfl⟩
          | cons j p =>
            have e : (QuadTreeNode.node l d bd (its ++ [item]) c0 c1 c2 c3 cb).nodeAt (j :: p)
                = (QuadTreeNode.node l d bd its c0 c1 c2 c3 cb).nodeAt (j :: p) := by
              fin_cases j <;> rfl
            rw [e]
            exact ⟨hp, rfl, rfl, rfl, rfl⟩
      · rw [h1] at h
        cases hrec : QuadTreeNode.insertLoop item b fuel
            (if ((QuadTreeNode.node l d bd its c0 c1 c2 c3 cb).child i).isNode = true
              then (QuadTreeNode.node l d bd its c0 c1 c2 c3 cb).child i
              else QuadTreeNode.new (cb.get i) (wrap32 (d + 1))) with
        | none => rw [hrec] at h; simp at h
        | some n3 =>
          rw [hrec] at h
          simp only [Option.map, Option.some.injEq] at h
          subst h
          obtain ⟨q, k1, k2, k3, k4⟩ := ih _ _ hrec
          generalize hn : QuadTreeNode.node l d bd its c0 c1 c2 c3 cb = n at *
          have hnn : n.isNode = true := by rw [← hn]; rfl
          have hitems : ∀ p, ((if (n.child i).isNode = true then n.child i
              else QuadTreeNode.new (cb.get i) (wrap32 (d + 1))).nodeAt p).items
              = ((n.child i).nodeAt p).items := by
            intro p
            by_cases hex : (n.child i).isNode = true
            · rw [if_pos hex]
            · have e := eq_nullptr_of_not_isNode (n := n.child i) (by simpa using hex)
              rw [if_neg hex, items_nodeAt_new, e, nodeAt_nullptr]
              rfl
          have hsame : ∀ p, ((n.child i).nodeAt p).isNode = true →
              (if (n.child i).isNode = true then n.child i
                else QuadTreeNode.new (cb.get i) (wrap32 (d + 1))) = n.child i := by
            intro p hp
            rw [if_pos (isNode_of_nodeAt_isNode hp)]
          refine ⟨i :: q, ?_, ?_, ?_, ?_⟩
          · simp only [QuadTreeNode.nodeAt, child_setChild_self hnn]
            exact k1
          · simp only [QuadTreeNode.nodeAt, child_setChild_self hnn]
            rw [k2, hitems]
          · intro p hp
            cases p with
            | nil => simp only [QuadTreeNode.nodeAt, items_setChild]
            | cons j p =>
              by_cases hj : j = i
              · subst hj
                simp only [QuadTreeNode.nodeAt, child_setChild_self hnn]
                rw [k3 p (fun e => hp (by rw [e])), hitems]
              · simp only [QuadTreeNode.nodeAt, child_setChild_ne _ _ hj]
          · intro p hp
            cases p with
            | nil =>
              simp only [QuadTreeNode.nodeAt]
              exact ⟨by rw [isNode_setChild]; exact hnn, bound_setChild _ _ _,
                members_setChild n i n3⟩
            | cons j p =>
              by_cases hj : j = i
              · subst hj
                simp only [QuadTreeNode.nodeAt, child_setChild_self hnn] at hp ⊢
                have := k4 p (by rw [hsame p hp]; exact hp)
                rw [hsame p hp] at this
                exact this
              · simp only [QuadTreeNode.nodeAt, child_setChild_ne _ _ hj] at hp ⊢
                simp [hp]

/-- C26: in every tree reached through the public interface `insert(i)`
returns; it appends `i` in a new cell at the end of the master sequence and
every handle stored before still points to the same item; there is one node
(at the path `q`) whose item list is the former list with the new handle
appended at its end, the item list at every other path is as before, and every
node that existed before exists after, with the same bound, depth, leaf flag,
child bounds and existing children. -/
theorem insert_frame (outer : Bound) (ops : List Op) (s : Shape) :
    ∃ t t2 q, QuadTree.run outer ops = some t ∧ t.insert s = some t2 ∧
      t2.items.cells = t.items.cells ++ [(t.items.next, s)] ∧
      t.items.next ∉ t.items.keys ∧
      (∀ h ∈ t.items.keys, t2.items.deref h = t.items.deref h) ∧
      (t2.rootNode.nodeAt q).isNode = true ∧
      (t2.rootNode.nodeAt q).items = (t.rootNode.nodeAt q).items ++ [t.items.next] ∧
      (∀ p, p ≠ q → (t2.rootNode.nodeAt p).items = (t.rootNode.nodeAt p).items) ∧
      (∀ p, (t.rootNode.nodeAt p).isNode = true →
        (t2.rootNode.nodeAt p).isNode = true ∧
        (t2.rootNode.nodeAt p).bound = (t.rootNode.nodeAt p).bound ∧
        (t2.rootNode.nodeAt p).depth = (t.rootNode.nodeAt p).depth ∧
        (t2.rootNode.nodeAt p).leafNode = (t.rootNode.nodeAt p).leafNode ∧
        (t2.rootNode.nodeAt p).childrenBounds = (t.rootNode.nodeAt p).childrenBounds ∧
        ∀ i, ((t.rootNode.nodeAt p).child i).isNode = true →
          ((t2.rootNode.nodeAt p).child i).isNode = true) := by
  obtain ⟨t, h1, h2⟩ := run_inv outer ops
  obtain ⟨r, g1, -⟩ := insert_inv t s h2
  have hrec : QuadTreeNode.insertLoop t.items.next s.toBound
      (t.rootNode.height + MAXDEPTH.toNat) t.rootNode = some r := by
    have := (insert_eq t s h2).1
    rw [g1] at this
    cases hq : QuadTreeNode.insertLoop t.items.next s.toBound
        (t.rootNode.height + MAXDEPTH.toNat) t.rootNode with
    | none => rw [hq] at this; simp at this
    | some r2 =>
      rw [hq] at this
      simp only [Option.map, Option.some.injEq, QuadTree.mk.injEq, true_and] at this
      rw [this]
  obtain ⟨q, k1, k2, k3, k4⟩ := insertLoop_frame _ _ _ _ _ hrec
  refine ⟨t, _, q, h1, g1, rfl, fun hm => Nat.lt_irrefl _ (h2.fresh _ hm), ?_, k1, k2, k3, ?_⟩
  · intro h hh
    obtain ⟨v, hv⟩ := lookup_isSome_of_mem_keys h t.items.cells hh
    simp only [StdList.deref, StdList.push_back, lookup_append_of_some h v _ _ hv, hv]
  · intro p hp
    obtain ⟨a1, a2, a3, a4, a5⟩ := k4 p hp
    refine ⟨a1, a2, a3, a4, a5, ?_⟩
    intro i hi
    have := (k4 (p ++ [i]) (by rw [nodeAt_concat]; exact hi)).1
    rwa [nodeAt_concat] at this

/-- An instance of C26: the insert of `((20,20),(30,30))` after `A`, `B`, `C`
leaves the root holding the handle 2 of `C`, and the item lists of the tree
hold the handles 2, 3, 0, 1 after it, 2, 0, 1 before. -/
theorem insert_frame_witness :
    (QuadTree.run outer100 insertABC).map
        (fun t => (t.rootNode.items, t.rootNode.handles, t.items.keys))
      = some ([2], [2, 0, 1], [0, 1, 2]) ∧
      (QuadTree.run outer100 (insertABC ++ [Op.insert (mkShape 20 20 30 30)])).map
        (fun t => (t.rootNode.items, t.rootNode.handles, t.items.keys))
      = some ([2], [2, 3, 0, 1], [0, 1, 2, 3]) ∧
      ∃ t t2 q, QuadTree.run outer100 insertABC = some t ∧
        t.insert (mkShape 20 20 30 30) = some t2 ∧
        t2.items.cells = t.items.cells ++ [(t.items.next, mkShape 20 20 30 30)] ∧
        (t2.rootNode.nodeAt q).items = (t.rootNode.nodeAt q).items ++ [t.items.next] ∧
        (∀ p, p ≠ q → (t2.rootNode.nodeAt p).items = (t.rootNode.nodeAt p).items) := by
  refine ⟨by decide, by decide, ?_⟩
  obtain ⟨t, t2, q, h1, h2, h3, -, -, -, h7, h8, -⟩ :=
    insert_frame outer100 insertABC (mkShape 20 20 30 30)
  exact ⟨t, t2, q, h1, h2, h3, h7, h8⟩

end qt

namespace qt

/-! ## What a removal leaves as it was -/

theorem items_clearRec (n : QuadTreeNode) : n.clearRec.items = [] := by
  cases n <;> rfl

theorem items_nodeAt_removeRec_sublist (R : Bound) (test : Handle → Bool) :
    ∀ (p : Path) (n : QuadTreeNode),
      (((n.removeRec R test).nodeAt p).items).Sublist ((n.nodeAt p).items)
  | [], n => by
    cases n with
    | nullptr => exact List.Sublist.refl _
    | node l d b its c0 c1 c2 c3 cb =>
      by_cases hc : R.contains b = true
      · simp only [QuadTreeNode.removeRec, hc, if_true, QuadTreeNode.nodeAt, QuadTreeNode.items]
        exact List.nil_sublist _
      · simp only [QuadTreeNode.removeRec, hc, Bool.false_eq_true, if_false,
          QuadTreeNode.nodeAt, QuadTreeNode.items]
        exact List.filter_sublist _
  | i :: p, n => by
    cases n with
    | nullptr => exact List.Sublist.refl _
    | node l d b its c0 c1 c2 c3 cb =>
      by_cases hc : R.contains b = true
      · simp only [QuadTreeNode.removeRec, hc, if_true]
        have e : ((QuadTreeNode.node l d b [] c0.clearRec c1.clearRec c2.clearRec
            c3.clearRec cb).nodeAt (i :: p)).items = [] := by
          have : (QuadTreeNode.node l d b [] c0.clearRec c1.clearRec c2.clearRec
              c3.clearRec cb).child i
              = ((QuadTreeNode.node l d b its c0 c1 c2 c3 cb).child i).clearRec := by
            fin_cases i <;> rfl
          simp only [QuadTreeNode.nodeAt, this, nodeAt_clearRec, items_clearRec]
        rw [e]
        exact List.nil_sublist _
      · simp only [QuadTreeNode.removeRec, hc, Bool.false_eq_true, if_false]
        have key : ∀ (c : QuadTreeNode) (cbi : Bound),
            (((if R.overlaps cbi = true then c.removeRec R test else c).nodeAt p).items).Sublist
              ((c.nodeAt p).items) := by
          intro c cbi
          split_ifs
          · exact items_nodeAt_removeRec_sublist R test p c
          · exact List.Sublist.refl _
        fin_cases i
        · exact key c0 cb.e0
        · exact key c1 cb.e1
        · exact key c2 cb.e2
        · exact key c3 cb.e3

theorem remove_keeps (t : QuadTree) (R : Bound) (P : Bound → Bound → Bool) (h : t.Inv) :
    ∃ t2, (t.rootNode.remove R t.items P).map (fun r => QuadTree.mk r.2 r.1) = some t2 ∧
      t.KeepsSurvivors t2 := by
  obtain ⟨m2, h1, h2, h3, -⟩ := remove_inv t R P h
  refine ⟨⟨m2, t.rootNode.removeRec R (fun x => P R (t.items.boundOf x))⟩,
    by simp only [h1, Option.map], ?_⟩
  have hlists := items_nodeAt_removeRec_sublist R (fun x => P R (t.items.boundOf x))
  refine ⟨h3.cells, ?_, ?_, fun p => hlists p t.rootNode, ?_⟩
  · rw [h3.cells]
    exact List.filter_sublist _
  · intro x hx
    simp only [StdList.deref]
    rw [h3.cells]
    exact lookup_filter_key (fun k => decide (k ∈ m2.keys)) x (by simpa using hx) _
  · intro x hx p hp
    have hx2 : x ∈ (t.rootNode.removeRec R (fun x => P R (t.items.boundOf x))).handles :=
      h2.sync.perm.mem_iff.2 hx
    obtain ⟨q, -, hq2⟩ := exists_path_of_mem_handles _ hx2
    have hq3 : x ∈ (t.rootNode.nodeAt q).items := (hlists q t.rootNode).subset hq2
    by_cases hpq : q = p
    · rw [← hpq]
      exact hq2
    · have hnode : (t.rootNode.nodeAt p).isNode = true := by
        cases hn : (t.rootNode.nodeAt p).isNode
        · rw [items_nodeAt_of_not_isNode hn] at hp
          cases hp
        · rfl
      have hc := count_items_two_nodes x t.rootNode hpq hnode
      have h1c := List.count_pos_iff.2 hp
      have h2c := List.count_pos_iff.2 hq3
      have h3c := List.nodup_iff_count_le_one.1 h.sync.nodup x
      omega

/-- C27: in every tree reached through the public interface,
`removeOverlap(R)` and `removeContain(R)` return a tree whose master sequence
is the former one without the removed cells (the others in their order, with
their values), in which every handle left dereferences as before and is in the
item list of the node where it was, and in which the item list of every node
is the former list without the removed handles, the others in their order. -/
theorem remove_frame (outer : Bound) (ops : List Op) (R : Bound) :
    ∃ t t1 t2, QuadTree.run outer ops = some t ∧
      t.removeOverlap R = some t1 ∧ t.KeepsSurvivors t1 ∧
      t.removeContain R = some t2 ∧ t.KeepsSurvivors t2 := by
  obtain ⟨t, h1, h2⟩ := run_inv outer ops
  obtain ⟨t1, a1, a2⟩ := remove_keeps t R QuadTree.overlapFn h2
  obtain ⟨t2, b1, b2⟩ := remove_keeps t R QuadTree.containFn h2
  exact ⟨t, t1, t2, h1, a1, a2, b1, b2⟩

/-- An instance of C27: `removeOverlap(((0,0),(50,50)))` after `A`, `B`, `C`
and `((45,45),(95,95))` removes the handles 0, 2 and 3; the cell of `B` is
left with its value, and handle 1 is still the only handle of the tree. -/
theorem remove_frame_witness :
    (QuadTree.run outer100 (insertABC ++ [Op.insert (mkShape 45 45 95 95)])).map
        (fun t => (t.rootNode.items, t.rootNode.handles))
      = some ([2, 3], [2, 3, 0, 1]) ∧
      (QuadTree.run outer100 (insertABC ++ [Op.insert (mkShape 45 45 95 95),
          Op.removeOverlap (mkBound 0 0 50 50)])).map
        (fun t => (t.items.cells, t.rootNode.items, t.rootNode.handles))
      = some ([(1, mkShape 90 90 100 100)], [], [1]) ∧
      ∃ t t1 t2, QuadTree.run outer100 (insertABC ++ [Op.insert (mkShape 45 45 95 95)])
          = some t ∧
        t.removeOverlap (mkBound 0 0 50 50) = some t1 ∧ t.KeepsSurvivors t1 ∧
        t.removeContain (mkBound 0 0 50 50) = some t2 ∧ t.KeepsSurvivors t2 :=
  ⟨by decide, by decide,
    remove_frame outer100 (insertABC ++ [Op.insert (mkShape 45 45 95 95)]) (mkBound 0 0 50 50)⟩

/-! ## `LinearContainer::insert` -/

/-- C28, the code at the failing input: the container constructed on
`((0,0),(10,10))` does not contain the bound `((20,20),(30,30))`, and `insert`
appends the item all the same, because the test in the body is
`this->bound.contains(bound)` with `bound` the member itself. -/
theorem linear_insert_outside_is_stored :
    (mkBound 0 0 10 10).contains (mkShape 20 20 30 30).toBound = false ∧
      (LinearContainer.new (mkBound 0 0 10 10)).itemContainer_list.cells = [] ∧
      ((LinearContainer.new (mkBound 0 0 10 10)).insert
          (mkShape 20 20 30 30)).itemContainer_list.cells
        = [(0, mkShape 20 20 30 30)] ∧
      ∀ (c : LinearContainer) (s : Shape),
        (c.insert s).itemContainer_list = c.itemContainer_list.push_back s :=
  ⟨by decide, by decide, by decide, linear_insert⟩

end qt

namespace qt

/-! ## Order properties of `contains` and `overlaps` -/

theorem contains_antisymm {a b : Bound} (h1 : a.contains b = true) (h2 : b.contains a = true) :
    a = b := by
  simp only [Bound.contains, Bool.and_eq_true, decide_eq_true_eq, ge_iff_le] at h1 h2
  obtain ⟨⟨ax, ay⟩, ⟨ax2, ay2⟩⟩ := a
  obtain ⟨⟨bx, bY⟩, ⟨bx2, by2⟩⟩ := b
  simp only at h1 h2
  have e1 : ax = bx := by omega
  have e2 : ay = bY := by omega
  have e3 : ax2 = bx2 := by omega
  have e4 : ay2 = by2 := by omega
  subst e1 e2 e3 e4
  rfl

theorem overlaps_of_contains {a b : Bound} (hb : b.wellFormed = true)
    (h : a.contains b = true) : a.overlaps b = true :=
  overlaps_of_contains_drain hb (contains_self a) h

/-- C40: `contains` is reflexive, transitive and antisymmetric (two bounds that
contain each other have equal corners); `overlaps` is symmetric; a bound
overlaps every well-formed bound it contains, and `((0,0),(10,10))` contains
the ill-formed bound `((5,5),(-1,-1))` without overlapping it. -/
theorem contains_partial_order :
    (∀ a : Bound, a.contains a = true) ∧
      (∀ a b c : Bound, a.contains b = true → b.contains c = true → a.contains c = true) ∧
      (∀ a b : Bound, a.contains b = true → b.contains a = true →
        a.topLeft = b.topLeft ∧ a.bottomRight = b.bottomRight) ∧
      (∀ a b : Bound, a.overlaps b = b.overlaps a) ∧
      (∀ a b : Bound, b.wellFormed = true → a.contains b = true → a.overlaps b = true) ∧
      ((mkBound 5 5 (-1) (-1)).wellFormed = false ∧
        (mkBound 0 0 10 10).contains (mkBound 5 5 (-1) (-1)) = true ∧
        (mkBound 0 0 10 10).overlaps (mkBound 5 5 (-1) (-1)) = false) := by
  refine ⟨contains_self, fun a b c => contains_trans, ?_, overlaps_comm,
    fun a b => overlaps_of_contains, by decide, by decide, by decide⟩
  intro a b h1 h2
  rw [contains_antisymm h1 h2]
  exact ⟨rfl, rfl⟩

/-- Instances of C40: `((0,0),(10,10))` contains `((2,2),(8,8))`, which contains
`((3,3),(4,4))`, and overlaps it. -/
theorem contains_partial_order_witness :
    (mkBound 0 0 10 10).contains (mkBound 2 2 8 8) = true ∧
      (mkBound 2 2 8 8).contains (mkBound 3 3 4 4) = true ∧
      (mkBound 3 3 4 4).wellFormed = true ∧
      (mkBound 0 0 10 10).contains (mkBound 3 3 4 4) = true ∧
      (mkBound 0 0 10 10).overlaps (mkBound 3 3 4 4) = true :=
  ⟨by decide, by decide, by decide,
    contains_partial_order.2.1 _ (mkBound 2 2 8 8) _ (by decide) (by decide),
    contains_partial_order.2.2.2.2.1 _ _ (by decide)
      (contains_partial_order.2.1 _ (mkBound 2 2 8 8) _ (by decide) (by decide))⟩

/-! ## The linear container and an item with corners out of order -/

/-- C36: the outer bound `((4,4),(10,10))` is well-formed and the bound
`((5,5),(3,3))` is not; after the insert of the item into both containers,
`QuadTree::queryOverlap(((4,4),(10,10)))` returns the handle of the item (the
region contains the bound of the root, so the root is drained without a test)
and `LinearContainer::queryOverlap` of the same region returns nothing (the
region does not overlap the item). -/
theorem quadtree_linear_disagree :
    ∃ (outer R : Bound) (s : Shape),
      outer.wellFormed = true ∧ s.toBound.wellFormed = false ∧
      outer = mkBound 4 4 10 10 ∧ R = mkBound 4 4 10 10 ∧ s = mkShape 5 5 3 3 ∧
      R.overlaps s.toBound = false ∧
      (LinearContainer.run outer [Op.insert s]).itemContainer_list.cells = [(0, s)] ∧
      (QuadTree.run outer [Op.insert s]).map (fun t => t.items.cells) = some [(0, s)] ∧
      ((QuadTree.run outer [Op.insert s]).bind (fun t => t.queryOverlap R)) = some [0] ∧
      (LinearContainer.run outer [Op.insert s]).queryOverlap R = [] :=
  ⟨mkBound 4 4 10 10, mkBound 4 4 10 10, mkShape 5 5 3 3, by decide, by decide, rfl, rfl, rfl,
    by decide, by decide, by decide, by decide, by decide⟩

end qt

namespace qt

/-! ## Quadrants without overflow -/

theorem wellFormed_iff (b : Bound) :
    b.wellFormed = true ↔ b.topLeft.x ≤ b.bottomRight.x ∧ b.topLeft.y ≤ b.bottomRight.y := by
  simp [Bound.wellFormed]

/-- Without overflow, the coordinates of the quadrants of a well-formed bound
lie between its corners. -/
theorem quadrant_between (b : Bound) (hw : b.wellFormed = true) (hs : b.small = true)
    (i : Fin 4) :
    (b.topLeft.x ≤ (b.getQuadDivision.get i).topLeft.x ∧
      (b.getQuadDivision.get i).topLeft.x ≤ (b.getQuadDivision.get i).bottomRight.x ∧
      (b.getQuadDivision.get i).bottomRight.x ≤ b.bottomRight.x) ∧
    (b.topLeft.y ≤ (b.getQuadDivision.get i).topLeft.y ∧
      (b.getQuadDivision.get i).topLeft.y ≤ (b.getQuadDivision.get i).bottomRight.y ∧
      (b.getQuadDivision.get i).bottomRight.y ≤ b.bottomRight.y) := by
  rw [getQuadDivision_small b hs]
  rw [wellFormed_iff] at hw
  have hx := (tdiv_two_bounds (b.bottomRight.x - b.topLeft.x)).1 (by omega)
  have hy := (tdiv_two_bounds (b.bottomRight.y - b.topLeft.y)).1 (by omega)
  generalize Int.tdiv (b.bottomRight.x - b.topLeft.x) 2 = hx2 at hx ⊢
  generalize Int.tdiv (b.bottomRight.y - b.topLeft.y) 2 = hy2 at hy ⊢
  fin_cases i <;> simp only [Array4.get] <;> omega

theorem wellFormed_of_quadDivisible {b : Bound} (h : b.quadDivisible = true) :
    b.wellFormed = true := by
  rw [quadDivisible_iff] at h
  rw [wellFormed_iff]
  omega

/-- Below a well-formed bound without overflow every node of a well-shaped
tree has a well-formed bound. -/
theorem wellFormed_nodeAt : ∀ (p : Path) (n : QuadTreeNode), n.ShapeInv →
    n.bound.wellFormed = true → n.bound.small = true → (n.nodeAt p).isNode = true →
    (n.nodeAt p).bound.wellFormed = true
  | [], _, _, hw, _, _ => hw
  | i :: p, n, hs, hw, hb, hn => by
    simp only [QuadTreeNode.nodeAt] at hn ⊢
    have hc : (n.child i).isNode = true := isNode_of_nodeAt_isNode hn
    have h1 := shapeInv_child i hs
    have h0 := shape_nodeAt [i] n hs hb (by simpa [QuadTreeNode.nodeAt] using hc)
    simp only [QuadTreeNode.nodeAt] at h0
    have hq := quadrant_between n.bound hw hb i
    have hcb : n.childrenBounds = n.bound.getQuadDivision := by
      have hroot := shape_nodeAt [] n hs hb (isNode_of_child_isNode hc)
      simp only [QuadTreeNode.nodeAt] at hroot
      cases hl : n.leafNode
      · exact (hroot.2.2 hl).2
      · cases n with
        | nullptr => simp [QuadTreeNode.child, QuadTreeNode.isNode] at hc
        | node l d b its c0 c1 c2 c3 cb =>
          simp only [QuadTreeNode.leafNode] at hl
          subst hl
          simp only [QuadTreeNode.ShapeInv] at hs
          obtain ⟨e0, e1, e2, e3⟩ := hs.2.2.1 trivial
          subst e0 e1 e2 e3
          fin_cases i <;> simp [QuadTreeNode.child, QuadTreeNode.isNode] at hc
    have hwc : (n.child i).bound.wellFormed = true := by
      rw [h1.2 hc, hcb, wellFormed_iff]
      exact ⟨hq.1.2.1, hq.2.2.1⟩
    exact wellFormed_nodeAt p (n.child i) h1.1 hwc h0.2.1 hn

/-- C39, the failing input: the outer bound `((-1,0),(2147483647,2))` is
well-formed, its width 2147483648 is not a value of `int32_t`; its NW quadrant is
computed as `((-1,0),(-1073741825,1))`, and the insert of the item
`((0,0),(-1073741825,0))`, which this quadrant contains, creates the NW child,
a node whose bound is not well-formed. -/
theorem node_bound_ill_formed_on_overflow :
    (mkBound (-1) 0 2147483647 2).wellFormed = true ∧
      inInt32 (2147483647 - (-1)) = false ∧
      (mkBound (-1) 0 2147483647 2).getQuadDivision.get 0 = mkBound (-1) 0 (-1073741825) 1 ∧
      (QuadTree.run (mkBound (-1) 0 2147483647 2) [Op.insert (mkShape 0 0 (-1073741825) 0)]).map
          (fun t => ((t.rootNode.child 0).isNode, (t.rootNode.child 0).bound,
            (t.rootNode.child 0).bound.wellFormed))
        = some (true, mkBound (-1) 0 (-1073741825) 1, false) := by
  decide

/-- C39, amended: for every well-formed bound whose coordinates, width and
height are values of `int32_t`, every coordinate of every quadrant of
`getQuadDivision` lies between the corners of the bound, `topLeft + half` is a
value of `int32_t` and is computed without wrap-around, and every quadrant is
well-formed; and every node of every tree reached through the public interface
from such an outer bound has a well-formed bound. -/
theorem quadrants_within_bound (b outer : Bound) (ops : List Op)
    (hw : b.wellFormed = true) (hs : b.small = true)
    (how : outer.wellFormed = true) (hos : outer.small = true) :
    (∀ i, (b.topLeft.x ≤ (b.getQuadDivision.get i).topLeft.x ∧
        (b.getQuadDivision.get i).topLeft.x ≤ (b.getQuadDivision.get i).bottomRight.x ∧
        (b.getQuadDivision.get i).bottomRight.x ≤ b.bottomRight.x) ∧
      (b.topLeft.y ≤ (b.getQuadDivision.get i).topLeft.y ∧
        (b.getQuadDivision.get i).topLeft.y ≤ (b.getQuadDivision.get i).bottomRight.y ∧
        (b.getQuadDivision.get i).bottomRight.y ≤ b.bottomRight.y)) ∧
      (∀ i, (b.getQuadDivision.get i).wellFormed = true) ∧
      (b.getQuadDivision.get 3).topLeft
        = ⟨b.topLeft.x + Int.tdiv (b.bottomRight.x - b.topLeft.x) 2,
           b.topLeft.y + Int.tdiv (b.bottomRight.y - b.topLeft.y) 2⟩ ∧
      inInt32 (b.topLeft.x + Int.tdiv (b.bottomRight.x - b.topLeft.x) 2) = true ∧
      inInt32 (b.topLeft.y + Int.tdiv (b.bottomRight.y - b.topLeft.y) 2) = true ∧
      ∃ t, QuadTree.run outer ops = some t ∧
        ∀ p, (t.rootNode.nodeAt p).isNode = true →
          (t.rootNode.nodeAt p).bound.wellFormed = true := by
  refine ⟨quadrant_between b hw hs, ?_, ?_, ?_, ?_, ?_⟩
  · intro i
    have := quadrant_between b hw hs i
    rw [wellFormed_iff]
    exact ⟨this.1.2.1, this.2.2.1⟩
  · rw [getQuadDivision_small b hs]
    rfl
  · have := (quadrant_between b hw hs 3).1
    rw [getQuadDivision_small b hs] at this
    simp only [Array4.get] at this
    rw [small_iff] at hs
    rw [inInt32_iff]
    omega
  · have := (quadrant_between b hw hs 3).2
    rw [getQuadDivision_small b hs] at this
    simp only [Array4.get] at this
    rw [small_iff] at hs
    rw [inInt32_iff]
    omega
  · obtain ⟨t, h1, -, h3⟩ := run_inv2 outer ops
    refine ⟨t, h1, fun p hn => ?_⟩
    exact wellFormed_nodeAt p _ h3.shape (by rw [h3.bound]; exact how)
      (by rw [h3.bound]; exact hos) hn

/-- An instance of C39, amended: the quadrants of `((0,0),(3,3))`, and the tree
of scenario 1. -/
theorem quadrants_within_bound_witness :
    (mkBound 0 0 3 3).wellFormed = true ∧ (mkBound 0 0 3 3).small = true ∧
      outer100.wellFormed = true ∧ outer100.small = true ∧
      (∀ i, ((mkBound 0 0 3 3).getQuadDivision.get i).wellFormed = true) ∧
      ∃ t, QuadTree.run outer100 insertABC = some t ∧
        ∀ p, (t.rootNode.nodeAt p).isNode = true →
          (t.rootNode.nodeAt p).bound.wellFormed = true :=
  ⟨by decide, by decide, by decide, by decide,
    (quadrants_within_bound (mkBound 0 0 3 3) outer100 insertABC (by decide) (by decide)
      (by decide) (by decide)).2.1,
    (quadrants_within_bound (mkBound 0 0 3 3) outer100 insertABC (by decide) (by decide)
      (by decide) (by decide)).2.2.2.2.2⟩

/-! ## The number of nodes -/

theorem size_le_of_depthInv : ∀ (n : QuadTreeNode) (d : Int) (k : Nat),
    QuadTreeNode.DepthInv d n → d + k = 6 → 3 * n.size + 1 ≤ 4 ^ k := by
  intro n
  induction n with
  | nullptr =>
    intro d k _ _
    simp only [QuadTreeNode.size]
    exact Nat.one_le_pow _ _ (by decide)
  | node l dn b its c0 c1 c2 c3 cb h0 h1 h2 h3 =>
    intro d k hd hk
    simp only [QuadTreeNode.DepthInv, MAXDEPTH] at hd
    obtain ⟨-, hd0, hd6, g0, g1, g2, g3⟩ := hd
    obtain ⟨k2, rfl⟩ : ∃ k2, k = k2 + 1 := ⟨k - 1, by omega⟩
    have e : d + 1 + (k2 : Int) = 6 := by push_cast at hk; omega
    have a0 := h0 (d + 1) k2 g0 e
    have a1 := h1 (d + 1) k2 g1 e
    have a2 := h2 (d + 1) k2 g2 e
    have a3 := h3 (d + 1) k2 g3 e
    simp only [QuadTreeNode.size]
    rw [pow_succ]
    omega

/-- C38: in every tree reached through the public interface `getBounds`
returns a sequence whose length is the number of nodes, and this number is at
most `1 + 4 + 16 + 64 + 256 + 1024 = 1365`. -/
theorem tree_size_bound (outer : Bound) (ops : List Op) :
    ∃ t bs, QuadTree.run outer ops = some t ∧ t.getBounds = some bs ∧
      bs.length = t.rootNode.size ∧ bs.length ≤ 1 + 4 + 16 + 64 + 256 + 1024 ∧
      1 + 4 + 16 + 64 + 256 + 1024 = 1365 := by
  obtain ⟨t, h1, h2⟩ := run_inv outer ops
  obtain ⟨g1, g2⟩ := getBounds_eq t.rootNode h2.root
  have hsz := size_le_of_depthInv t.rootNode 0 6 h2.depth (by norm_num)
  refine ⟨t, _, h1, g1, by rw [List.length_map, g2], ?_, by norm_num⟩
  rw [List.length_map, g2]
  norm_num at hsz ⊢
  omega

end qt

namespace qt

/-! ## The whole-subtree shortcut -/

theorem pathInv_nodeAt {bnd : Handle → Bound} : ∀ (p : Path) (n : QuadTreeNode),
    QuadTreeNode.PathInv bnd n → QuadTreeNode.PathInv bnd (n.nodeAt p)
  | [], _, h => h
  | i :: p, n, h => pathInv_nodeAt p (n.child i) (pathInv_child i h).1

/-- C31: in every tree reached by calls whose inserted items have well-formed
bounds that the outer bound contains, for every region `R` and every node whose
bound `R` contains, every handle held by the node or by a node below it points
to a stored item whose bound `R` contains and overlaps; so both predicates hold
of every handle of the subtree, and filtering the handles of the subtree by
either predicate gives all of them. -/
theorem whole_subtree_shortcut (outer : Bound) (ops : List Op) (R : Bound)
    (hok : ops.all (Op.ok outer) = true) :
    ∃ t, QuadTree.run outer ops = some t ∧
      ∀ p, (t.rootNode.nodeAt p).isNode = true →
        R.contains (t.rootNode.nodeAt p).bound = true →
        (∀ h ∈ (t.rootNode.nodeAt p).handles, ∃ s, t.items.deref h = some s ∧
          R.contains s.toBound = true ∧ R.overlaps s.toBound = true) ∧
        (t.rootNode.nodeAt p).handles.filter
            (fun h => QuadTree.overlapFn R (t.items.boundOf h))
          = (t.rootNode.nodeAt p).handles ∧
        (t.rootNode.nodeAt p).handles.filter
            (fun h => QuadTree.containFn R (t.items.boundOf h))
          = (t.rootNode.nodeAt p).handles ∧
        (t.rootNode.nodeAt p).selected R (fun h => QuadTree.overlapFn R (t.items.boundOf h))
          = (t.rootNode.nodeAt p).handles ∧
        (t.rootNode.nodeAt p).selected R (fun h => QuadTree.containFn R (t.items.boundOf h))
          = (t.rootNode.nodeAt p).handles := by
  obtain ⟨t, h1, h2, h3, -⟩ := run_invIn outer ops hok
  refine ⟨t, h1, ?_⟩
  intro p hn hc
  have hp := pathInv_nodeAt p _ h3.path
  have hsub : ∀ h ∈ (t.rootNode.nodeAt p).handles, h ∈ t.rootNode.handles := by
    intro h hh
    obtain ⟨q, hq1, hq2⟩ := exists_path_of_mem_handles _ hh
    rw [← nodeAt_append] at hq1 hq2
    exact mem_handles_of_mem_items_nodeAt hq1 hq2
  have key : ∀ h ∈ (t.rootNode.nodeAt p).handles,
      R.contains (t.items.boundOf h) = true ∧ R.overlaps (t.items.boundOf h) = true := by
    intro h hh
    have hb := pathInv_mem hp h hh
    have hw := good_of_invIn h2 h3 h (hsub h hh)
    exact ⟨contains_trans hc hb, overlaps_of_contains_drain hw hc hb⟩
  have hsel : ∀ test, (t.rootNode.nodeAt p).selected R test = (t.rootNode.nodeAt p).handles := by
    intro test
    cases hq : t.rootNode.nodeAt p with
    | nullptr => rfl
    | node l d b its c0 c1 c2 c3 cb =>
      rw [hq] at hc
      simp only [QuadTreeNode.bound] at hc
      simp only [QuadTreeNode.selected, hc, if_true, QuadTreeNode.handles]
  refine ⟨?_, ?_, ?_, hsel _, hsel _⟩
  · intro h hh
    obtain ⟨s, hs1, hs2⟩ := h2.sync.live h (hsub h hh)
    have := key h hh
    rw [← hs2] at this
    exact ⟨s, hs1, this⟩
  · exact List.filter_eq_self.2 (fun h hh => (key h hh).2)
  · exact List.filter_eq_self.2 (fun h hh => (key h hh).1)

/-- An instance of C31: after the inserts of `A`, `B`, `C` the region
`((0,0),(60,60))` contains the bound of the NW child of the root, below which
the handle 0 of `A` is stored. -/
theorem whole_subtree_shortcut_witness :
    insertABC.all (Op.ok outer100) = true ∧
      (QuadTree.run outer100 insertABC).map
          (fun t => ((t.rootNode.nodeAt [0]).bound, (t.rootNode.nodeAt [0]).handles))
        = some (mkBound 0 0 50 50, [0]) ∧
      ∃ t, QuadTree.run outer100 insertABC = some t ∧
        ∀ p, (t.rootNode.nodeAt p).isNode = true →
          (mkBound 0 0 60 60).contains (t.rootNode.nodeAt p).bound = true →
          (∀ h ∈ (t.rootNode.nodeAt p).handles, ∃ s, t.items.deref h = some s ∧
            (mkBound 0 0 60 60).contains s.toBound = true ∧
            (mkBound 0 0 60 60).overlaps s.toBound = true) ∧
          (t.rootNode.nodeAt p).handles.filter
              (fun h => QuadTree.overlapFn (mkBound 0 0 60 60) (t.items.boundOf h))
            = (t.rootNode.nodeAt p).handles ∧
          (t.rootNode.nodeAt p).handles.filter
              (fun h => QuadTree.containFn (mkBound 0 0 60 60) (t.items.boundOf h))
            = (t.rootNode.nodeAt p).handles ∧
          (t.rootNode.nodeAt p).selected (mkBound 0 0 60 60)
              (fun h => QuadTree.overlapFn (mkBound 0 0 60 60) (t.items.boundOf h))
            = (t.rootNode.nodeAt p).handles ∧
          (t.rootNode.nodeAt p).selected (mkBound 0 0 60 60)
              (fun h => QuadTree.containFn (mkBound 0 0 60 60) (t.items.boundOf h))
            = (t.rootNode.nodeAt p).handles :=
  ⟨by decide, by decide,
    whole_subtree_shortcut outer100 insertABC (mkBound 0 0 60 60) (by decide)⟩

/-! ## Containment below the root -/

/-- C35, the failing input: on the outer bound `((-2147483648,0),(0,1))`,
whose width is not a value of `int32_t`, the NW child bound is
`((-2147483648,0),(1073741824,0))`; the insert of `((5,0),(10,0))` stores
handle 0 in the NW child, a node that is not the root, and the bound of the
root does not contain the item. -/
theorem containment_fails_at_root_on_overflow :
    (QuadTree.run (mkBound (-2147483648) 0 0 1) [Op.insert (mkShape 5 0 10 0)]).map
        (fun t => ((t.rootNode.nodeAt [0]).items, (t.rootNode.nodeAt [0]).bound,
          (t.rootNode.nodeAt [0]).bound.contains (t.items.boundOf 0),
          t.rootNode.bound, t.rootNode.bound.contains (t.items.boundOf 0)))
      = some ([0], mkBound (-2147483648) 0 1073741824 0, true,
          mkBound (-2147483648) 0 0 1, false) := by
  decide

/-- C35, amended: in every tree reached through the public interface, with no
condition on the inserted items, every handle held by a node that is not the
root points to a stored item whose bound is contained in the bound of that node
and of every ancestor of it other than the root; when the coordinates, width
and height of the outer bound are values of `int32_t`, the child bounds of a
node that is not a leaf are contained in the bound of the node, and the bound
of the root contains the item as well. -/
theorem containment_below_root (outer : Bound) (ops : List Op) :
    ∃ t, QuadTree.run outer ops = some t ∧
      (∀ p q h, p ≠ [] → h ∈ (t.rootNode.nodeAt (p ++ q)).items →
        ∃ s, t.items.deref h = some s ∧
          (t.rootNode.nodeAt p).bound.contains s.toBound = true) ∧
      (outer.small = true →
        (∀ p i, (t.rootNode.nodeAt p).isNode = true →
          (t.rootNode.nodeAt p).leafNode = false →
          (t.rootNode.nodeAt p).bound.contains
            ((t.rootNode.nodeAt p).childrenBounds.get i) = true) ∧
        ∀ q h, q ≠ [] → h ∈ (t.rootNode.nodeAt q).items →
          ∃ s, t.items.deref h = some s ∧ t.rootNode.bound = outer ∧
            outer.contains s.toBound = true) := by
  obtain ⟨t, h1, h2, h3⟩ := run_inv2 outer ops
  have part1 : ∀ p q h, p ≠ [] → h ∈ (t.rootNode.nodeAt (p ++ q)).items →
      ∃ s, t.items.deref h = some s ∧
        (t.rootNode.nodeAt p).bound.contains s.toBound = true := by
    intro p q h hp hh
    have hnode : (t.rootNode.nodeAt (p ++ q)).isNode = true := by
      cases hq : (t.rootNode.nodeAt (p ++ q)).isNode
      · rw [items_nodeAt_of_not_isNode hq] at hh
        cases hh
      · rfl
    obtain ⟨s, hs1, hs2⟩ := h2.sync.live h (mem_handles_of_mem_items_nodeAt hnode hh)
    refine ⟨s, hs1, ?_⟩
    rw [hs2]
    cases p with
    | nil => exact absurd rfl hp
    | cons i p =>
      have hpi := pathInv_nodeAt p _ (belowInv_child i h3.below).1
      rw [nodeAt_append] at hh hnode
      exact pathInv_mem hpi h (mem_handles_of_mem_items_nodeAt hnode hh)
  refine ⟨t, h1, part1, fun hsm => ⟨?_, ?_⟩⟩
  · intro p i hn hl
    obtain ⟨-, k2, k3⟩ := shape_nodeAt p t.rootNode h3.shape (by rw [h3.bound]; exact hsm) hn
    obtain ⟨k4, k5⟩ := k3 hl
    rw [k5]
    exact (partitions_getQuadDivision _ k4 k2).1 i
  · intro q h hq hh
    cases q with
    | nil => exact absurd rfl hq
    | cons i q =>
      obtain ⟨s, hs1, hs2⟩ := part1 [i] q h (by simp) hh
      refine ⟨s, hs1, h3.bound, ?_⟩
      have hnode : ((t.rootNode.child i).nodeAt q).isNode = true := by
        cases hn : (t.rootNode.nodeAt (i :: q)).isNode
        · rw [items_nodeAt_of_not_isNode hn] at hh
          cases hh
        · exact hn
      have hci : (t.rootNode.child i).isNode = true := isNode_of_nodeAt_isNode hnode
      obtain ⟨-, k2, k3⟩ := shape_nodeAt [] t.rootNode h3.shape
        (by rw [h3.bound]; exact hsm) h2.root
      simp only [QuadTreeNode.nodeAt] at k2 k3
      have hl : t.rootNode.leafNode = false := by
        cases hl : t.rootNode.leafNode
        · rfl
        · have := (reachable_node h2 h3 [] h2.root).2.2.1 hl i
          simp only [QuadTreeNode.nodeAt] at this
          rw [this] at hci
          cases hci
      obtain ⟨k4, k5⟩ := k3 hl
      have hp := (partitions_getQuadDivision _ k4 k2).1 i
      rw [← k5, ← (shapeInv_child i h3.shape).2 hci, h3.bound] at hp
      exact contains_trans hp hs2

/-- An instance of C35, amended: after `A`, `B`, `C` and the out-of-bound item
`((90,90),(110,110))` in `((0,0),(100,100))`, the handle 3 of the out-of-bound
item is in the root and every handle below the root lies in the outer bound. -/
theorem containment_below_root_witness :
    outer100.small = true ∧
      (QuadTree.run outer100 (insertABC ++ [Op.insert (mkShape 90 90 110 110)])).map
          (fun t => (t.rootNode.items, t.rootNode.handles)) = some ([2, 3], [2, 3, 0, 1]) ∧
      ∃ t, QuadTree.run outer100 (insertABC ++ [Op.insert (mkShape 90 90 110 110)]) = some t ∧
        (∀ p q h, p ≠ [] → h ∈ (t.rootNode.nodeAt (p ++ q)).items →
          ∃ s, t.items.deref h = some s ∧
            (t.rootNode.nodeAt p).bound.contains s.toBound = true) ∧
        ∀ q h, q ≠ [] → h ∈ (t.rootNode.nodeAt q).items →
          ∃ s, t.items.deref h = some s ∧ t.rootNode.bound = outer100 ∧
            outer100.contains s.toBound = true := by
  refine ⟨by decide, by decide, ?_⟩
  obtain ⟨t, h1, h2, h3⟩ :=
    containment_below_root outer100 (insertABC ++ [Op.insert (mkShape 90 90 110 110)])
  exact ⟨t, h1, h2, (h3 (by decide)).2⟩

end qt

namespace qt

/-! ## The number of iterations of the loop of `insert` -/

theorem size_setChild {n : QuadTreeNode} (hn : n.isNode = true) (i : Fin 4)
    (c : QuadTreeNode) : (n.setChild i c).size + (n.child i).size = n.size + c.size := by
  cases n with
  | nullptr => simp [QuadTreeNode.isNode] at hn
  | node l d b its c0 c1 c2 c3 cb =>
    fin_cases i <;>
      simp only [QuadTreeNode.setChild, QuadTreeNode.child, QuadTreeNode.size] <;> omega

/-- The loop of `insert` adds at most `MAXDEPTH - 1 - depth` nodes below the
node it starts at, and removes none. -/
theorem insertLoop_size (item : Handle) (b : Bound) :
    ∀ (fuel : Nat) (n n2 : QuadTreeNode) (d : Int), QuadTreeNode.DepthInv d n →
      QuadTreeNode.insertLoop item b fuel n = some n2 →
      n.size ≤ n2.size ∧ (n2.size : Int) + d ≤ n.size + 5 := by
  intro fuel
  induction fuel with
  | zero =>
    intro n n2 d _ h
    cases n <;> simp [QuadTreeNode.insertLoop] at h
  | succ fuel ih =>
    intro n n2 d hd h
    cases n with
    | nullptr => simp [QuadTreeNode.insertLoop] at h
    | node l dn bd its c0 c1 c2 c3 cb =>
      have hd2 := hd
      simp only [QuadTreeNode.DepthInv, MAXDEPTH] at hd2
      obtain ⟨hdd, hd0, hd6, -⟩ := hd2
      subst hdd
      rcases insertLoop_step item b fuel l dn bd its c0 c1 c2 c3 cb with
        ⟨h1, -⟩ | ⟨i, -, hfn, h1⟩
      · rw [h1] at h
        cases h
        simp only [QuadTreeNode.size]
        omega
      · rw [h1] at h
        cases hrec : QuadTreeNode.insertLoop item b fuel
            (if ((QuadTreeNode.node l dn bd its c0 c1 c2 c3 cb).child i).isNode = true
              then (QuadTreeNode.node l dn bd its c0 c1 c2 c3 cb).child i
              else QuadTreeNode.new (cb.get i) (wrap32 (dn + 1))) with
        | none => rw [hrec] at h; simp at h
        | some n3 =>
          rw [hrec] at h
          simp only [Option.map, Option.some.injEq] at h
          subst h
          obtain ⟨-, hcreate⟩ := findNext_some hfn
          simp only [QuadTreeNode.depth, MAXDEPTH] at hcreate
          have hsz := size_setChild (n := .node l dn bd its c0 c1 c2 c3 cb) rfl i n3
          by_cases hex : ((QuadTreeNode.node l dn bd its c0 c1 c2 c3 cb).child i).isNode = true
          · rw [if_pos hex] at hrec
            have := ih _ _ (dn + 1) (depthInv_child i hd) hrec
            omega
          · rw [if_neg hex] at hrec
            have hlt : dn < 5 := by
              rcases hcreate with h | h
              · exact absurd h hex
              · omega
            have hw : wrap32 (dn + 1) = dn + 1 := wrap32_small (by omega) (by omega)
            have hdn : QuadTreeNode.DepthInv (dn + 1)
                (QuadTreeNode.new (cb.get i) (wrap32 (dn + 1))) := by
              rw [hw]
              simp only [QuadTreeNode.new, QuadTreeNode.DepthInv, MAXDEPTH]
              exact ⟨trivial, by omega, by omega, trivial, trivial, trivial, trivial⟩
            have := ih _ _ (dn + 1) hdn hrec
            have e := eq_nullptr_of_not_isNode
              (n := (QuadTreeNode.node l dn bd its c0 c1 c2 c3 cb).child i) (by simpa using hex)
            rw [e] at hsz
            have z : QuadTreeNode.nullptr.size = 0 := rfl
            have o : (QuadTreeNode.new (cb.get i) (wrap32 (dn + 1))).size = 1 := rfl
            rw [z] at hsz
            rw [o] at this
            omega

/-- The loop of `insert` makes one descent for each step of the path to the
node where it stores the handle: with one unit of fuel for each node on that
path it returns the same tree. -/
theorem insertLoop_steps (item : Handle) (b : Bound) :
    ∀ (fuel : Nat) (n n2 : QuadTreeNode), QuadTreeNode.insertLoop item b fuel n = some n2 →
      ∃ q, (n2.nodeAt q).isNode = true ∧
        (n2.nodeAt q).items = (n.nodeAt q).items ++ [item] ∧
        QuadTreeNode.insertLoop item b (q.length + 1) n = some n2 := by
  intro fuel
  induction fuel with
  | zero =>
    intro n n2 h
    cases n <;> simp [QuadTreeNode.insertLoop] at h
  | succ fuel ih =>
    intro n n2 h
    cases n with
    | nullptr => simp [QuadTreeNode.insertLoop] at h
    | node l d bd its c0 c1 c2 c3 cb =>
      rcases insertLoop_step item b fuel l d bd its c0 c1 c2 c3 cb with
        ⟨h1, h1c⟩ | ⟨i, hl, hfn, h1⟩
      · rw [h1] at h
        cases h
        refine ⟨[], rfl, rfl, ?_⟩
        rcases insertLoop_step item b 0 l d bd its c0 c1 c2 c3 cb with
          ⟨h2, -⟩ | ⟨j, hl2, hfn2, -⟩
        · exact h2
        · rcases h1c with h1c | h1c
          · rw [hl2] at h1c
            exact absurd h1c Bool.false_ne_true
          · rw [h1c] at hfn2
            cases hfn2
      · rw [h1] at h
        cases hrec : QuadTreeNode.insertLoop item b fuel
            (if ((QuadTreeNode.node l d bd its c0 c1 c2 c3 cb).child i).isNode = true
              then (QuadTreeNode.node l d bd its c0 c1 c2 c3 cb).child i
              else QuadTreeNode.new (cb.get i) (wrap32 (d + 1))) with
        | none => rw [hrec] at h; simp at h
        | some n3 =>
          rw [hrec] at h
          simp only [Option.map, Option.some.injEq] at h
          subst h
          obtain ⟨q, k1, k2, k3⟩ := ih _ _ hrec
          refine ⟨i :: q, ?_, ?_, ?_⟩
          · simp only [QuadTreeNode.nodeAt, child_setChild_same]
            exact k1
          · simp only [QuadTreeNode.nodeAt, child_setChild_same]
            rw [k2]
            by_cases hex :
                ((QuadTreeNode.node l d bd its c0 c1 c2 c3 cb).child i).isNode = true
            · rw [if_pos hex]
            · have e := eq_nullptr_of_not_isNode
                (n := (QuadTreeNode.node l d bd its c0 c1 c2 c3 cb).child i)
                (by simpa using hex)
              rw [if_neg hex, items_nodeAt_new, e, nodeAt_nullptr]
              rfl
          · rcases insertLoop_step item b (q.length + 1) l d bd its c0 c1 c2 c3 cb with
              ⟨-, h2c⟩ | ⟨j, -, hfn2, h2⟩
            · rcases h2c with h2c | h2c
              · rw [hl] at h2c
                exact absurd h2c Bool.false_ne_true
              · rw [h2c] at hfn
                cases hfn
            · rw [hfn] at hfn2
              cases hfn2
              simp only [List.length_cons]
              rw [h2, k3]
              rfl

/-- More fuel does not change what the loop of `insert` returns. -/
theorem insertLoop_succ (item : Handle) (b : Bound) :
    ∀ (fuel : Nat) (n r : QuadTreeNode), QuadTreeNode.insertLoop item b fuel n = some r →
      QuadTreeNode.insertLoop item b (fuel + 1) n = some r := by
  intro fuel
  induction fuel with
  | zero =>
    intro n r h
    cases n <;> simp [QuadTreeNode.insertLoop] at h
  | succ fuel ih =>
    intro n r h
    cases n with
    | nullptr => simp [QuadTreeNode.insertLoop] at h
    | node l d bd its c0 c1 c2 c3 cb =>
      rcases insertLoop_step item b fuel l d bd its c0 c1 c2 c3 cb with
        ⟨h1, h1c⟩ | ⟨i, hl, hfn, h1⟩
      · rcases insertLoop_step item b (fuel + 1) l d bd its c0 c1 c2 c3 cb with
          ⟨h2, -⟩ | ⟨j, hl2, hfn2, -⟩
        · rw [h2, ← h1, h]
        · rcases h1c with h1c | h1c
          · rw [hl2] at h1c
            exact absurd h1c Bool.false_ne_true
          · rw [h1c] at hfn2
            cases hfn2
      · rcases insertLoop_step item b (fuel + 1) l d bd its c0 c1 c2 c3 cb with
          ⟨-, h2c⟩ | ⟨j, -, hfn2, h2⟩
        · rcases h2c with h2c | h2c
          · rw [hl] at h2c
            exact absurd h2c Bool.false_ne_true
          · rw [h2c] at hfn
            cases hfn
        · rw [hfn] at hfn2
          cases hfn2
          rw [h1] at h
          cases hrec : QuadTreeNode.insertLoop item b fuel
              (if ((QuadTreeNode.node l d bd its c0 c1 c2 c3 cb).child i).isNode = true
                then (QuadTreeNode.node l d bd its c0 c1 c2 c3 cb).child i
                else QuadTreeNode.new (cb.get i) (wrap32 (d + 1))) with
          | none => rw [hrec] at h; simp at h
          | some n3 =>
            rw [hrec] at h
            rw [h2, ih _ _ hrec]
            exact h

theorem insertLoop_mono (item : Handle) (b : Bound) :
    ∀ (k fuel : Nat) (n r : QuadTreeNode), QuadTreeNode.insertLoop item b fuel n = some r →
      QuadTreeNode.insertLoop item b (fuel + k) n = some r
  | 0, _, _, _, h => h
  | k + 1, fuel, n, r, h => by
    have := insertLoop_succ item b _ _ _ (insertLoop_mono item b k fuel n r h)
    rwa [Nat.add_assoc] at this

/-- C34: in every tree reached through the public interface, for every
item, `insert` returns; the loop stores the handle in a node reached by at
most `MAXDEPTH - 1 = 5` descents (one unit of fuel for each iteration is
enough: the number of descents plus one, and six in any case), the node where
it stops has the number of descents as depth, and the tree gains at most five
nodes and loses none, so `getBounds` gets at most five entries longer. -/
theorem insert_terminates (outer : Bound) (ops : List Op) (s : Shape) :
    ∃ t t2 q bs bs2, QuadTree.run outer ops = some t ∧ t.insert s = some t2 ∧
      QuadTreeNode.insertLoop t.items.next s.toBound (q.length + 1) t.rootNode
        = some t2.rootNode ∧
      QuadTreeNode.insertLoop t.items.next s.toBound 6 t.rootNode = some t2.rootNode ∧
      q.length ≤ 5 ∧ MAXDEPTH - 1 = 5 ∧
      (t2.rootNode.nodeAt q).isNode = true ∧
      (t2.rootNode.nodeAt q).depth = q.length ∧
      (t2.rootNode.nodeAt q).items = (t.rootNode.nodeAt q).items ++ [t.items.next] ∧
      t.rootNode.size ≤ t2.rootNode.size ∧ t2.rootNode.size ≤ t.rootNode.size + 5 ∧
      t.getBounds = some bs ∧ t2.getBounds = some bs2 ∧
      bs.length ≤ bs2.length ∧ bs2.length ≤ bs.length + 5 := by
  obtain ⟨t, h1, h2⟩ := run_inv outer ops
  obtain ⟨r, g1, g2, -⟩ := insert_inv t s h2
  have hrec : QuadTreeNode.insertLoop t.items.next s.toBound
      (t.rootNode.height + MAXDEPTH.toNat) t.rootNode = some r := by
    have := (insert_eq t s h2).1
    rw [g1] at this
    cases hq : QuadTreeNode.insertLoop t.items.next s.toBound
        (t.rootNode.height + MAXDEPTH.toNat) t.rootNode with
    | none => rw [hq] at this; simp at this
    | some r2 =>
      rw [hq] at this
      simp only [Option.map, Option.some.injEq, QuadTree.mk.injEq, true_and] at this
      rw [this]
  obtain ⟨q, k1, k2, k3⟩ := insertLoop_steps _ _ _ _ _ hrec
  have hdq := depth_nodeAt q r 0 g2.depth k1
  have hlen : q.length ≤ 5 := by
    have := hdq.2.2
    simp only [MAXDEPTH] at this
    omega
  have hsz := insertLoop_size _ _ _ _ _ 0 h2.depth hrec
  obtain ⟨b1, b2⟩ := getBounds_eq t.rootNode h2.root
  obtain ⟨c1, c2⟩ := getBounds_eq r g2.root
  have h6 : QuadTreeNode.insertLoop t.items.next s.toBound 6 t.rootNode = some r := by
    have := insertLoop_mono _ _ (5 - q.length) _ _ _ k3
    have e : q.length + 1 + (5 - q.length) = 6 := by omega
    rw [e] at this
    exact this
  have hsz5 : r.size ≤ t.rootNode.size + 5 := by
    have := hsz.2
    omega
  refine ⟨t, _, q, _, _, h1, g1, k3, h6, hlen, by simp [MAXDEPTH], k1, ?_, k2,
    hsz.1, hsz5, b1, c1, ?_, ?_⟩
  · rw [hdq.1]
    simp
  · rw [List.length_map, List.length_map, b2, c2]
    exact hsz.1
  · rw [List.length_map, List.length_map, b2, c2]
    exact hsz5

end qt

namespace qt

/-! ## One descent of the loop of `insert`, on the members of the node -/

/-- The node the loop of `insert` goes to from `n` through slot `i`: the child
there, or a new node for child bound `i` one level deeper. -/
theorem insertLoop_rec (item : Handle) (b : Bound) (fuel : Nat) (n : QuadTreeNode)
    (i : Fin 4) (hl : n.leafNode = false)
    (hfn : QuadTreeNode.findNext n b idx4 = some i) :
    QuadTreeNode.insertLoop item b (fuel + 1) n
      = (QuadTreeNode.insertLoop item b fuel
          (if (n.child i).isNode = true then n.child i
            else QuadTreeNode.new (n.childrenBounds.get i) (wrap32 (n.depth + 1)))).map
          (n.setChild i) := by
  cases n with
  | nullptr => simp [QuadTreeNode.leafNode] at hl
  | node l d bd its c0 c1 c2 c3 cb =>
    rcases insertLoop_step item b fuel l d bd its c0 c1 c2 c3 cb with
      ⟨-, h1⟩ | ⟨j, -, hfj, h1⟩
    · rcases h1 with h1 | h1
      · simp only [QuadTreeNode.leafNode] at hl
        rw [hl] at h1
        exact absurd h1 Bool.false_ne_true
      · rw [h1] at hfn
        cases hfn
    · rw [hfn] at hfj
      cases hfj
      exact h1

theorem next_props {n : QuadTreeNode} {b : Bound} {i : Fin 4} {d : Int}
    (hn : n.isNode = true) (hd : QuadTreeNode.DepthInv d n) (hs : n.ShapeInv)
    (hfn : QuadTreeNode.findNext n b idx4 = some i) :
    (if (n.child i).isNode = true then n.child i
      else QuadTreeNode.new (n.childrenBounds.get i) (wrap32 (n.depth + 1))).isNode = true ∧
    QuadTreeNode.DepthInv (d + 1)
      (if (n.child i).isNode = true then n.child i
        else QuadTreeNode.new (n.childrenBounds.get i) (wrap32 (n.depth + 1))) ∧
    (if (n.child i).isNode = true then n.child i
      else QuadTreeNode.new (n.childrenBounds.get i) (wrap32 (n.depth + 1))).ShapeInv ∧
    (if (n.child i).isNode = true then n.child i
      else QuadTreeNode.new (n.childrenBounds.get i) (wrap32 (n.depth + 1))).bound
      = n.childrenBounds.get i ∧
    (∀ p, ((if (n.child i).isNode = true then n.child i
        else QuadTreeNode.new (n.childrenBounds.get i) (wrap32 (n.depth + 1))).nodeAt p).items
      = ((n.child i).nodeAt p).items) ∧
    (∀ p, ((n.child i).nodeAt p).isNode = true →
      (if (n.child i).isNode = true then n.child i
        else QuadTreeNode.new (n.childrenBounds.get i) (wrap32 (n.depth + 1))) = n.child i) := by
  obtain ⟨-, hcreate⟩ := findNext_some hfn
  by_cases hex : (n.child i).isNode = true
  · simp only [if_pos hex]
    exact ⟨hex, depthInv_child i hd, (shapeInv_child i hs).1, (shapeInv_child i hs).2 hex,
      fun _ => trivial, fun _ _ => trivial⟩
  · simp only [if_neg hex]
    have hdep : n.depth = d ∧ 0 ≤ d ∧ d < 5 := by
      cases n with
      | nullptr => simp [QuadTreeNode.isNode] at hn
      | node l dn bd its c0 c1 c2 c3 cb =>
        simp only [QuadTreeNode.DepthInv, MAXDEPTH] at hd
        simp only [QuadTreeNode.depth, MAXDEPTH] at hcreate ⊢
        rcases hcreate with h | h
        · exact absurd h hex
        · exact ⟨hd.1, hd.2.1, by omega⟩
    have hw : wrap32 (n.depth + 1) = d + 1 := by
      rw [hdep.1]
      exact wrap32_small (by omega) (by omega)
    have e := eq_nullptr_of_not_isNode (n := n.child i) (by simpa using hex)
    refine ⟨rfl, ?_, shapeInv_new _ _, rfl, ?_, ?_⟩
    · rw [hw]
      simp only [QuadTreeNode.new, QuadTreeNode.DepthInv, MAXDEPTH]
      exact ⟨trivial, by omega, by omega, trivial, trivial, trivial, trivial⟩
    · intro p
      rw [items_nodeAt_new, e, nodeAt_nullptr]
      rfl
    · intro p hp
      rw [e, nodeAt_nullptr] at hp
      cases hp

end qt

namespace qt

/-! ## Bounds of size one by one -/

/-- Without overflow, a quadrant of a quad-divisible bound is the bound itself
exactly when it is the SE quadrant and the bound is one by one. -/
theorem quadrant_eq_self_iff (b : Bound) (hq : b.quadDivisible = true) (hs : b.small = true)
    (i : Fin 4) :
    b.getQuadDivision.get i = b ↔
      (i = 3 ∧ b.bottomRight.x = b.topLeft.x + 1 ∧ b.bottomRight.y = b.topLeft.y + 1) := by
  rw [getQuadDivision_small b hs]
  rw [quadDivisible_iff] at hq
  have hx := (tdiv_two_bounds (b.bottomRight.x - b.topLeft.x)).1 (by omega)
  have hy := (tdiv_two_bounds (b.bottomRight.y - b.topLeft.y)).1 (by omega)
  generalize Int.tdiv (b.bottomRight.x - b.topLeft.x) 2 = hx2 at hx ⊢
  generalize Int.tdiv (b.bottomRight.y - b.topLeft.y) 2 = hy2 at hy ⊢
  obtain ⟨⟨tx, ty⟩, ⟨bx, bY⟩⟩ := b
  simp only at hq hx hy ⊢
  fin_cases i <;>
    simp only [Array4.get, Bound.mk.injEq, Vec2D_i32.mk.injEq] <;>
    constructor <;> intro h
  all_goals first
    | (exfalso; omega)
    | (exfalso; exact absurd h.1 (by decide))
    | (refine ⟨rfl, ?_, ?_⟩ <;> omega)
    | (refine ⟨⟨?_, ?_⟩, trivial⟩ <;> omega)

theorem unit_quadrants (b : Bound) (hs : b.small = true)
    (h1 : b.bottomRight.x = b.topLeft.x + 1) (h2 : b.bottomRight.y = b.topLeft.y + 1) :
    b.quadDivisible = true ∧ b.getQuadDivision.get 3 = b ∧
      ∀ j : Fin 4, j < 3 → (b.getQuadDivision.get j).contains b = false := by
  have hq : b.quadDivisible = true := by
    rw [quadDivisible_iff]
    omega
  refine ⟨hq, (quadrant_eq_self_iff b hq hs 3).2 ⟨rfl, h1, h2⟩, ?_⟩
  intro j hj
  rw [getQuadDivision_small b hs]
  have ex : b.bottomRight.x - b.topLeft.x = 1 := by omega
  have ey : b.bottomRight.y - b.topLeft.y = 1 := by omega
  rw [ex, ey]
  have e0 : Int.tdiv 1 2 = 0 := by decide
  rw [e0, Bool.eq_false_iff]
  intro hc
  revert hj
  fin_cases j <;> intro hj <;>
    first
      | exact absurd hj (by decide)
      | (simp only [Array4.get, Bound.contains, Bool.and_eq_true, decide_eq_true_eq,
           ge_iff_le] at hc
         omega)

/-- On a node whose bound is one by one, the loop of `insert` takes an item
with that bound down the SE children to depth `MAXDEPTH - 1`; the nodes on the
way all have the same bound. -/
theorem unit_chain (item : Handle) (b : Bound) (hs : b.small = true)
    (h1 : b.bottomRight.x = b.topLeft.x + 1) (h2 : b.bottomRight.y = b.topLeft.y + 1) :
    ∀ (k : Nat) (n : QuadTreeNode) (fuel : Nat), n.isNode = true → n.bound = b →
      QuadTreeNode.DepthInv (5 - (k : Int)) n → n.ShapeInv → k + 1 ≤ fuel →
      ∃ n2, QuadTreeNode.insertLoop item b fuel n = some n2 ∧
        (n2.nodeAt (List.replicate k 3)).items
          = (n.nodeAt (List.replicate k 3)).items ++ [item] ∧
        ∀ j, j ≤ k → (n2.nodeAt (List.replicate j 3)).isNode = true ∧
          (n2.nodeAt (List.replicate j 3)).bound = b ∧
          (n2.nodeAt (List.replicate j 3)).depth = 5 - (k : Int) + j := by
  obtain ⟨hq, hse, hno⟩ := unit_quadrants b hs h1 h2
  intro k
  induction k with
  | zero =>
    intro n fuel hn hb hd hsh hf
    obtain ⟨f, rfl⟩ : ∃ f, fuel = f + 1 := ⟨fuel - 1, by omega⟩
    have hm := shape_members hn hsh hd
    have hdep : n.depth = 5 := by
      cases n with
      | nullptr => simp [QuadTreeNode.isNode] at hn
      | node l dn bd its c0 c1 c2 c3 cb =>
        simp only [QuadTreeNode.DepthInv] at hd
        simp only [QuadTreeNode.depth]
        rw [hd.1]
        rfl
    have hl : n.leafNode = true := hm.1.2 (Or.inr (by rw [hdep]; rfl))
    refine ⟨_, insertLoop_here item b f n hn (Or.inl hl), ?_, ?_⟩
    · simp only [List.replicate, QuadTreeNode.nodeAt]
      exact items_setItems hn _
    · intro j hj
      have : j = 0 := by omega
      subst this
      simp only [List.replicate, QuadTreeNode.nodeAt]
      refine ⟨?_, ?_, ?_⟩
      · cases n <;> first | rfl | simp [QuadTreeNode.isNode] at hn
      · cases n <;> exact hb
      · cases n with
        | nullptr => simp [QuadTreeNode.isNode] at hn
        | node => simpa [QuadTreeNode.setItems, QuadTreeNode.depth] using hdep
  | succ k ih =>
    intro n fuel hn hb hd hsh hf
    obtain ⟨f, rfl⟩ : ∃ f, fuel = f + 1 := ⟨fuel - 1, by omega⟩
    have hm := shape_members hn hsh hd
    have hdep : n.depth = 5 - ((k + 1 : Nat) : Int) ∧ 0 ≤ 5 - ((k + 1 : Nat) : Int) := by
      cases n with
      | nullptr => simp [QuadTreeNode.isNode] at hn
      | node l dn bd its c0 c1 c2 c3 cb =>
        simp only [QuadTreeNode.DepthInv] at hd
        simp only [QuadTreeNode.depth]
        exact ⟨hd.1, hd.2.1⟩
    have hl : n.leafNode = false := by
      cases hl : n.leafNode
      · rfl
      · rcases hm.1.1 hl with h | h
        · rw [hb, hq] at h
          cases h
        · rw [hdep.1] at h
          simp only [MAXDEPTH] at h
          push_cast at h
          omega
    have hcb := hm.2.1 hl
    rw [hb] at hcb
    have hfn : QuadTreeNode.findNext n b idx4 = some 3 :=
      findNext_first (hm.2.2.2 hl) 3 (by rw [hcb, hse]; exact contains_self b)
        (fun j hj => by rw [hcb]; exact hno j hj)
    obtain ⟨g1, g2, g3, g4, g5, -⟩ := next_props hn hd hsh hfn
    have hd3 : (5 : Int) - ((k + 1 : Nat) : Int) + 1 = 5 - (k : Int) := by
      push_cast
      omega
    rw [hd3] at g2
    obtain ⟨n3, k1, k2, k3⟩ := ih _ f g1 (g4.trans (by rw [hcb, hse])) g2 g3 (by omega)
    refine ⟨n.setChild 3 n3, ?_, ?_, ?_⟩
    · rw [insertLoop_rec item b f n 3 hl hfn, k1]
      rfl
    · simp only [List.replicate, QuadTreeNode.nodeAt, child_setChild_self hn]
      rw [k2, g5]
    · intro j hj
      cases j with
      | zero =>
        simp only [List.replicate, QuadTreeNode.nodeAt]
        refine ⟨by rw [isNode_setChild]; exact hn, by rw [bound_setChild]; exact hb, ?_⟩
        rw [(members_setChild n 3 n3).1, hdep.1]
        simp
      | succ j =>
        simp only [List.replicate, QuadTreeNode.nodeAt, child_setChild_self hn]
        obtain ⟨a1, a2, a3⟩ := k3 j (by omega)
        refine ⟨a1, a2, ?_⟩
        rw [a3]
        push_cast
        omega

/-- C37, the failing input: the bound `((-2147483648,0),(2147483647,1))` is
quad-divisible and 4294967295 wide, not one by one; its width is not a value of
`int32_t`, the half-width is computed as 0, and the SE quadrant returned is the
bound itself. -/
theorem wide_bound_is_own_quadrant :
    (mkBound (-2147483648) 0 2147483647 1).quadDivisible = true ∧
      inInt32 (-2147483648) = true ∧ inInt32 2147483647 = true ∧
      (mkBound (-2147483648) 0 2147483647 1).bottomRight.x
        - (mkBound (-2147483648) 0 2147483647 1).topLeft.x = 4294967295 ∧
      (mkBound (-2147483648) 0 2147483647 1).getQuadDivision.get 3
        = mkBound (-2147483648) 0 2147483647 1 := by
  decide

/-- C37, amended: for every quad-divisible bound `b` whose coordinates, width
and height are values of `int32_t`, a quadrant of `getQuadDivision` equals `b`
exactly when `b` is one by one, and then it is the SE quadrant; and in every
tree reached through the public interface from a one by one outer bound, the
insert of an item whose bound is the outer bound returns with the nodes at
the paths SE, SE SE, ... down to depth `MAXDEPTH - 1 = 5` in place, all with
the outer bound, and the handle appended to the item list of the last one,
which is a leaf. -/
theorem degenerate_subdivision (b outer : Bound) (ops : List Op) (s : Shape)
    (hq : b.quadDivisible = true) (hs : b.small = true) (hos : outer.small = true)
    (h1 : outer.bottomRight.x = outer.topLeft.x + 1)
    (h2 : outer.bottomRight.y = outer.topLeft.y + 1) (hsb : s.toBound = outer) :
    (∀ i, b.getQuadDivision.get i = b ↔
      (i = 3 ∧ b.bottomRight.x = b.topLeft.x + 1 ∧ b.bottomRight.y = b.topLeft.y + 1)) ∧
      outer.getQuadDivision.get 3 = outer ∧
      ∃ t t2, QuadTree.run outer ops = some t ∧ t.insert s = some t2 ∧
        (t2.rootNode.nodeAt (List.replicate 5 3)).items
          = (t.rootNode.nodeAt (List.replicate 5 3)).items ++ [t.items.next] ∧
        (t2.rootNode.nodeAt (List.replicate 5 3)).leafNode = true ∧
        ∀ j, j ≤ 5 → (t2.rootNode.nodeAt (List.replicate j 3)).isNode = true ∧
          (t2.rootNode.nodeAt (List.replicate j 3)).bound = outer ∧
          (t2.rootNode.nodeAt (List.replicate j 3)).depth = j := by
  refine ⟨quadrant_eq_self_iff b hq hs, (unit_quadrants outer hos h1 h2).2.1, ?_⟩
  obtain ⟨t, g1, g2, g3⟩ := run_inv2 outer ops
  obtain ⟨r, a1, a2, -⟩ := insert_inv t s g2
  have a3 := insert_inv2 outer t _ s g2 g3 a1
  obtain ⟨n2, k1, k2, k3⟩ := unit_chain t.items.next outer hos h1 h2 5 t.rootNode
    (t.rootNode.height + MAXDEPTH.toNat) g2.root g3.bound (by simpa using g2.depth) g3.shape
    (by simp [MAXDEPTH])
  have hr : r = n2 := by
    have := (insert_eq t s g2).1
    rw [a1, hsb, k1] at this
    simp only [Option.map, Option.some.injEq, QuadTree.mk.injEq, true_and] at this
    exact this
  subst hr
  refine ⟨t, _, g1, a1, k2, ?_, ?_⟩
  · obtain ⟨b1, b2, b3⟩ := k3 5 (le_refl _)
    have hm := reachable_node a2 a3 (List.replicate 5 3) b1
    exact hm.1.2 (Or.inr (by
      show (r.nodeAt (List.replicate 5 3)).depth + 1 = MAXDEPTH
      rw [b3]
      rfl))
  · intro j hj
    obtain ⟨b1, b2, b3⟩ := k3 j hj
    refine ⟨b1, b2, ?_⟩
    show (r.nodeAt (List.replicate j 3)).depth = j
    rw [b3]
    simp

/-- An instance of C37, amended: the quadrants of `((0,0),(1,1))`, and the
insert of `((0,0),(1,1))` into the tree constructed on `((0,0),(1,1))`, which
gives six nodes, all with this bound. -/
theorem degenerate_subdivision_witness :
    (mkBound 0 0 1 1).getQuadDivision
        = ⟨mkBound 0 0 0 0, mkBound 0 0 1 0, mkBound 0 0 0 1, mkBound 0 0 1 1⟩ ∧
      ((QuadTree.run (mkBound 0 0 1 1) [Op.insert (mkShape 0 0 1 1)]).bind
          (fun t => t.getBounds))
        = some (List.replicate 6 (mkBound 0 0 1 1)) ∧
      (QuadTree.run (mkBound 0 0 1 1) [Op.insert (mkShape 0 0 1 1)]).map
          (fun t => (t.rootNode.nodeAt (List.replicate 5 3)).items) = some [0] ∧
      ((∀ i, (mkBound 0 0 2 2).getQuadDivision.get i = mkBound 0 0 2 2 ↔
        (i = 3 ∧ (mkBound 0 0 2 2).bottomRight.x = (mkBound 0 0 2 2).topLeft.x + 1 ∧
          (mkBound 0 0 2 2).bottomRight.y = (mkBound 0 0 2 2).topLeft.y + 1)) ∧
        (mkBound 0 0 1 1).getQuadDivision.get 3 = mkBound 0 0 1 1 ∧
        ∃ t t2, QuadTree.run (mkBound 0 0 1 1) [] = some t ∧
          t.insert (mkShape 0 0 1 1) = some t2 ∧
          (t2.rootNode.nodeAt (List.replicate 5 3)).items
            = (t.rootNode.nodeAt (List.replicate 5 3)).items ++ [t.items.next] ∧
          (t2.rootNode.nodeAt (List.replicate 5 3)).leafNode = true ∧
          ∀ j, j ≤ 5 → (t2.rootNode.nodeAt (List.replicate j 3)).isNode = true ∧
            (t2.rootNode.nodeAt (List.replicate j 3)).bound = mkBound 0 0 1 1 ∧
            (t2.rootNode.nodeAt (List.replicate j 3)).depth = j) :=
  ⟨by decide, by decide, by decide,
    degenerate_subdivision (mkBound 0 0 2 2) (mkBound 0 0 1 1) [] (mkShape 0 0 1 1)
      (by decide) (by decide) (by decide) (by decide) (by decide) rfl⟩

end qt

namespace qt

/-! ## The exact order of the result of `query` -/

theorem searchKids_cons (R : Bound) (n : QuadTreeNode) (ns : List QuadTreeNode) :
    QuadTreeNode.searchKids R (n :: ns)
      = (if R.contains n.bound then []
          else (QuadTreeNode.overlapChildren R n).map n.child)
        ++ QuadTreeNode.searchKids R ns := by
  simp [QuadTreeNode.searchKids]

theorem mem_items_handles {n : QuadTreeNode} {x : Handle} (h : x ∈ n.items) :
    x ∈ n.handles := by
  cases n with
  | nullptr => cases h
  | node => exact List.mem_append_left _ h

/-- The search loop of `query` takes the nodes at the front of its FIFO one
by one: a node whose bound the region contains goes to the drain FIFO, the
handles of any other node that pass the predicate are appended to the result
and its overlapping children are pushed. -/
theorem querySearch_level (bnd : Handle → Bound) (m : StdList Shape) (R : Bound)
    (P : Bound → Bound → Bool) :
    ∀ (q1 q2 drain : List QuadTreeNode) (found : List Handle) (f : Nat),
      (∀ n ∈ q1, n.isNode = true ∧ LiveIn bnd m n.items) →
      QuadTreeNode.querySearch m R P (q1.length + f) (q1 ++ q2) drain found
        = QuadTreeNode.querySearch m R P f (q2 ++ QuadTreeNode.searchKids R q1)
            (drain ++ q1.filter (fun n => R.contains n.bound))
            (found ++ (q1.filter (fun n => !R.contains n.bound)).flatMap
              (fun n => n.items.filter (fun h => P R (bnd h))))
  | [], q2, drain, found, f, _ => by simp [QuadTreeNode.searchKids]
  | n :: q1, q2, drain, found, f, h => by
    obtain ⟨hn, hlive⟩ := h n (List.mem_cons_self _ _)
    have hrest : ∀ x ∈ q1, x.isNode = true ∧ LiveIn bnd m x.items :=
      fun x hx => h x (List.mem_cons_of_mem _ hx)
    have e : (n :: q1).length + f = (q1.length + f) + 1 := by
      simp only [List.length_cons]; omega
    rw [e, List.cons_append, QuadTreeNode.querySearch, searchKids_cons]
    simp only [hn, Bool.not_true, Bool.false_eq_true, if_false]
    by_cases hc : R.contains n.bound = true
    · simp only [hc, if_true]
      rw [querySearch_level bnd m R P q1 q2 _ found f hrest]
      simp [List.filter_cons, hc]
    · simp only [hc, Bool.false_eq_true, if_false]
      rw [queryItems_eq bnd m R P n.items found hlive]
      simp only []
      rw [List.append_assoc q1 q2, querySearch_level bnd m R P q1 _ drain _ f hrest]
      simp [List.filter_cons, hc, List.append_assoc]

theorem searchOrder_props (bnd : Handle → Bound) (m : StdList Shape) (R : Bound) {h : Nat}
    {ns : List QuadTreeNode}
    (hns : ∀ n ∈ ns, n.isNode = true ∧ n.height ≤ h + 1 ∧ LiveIn bnd m n.handles)
    {c : QuadTreeNode} (hc : c ∈ QuadTreeNode.searchKids R ns) :
    c.isNode = true ∧ c.height ≤ h ∧ LiveIn bnd m c.handles := by
  simp only [QuadTreeNode.searchKids, List.mem_flatMap] at hc
  obtain ⟨p, hp, hcp⟩ := hc
  split_ifs at hcp
  · cases hcp
  · obtain ⟨i, hi, rfl⟩ := List.mem_map.1 hcp
    obtain ⟨a1, a2, a3⟩ := hns p hp
    refine ⟨isNode_of_mem_overlapChildren hi, ?_, ?_⟩
    · have := height_child_lt a1 i
      omega
    · exact liveIn_mono a3 (fun x hx => mem_handles_of_child p i hx)

/-- With enough fuel the search loop of `query` returns: the drain FIFO gets
the nodes of the search order whose bound the region contains, and the result
the handles that pass the predicate in the other nodes of the search order. -/
theorem querySearch_bfs (bnd : Handle → Bound) (m : StdList Shape) (R : Bound)
    (P : Bound → Bound → Bool) :
    ∀ (h : Nat) (ns drain : List QuadTreeNode) (found : List Handle) (fuel : Nat),
      (∀ n ∈ ns, n.isNode = true ∧ n.height ≤ h ∧ LiveIn bnd m n.handles) →
      (QuadTreeNode.searchOrder R h ns).length ≤ fuel →
      QuadTreeNode.querySearch m R P fuel ns drain found
        = some (found ++ ((QuadTreeNode.searchOrder R h ns).filter
              (fun n => !R.contains n.bound)).flatMap
              (fun n => n.items.filter (fun x => P R (bnd x))),
            drain ++ (QuadTreeNode.searchOrder R h ns).filter (fun n => R.contains n.bound))
  | 0, ns, drain, found, fuel, hns, _ => by
    cases ns with
    | nil => simp [QuadTreeNode.querySearch, QuadTreeNode.searchOrder]
    | cons n ns =>
      have := hns n (List.mem_cons_self _ _)
      have hp := height_pos_of_isNode this.1
      omega
  | h + 1, ns, drain, found, fuel, hns, hfuel => by
    simp only [QuadTreeNode.searchOrder, List.length_append] at hfuel
    obtain ⟨f, rfl⟩ : ∃ f, fuel = ns.length + f := ⟨fuel - ns.length, by omega⟩
    have := querySearch_level bnd m R P ns [] drain found f
      (fun n hn => ⟨(hns n hn).1, liveIn_mono (hns n hn).2.2 (fun x hx => mem_items_handles hx)⟩)
    rw [List.append_nil, List.nil_append] at this
    rw [this, querySearch_bfs bnd m R P h _ _ _ f
      (fun c hc => searchOrder_props bnd m R hns hc) (by omega)]
    simp [QuadTreeNode.searchOrder, List.append_assoc]

/-- The drain loop of `query` takes the nodes at the front of its FIFO one by
one, puts the item list of each in front of the result and pushes its existing
children. -/
theorem queryDrain_level : ∀ (q1 q2 : List QuadTreeNode) (found : List Handle) (f : Nat),
    (∀ n ∈ q1, n.isNode = true) →
    QuadTreeNode.queryDrain (q1.length + f) (q1 ++ q2) found
      = QuadTreeNode.queryDrain f (q2 ++ QuadTreeNode.kids q1)
          (q1.reverse.flatMap QuadTreeNode.items ++ found)
  | [], q2, found, f, _ => by simp [QuadTreeNode.kids]
  | n :: q1, q2, found, f, h => by
    have hn := h n (List.mem_cons_self _ _)
    have e : (n :: q1).length + f = (q1.length + f) + 1 := by
      simp only [List.length_cons]; omega
    rw [e, List.cons_append, QuadTreeNode.queryDrain]
    simp only [hn, Bool.not_true, Bool.false_eq_true, if_false]
    rw [List.append_assoc,
      queryDrain_level q1 _ _ f (fun x hx => h x (List.mem_cons_of_mem _ hx)), kids_cons]
    simp [List.append_assoc]

theorem queryDrain_bfs : ∀ (h : Nat) (ns : List QuadTreeNode) (found : List Handle)
    (fuel : Nat), (∀ n ∈ ns, n.isNode = true ∧ n.height ≤ h) →
    (QuadTreeNode.bfsNodes h ns).length ≤ fuel →
    QuadTreeNode.queryDrain fuel ns found
      = some ((QuadTreeNode.bfsNodes h ns).reverse.flatMap QuadTreeNode.items ++ found)
  | 0, ns, found, fuel, hns, _ => by
    cases ns with
    | nil => simp [QuadTreeNode.queryDrain, QuadTreeNode.bfsNodes]
    | cons n ns =>
      have := hns n (List.mem_cons_self _ _)
      have hp := height_pos_of_isNode this.1
      omega
  | h + 1, ns, found, fuel, hns, hfuel => by
    simp only [QuadTreeNode.bfsNodes, List.length_append] at hfuel
    obtain ⟨f, rfl⟩ : ∃ f, fuel = ns.length + f := ⟨fuel - ns.length, by omega⟩
    have := queryDrain_level ns [] found f (fun n hn => (hns n hn).1)
    rw [List.append_nil, List.nil_append] at this
    rw [this, queryDrain_bfs h _ _ f (fun c hc => height_of_mem_kids hns hc) (by omega)]
    simp [QuadTreeNode.bfsNodes, List.append_assoc]

end qt

namespace qt

theorem mem_searchOrder (bnd : Handle → Bound) (m : StdList Shape) (R : Bound) :
    ∀ (h : Nat) (ns : List QuadTreeNode),
      (∀ n ∈ ns, n.isNode = true ∧ n.height ≤ h ∧ LiveIn bnd m n.handles) →
      ∀ c ∈ QuadTreeNode.searchOrder R h ns,
        c.isNode = true ∧ c.height ≤ h ∧ LiveIn bnd m c.handles
  | 0, _, _, c, hc => by simp [QuadTreeNode.searchOrder] at hc
  | h + 1, ns, hns, c, hc => by
    simp only [QuadTreeNode.searchOrder, List.mem_append] at hc
    rcases hc with hc | hc
    · exact hns c hc
    · obtain ⟨a1, a2, a3⟩ := mem_searchOrder bnd m R h _
        (fun x hx => searchOrder_props bnd m R hns hx) c hc
      exact ⟨a1, by omega, a3⟩

theorem sizes_searchKids (R : Bound) (ns : List QuadTreeNode)
    (hns : ∀ n ∈ ns, n.isNode = true) :
    ns.length + ((QuadTreeNode.searchKids R ns).map QuadTreeNode.size).sum
      ≤ (ns.map QuadTreeNode.size).sum := by
  induction ns with
  | nil => simp [QuadTreeNode.searchKids]
  | cons n ns ih =>
    have h1 := ih (fun x hx => hns x (List.mem_cons_of_mem _ hx))
    have hn := hns n (List.mem_cons_self _ _)
    rw [searchKids_cons]
    simp only [List.map_cons, List.sum_cons, List.length_cons, List.map_append, List.sum_append]
    cases n with
    | nullptr => simp [QuadTreeNode.isNode] at hn
    | node l d b its c0 c1 c2 c3 cb =>
      have h2 := size_overlapChildren R l d b its c0 c1 c2 c3 cb
      have h3 := size_pos_of_isNode (n := .node l d b its c0 c1 c2 c3 cb) rfl
      split_ifs
      · simp only [List.map_nil, List.sum_nil]
        omega
      · omega

theorem length_searchOrder_le (bnd : Handle → Bound) (m : StdList Shape) (R : Bound) :
    ∀ (h : Nat) (ns : List QuadTreeNode),
      (∀ n ∈ ns, n.isNode = true ∧ n.height ≤ h ∧ LiveIn bnd m n.handles) →
      (QuadTreeNode.searchOrder R h ns).length ≤ (ns.map QuadTreeNode.size).sum
  | 0, _, _ => by simp [QuadTreeNode.searchOrder]
  | h + 1, ns, hns => by
    have h1 := length_searchOrder_le bnd m R h _
      (fun x hx => searchOrder_props bnd m R hns hx)
    have h2 := sizes_searchKids R ns (fun n hn => (hns n hn).1)
    simp only [QuadTreeNode.searchOrder, List.length_append]
    omega

/-- The result of `query`, started with an empty `foundItems`, on a tree whose
handles are live: the item lists of the drained nodes, last drained first,
then the handles that passed the predicate, in the order of the search. -/
theorem query_order (bnd : Handle → Bound) (m : StdList Shape) (R : Bound)
    (P : Bound → Bound → Bool) (root : QuadTreeNode) (hn : root.isNode = true)
    (hlive : LiveIn bnd m root.handles) :
    root.query m R [] P = some (root.queryOrder R (fun h => P R (bnd h))) := by
  have hns : ∀ n ∈ [root], n.isNode = true ∧ n.height ≤ root.height ∧
      LiveIn bnd m n.handles := by
    intro n hx
    rw [List.mem_singleton.1 hx]
    exact ⟨hn, le_refl _, hlive⟩
  have hlen := length_searchOrder_le bnd m R root.height [root] hns
  simp only [List.map_cons, List.map_nil, List.sum_cons, List.sum_nil, Nat.add_zero] at hlen
  have hs := querySearch_bfs bnd m R P root.height [root] [] [] root.size hns hlen
  obtain ⟨f1, d, h1, h2, h3, -⟩ := querySearch_spec bnd m R P root.size [root] [] []
    (by intro n hx; rw [List.mem_singleton.1 hx]; exact hn) (by simp) (by simp)
    (by simpa using hlive)
  rw [hs] at h1
  simp only [List.nil_append, Option.some.injEq, Prod.mk.injEq] at h1
  obtain ⟨-, hd⟩ := h1
  have hdn : ∀ n ∈ (QuadTreeNode.searchOrder R root.height [root]).filter
      (fun n => R.contains n.bound), n.isNode = true ∧ n.height ≤ root.height := by
    intro n hx
    have := mem_searchOrder bnd m R root.height [root] hns n (List.mem_filter.1 hx).1
    exact ⟨this.1, this.2.1⟩
  have hdl : (QuadTreeNode.bfsNodes root.height
      ((QuadTreeNode.searchOrder R root.height [root]).filter
        (fun n => R.contains n.bound))).length ≤ root.size := by
    rw [length_bfsNodes _ _ hdn, hd]
    simpa using h3
  have hdr := queryDrain_bfs root.height _
    (((QuadTreeNode.searchOrder R root.height [root]).filter
        (fun n => !R.contains n.bound)).flatMap
        (fun n => n.items.filter (fun x => P R (bnd x)))) root.size hdn hdl
  simp only [QuadTreeNode.query, hs, List.nil_append, hdr]
  rfl

/-- C32: in every tree reached through the public interface, for every
region `R`, `queryOverlap(R)` and `queryContain(R)` return the sequence
`queryOrder`: the item lists of the drained nodes, each in stored order, the
list of the node drained last first (the drain order is the breadth-first
order from the nodes whose bound `R` contains, as the search met them), and
after them the handles that passed the predicate in the nodes the search
looked into, in the breadth-first order of the search and in stored order
within a node. -/
theorem query_result_order (outer : Bound) (ops : List Op) (R : Bound) :
    ∃ t, QuadTree.run outer ops = some t ∧
      t.queryOverlap R
        = some (t.rootNode.queryOrder R (fun h => R.overlaps (t.items.boundOf h))) ∧
      t.queryContain R
        = some (t.rootNode.queryOrder R (fun h => R.contains (t.items.boundOf h))) ∧
      (∀ test, t.rootNode.queryOrder R test
        = (QuadTreeNode.bfsNodes t.rootNode.height
              ((QuadTreeNode.searchOrder R t.rootNode.height [t.rootNode]).filter
                (fun n => R.contains n.bound))).reverse.flatMap QuadTreeNode.items ++
            ((QuadTreeNode.searchOrder R t.rootNode.height [t.rootNode]).filter
              (fun n => !R.contains n.bound)).flatMap (fun n => n.items.filter test)) := by
  obtain ⟨t, h1, h2⟩ := run_inv outer ops
  exact ⟨t, h1, query_order t.items.boundOf t.items R QuadTree.overlapFn t.rootNode h2.root
    h2.sync.live, query_order t.items.boundOf t.items R QuadTree.containFn t.rootNode h2.root
    h2.sync.live, fun _ => rfl⟩

/-- An instance of C32: after `A`, `B`, `C`, `((20,20),(30,30))` and a second
`((0,0),(10,10))` (handles 0 to 4), `queryOverlap(((0,0),(60,60)))` finds `C`
in the root, then drains the NW child: handle 3 of the NW child itself is put
in front of 2, and the handles 0 and 4 of the node at depth 3 in front of 3. -/
theorem query_result_order_witness :
    ((QuadTree.run outer100 (insertABC ++ [Op.insert (mkShape 20 20 30 30),
          Op.insert (mkShape 0 0 10 10)])).bind
        (fun t => t.queryOverlap (mkBound 0 0 60 60))) = some [0, 4, 3, 2] ∧
      (QuadTree.run outer100 (insertABC ++ [Op.insert (mkShape 20 20 30 30),
          Op.insert (mkShape 0 0 10 10)])).map
        (fun t => ((QuadTreeNode.drainOrder (mkBound 0 0 60 60) t.rootNode).map
          QuadTreeNode.items, t.rootNode.items))
        = some ([[3], [], [0, 4]], [2]) ∧
      ∃ t, QuadTree.run outer100 (insertABC ++ [Op.insert (mkShape 20 20 30 30),
          Op.insert (mkShape 0 0 10 10)]) = some t ∧
        t.queryOverlap (mkBound 0 0 60 60)
          = some (t.rootNode.queryOrder (mkBound 0 0 60 60)
              (fun h => (mkBound 0 0 60 60).overlaps (t.items.boundOf h))) ∧
        t.queryContain (mkBound 0 0 60 60)
          = some (t.rootNode.queryOrder (mkBound 0 0 60 60)
              (fun h => (mkBound 0 0 60 60).contains (t.items.boundOf h))) := by
  refine ⟨by decide, by decide, ?_⟩
  obtain ⟨t, h1, h2, h3, -⟩ := query_result_order outer100
    (insertABC ++ [Op.insert (mkShape 20 20 30 30), Op.insert (mkShape 0 0 10 10)])
    (mkBound 0 0 60 60)
  exact ⟨t, h1, h2, h3⟩

end qt

namespace qt

/-! ## Nodes are created by inserts only -/

theorem insert_root_eq (t t2 : QuadTree) (s : Shape) (h : t.Inv) (hins : t.insert s = some t2) :
    QuadTreeNode.insertLoop t.items.next s.toBound (t.rootNode.height + MAXDEPTH.toNat)
      t.rootNode = some t2.rootNode := by
  have := (insert_eq t s h).1
  rw [hins] at this
  cases hq : QuadTreeNode.insertLoop t.items.next s.toBound
      (t.rootNode.height + MAXDEPTH.toNat) t.rootNode with
  | none => rw [hq] at this; simp at this
  | some r2 =>
    rw [hq] at this
    simp only [Option.map, Option.some.injEq] at this
    rw [this]

/-- A node that is there after the loop of `insert` and was not there before
has a bound that contains the item, and the handle is stored in it or below it. -/
theorem insertLoop_created (item : Handle) (b : Bound) :
    ∀ (fuel : Nat) (n n2 : QuadTreeNode), QuadTreeNode.insertLoop item b fuel n = some n2 →
      ∀ q, (n2.nodeAt q).isNode = true → (n.nodeAt q).isNode = false →
        (n2.nodeAt q).bound.contains b = true ∧ item ∈ (n2.nodeAt q).handles := by
  intro fuel
  induction fuel with
  | zero =>
    intro n n2 h
    cases n <;> simp [QuadTreeNode.insertLoop] at h
  | succ fuel ih =>
    intro n n2 h q hq2 hq
    cases n with
    | nullptr => simp [QuadTreeNode.insertLoop] at h
    | node l d bd its c0 c1 c2 c3 cb =>
      rcases insertLoop_step item b fuel l d bd its c0 c1 c2 c3 cb with
        ⟨h1, -⟩ | ⟨i, hl, hfn, h1⟩
      · rw [h1] at h
        cases h
        exfalso
        cases q with
        | nil => simp [QuadTreeNode.nodeAt, QuadTreeNode.isNode] at hq
        | cons j q =>
          have e : (QuadTreeNode.node l d bd (its ++ [item]) c0 c1 c2 c3 cb).nodeAt (j :: q)
              = (QuadTreeNode.node l d bd its c0 c1 c2 c3 cb).nodeAt (j :: q) := by
            fin_cases j <;> rfl
          rw [e, hq] at hq2
          cases hq2
      · rw [h1] at h
        cases hrec : QuadTreeNode.insertLoop item b fuel
            (if ((QuadTreeNode.node l d bd its c0 c1 c2 c3 cb).child i).isNode = true
              then (QuadTreeNode.node l d bd its c0 c1 c2 c3 cb).child i
              else QuadTreeNode.new (cb.get i) (wrap32 (d + 1))) with
        | none => rw [hrec] at h; simp at h
        | some n3 =>
          rw [hrec] at h
          simp only [Option.map, Option.some.injEq] at h
          subst h
          cases q with
          | nil => simp [QuadTreeNode.nodeAt, QuadTreeNode.isNode] at hq
          | cons j q =>
            by_cases hj : j = i
            · subst hj
              simp only [QuadTreeNode.nodeAt, child_setChild_same] at hq2 hq ⊢
              by_cases hex :
                  ((QuadTreeNode.node l d bd its c0 c1 c2 c3 cb).child j).isNode = true
              · rw [if_pos hex] at hrec
                exact ih _ _ hrec q hq2 hq
              · rw [if_neg hex] at hrec
                cases q with
                | nil =>
                  obtain ⟨q0, f1, f2, -, f4⟩ := insertLoop_frame item b fuel _ _ hrec
                  have hb := (f4 [] rfl).2.1
                  simp only [QuadTreeNode.nodeAt] at hb ⊢
                  refine ⟨?_, ?_⟩
                  · rw [hb]
                    exact (findNext_some hfn).1
                  · exact mem_handles_of_mem_items_nodeAt f1 (by rw [f2]; simp)
                | cons k q =>
                  exact ih _ _ hrec (k :: q) hq2 (by rw [nodeAt_new_cons]; rfl)
            · simp only [QuadTreeNode.nodeAt, child_setChild_ne _ _ hj] at hq2 hq
              rw [hq] at hq2
              cases hq2

/-- A call keeps the nodes that are there, and their bounds. -/
theorem step_keeps_node (t t2 : QuadTree) (op : Op) (h : t.Inv) (hs : t.step op = some t2)
    (q : Path) (hq : (t.rootNode.nodeAt q).isNode = true) :
    (t2.rootNode.nodeAt q).isNode = true ∧
      (t2.rootNode.nodeAt q).bound = (t.rootNode.nodeAt q).bound := by
  cases op with
  | insert s =>
    obtain ⟨q0, -, -, -, k4⟩ := insertLoop_frame _ _ _ _ _ (insert_root_eq t t2 s h hs)
    exact ⟨(k4 q hq).1, (k4 q hq).2.1⟩
  | removeOverlap R =>
    obtain ⟨m2, k1, -⟩ := remove_inv t R QuadTree.overlapFn h
    simp only [QuadTree.step, QuadTree.removeOverlap, k1, Option.map, Option.some.injEq] at hs
    subst hs
    have := members_nodeAt_of_clearRec_eq (clearRec_removeRec R
      (fun x => QuadTree.overlapFn R (t.items.boundOf x)) t.rootNode) q
    exact ⟨by rw [this.1]; exact hq, this.2.1⟩
  | removeContain R =>
    obtain ⟨m2, k1, -⟩ := remove_inv t R QuadTree.containFn h
    simp only [QuadTree.step, QuadTree.removeContain, k1, Option.map, Option.some.injEq] at hs
    subst hs
    have := members_nodeAt_of_clearRec_eq (clearRec_removeRec R
      (fun x => QuadTree.containFn R (t.items.boundOf x)) t.rootNode) q
    exact ⟨by rw [this.1]; exact hq, this.2.1⟩

theorem steps_keep_node : ∀ (ops : List Op) (t t2 : QuadTree), t.Inv →
    t.steps ops = some t2 → ∀ q, (t.rootNode.nodeAt q).isNode = true →
      (t2.rootNode.nodeAt q).isNode = true ∧
        (t2.rootNode.nodeAt q).bound = (t.rootNode.nodeAt q).bound
  | [], t, t2, _, hs, q, hq => by
    simp only [QuadTree.steps, Option.some.injEq] at hs
    subst hs
    exact ⟨hq, rfl⟩
  | op :: ops, t, t2, h, hs, q, hq => by
    obtain ⟨t1, g1, g2⟩ := step_inv t op h
    simp only [QuadTree.steps, g1] at hs
    obtain ⟨a1, a2⟩ := step_keeps_node t t1 op h g1 q hq
    obtain ⟨b1, b2⟩ := steps_keep_node ops t1 t2 g2 hs q a1
    exact ⟨b1, b2.trans a2⟩

/-- Every node of the tree after a sequence of calls was there at the start
or was created by one of the inserts, for an item that its bound contains and
whose handle that insert stored in it or below it. -/
theorem created_by_insert : ∀ (ops : List Op) (t0 t : QuadTree), t0.Inv →
    t0.steps ops = some t → ∀ q, (t.rootNode.nodeAt q).isNode = true →
      (t0.rootNode.nodeAt q).isNode = true ∨
      ∃ ops1 s ops2 t1 t2, ops = ops1 ++ Op.insert s :: ops2 ∧ t0.steps ops1 = some t1 ∧
        (t1.rootNode.nodeAt q).isNode = false ∧ t1.insert s = some t2 ∧
        (t2.rootNode.nodeAt q).isNode = true ∧
        t1.items.next ∈ (t2.rootNode.nodeAt q).handles ∧
        (t.rootNode.nodeAt q).bound.contains s.toBound = true
  | [], t0, t, _, hs, q, hq => by
    simp only [QuadTree.steps, Option.some.injEq] at hs
    subst hs
    exact Or.inl hq
  | op :: ops, t0, t, h, hs, q, hq => by
    obtain ⟨t1, g1, g2⟩ := step_inv t0 op h
    simp only [QuadTree.steps, g1] at hs
    rcases created_by_insert ops t1 t g2 hs q hq with hl | ⟨ops1, s, ops2, u1, u2, e, a1, a2, a3, a4, a5, a6⟩
    · by_cases h0 : (t0.rootNode.nodeAt q).isNode = true
      · exact Or.inl h0
      · right
        have h0f : (t0.rootNode.nodeAt q).isNode = false := by simpa using h0
        cases op with
        | insert s =>
          obtain ⟨c1, c2⟩ := insertLoop_created _ _ _ _ _ (insert_root_eq t0 t1 s h g1) q hl h0f
          refine ⟨[], s, ops, t0, t1, rfl, rfl, h0f, g1, hl, c2, ?_⟩
          rw [(steps_keep_node ops t1 t g2 hs q hl).2]
          exact c1
        | removeOverlap R =>
          exfalso
          obtain ⟨m2, k1, -⟩ := remove_inv t0 R QuadTree.overlapFn h
          simp only [QuadTree.step, QuadTree.removeOverlap, k1, Option.map,
            Option.some.injEq] at g1
          subst g1
          have := (members_nodeAt_of_clearRec_eq (clearRec_removeRec R
            (fun x => QuadTree.overlapFn R (t0.items.boundOf x)) t0.rootNode) q).1
          rw [h0f] at this
          rw [this] at hl
          cases hl
        | removeContain R =>
          exfalso
          obtain ⟨m2, k1, -⟩ := remove_inv t0 R QuadTree.containFn h
          simp only [QuadTree.step, QuadTree.removeContain, k1, Option.map,
            Option.some.injEq] at g1
          subst g1
          have := (members_nodeAt_of_clearRec_eq (clearRec_removeRec R
            (fun x => QuadTree.containFn R (t0.items.boundOf x)) t0.rootNode) q).1
          rw [h0f] at this
          rw [this] at hl
          cases hl
    · right
      refine ⟨op :: ops1, s, ops2, u1, u2, by rw [e]; rfl, ?_, a2, a3, a4, a5, a6⟩
      simp only [QuadTree.steps, g1]
      exact a1

theorem query_new (outer R : Bound) (P : Bound → Bound → Bool) :
    (QuadTree.new outer).rootNode.query (QuadTree.new outer).items R [] P = some [] := by
  obtain ⟨f, h1, h2⟩ := query_spec (QuadTree.new outer).items.boundOf (QuadTree.new outer).items
    R P (QuadTree.new outer).rootNode [] rfl (inv_new outer).1.sync.live
  have e : (QuadTree.new outer).rootNode.selected R
      (fun h => P R ((QuadTree.new outer).items.boundOf h)) = [] := by
    simp only [QuadTree.new, QuadTreeNode.new, QuadTreeNode.selected, QuadTreeNode.handles]
    split_ifs <;> simp
  rw [e] at h2
  rw [h1, List.Perm.eq_nil h2]

/-- C33: a freshly constructed tree consists of the root only (`getBounds`
returns the outer bound alone, the four child pointers are null) and both
queries return the empty sequence for every region; in every tree reached
through the public interface, every node other than the root has the bound
recorded for it in the child bounds of its parent, and it was created by one of
the inserts of the sequence of calls (not there before that insert, there after
it), for an item that its bound contains and whose handle that insert stored in
the new node or below it. -/
theorem lazy_child_creation (outer : Bound) (ops : List Op) (R : Bound) :
    (QuadTree.new outer).getBounds = some [outer] ∧
      (∀ i, (QuadTree.new outer).rootNode.child i = QuadTreeNode.nullptr) ∧
      (QuadTree.new outer).queryOverlap R = some [] ∧
      (QuadTree.new outer).queryContain R = some [] ∧
      ∃ t, QuadTree.run outer ops = some t ∧
        ∀ p i, (t.rootNode.nodeAt (p ++ [i])).isNode = true →
          (t.rootNode.nodeAt (p ++ [i])).bound = (t.rootNode.nodeAt p).childrenBounds.get i ∧
          ∃ ops1 s ops2 t1 t2, ops = ops1 ++ Op.insert s :: ops2 ∧
            QuadTree.run outer ops1 = some t1 ∧
            (t1.rootNode.nodeAt (p ++ [i])).isNode = false ∧ t1.insert s = some t2 ∧
            (t2.rootNode.nodeAt (p ++ [i])).isNode = true ∧
            t1.items.next ∈ (t2.rootNode.nodeAt (p ++ [i])).handles ∧
            ((t.rootNode.nodeAt p).childrenBounds.get i).contains s.toBound = true := by
  refine ⟨?_, ?_, query_new outer R _, query_new outer R _, ?_⟩
  · simp [QuadTree.getBounds, QuadTree.new, QuadTreeNode.new, QuadTreeNode.getBounds,
      QuadTreeNode.getBoundsLoop, QuadTreeNode.size, QuadTreeNode.isNode,
      QuadTreeNode.existingChildren, idx4, QuadTreeNode.child, QuadTreeNode.bound]
  · intro i
    fin_cases i <;> rfl
  · obtain ⟨t, h1, h2, h3⟩ := run_inv2 outer ops
    refine ⟨t, h1, ?_⟩
    intro p i hq
    have hb : (t.rootNode.nodeAt (p ++ [i])).bound
        = (t.rootNode.nodeAt p).childrenBounds.get i := by
      rw [nodeAt_concat] at hq ⊢
      exact (shapeInv_child i (shapeInv_nodeAt p _ h3.shape)).2 hq
    refine ⟨hb, ?_⟩
    rcases created_by_insert ops (QuadTree.new outer) t (inv_new outer).1 h1 (p ++ [i]) hq with
      h0 | ⟨ops1, s, ops2, t1, t2, e, a1, a2, a3, a4, a5, a6⟩
    · exfalso
      have : (QuadTree.new outer).rootNode.nodeAt (p ++ [i]) = QuadTreeNode.nullptr := by
        cases p with
        | nil => exact nodeAt_new_cons _ _ _ _
        | cons j p => exact nodeAt_new_cons _ _ _ _
      rw [this] at h0
      cases h0
    · exact ⟨ops1, s, ops2, t1, t2, e, a1, a2, a3, a4, a5, by rw [← hb]; exact a6⟩

/-- An instance of C33: after `A`, `B`, `C` in `((0,0),(100,100))` the root has
the NW and the SE child only, with the bounds of these quadrants. -/
theorem lazy_child_creation_witness :
    (QuadTree.run outer100 insertABC).map
        (fun t => (t.rootNode.existingChildren,
          (t.rootNode.child 0).bound, (t.rootNode.child 3).bound))
      = some ([0, 3], mkBound 0 0 50 50, mkBound 50 50 100 100) ∧
      (QuadTree.new outer100).getBounds = some [outer100] ∧
      (QuadTree.new outer100).queryOverlap outer100 = some [] ∧
      (QuadTree.new outer100).queryContain outer100 = some [] := by
  obtain ⟨h1, -, h3, h4, -⟩ := lazy_child_creation outer100 insertABC outer100
  exact ⟨by decide, h1, h3, h4⟩

end qt
